import Mathlib

/-!
# ComPWA function tree: dirty propagation and recalculation

A shallow embedding of `Core/TreeNode.cpp`.

* A `std::shared_ptr<TreeNode>` is a node address (`Nat`); the store of all node
  objects is a total map `Heap` from addresses to node records, so that a node
  shared by several parents is one record and parent back-references are plain
  addresses.
* Each slot of `_parameters` holds its parameter by value: an operation delivers
  its output by replacing the content of the slot it is handed.
* `Strategy::execute` is a virtual call.  It is embedded as a function of the
  input list and of the current content of the output slot, returning the thrown
  exception (if any) together with the content of the output slot when the call
  ends; a call that throws may therefore still have written its output.
* C++ exceptions leave the store as it is when they are thrown: every operation
  returns the store next to its outcome.
* Recursion over the graph is bounded by a fuel argument; `none` means that the
  fuel ran out, i.e. nothing is known about the call.
* `State.trace` is ghost state: it records, in program order, every entry into
  `recalculate`, every normal return from it and every `execute` call with its
  inputs and outcome.  The `LOG(error)` diagnostics are not modelled.
-/

namespace ComPWA

/-- Template class `Value<T>` of `Core/Value.hpp`: a named holder of one `T`. -/
structure Value (T : Type) where
  Name : String
  Val : T
deriving DecidableEq, Repr

/-- Method `Value<T>::value()`. -/
def Value.value {T : Type} (v : Value T) : T := v.Val

/-- Method `Value<T>::setValue(inVal)`. -/
def Value.setValue {T : Type} (v : Value T) (inVal : T) : Value T := { v with Val := inVal }

/-- Modelled from the spec: `ParameterList`, the insertion-ordered collection handed to an
operation (its declaration is not part of the sources at hand). -/
abbrev ParameterList (P : Type) := List P

/-- Modelled from the spec: `ParameterList::addParameter` appends at the end of the
insertion order. -/
def ParameterList.addParameter {P : Type} (l : ParameterList P) (p : P) : ParameterList P :=
  l ++ [p]

/-- What a `recalculate()` call can throw: the `std::runtime_error` of the dimension test,
the `std::out_of_range` of `std::vector::at`, or whatever the strategy threw. -/
inductive Error (E : Type) where
  | runtime_error (what : String)
  | out_of_range
  | thrown (e : E)
deriving DecidableEq, Repr

/-- Abstract class `Strategy`: `execute(paras, out)` may throw (`some e`) and leaves a content
in the slot `out`. -/
structure Strategy (P E : Type) where
  execute : ParameterList P → P → Option E × P

/-- Data members of `TreeNode`. -/
structure TreeNode (P E : Type) where
  _name : String
  _changed : Bool
  _parameters : List P
  _strat : Strategy P E
  _children : List Nat
  _parents : List Nat

/-- The store of node objects, by address. -/
abbrev Heap (P E : Type) := Nat → TreeNode P E

/-- Ghost events recorded while `recalculate` runs. -/
inductive Event (P E : Type) where
  | enter (node : Nat)
  | leave (node : Nat)
  | execute (node : Nat) (ele : Nat) (paras : ParameterList P) (thrown : Option E)
deriving DecidableEq, Repr

/-- Program state: the node store and the ghost trace. -/
structure State (P E : Type) where
  nodes : Heap P E
  trace : List (Event P E)

variable {P E : Type}

/-- Replace the record stored at address `n`. -/
def Heap.set (h : Heap P E) (n : Nat) (t : TreeNode P E) : Heap P E :=
  fun m => if m = n then t else h m

/-- Assignment `_changed = b` executed by node `n`. -/
def Heap.setChanged (h : Heap P E) (n : Nat) (b : Bool) : Heap P E :=
  h.set n { h n with _changed := b }

/-- Assignment through the reference `_parameters.at(i)` of node `n`. -/
def Heap.setParameter (h : Heap P E) (n i : Nat) (p : P) : Heap P E :=
  h.set n { h n with _parameters := (h n)._parameters.set i p }

/-- Append one ghost event. -/
def State.log (s : State P E) (e : Event P E) : State P E :=
  { s with trace := s.trace ++ [e] }

/-- Modelled from the spec: `TreeNode::dimension()`, the number of slots (declared in the
header, which is not part of the sources at hand). -/
def TreeNode.dimension (t : TreeNode P E) : Nat := t._parameters.length

/-- Method `TreeNode::parameter(position)`: `_parameters.at(position)`. -/
def TreeNode.parameter (t : TreeNode P E) (position : Nat) : Except (Error E) P :=
  match t._parameters.get? position with
  | some p => .ok p
  | none => .error .out_of_range

/-- Method `TreeNode::parameters()`. -/
def TreeNode.parameters (t : TreeNode P E) : List P := t._parameters

/-- Loop `for (i < _parents.size()) _parents.at(i)->update()` of `TreeNode::update`, the
recursive call being `upd`. -/
def updateParents (upd : Nat → Heap P E → Option (Heap P E)) :
    List Nat → Heap P E → Option (Heap P E)
  | [], h => some h
  | p :: rest, h =>
    match upd p h with
    | none => none
    | some h1 => updateParents upd rest h1

/-- Method `TreeNode::update()` called on node `n`.  The parent list is never written by
`update`, so the list read on entry is the one the loop indexes. -/
def update : Nat → Nat → Heap P E → Option (Heap P E)
  | 0, _, _ => none
  | fuel + 1, n, h =>
    match updateParents (update fuel) (h n)._parents h with
    | none => none
    | some h1 => some (h1.setChanged n true)

/-- Result of a call that may throw: outcome and the state left behind. -/
abbrev Res (P E A : Type) := Option (Except (Error E) A × State P E)

/-- Inner loop `for (auto p : ch->parameters()) newVals.addParameter(p)`. -/
def addParameters (newVals : ParameterList P) (ps : List P) : ParameterList P :=
  ps.foldl ParameterList.addParameter newVals

/-- Children loop of the single-dimension branch of `TreeNode::recalculate`. -/
def recalcChildren (rec : Nat → State P E → Res P E Unit) :
    List Nat → ParameterList P → State P E → Res P E (ParameterList P)
  | [], newVals, s => some (.ok newVals, s)
  | ch :: rest, newVals, s =>
    match rec ch s with
    | none => none
    | some (.error e, s1) => some (.error e, s1)
    | some (.ok (), s1) =>
      recalcChildren rec rest (addParameters newVals (s1.nodes ch).parameters) s1

/-- Children loop of the multi-dimension branch of `TreeNode::recalculate`, run by node `n`
for slot index `ele`. -/
def recalcChildrenEle (rec : Nat → State P E → Res P E Unit) (n ele : Nat) :
    List Nat → ParameterList P → State P E → Res P E (ParameterList P)
  | [], newVals, s => some (.ok newVals, s)
  | ch :: rest, newVals, s =>
    match rec ch s with
    | none => none
    | some (.error e, s1) => some (.error e, s1)
    | some (.ok (), s1) =>
      if (s1.nodes ch).dimension = 1 then
        match (s1.nodes ch).parameter 0 with
        | .error e => some (.error e, s1)
        | .ok p => recalcChildrenEle rec n ele rest (newVals.addParameter p) s1
      else if (s1.nodes ch).dimension ≠ (s1.nodes n)._parameters.length then
        match (s1.nodes ch).parameter ele with
        | .error e => some (.error e, s1)
        | .ok p => recalcChildrenEle rec n ele rest (newVals.addParameter p) s1
      else
        some (.error (.runtime_error
          "TreeNode::Recalculate() | Dimension of child nodes does not match"), s1)

/-- Statement `_strat->execute(newVals, _parameters.at(ele))` of node `n`, with the
surrounding `try`/`catch` that rethrows. -/
def callStrategy (n ele : Nat) (newVals : ParameterList P) (s : State P E) :
    Except (Error E) Unit × State P E :=
  match (s.nodes n).parameter ele with
  | .error e => (.error e, s)
  | .ok out =>
    let r := (s.nodes n)._strat.execute newVals out
    let s1 : State P E :=
      { nodes := s.nodes.setParameter n ele r.2,
        trace := s.trace ++ [Event.execute n ele newVals r.1] }
    match r.1 with
    | some e => (.error (.thrown e), s1)
    | none => (.ok (), s1)

/-- Loop `for (ele = 0; ele < _parameters.size(); ele++)` of the multi-dimension branch:
`todo` iterations remain, the next one is for slot `ele`.  The number of slots of a node is
never changed by `recalculate`, so the bound is the one read on entry. -/
def recalcElements (rec : Nat → State P E → Res P E Unit) (n : Nat) (children : List Nat) :
    Nat → Nat → State P E → Res P E Unit
  | 0, _, s => some (.ok (), s)
  | todo + 1, ele, s =>
    match recalcChildrenEle rec n ele children [] s with
    | none => none
    | some (.error e, s1) => some (.error e, s1)
    | some (.ok newVals, s1) =>
      match callStrategy n ele newVals s1 with
      | (.error e, s2) => some (.error e, s2)
      | (.ok (), s2) => recalcElements rec n children todo (ele + 1) s2

/-- Both branches of `TreeNode::recalculate` for a node `n` that has children, the
recursive call being `rec`: everything between the leaf test and the final
`_changed = false`. -/
def recalcBody (rec : Nat → State P E → Res P E Unit) (n : Nat) (s0 : State P E) :
    Res P E Unit :=
  if (s0.nodes n)._parameters.length = 1 then
    match recalcChildren rec (s0.nodes n)._children [] s0 with
    | none => none
    | some (.error e, s1) => some (.error e, s1)
    | some (.ok newVals, s1) => some (callStrategy n 0 newVals s1)
  else
    recalcElements rec n (s0.nodes n)._children (s0.nodes n)._parameters.length 0 s0

/-- Last statement `_changed = false` of `TreeNode::recalculate`, reached only when the
body did not throw. -/
def recalcFinish (n : Nat) : Res P E Unit → Res P E Unit
  | none => none
  | some (.error e, s1) => some (.error e, s1)
  | some (.ok (), s1) =>
    some (.ok (), { nodes := s1.nodes.setChanged n false, trace := s1.trace ++ [.leave n] })

/-- Method `TreeNode::recalculate()` called on node `n`.  The child list is never written by
`recalculate`, so the list read on entry is the one both loops range over. -/
def recalculate : Nat → Nat → State P E → Res P E Unit
  | 0, _, _ => none
  | fuel + 1, n, s =>
    let s0 := s.log (.enter n)
    if (s0.nodes n)._children.length < 1 then
      some (.ok (), { nodes := s0.nodes.setChanged n false, trace := s0.trace ++ [.leave n] })
    else
      recalcFinish n (recalcBody (recalculate fuel) n s0)

/-- The exception carried by an outcome, if any. -/
def errOf {A : Type} : Except (Error E) A → Option (Error E)
  | .ok _ => none
  | .error e => some e

/-- A relation between the state before and the state after a piece of the body that
`recalculate` runs for node `n`, indexed by the exception that ended it (`none`: it ran to
its end), which the statements inside the loops respect: doing nothing, sequencing after a
part that did not throw, the call of the strategy of `n`, and the two exceptions raised by
the loops themselves. -/
structure LoopClosed (n : Nat) (Q : Option (Error E) → State P E → State P E → Prop) :
    Prop where
  refl : ∀ s, Q none s s
  seq : ∀ x s t u, Q none s t → Q x t u → Q x s u
  exec : ∀ s ele vals out, (s.nodes n)._parameters.get? ele = some out →
    Q (((s.nodes n)._strat.execute vals out).1.map Error.thrown) s
      { nodes := s.nodes.setParameter n ele ((s.nodes n)._strat.execute vals out).2,
        trace := s.trace ++ [.execute n ele vals ((s.nodes n)._strat.execute vals out).1] }
  range : ∀ s, Q (some .out_of_range) s s
  mismatch : ∀ s what, Q (some (.runtime_error what)) s s

/-- A relation that is loop-closed for every node and also respects the entry into
`recalculate` and its last statement. -/
structure StepClosed (Q : Option (Error E) → State P E → State P E → Prop) : Prop where
  refl : ∀ s, Q none s s
  seq : ∀ x s t u, Q none s t → Q x t u → Q x s u
  exec : ∀ s n ele vals out, (s.nodes n)._parameters.get? ele = some out →
    Q (((s.nodes n)._strat.execute vals out).1.map Error.thrown) s
      { nodes := s.nodes.setParameter n ele ((s.nodes n)._strat.execute vals out).2,
        trace := s.trace ++ [.execute n ele vals ((s.nodes n)._strat.execute vals out).1] }
  range : ∀ s, Q (some .out_of_range) s s
  mismatch : ∀ s what, Q (some (.runtime_error what)) s s
  enter : ∀ s n, Q none s (s.log (.enter n))
  leave : ∀ s n, Q none s
    { nodes := s.nodes.setChanged n false, trace := s.trace ++ [.leave n] }

/-- One step along a parent back-reference: `b` is listed in `_parents` of `a`. -/
def parentStep (h : Heap P E) (a b : Nat) : Prop := b ∈ (h a)._parents

/-- One step along a child link: `b` is listed in `_children` of `a`. -/
def childStep (h : Heap P E) (a b : Nat) : Prop := b ∈ (h a)._children

/-- The store `h'` is `h` with `_changed = true` on the nodes in `S` and nothing else
touched. -/
def MarkedOn (S : Nat → Prop) (h h' : Heap P E) : Prop :=
  ∀ m, (S m → h' m = { h m with _changed := true }) ∧ (¬ S m → h' m = h m)

/-- The two states have the same graph: names, strategies, edges and numbers of slots. -/
def SameShape (s s' : State P E) : Prop :=
  ∀ m, (s'.nodes m)._name = (s.nodes m)._name ∧ (s'.nodes m)._strat = (s.nodes m)._strat ∧
    (s'.nodes m)._children = (s.nodes m)._children ∧
    (s'.nodes m)._parents = (s.nodes m)._parents ∧
    (s'.nodes m)._parameters.length = (s.nodes m)._parameters.length

/-- Specification of the input collection of a single-slot node: the children are recomputed
one after the other, and the slots each child exposes right after its own recomputation are
concatenated in child order.  The result is `none` when a child throws or the fuel runs
out. -/
def exposedInOrder (rec : Nat → State P E → Res P E Unit) :
    List Nat → State P E → Option (ParameterList P × State P E)
  | [], s => some ([], s)
  | ch :: rest, s =>
    match rec ch s with
    | some (.ok (), s1) =>
      match exposedInOrder rec rest s1 with
      | some (vals, s2) => some ((s1.nodes ch)._parameters ++ vals, s2)
      | none => none
    | _ => none

/-- Specification of the input collection of one round of scalar broadcast: the children are
recomputed one after the other, and the single slot of each child, read right after its own
recomputation, is appended in child order.  The result is `none` when a child throws, when
a child does not have exactly one slot, or when the fuel runs out. -/
def singleSlotsInOrder (rec : Nat → State P E → Res P E Unit) :
    List Nat → State P E → Option (ParameterList P × State P E)
  | [], s => some ([], s)
  | ch :: rest, s =>
    match rec ch s with
    | some (.ok (), s1) =>
      match (s1.nodes ch)._parameters, singleSlotsInOrder rec rest s1 with
      | [p], some (vals, s2) => some (p :: vals, s2)
      | _, _ => none
    | _ => none

/-- Specification of scalar broadcast by node `n` over the slot indices `ele`, `ele + 1`,
..., `ele + todo - 1`, in increasing order: for each index the children are recomputed, the
operation of `n` is invoked once on the single slots of the children with that slot as
output, and does not throw. -/
inductive ScalarBroadcast (rec : Nat → State P E → Res P E Unit) (n : Nat) (cs : List Nat) :
    Nat → Nat → State P E → State P E → Prop
  | done (ele : Nat) (s : State P E) : ScalarBroadcast rec n cs ele 0 s s
  | round (ele todo : Nat) (s s1 s' : State P E) (vals : ParameterList P) (out : P) :
      singleSlotsInOrder rec cs s = some (vals, s1) →
      (s1.nodes n)._parameters.get? ele = some out →
      ((s1.nodes n)._strat.execute vals out).1 = none →
      ScalarBroadcast rec n cs (ele + 1) todo
        { nodes := s1.nodes.setParameter n ele ((s1.nodes n)._strat.execute vals out).2,
          trace := s1.trace ++ [.execute n ele vals none] } s' →
      ScalarBroadcast rec n cs ele (todo + 1) s s'

/-- The exception recorded by a ghost event: `some e` exactly for an `execute` call that
threw `e`. -/
def Event.failure : Event P E → Option E
  | .execute _ _ _ thrown => thrown
  | _ => none

/-- No operation threw during the events `d`. -/
def NoFailure (d : List (Event P E)) : Prop := ∀ ev ∈ d, ev.failure = none

/-- What the events `d` of one call that ended with `x` (`none`: it returned) say about
failing operations: either no operation threw, or the last event is the one `execute`
call that threw, nothing was done after it, and the call ended with that very exception. -/
def FailureLast (x : Option (Error E)) (d : List (Event P E)) : Prop :=
  NoFailure d ∨
    ∃ pre m ele vals e, d = pre ++ [Event.execute m ele vals (some e)] ∧ NoFailure pre ∧
      x = some (Error.thrown e)

/-- The recomputation of `a` recurses into `b`: `b` is a child of `a` and `a` has at least
one slot (a node without slots runs neither of the two children loops). -/
def activeStep (h : Heap P E) (a b : Nat) : Prop :=
  b ∈ (h a)._children ∧ (h a)._parameters.length ≠ 0

/-- Bound on the recursion depth below a node that a call of `recalculate` which returns
without error must respect; it depends on the graph only. -/
def Depth (h : Heap P E) : Nat → Nat → Prop
  | 0, _ => False
  | f + 1, n => (h n)._children = [] ∨ (h n)._parameters.length = 0 ∨
      ∀ c ∈ (h n)._children, Depth h f c

/-- Referential transparency of every operation of the graph, up to the part `key m` of an
output slot that the operation of node `m` never changes (such as the name of the value it
writes into): what `execute` throws and writes depends on its input collection and on that
part only, not on the rest of the previous content of the output.  With a constant `key`
the result depends on the input collection alone. -/
def TransparentOn {K : Type} (key : Nat → P → K) (h : Heap P E) : Prop :=
  ∀ m ins o, key m ((h m)._strat.execute ins o).2 = key m o ∧
    ∀ o', key m o = key m o' → (h m)._strat.execute ins o = (h m)._strat.execute ins o'

/-- Two states from which a recomputation and its replay start: the same graph with
transparent operations, the same slots on every node without children, and slots that
agree on their unchanging part everywhere. -/
def ReplayPre {K : Type} (key : Nat → P → K) (a b : State P E) : Prop :=
  SameShape a b ∧ TransparentOn key a.nodes ∧
    (∀ m, (a.nodes m)._children = [] → (b.nodes m)._parameters = (a.nodes m)._parameters) ∧
    ∀ m i, ((b.nodes m)._parameters.get? i).map (key m) =
      ((a.nodes m)._parameters.get? i).map (key m)

/-- Outcome of running the same code from `a` and from `b`: every slot either holds the
same content in both final states or was left alone by both runs. -/
def ReplayPost (a b a' b' : State P E) : Prop :=
  SameShape a a' ∧ SameShape b b' ∧
    ∀ m i, (a'.nodes m)._parameters.get? i = (b'.nodes m)._parameters.get? i ∨
      ((a'.nodes m)._parameters.get? i = (a.nodes m)._parameters.get? i ∧
        (b'.nodes m)._parameters.get? i = (b.nodes m)._parameters.get? i)

/-- The state `recalculate` leaves behind when it is known to return. -/
def stateAfter (r : Res P E Unit) (s : State P E) : State P E :=
  match r with
  | some (_, s') => s'
  | none => s

/-! ## Example graphs -/

/-- Modelled from the spec: the n-ary add operation, writing the sum of its inputs into the
output value. -/
def addAll : Strategy (Value ℚ) String :=
  ⟨fun paras out => (none, out.setValue (paras.map Value.value).sum)⟩

/-- An operation that always throws and leaves its output alone. -/
def failing : Strategy (Value ℚ) String := ⟨fun _ out => (some "failed", out)⟩

/-- A leaf node holding one real value. -/
def leafNode (name : String) (v : ℚ) (parents : List Nat) : TreeNode (Value ℚ) String :=
  { _name := name, _changed := true, _parameters := [⟨name, v⟩], _strat := failing,
    _children := [], _parents := parents }

/-- The graph `head = Add(leafX = x, leafY = y)`: the head at address 0, the leaves at
addresses 1 and 2. -/
def addTree (x y : ℚ) : Heap (Value ℚ) String := fun n =>
  match n with
  | 0 => { _name := "head", _changed := true, _parameters := [⟨"head", 0⟩], _strat := addAll,
           _children := [1, 2], _parents := [] }
  | 1 => leafNode "leafX" x [0]
  | 2 => leafNode "leafY" y [0]
  | _ => leafNode "" 0 []

/-- Leaf mutation `setValue(v)` on the value held by node `n`. -/
def setLeafValue (h : Heap (Value ℚ) String) (n : Nat) (v : ℚ) : Heap (Value ℚ) String :=
  h.set n { h n with _parameters := (h n)._parameters.map (fun p => p.setValue v) }

/-- An operation that sums its two inputs and throws on any other number of inputs. -/
def sumTwo : Strategy (Value ℚ) String :=
  ⟨fun paras out =>
    match paras with
    | [a, b] => (none, out.setValue (a.value + b.value))
    | _ => (some "BadParameter", out)⟩

/-- A 3-slot head at address 0 whose operation sums its two inputs, with two childless
children: address 1 holds the single value `v`, address 2 holds the slots `ws`. -/
def vectorTree (v : ℚ) (ws : List (Value ℚ)) : Heap (Value ℚ) String := fun n =>
  match n with
  | 0 => { _name := "head", _changed := true,
           _parameters := [⟨"h0", 0⟩, ⟨"h1", 0⟩, ⟨"h2", 0⟩], _strat := sumTwo,
           _children := [1, 2], _parents := [] }
  | 1 => leafNode "v" v [0]
  | 2 => { _name := "w", _changed := true, _parameters := ws, _strat := failing,
           _children := [], _parents := [0] }
  | _ => leafNode "" 0 []

/-- A chain: the head at address 0 adds the slots of its only child at address 1, whose
operation always throws and whose only child is a leaf at address 2.  The flag of every
node is `changed`. -/
def failingChain (changed : Bool) : Heap (Value ℚ) String := fun n =>
  match n with
  | 0 => { _name := "head", _changed := changed, _parameters := [⟨"head", 0⟩],
           _strat := addAll, _children := [1], _parents := [] }
  | 1 => { _name := "bad", _changed := changed, _parameters := [⟨"bad", 0⟩],
           _strat := failing, _children := [2], _parents := [0] }
  | 2 => { leafNode "x" 1 [1] with _changed := changed }
  | _ => leafNode "" 0 []

/-- The part of a slot that the operation of node `m` of `addTree` never changes: the name
of the value for the head, whose operation overwrites the number, and the whole value for
the other nodes, whose operation writes nothing. -/
def addTreeKey (m : Nat) (p : Value ℚ) : Value ℚ :=
  match m with
  | 0 => ⟨p.Name, 0⟩
  | _ => p

/-- The two states hold the same graph with the same slot contents; only the `_changed`
flags of their nodes (and their ghost traces) may differ. -/
def EqButFlags (a b : State P E) : Prop :=
  ∀ m, (b.nodes m)._name = (a.nodes m)._name ∧
    (b.nodes m)._parameters = (a.nodes m)._parameters ∧
    (b.nodes m)._strat = (a.nodes m)._strat ∧
    (b.nodes m)._children = (a.nodes m)._children ∧
    (b.nodes m)._parents = (a.nodes m)._parents

/-- Outcome of running the same code from `a` and from `b`: the final states still differ
in flags only, and both runs recorded the same events. -/
def FlagSim (a b a' b' : State P E) : Prop :=
  EqButFlags a' b' ∧ ∃ d, a'.trace = a.trace ++ d ∧ b'.trace = b.trace ++ d

/-- Loop of `TreeNode::findChildNode` over the children, `find` being the recursive call.
The local `node` is null whenever the loop goes on to the next child. -/
def findInChildren (name : String) (h : Heap P E) (find : Nat → Option (Option Nat)) :
    List Nat → Option Nat → Option (Option Nat)
  | [], node => some node
  | ch :: rest, _ =>
    if (h ch)._name = name then some (some ch)
    else
      match find ch with
      | none => none
      | some (some m) => some (some m)
      | some none => findInChildren name h find rest none

/-- Method `TreeNode::findChildNode(name)` called on node `n`: the address of the node found,
or `none` for the null pointer. -/
def findChildNode : Nat → Heap P E → Nat → String → Option (Option Nat)
  | 0, _, _, _ => none
  | fuel + 1, h, n, name =>
    findInChildren name h (fun c => findChildNode fuel h c name) (h n)._children none

/-- Pre-order listing of the subtrees of the children `cs`, in list order: each child,
followed by the listing `desc` of its own descendants. -/
def listChildren (desc : Nat → Option (List Nat)) : List Nat → Option (List Nat)
  | [] => some []
  | c :: rest =>
    match desc c, listChildren desc rest with
    | some dc, some dr => some (c :: dc ++ dr)
    | _, _ => none

/-- Specification of the traversal order: the descendants of `n` in the order in which a
pre-order depth-first traversal meets them (children in list order, each child before its
own subtree, `n` itself left out, a node met along several paths listed once per path). -/
def descendantsPre : Nat → Heap P E → Nat → Option (List Nat)
  | 0, _, _ => none
  | fuel + 1, h, n => listChildren (descendantsPre fuel h) (h n)._children

/-- Modelled from the spec: the enumeration `ParType` of the kinds of values (real, complex,
integer, boolean, real vector, complex vector), under the names the sources use; its
declaration is in the parameter header, which is not part of the sources at hand. -/
inductive ParType where
  | UNDEFINED
  | COMPLEX
  | DOUBLE
  | INTEGER
  | BOOL
  | MDOUBLE
  | MCOMPLEX
deriving DecidableEq, Repr

/-- Second loop of `TreeNode::fillParameters`: the slots of the node, in slot order, each
added to `list` when `type()` says `ParType::DOUBLE`. -/
def fillOwn (type : P → ParType) : List P → ParameterList P → ParameterList P
  | [], list => list
  | i :: rest, list =>
    fillOwn type rest (if type i = ParType.DOUBLE then list.addParameter i else list)

/-- First loop of `TreeNode::fillParameters`: `ch->fillParameters(list)` for every child,
`fill` being the recursive call. -/
def fillChildren (fill : Nat → ParameterList P → Option (ParameterList P)) :
    List Nat → ParameterList P → Option (ParameterList P)
  | [], list => some list
  | ch :: rest, list =>
    match fill ch list with
    | none => none
    | some l1 => fillChildren fill rest l1

/-- Method `TreeNode::fillParameters(list)` called on node `n`; the result is the content
of `list` afterwards.  The kind `type()` of a parameter is taken as a function of the slot
content. -/
def fillParameters (type : P → ParType) :
    Nat → Heap P E → Nat → ParameterList P → Option (ParameterList P)
  | 0, _, _, _ => none
  | fuel + 1, h, n, list =>
    match fillChildren (fillParameters type fuel h) (h n)._children list with
    | none => none
    | some l1 => some (fillOwn type (h n)._parameters l1)

/-- Post-order listing of the subtrees of the children `cs`, in list order, `post` listing
the subtree of one child. -/
def subtreesPost (post : Nat → Option (List Nat)) : List Nat → Option (List Nat)
  | [] => some []
  | c :: rest =>
    match post c, subtreesPost post rest with
    | some pc, some pr => some (pc ++ pr)
    | _, _ => none

/-- Specification of the visiting order of `fillParameters`: the nodes of the subtree of
`n` in post-order (the subtree of each child, in child order, then `n` itself), a node
reachable along several paths being listed once per path. -/
def postOrder : Nat → Heap P E → Nat → Option (List Nat)
  | 0, _, _ => none
  | fuel + 1, h, n =>
    match subtreesPost (postOrder fuel h) (h n)._children with
    | some l => some (l ++ [n])
    | none => none

/-- The slots of kind `ParType::DOUBLE` held by node `m`, in slot order. -/
def ownDoubles (type : P → ParType) (h : Heap P E) (m : Nat) : List P :=
  (h m)._parameters.filter (fun p => decide (type p = ParType.DOUBLE))

/-- Method `TreeNode::addParent(parentNode)` called on node `c` with `parentNode = p`:
`_parents.push_back(parentNode)`, then `parentNode->_children.push_back(shared_from_this())`. -/
def addParent (h : Heap P E) (c p : Nat) : Heap P E :=
  let h1 := h.set c { h c with _parents := (h c)._parents ++ [p] }
  h1.set p { h1 p with _children := (h1 p)._children ++ [c] }

/-- Method `TreeNode::addChild(childNode)` called on node `p` with `childNode = c`:
`_children.push_back(childNode)`. -/
def addChild (h : Heap P E) (p c : Nat) : Heap P E :=
  h.set p { h p with _children := (h p)._children ++ [c] }

/-- Method `TreeNode::deleteLinks()` called on node `n`: the store afterwards, and the
`Detach(n)` calls made on the parameter objects of the slots, in slot order.  `Detach`
removes `n` from the observer list of a parameter object; that list is not part of the
slot content the store carries. -/
def deleteLinks (h : Heap P E) (n : Nat) : Heap P E × List (P × Nat) :=
  (h.set n { h n with _children := [], _parents := [] },
    (h n)._parameters.map (fun p => (p, n)))

/-- Two unlinked nodes with clean flags: a node with one slot at address 0 and a leaf at
address 1. -/
def unlinkedPair : Heap (Value ℚ) String := fun n =>
  match n with
  | 0 => { _name := "p", _changed := false, _parameters := [⟨"p", 0⟩], _strat := addAll,
           _children := [], _parents := [] }
  | _ => { leafNode "c" 1 [] with _changed := false }

/-- Exceptions thrown by the strategies of `AmpFlatteRes.cpp`, with their message. -/
inductive StrategyError where
  | WrongParType (what : String)
  | BadParameter (what : String)
deriving DecidableEq, Repr

/-- Members of `FlatteStrategy` that `execute` reads. -/
structure FlatteStrategy where
  checkType : ParType
  name : String

/-- Members of `FlattePhspStrategy` that `execute` reads. -/
structure FlattePhspStrategy where
  checkType : ParType
  name : String

/-- Method `FlatteStrategy::execute(paras, out)`: what is thrown, and the content of `out`
afterwards.  `type` is `AbsParameter::type()` and `ParNames` the table of kind names, both
declared outside the sources at hand; `body` stands for the statements that follow the type
check (the parameter look-ups and the evaluation of the dynamical function). -/
def FlatteStrategy.execute (type : P → ParType) (ParNames : ParType → String)
    (body : ParameterList P → P → Option StrategyError × P)
    (self : FlatteStrategy) (paras : ParameterList P) (out : P) : Option StrategyError × P :=
  if self.checkType ≠ type out then
    (some (.WrongParType ("Output Type " ++ ParNames (type out) ++
      " conflicts expected type " ++ ParNames self.checkType ++ " of " ++ self.name ++
      " BW strat")), out)
  else body paras out

/-- Method `FlattePhspStrategy::execute(paras, out)`, which starts with the same type
check; `body` stands for the statements that follow it. -/
def FlattePhspStrategy.execute (type : P → ParType) (ParNames : ParType → String)
    (body : ParameterList P → P → Option StrategyError × P)
    (self : FlattePhspStrategy) (paras : ParameterList P) (out : P) :
    Option StrategyError × P :=
  if self.checkType ≠ type out then
    (some (.WrongParType ("Output Type " ++ ParNames (type out) ++
      " conflicts expected type " ++ ParNames self.checkType ++ " of " ++ self.name ++
      " BW strat")), out)
  else body paras out

/-- Loop over the slots in `TreeNode::print`: for each slot, the name of its parameter in
brackets when the node is a leaf, then `" = "`, the value string and `", "`. -/
def printValues (pname val_to_str : P → String) (leaf : Bool) : List P → String → String
  | [], oss => oss
  | it :: rest, oss =>
    printValues pname val_to_str leaf rest
      ((if leaf then oss ++ " [" ++ pname it ++ "]" else oss) ++ " = " ++ val_to_str it ++ ", ")

/-- First part of `TreeNode::print`, up to and including `std::endl`: the text written for
the node itself, `pre` being the argument `prefix`.  `pname` and `val_to_str` are
`Parameter::name()` and `Parameter::val_to_str()`. -/
def printLine (pname val_to_str : P → String) (h : Heap P E) (n : Nat) (pre : String) :
    String :=
  let oss :=
    if (h n)._changed = true ∧ (h n)._children.length ≠ 0 then
      pre ++ (h n)._name ++ " = ?"
    else
      printValues pname val_to_str (decide ((h n)._children.length = 0)) (h n)._parameters
        (pre ++ (h n)._name)
  if (h n)._children.length ≠ 0 then
    oss ++ " (" ++ toString (h n)._children.length ++ " children/" ++
      toString (h n)._parameters.length ++ " values)" ++ "\n"
  else
    oss ++ "\n"

/-- Loop `oss << _children.at(i)->print(level - 1, prefix + ". ")` of `TreeNode::print`,
`pr` being the recursive call. -/
def printChildren (pr : Nat → Option String) : List Nat → String → Option String
  | [], oss => some oss
  | ch :: rest, oss =>
    match pr ch with
    | none => none
    | some s => printChildren pr rest (oss ++ s)

/-- Method `TreeNode::print(level, prefix)` called on node `n`.  `level` is a C++ `int`; it
is embedded as an integer, a negative level never reaching `0` again. -/
def print (pname val_to_str : P → String) :
    Nat → Heap P E → Nat → Int → String → Option String
  | 0, _, _, _, _ => none
  | fuel + 1, h, n, level, pre =>
    if level = 0 then some (printLine pname val_to_str h n pre)
    else
      printChildren (fun ch => print pname val_to_str fuel h ch (level - 1) (pre ++ ". "))
        (h n)._children (printLine pname val_to_str h n pre)

/-- The indentation of a node at distance `k`: `k` copies of `". "`. -/
def indent : Nat → String
  | 0 => ""
  | k + 1 => indent k ++ ". "

/-- Concatenation of a list of lines. -/
def concatLines : List String → String
  | [] => ""
  | l :: rest => l ++ concatLines rest

/-- Pre-order listing of the visits below the children `cs`, `vis` listing the visits of
the subtree of one child. -/
def visitsBelow (vis : Nat → Option (List (Nat × Nat))) : List Nat → Option (List (Nat × Nat))
  | [] => some []
  | c :: rest =>
    match vis c, visitsBelow vis rest with
    | some vc, some vr => some (vc ++ vr)
    | _, _ => none

/-- Specification of what `print` visits: the pairs (node, distance from the start) met by a
pre-order depth-first traversal from `n` that does not descend below a node at which the
remaining `level` is `0`; `k` is the distance of `n` itself.  A node reached along several
paths is listed once per path. -/
def visits : Nat → Heap P E → Nat → Int → Nat → Option (List (Nat × Nat))
  | 0, _, _, _, _ => none
  | fuel + 1, h, n, level, k =>
    if level = 0 then some [(n, k)]
    else
      match visitsBelow (fun c => visits fuel h c (level - 1) (k + 1)) (h n)._children with
      | some l => some ((n, k) :: l)
      | none => none

/-- The node `b` is reached from `a` by a path of exactly `k` child links. -/
def reachIn (h : Heap P E) : Nat → Nat → Nat → Prop
  | 0, a, b => a = b
  | k + 1, a, b => ∃ c, childStep h a c ∧ reachIn h k c b

/-- The string `s` is one line: it ends with a newline and holds no other. -/
def SingleLine (s : String) : Prop :=
  ∃ body : String, s = body ++ "\n" ∧ '\n' ∉ body.data

/-- The string `s` holds no newline character. -/
def NoNewline (s : String) : Prop := '\n' ∉ s.data

/-- The text that `TreeNode::print` writes for one slot: for a leaf the name of the parameter
in brackets, then `" = "`, the value string and `", "`. -/
def slotText (pname val_to_str : P → String) (leaf : Bool) (p : P) : String :=
  (if leaf then " [" ++ pname p ++ "]" else "") ++ " = " ++ val_to_str p ++ ", "

/-- The end of the line of a node in `TreeNode::print`: for a node with children the numbers
of children and of slots, then the newline. -/
def lineEnd (h : Heap P E) (n : Nat) : String :=
  if (h n)._children.length ≠ 0 then
    " (" ++ toString (h n)._children.length ++ " children/" ++
      toString (h n)._parameters.length ++ " values)" ++ "\n"
  else "\n"

/-- The number of paths of exactly `k` child links from `a` to `b`, a child listed twice
giving two links. -/
def pathCount (h : Heap P E) : Nat → Nat → Nat → Nat
  | 0, a, b => if a = b then 1 else 0
  | k + 1, a, b => ((h a)._children.map (fun c => pathCount h k c b)).sum

namespace Tools

/-- The fields of `ComPWA::Event` that `Tools::generate` reads and writes (its declaration is
not part of the sources at hand): the particle content, of an arbitrary type `M`, the weight
and the efficiency.  The `double`s are embedded as rationals. -/
structure Event (M : Type) where
  ParticleList : M
  Weight : ℚ
  Efficiency : ℚ

/-- The two methods of `ComPWA::Kinematics` that `generate` calls, `D` being the type of
`ComPWA::DataPoint`. -/
structure Kinematics (M D : Type) where
  convert : Event M → D
  isWithinPhaseSpace : D → Bool

/-- The methods of `ComPWA::Generator` that `generate` calls, as functions on the state `G`
of the generator. -/
structure Generator (G : Type) where
  getSeed : G → Nat
  setSeed : G → Nat → G
  uniform : G → ℚ → ℚ → ℚ × G

/-- How a call of `generate` can end other than by returning: a `std::runtime_error`, or
undefined behaviour (a read through an iterator outside its container). -/
inductive GenError where
  | runtime_error (what : String)
  | undefined
deriving DecidableEq, Repr

/-- What is fixed while the loop of `generate` runs: the arguments, `maxSampleWeight`,
`initialSeed`, `limit` being the size of `phsp`, and `bunch`, the size with which the vectors
`TrueEventsBunch`, `Intensities` and `RandomNumbers` are created.  The sizes are natural
numbers: they are taken small enough for no `unsigned int` to wrap. -/
structure Setup (M D G : Type) where
  NumberOfEvents : Nat
  Kinematics : Kinematics M D
  Generator : Generator G
  Intensity : D → ℚ
  phsp : List (Event M)
  phspTrue : List (Event M)
  maxSampleWeight : ℚ
  initialSeed : Nat
  bunch : Nat

/-- The variables that the loop of `generate` changes.  An iterator is embedded as its
distance from the beginning of its container. -/
structure LoopState (M G : Type) where
  events : List (Event M)
  generationMaxValue : ℚ
  EventBunchSize : Nat
  Intensities : List ℚ
  CurrentStartIterator : Nat
  CurrentTrueStartIterator : Nat
  CurrentStartIndex : Nat
  gen : G

variable {M D G : Type}

/-- The container that `CurrentTrueStartIterator` runs through: `phspTrue`, or `phsp` when
`phspTrue` is empty. -/
def Setup.trueSample (c : Setup M D G) : List (Event M) :=
  if c.phspTrue.length = 0 then c.phsp else c.phspTrue

/-- The function applied by `std::transform` in `generate` (with a phase-space sample). -/
def Setup.evalIntensity (c : Setup M D G) (evt : Event M) : ℚ :=
  let point := c.Kinematics.convert evt
  if c.Kinematics.isWithinPhaseSpace point = true then 0 else c.Intensity point

/-- The elements `[start, start + len)` of a container, if they all exist. -/
def readRange {α : Type} (l : List α) (start len : Nat) : Option (List α) :=
  if start + len ≤ l.length then some ((l.drop start).take len) else none

/-- Value of `*std::max_element(begin, end)`; on an empty range the iterator returned is
`end` and may not be read. -/
def maxElement : List ℚ → Option ℚ
  | [] => none
  | x :: xs => some (xs.foldl (fun m y => if m < y then y else m) x)

/-- The call `std::generate(RandomNumbers.begin(), RandomNumbers.end(), ...)` for a vector
of `k` entries: `k` calls of `Generator->uniform(0, hi)` in sequence. -/
def drawUniform (ops : Generator G) (hi : ℚ) : Nat → G → List ℚ × G
  | 0, g => ([], g)
  | k + 1, g =>
    let r := ops.uniform g 0 hi
    let rs := drawUniform ops hi k r.2
    (r.1 :: rs.1, rs.2)

/-- The hit-and-miss loop `for (i = 0; i < TrueEventsBunch.size(); ++i)` of `generate`, over
the pairs `(RandomNumbers[i], Intensities[i])` still to come; the state is the vector
`events` and `CurrentStartIterator`. -/
def hitAndMiss (c : Setup M D G) :
    List (ℚ × ℚ) → List (Event M) → Nat → Except GenError (List (Event M) × Nat)
  | [], events, it => .ok (events, it)
  | (r, w) :: rest, events, it =>
    match c.phsp.get? it with
    | none => .error .undefined
    | some e =>
      if r < e.Weight * w then
        let events1 := events ++ [{ e with Weight := 1, Efficiency := 1 }]
        if events1.length = c.NumberOfEvents then .ok (events1, it)
        else hitAndMiss c rest events1 (it + 1)
      else hitAndMiss c rest events (it + 1)

/-- One pass through the body of the loop `while (true)` of `generate` (with a phase-space
sample), started in the state `st`: the state after the pass, with `true` when the loop goes
on (by `continue` or by reaching the end of the body) and `false` when it is left by
`break`. -/
def loopBody (c : Setup M D G) (st : LoopState M G) :
    Except GenError (Bool × LoopState M G) :=
  let EventBunchSize :=
    if st.CurrentStartIndex + st.EventBunchSize > c.phsp.length then
      c.phsp.length - st.CurrentStartIndex
    else st.EventBunchSize
  match readRange c.trueSample st.CurrentTrueStartIterator EventBunchSize with
  | none => .error .undefined
  | some evts =>
    let Intensities := evts.map c.evalIntensity ++ st.Intensities.drop EventBunchSize
    match maxElement Intensities with
    | none => .error .undefined
    | some BunchMax =>
      if c.maxSampleWeight * BunchMax > st.generationMaxValue then
        let generationMaxValue := c.maxSampleWeight * (1 + 1 / 20) * BunchMax
        if st.events.length > 0 then
          .ok (true,
            { events := [], generationMaxValue := generationMaxValue,
              EventBunchSize := EventBunchSize, Intensities := Intensities,
              CurrentStartIterator := 0, CurrentTrueStartIterator := 0,
              CurrentStartIndex := 0, gen := c.Generator.setSeed st.gen c.initialSeed })
        else
          .ok (true,
            { st with generationMaxValue := generationMaxValue,
                      EventBunchSize := EventBunchSize, Intensities := Intensities })
      else
        let RandomNumbers := drawUniform c.Generator st.generationMaxValue c.bunch st.gen
        match hitAndMiss c (RandomNumbers.1.zip Intensities) st.events
            st.CurrentStartIterator with
        | .error e => .error e
        | .ok (events, it) =>
          let st1 : LoopState M G :=
            { events := events, generationMaxValue := st.generationMaxValue,
              EventBunchSize := EventBunchSize, Intensities := Intensities,
              CurrentStartIterator := it,
              CurrentTrueStartIterator := st.CurrentTrueStartIterator + EventBunchSize,
              CurrentStartIndex := st.CurrentStartIndex + EventBunchSize,
              gen := RandomNumbers.2 }
          if events.length = c.NumberOfEvents then .ok (false, st1)
          else if st1.CurrentStartIndex ≥ c.phsp.length then .ok (false, st1)
          else .ok (true, st1)

/-- The loop `while (true)` of `generate` (with a phase-space sample), started in the state
`st`; the result is the state in which the loop is left. -/
def generateLoop (c : Setup M D G) :
    Nat → LoopState M G → Option (Except GenError (LoopState M G))
  | 0, _ => none
  | fuel + 1, st =>
    match loopBody c st with
    | .error e => some (.error e)
    | .ok (true, st1) => generateLoop c fuel st1
    | .ok (false, st1) => some (.ok st1)

/-- Value of `maxSampleWeight` in `generate`: the larger of the maximum weights of the two
samples, `getMaximumSampleWeight` being a function that is not part of the sources at hand. -/
def maxSampleWeight (getMaximumSampleWeight : List (Event M) → ℚ)
    (phsp phspTrue : List (Event M)) : ℚ :=
  if getMaximumSampleWeight phspTrue > getMaximumSampleWeight phsp then
    getMaximumSampleWeight phspTrue
  else getMaximumSampleWeight phsp

/-- What the loop of `generate` works with, once the checks have passed. -/
def setupOf (getMaximumSampleWeight : List (Event M) → ℚ) (NumberOfEvents : Nat)
    (Kinematics : Kinematics M D) (ops : Generator G) (g : G) (Intensity : D → ℚ)
    (phsp phspTrue : List (Event M)) : Setup M D G :=
  { NumberOfEvents := NumberOfEvents, Kinematics := Kinematics, Generator := ops,
    Intensity := Intensity, phsp := phsp, phspTrue := phspTrue,
    maxSampleWeight := maxSampleWeight getMaximumSampleWeight phsp phspTrue,
    initialSeed := ops.getSeed g,
    bunch := if phsp.length < 5000 then phsp.length else 5000 }

/-- The state in which the loop of `generate` is entered. -/
def initialState (c : Setup M D G) (g : G) : LoopState M G :=
  { events := [], generationMaxValue := c.maxSampleWeight * (1 + 1 / 20),
    EventBunchSize := c.bunch, Intensities := List.replicate c.bunch 0,
    CurrentStartIterator := 0, CurrentTrueStartIterator := 0, CurrentStartIndex := 0,
    gen := g }

/-- Function `generate(NumberOfEvents, Kinematics, Generator, Intensity, phsp, phspTrue)` up
to the end of its loop: the checks, then the loop.  A null `Generator` or `Intensity` is
`none`; `ops` holds the methods of the generator. -/
def generateState (getMaximumSampleWeight : List (Event M) → ℚ) (fuel : Nat)
    (NumberOfEvents : Nat) (Kinematics : Kinematics M D) (ops : Generator G)
    (Generator : Option G) (Intensity : Option (D → ℚ)) (phsp phspTrue : List (Event M)) :
    Option (Except GenError (LoopState M G)) :=
  if NumberOfEvents ≤ 0 then
    some (.error (.runtime_error
      ("Tools::generate() negative number of events: " ++ toString NumberOfEvents)))
  else
    match Intensity with
    | none => some (.error (.runtime_error "Tools::generate() | Amplitude not valid"))
    | some intens =>
      match Generator with
      | none => some (.error (.runtime_error "Tools::generate() | Generator not valid"))
      | some g =>
        if 0 < phspTrue.length ∧ phspTrue.length ≠ phsp.length then
          some (.error (.runtime_error ("Tools::generate() | We have a sample of true " ++
            "phsp events, but the sample size doesn't match that one of " ++
            "the phsp sample!")))
        else if maxSampleWeight getMaximumSampleWeight phsp phspTrue ≤ 0 then
          some (.error (.runtime_error "Tools::generate() Sample maximum value is zero!"))
        else
          let c := setupOf getMaximumSampleWeight NumberOfEvents Kinematics ops g intens
            phsp phspTrue
          generateLoop c fuel (initialState c g)

/-- Function `generate(NumberOfEvents, Kinematics, Generator, Intensity, phsp, phspTrue)`:
the vector `events` in which the loop is left. -/
def generate (getMaximumSampleWeight : List (Event M) → ℚ) (fuel : Nat)
    (NumberOfEvents : Nat) (Kinematics : Kinematics M D) (ops : Generator G)
    (Generator : Option G) (Intensity : Option (D → ℚ)) (phsp phspTrue : List (Event M)) :
    Option (Except GenError (List (Event M))) :=
  (generateState getMaximumSampleWeight fuel NumberOfEvents Kinematics ops Generator
    Intensity phsp phspTrue).map (fun r => r.map (fun st => st.events))

end Tools

namespace Tools

variable {M D G : Type}

end Tools

namespace Tools

/-- A kinematics for examples: the data point of an event is its particle content, and no
data point is reported as lying within the phase space. -/
def plainKinematics : Kinematics Nat Nat := ⟨fun e => e.ParticleList, fun _ => false⟩

/-- A generator for examples: its state counts the calls, its seed is its state, and
`uniform(lo, hi)` always returns `lo`. -/
def lowGenerator : Generator Nat := ⟨fun g => g, fun _ seed => seed, fun g lo _ => (lo, g + 1)⟩

/-- A phase-space sample of three events for examples, of weight `1/2` and efficiency `1/3`. -/
def smallSample : List (Event Nat) := [⟨0, 1 / 2, 1 / 3⟩, ⟨1, 1 / 2, 1 / 3⟩, ⟨2, 1 / 2, 1 / 3⟩]

end Tools

/-- The event is an `execute` call of the operation of node `n`. -/
def Event.isExecuteOf (n : Nat) : Event P E → Prop
  | .execute m _ _ _ => m = n
  | _ => False

/-- Specification of one pass over the children `cs` in which every child is recomputed
without error, one after the other in list order, from the state `s` to the state `t`;
`segs` lists, child by child, the ghost events of the call made for that child. -/
inductive ChildrenRun (rec : Nat → State P E → Res P E Unit) :
    List Nat → State P E → State P E → List (List (Event P E)) → Prop
  | nil (s : State P E) : ChildrenRun rec [] s s []
  | cons (c : Nat) (cs : List Nat) (s s1 t : State P E) (dc : List (Event P E))
      (segs : List (List (Event P E))) :
      rec c s = some (.ok (), s1) → s1.trace = s.trace ++ dc → ChildrenRun rec cs s1 t segs →
      ChildrenRun rec (c :: cs) s t (dc :: segs)

/-- Specification of the rounds made by node `n` for the slot indices `ele`, `ele + 1`, ...,
`ele + todo - 1`, in increasing order: in each round every child of `cs` is recomputed
without error, once, in list order (`ChildrenRun`), and then the operation of `n` is called
once, with that slot as output, and does not throw.  `rounds` lists, round by round, the
events of the calls made for the children and the inputs handed to the operation. -/
inductive RoundsRun (rec : Nat → State P E → Res P E Unit) (n : Nat) (cs : List Nat) :
    Nat → Nat → State P E → State P E → List (List (List (Event P E)) × ParameterList P) → Prop
  | done (ele : Nat) (s : State P E) : RoundsRun rec n cs ele 0 s s []
  | round (ele todo : Nat) (s t s' : State P E) (segs : List (List (Event P E)))
      (vals : ParameterList P) (out : P)
      (rounds : List (List (List (Event P E)) × ParameterList P)) :
      ChildrenRun rec cs s t segs →
      (t.nodes n)._parameters.get? ele = some out →
      ((t.nodes n)._strat.execute vals out).1 = none →
      RoundsRun rec n cs (ele + 1) todo
        { nodes := t.nodes.setParameter n ele ((t.nodes n)._strat.execute vals out).2,
          trace := t.trace ++ [.execute n ele vals none] } s' rounds →
      RoundsRun rec n cs ele (todo + 1) s s' ((segs, vals) :: rounds)

/-- The events of the rounds `rounds` of node `n`, the first of them being for slot `ele`:
per round, the events of the calls made for the children, then the call of the operation
of `n`. -/
def roundsTrace (n : Nat) : Nat → List (List (List (Event P E)) × ParameterList P) →
    List (Event P E)
  | _, [] => []
  | ele, (segs, vals) :: rest =>
    segs.flatten ++ [Event.execute n ele vals none] ++ roundsTrace n (ele + 1) rest

/-- A node with two slots above a node with one slot above a leaf, with operations that
leave their output as it is: `head` at address 0, `mid` at address 1, the leaf at address
2. -/
def twoSlotChain : Heap (Value ℚ) String := fun n =>
  match n with
  | 0 => { _name := "head", _changed := true, _parameters := [⟨"h0", 0⟩, ⟨"h1", 0⟩],
           _strat := ⟨fun _ out => (none, out)⟩, _children := [1], _parents := [] }
  | 1 => { _name := "mid", _changed := true, _parameters := [⟨"mid", 0⟩],
           _strat := ⟨fun _ out => (none, out)⟩, _children := [2], _parents := [0] }
  | 2 => leafNode "leaf" 1 [1]
  | _ => leafNode "" 0 []

/-- Every flag that is false in `a` is false in `b`. -/
def FalseKept (a b : State P E) : Prop :=
  ∀ m, (a.nodes m)._changed = false → (b.nodes m)._changed = false

namespace Physics.Dynamics

/-- The part of `ComPWA::FitParameter` that the form factor uses (its declaration is not part
of the sources at hand): the name and the value, a rational number standing for the
`double`. -/
structure FitParameter where
  Name : String
  Val : ℚ
deriving DecidableEq, Repr

/-- Modelled from the spec: a value handed to an operation, with its kind: integer, real,
fit parameter, complex, and the vectors of integers, reals and complex numbers.  A complex
number is a pair of rationals. -/
inductive Parameter where
  | intValue (v : Value Int)
  | doubleValue (v : Value ℚ)
  | doubleParameter (p : FitParameter)
  | complexValue (v : Value (ℚ × ℚ))
  | mIntValue (v : Value (List Int))
  | mDoubleValue (v : Value (List ℚ))
  | mComplexValue (v : Value (List (ℚ × ℚ)))
deriving DecidableEq, Repr

/-- Modelled from the spec: the named parameter collection, insertion-ordered and
partitioned by kind, under the names of the accessors that `FormFactorStrategy::execute`
calls (the declaration of `ParameterList` is not part of the sources at hand). -/
structure ParameterList where
  intValues : List (Value Int)
  doubleValues : List (Value ℚ)
  doubleParameters : List FitParameter
  complexValues : List (Value (ℚ × ℚ))
  mIntValues : List (Value (List Int))
  mDoubleValues : List (Value (List ℚ))
  mComplexValues : List (Value (List (ℚ × ℚ)))
deriving DecidableEq, Repr

/-- The empty collection. -/
def ParameterList.empty : ParameterList := ⟨[], [], [], [], [], [], []⟩

/-- Modelled from the spec: `ParameterList::addParameter` appends the value at the end of
the partition of its kind. -/
def ParameterList.addParameter (l : ParameterList) : Parameter → ParameterList
  | .intValue v => { l with intValues := l.intValues ++ [v] }
  | .doubleValue v => { l with doubleValues := l.doubleValues ++ [v] }
  | .doubleParameter p => { l with doubleParameters := l.doubleParameters ++ [p] }
  | .complexValue v => { l with complexValues := l.complexValues ++ [v] }
  | .mIntValue v => { l with mIntValues := l.mIntValues ++ [v] }
  | .mDoubleValue v => { l with mDoubleValues := l.mDoubleValues ++ [v] }
  | .mComplexValue v => { l with mComplexValues := l.mComplexValues ++ [v] }

/-- The collection that `TreeNode::recalculate` hands to an operation: the slots of the
children, added one by one in child order. -/
def ParameterList.ofList (ps : List Parameter) : ParameterList :=
  ps.foldl ParameterList.addParameter ParameterList.empty

/-- How `FormFactorStrategy::execute` can end other than by returning: one of the exceptions
it throws itself, the `std::out_of_range` of a positional read, or undefined behaviour (a
read through a null pointer, a cast to the wrong class). -/
inductive ExecError where
  | BadParameter (what : String)
  | WrongParType (what : String)
  | out_of_range
  | runtime_error (what : String)
  | undefined
deriving DecidableEq, Repr

/-- Modelled from the spec: a positional read `list.at(i)` of one partition of the
collection, which fails with `std::out_of_range` outside the partition. -/
def readAt {α : Type} (l : List α) (i : Nat) : Except ExecError α :=
  match l.get? i with
  | some x => .ok x
  | none => .error .out_of_range

/-- Accessor `ParameterList::intValue(i)`. -/
def ParameterList.intValue (l : ParameterList) (i : Nat) : Except ExecError (Value Int) :=
  readAt l.intValues i

/-- Accessor `ParameterList::doubleParameter(i)`. -/
def ParameterList.doubleParameter (l : ParameterList) (i : Nat) :
    Except ExecError FitParameter :=
  readAt l.doubleParameters i

/-- Accessor `ParameterList::mDoubleValue(i)`. -/
def ParameterList.mDoubleValue (l : ParameterList) (i : Nat) :
    Except ExecError (Value (List ℚ)) :=
  readAt l.mDoubleValues i

/-- The checks of the numbers of parameters in `FormFactorStrategy::execute` (compiled in
unless `NDEBUG` is defined): the first one that fails throws `BadParameter`. -/
def checkCounts (paras : ParameterList) : Option ExecError :=
  let check_nInt := 1
  let nInt := paras.intValues.length
  let check_nDouble := 3
  let nDouble := paras.doubleValues.length + paras.doubleParameters.length
  let check_nComplex := 0
  let nComplex := paras.complexValues.length
  let check_nMInteger := 0
  let nMInteger := paras.mIntValues.length
  let check_nMDouble := 1
  let nMDouble := paras.mDoubleValues.length
  let check_nMComplex := 0
  let nMComplex := paras.mComplexValues.length
  if nInt ≠ check_nInt then
    some (.BadParameter ("FormFactorStrat::execute() | " ++
      "Number of IntParameters does not match: " ++ toString nInt ++ " given but " ++
      toString check_nInt ++ " expected."))
  else if nDouble ≠ check_nDouble then
    some (.BadParameter ("FormFactorStrat::execute() | " ++
      "Number of FitParameters does not match: " ++ toString nDouble ++ " given but " ++
      toString check_nDouble ++ " expected."))
  else if nComplex ≠ check_nComplex then
    some (.BadParameter ("FormFactorStrat::execute() | " ++
      "Number of ComplexParameters does not match: " ++ toString nComplex ++ " given but " ++
      toString check_nComplex ++ " expected."))
  else if nMInteger ≠ check_nMInteger then
    some (.BadParameter ("FormFactorStrat::execute() | " ++
      "Number of MultiInt does not match: " ++ toString nMInteger ++ " given but " ++
      toString check_nMInteger ++ " expected."))
  else if nMDouble ≠ check_nMDouble then
    some (.BadParameter ("FormFactorStrat::execute() | " ++
      "Number of MultiDoubles does not match: " ++ toString nMDouble ++ " given but " ++
      toString check_nMDouble ++ " expected."))
  else if nMComplex ≠ check_nMComplex then
    some (.BadParameter ("FormFactorStrat::execute() | " ++
      "Number of MultiComplexes does not match: " ++ toString nMComplex ++ " given but " ++
      toString check_nMComplex ++ " expected."))
  else none

/-- Loop `for (ele = 0; ele < n; ele++)` of `FormFactorStrategy::execute` over the entries of
the data vector still to come: `results.at(ele) = dynamicalFunction(...)`, any exception
being replaced by a `std::runtime_error`.  `f` is the call of the dynamical function, `none`
when it throws. -/
def fillResults (f : ℚ → Option (ℚ × ℚ)) :
    List ℚ → Nat → List (ℚ × ℚ) → Option ExecError × List (ℚ × ℚ)
  | [], _, results => (none, results)
  | mSq :: rest, ele, results =>
    match f mSq with
    | none => (some (.runtime_error ("FormFactorStrategy::execute() | " ++
        "Evaluation of dynamic function failed!")), results)
    | some y =>
      if ele < results.length then fillResults f rest (ele + 1) (results.set ele y)
      else (some (.runtime_error ("FormFactorStrategy::execute() | " ++
        "Evaluation of dynamic function failed!")), results)

/-- The positional reads of `FormFactorStrategy::execute`, in the order of the source:
`intValue(0)`, `doubleParameter(0)`, `intValue(1)`, `doubleParameter(1)`,
`doubleParameter(2)`; the result is `(orbitL, MesonRadius, ffType, ma, mb)`. -/
def readInputs (paras : ParameterList) : Except ExecError (Int × ℚ × Int × ℚ × ℚ) :=
  match paras.intValue 0 with
  | .error e => .error e
  | .ok orbitL =>
    match paras.doubleParameter 0 with
    | .error e => .error e
    | .ok MesonRadius =>
      match paras.intValue 1 with
      | .error e => .error e
      | .ok ffType =>
        match paras.doubleParameter 1 with
        | .error e => .error e
        | .ok ma =>
          match paras.doubleParameter 2 with
          | .error e => .error e
          | .ok mb => .ok (orbitL.Val, MesonRadius.Val, ffType.Val, ma.Val, mb.Val)

/-- Method `FormFactorStrategy::execute(paras, out)`: what it throws, if anything, and the
output it leaves.  `NDEBUG` says whether the macro is defined; `type` is `Parameter::type()`,
`ParNames` the table of the names of the kinds and `checkType` the member of the strategy,
none of them declared in the sources at hand; `dynamicalFunction` is
`ProductionFormFactor::dynamicalFunction` with the arguments in the order of its
declaration, `none` when it throws, the conversions of `orbitL` and `ffType` being left to
it. -/
def FormFactorStrategy.execute (NDEBUG : Bool) (type : Parameter → ParType)
    (ParNames : ParType → String)
    (dynamicalFunction : ℚ → ℚ → ℚ → Int → ℚ → Int → Option (ℚ × ℚ))
    (checkType : ParType) (paras : ParameterList) (out : Option Parameter) :
    Option ExecError × Option Parameter :=
  let mismatch : Bool :=
    match out with
    | some o => decide (checkType ≠ type o)
    | none => false
  if mismatch = true then
    (some (.BadParameter "FormFactorStrat::execute() | Parameter type mismatch!"), out)
  else
    let debug : Option ExecError :=
      if NDEBUG = true then none
      else
        match out with
        | none => some .undefined
        | some o =>
          if checkType ≠ type o then
            some (.WrongParType ("FormFactorStrat::execute() | " ++
              "Output parameter is of type " ++ ParNames (type o) ++
              " and conflicts with expected type " ++ ParNames checkType))
          else checkCounts paras
    match debug with
    | some e => (some e, out)
    | none =>
      match paras.mDoubleValue 0 with
      | .error e => (some e, out)
      | .ok data =>
        let n := data.Val.length
        let out1 : Parameter :=
          match out with
          | some o => o
          | none => .mComplexValue ⟨"", List.replicate n (0, 0)⟩
        match out1 with
        | .mComplexValue par =>
          match readInputs paras with
          | .error e => (some e, some out1)
          | .ok (orbitL, MesonRadius, ffType, ma, mb) =>
            let r := fillResults
              (fun mSq => dynamicalFunction mSq ma mb orbitL MesonRadius ffType)
              data.Val 0 par.Val
            (r.1, some (.mComplexValue { par with Val := r.2 }))
        | _ => (some .undefined, some out1)

/-- The members of `ProductionFormFactor` that `createFunctionTree` reads. -/
structure ProductionFormFactor where
  Daughter1Mass : FitParameter
  Daughter2Mass : FitParameter
  MesonRadius : FitParameter
  L : Nat
  FFType : Int

/-- The leaves that `ProductionFormFactor::createFunctionTree` attaches to the head, in the
order of the `createLeaf` calls: orbital angular momentum, meson radius, form-factor type,
mass A, mass B and the data vector `DataSample.mDoubleValue(pos)`. -/
def ProductionFormFactor.leaves (self : ProductionFormFactor) (data : Value (List ℚ)) :
    List Parameter :=
  [.intValue ⟨"OrbitalAngularMomentum", self.L⟩, .doubleParameter self.MesonRadius,
    .intValue ⟨"FormFactorType", self.FFType⟩, .doubleParameter self.Daughter1Mass,
    .doubleParameter self.Daughter2Mass, .mDoubleValue data]

/-- The operation of the head of the tree: `FormFactorStrategy::execute` on the collection
made of the slots of the children, with the slot of the head as output. -/
def formFactorStrategy (NDEBUG : Bool) (type : Parameter → ParType)
    (ParNames : ParType → String)
    (dynamicalFunction : ℚ → ℚ → ℚ → Int → ℚ → Int → Option (ℚ × ℚ)) (checkType : ParType) :
    Strategy Parameter ExecError :=
  ⟨fun paras out =>
    let r := FormFactorStrategy.execute NDEBUG type ParNames dynamicalFunction checkType
      (ParameterList.ofList paras) (some out)
    (r.1, r.2.getD out)⟩

/-- Modelled from the spec: the tree built by `ProductionFormFactor::createFunctionTree`
(`FunctionTree`, `createHead` and `createLeaf` are not part of the sources at hand): the head
`"ProductionFormFactor" + suffix` at address 0, holding a complex vector with one entry per
entry of `DataSample.mDoubleValue(0)`, and its six leaves at the addresses 1 to 6, attached
in the order of the `createLeaf` calls, each linked to the head in both directions.  A leaf
has no operation: its field `_strat` is never read.  The result is `none` when one of the
two reads of `DataSample` is out of range. -/
def ProductionFormFactor.createFunctionTree (self : ProductionFormFactor)
    (strat : Strategy Parameter ExecError) (DataSample : ParameterList) (pos : Nat)
    (suffix : String) : Option (Heap Parameter ExecError) :=
  match DataSample.mDoubleValues.get? 0, DataSample.mDoubleValues.get? pos with
  | some first, some data =>
    let sampleSize := first.Val.length
    let names := ["OrbitalAngularMomentum", "MesonRadius", "FormFactorType", "MassA", "MassB",
      "Data_mSq[" ++ toString pos ++ "]"]
    some (fun n =>
      if n = 0 then
        { _name := "ProductionFormFactor" ++ suffix, _changed := true,
          _parameters := [.mComplexValue ⟨"", List.replicate sampleSize (0, 0)⟩],
          _strat := strat, _children := [1, 2, 3, 4, 5, 6], _parents := [] }
      else
        { _name := names.getD (n - 1) "", _changed := true,
          _parameters := ((self.leaves data).get? (n - 1)).toList,
          _strat := strat, _children := [], _parents := if n ≤ 6 then [0] else [] })
  | _, _ => none

end Physics.Dynamics

namespace Physics.Dynamics

/-- The store of the `FitParameter` objects, by address: a `std::shared_ptr<FitParameter>`
is an address. -/
abbrev ParameterStore := Nat → FitParameter

/-- Replace the object stored at address `a`. -/
def ParameterStore.set (st : ParameterStore) (a : Nat) (p : FitParameter) : ParameterStore :=
  fun b => if b = a then p else st b

/-- The three shared pointers of `ProductionFormFactor` that `updateParametersFrom` uses, as
addresses in the store. -/
structure FormFactorPointers where
  MesonRadius : Nat
  Daughter1Mass : Nat
  Daughter2Mass : Nat

/-- Method `ProductionFormFactor::updateParametersFrom(list)`, `list` being the addresses of
the fit parameters of the collection.  `FindParameter` and `FitParameter::updateParameter`
are not part of the sources at hand and are taken as parameters: `FindParameter name list st`
is the pointer left in the local variable after the `try` block, `none` when the call threw
or returned a null pointer, and `updateParameter self other` is the object `self` after
`self->updateParameter(other)`. -/
def updateParametersFrom (FindParameter : String → List Nat → ParameterStore → Option Nat)
    (updateParameter : FitParameter → FitParameter → FitParameter)
    (self : FormFactorPointers) (list : List Nat) (st : ParameterStore) : ParameterStore :=
  let rad := FindParameter (st self.MesonRadius).Name list st
  let st1 :=
    match rad with
    | some r => st.set self.MesonRadius (updateParameter (st self.MesonRadius) (st r))
    | none => st
  let daug1Mass := FindParameter (st1 self.Daughter1Mass).Name list st1
  let st2 :=
    match daug1Mass with
    | some d => st1.set d (updateParameter (st1 d) (st1 d))
    | none => st1
  let daug2Mass := FindParameter (st2 self.Daughter2Mass).Name list st2
  match daug2Mass with
  | some d => st2.set d (updateParameter (st2 d) (st2 d))
  | none => st2

/-- Modelled from the spec: lookup by name in a collection, giving the first entry of `list`
whose name is `name`, and nothing (`MissingValue`) when there is none. -/
def findByName (name : String) (list : List Nat) (st : ParameterStore) : Option Nat :=
  list.find? (fun a => decide ((st a).Name = name))

/-- Modelled from the spec: updating a fit parameter from another one takes over its
value. -/
def copyValue (self other : FitParameter) : FitParameter := { self with Val := other.Val }

/-- A store for examples: the meson radius, the mass of daughter 1 and the mass of
daughter 2 of a form factor at the addresses 0, 1 and 2, and at the addresses 10, 11 and 12
the entries of a collection with the same names and other values. -/
def sampleStore : ParameterStore := fun a =>
  match a with
  | 0 => ⟨"radius", 1⟩
  | 1 => ⟨"mass1", 2⟩
  | 2 => ⟨"mass2", 3⟩
  | 10 => ⟨"radius", 5⟩
  | 11 => ⟨"mass1", 6⟩
  | 12 => ⟨"mass2", 7⟩
  | _ => ⟨"", 0⟩

end Physics.Dynamics

namespace FitResult

/-! ### The type `double` of `FitResult::shiftAngle` -/

/-- Rounding of a rational to the nearest integer, a tie going to the even one. -/
def roundHalfEven (t : ℚ) : ℤ :=
  if t - ⌊t⌋ < 1 / 2 then ⌊t⌋
  else if 1 / 2 < t - ⌊t⌋ then ⌊t⌋ + 1
  else if ⌊t⌋ % 2 = 0 then ⌊t⌋ else ⌊t⌋ + 1

/-- Exponent of the unit in the last place of the binary64 numbers of the size of `x`. -/
def ulpExponent (x : ℚ) : ℤ := max (Int.log 2 |x| - 52) (-1074)

/-- Rounding of a non-negative rational to 53 significant bits: to a whole number of units
in the last place. -/
def roundMagnitude (x : ℚ) : ℚ :=
  (2 : ℚ) ^ ulpExponent x * roundHalfEven (x / (2 : ℚ) ^ ulpExponent x)

/-- Rounding of a rational to 53 significant bits, to the nearest such number with a tie
going to the even one; the result is not bounded above. -/
def roundNearest (x : ℚ) : ℚ :=
  if x < 0 then -roundMagnitude (-x) else roundMagnitude x

/-- A value of the C++ type `double`, taken to be IEEE 754 binary64 with every operation
rounded to nearest, ties to even: a finite number, held as the rational it stands for, an
infinity or a NaN.  The sign of a zero is not kept (the comparisons of `shiftAngle` do not
see it). -/
inductive Double where
  | finite (q : ℚ)
  | posInf
  | negInf
  | nan
deriving DecidableEq

/-- The `double` that an exact result `x` is rounded to: the nearest number of 53
significant bits (of at most 1074 binary places), a tie going to the even one, and an
infinity when this number is `2 ^ 1024` or more in magnitude. -/
def round64 (x : ℚ) : Double :=
  if (2 : ℚ) ^ (1024 : ℤ) ≤ roundNearest x then .posInf
  else if roundNearest x ≤ -(2 : ℚ) ^ (1024 : ℤ) then .negInf
  else .finite (roundNearest x)

/-- Unary minus on `double`. -/
def Double.neg : Double → Double
  | .finite q => .finite (-q)
  | .posInf => .negInf
  | .negInf => .posInf
  | .nan => .nan

/-- Addition on `double`. -/
def Double.add : Double → Double → Double
  | .finite a, .finite b => round64 (a + b)
  | .finite _, .posInf => .posInf
  | .finite _, .negInf => .negInf
  | .posInf, .finite _ => .posInf
  | .posInf, .posInf => .posInf
  | .negInf, .finite _ => .negInf
  | .negInf, .negInf => .negInf
  | _, _ => .nan

/-- Subtraction on `double`. -/
def Double.sub (a b : Double) : Double := a.add b.neg

/-- Multiplication on `double`. -/
def Double.mul : Double → Double → Double
  | .finite a, .finite b => round64 (a * b)
  | .finite a, .posInf => if a = 0 then .nan else if 0 < a then .posInf else .negInf
  | .finite a, .negInf => if a = 0 then .nan else if 0 < a then .negInf else .posInf
  | .posInf, .finite b => if b = 0 then .nan else if 0 < b then .posInf else .negInf
  | .negInf, .finite b => if b = 0 then .nan else if 0 < b then .negInf else .posInf
  | .posInf, .posInf => .posInf
  | .posInf, .negInf => .negInf
  | .negInf, .posInf => .negInf
  | .negInf, .negInf => .posInf
  | _, _ => .nan

/-- Comparison `a < b` on `double`; it is false as soon as one side is a NaN. -/
def Double.lt : Double → Double → Bool
  | .finite a, .finite b => decide (a < b)
  | .finite _, .posInf => true
  | .negInf, .finite _ => true
  | .negInf, .posInf => true
  | _, _ => false

/-- First loop `while (val > pi) val -= 2 * pi` of `FitResult::shiftAngle`. -/
def shiftDown (pi : Double) : Nat → Double → Option Double
  | 0, _ => none
  | fuel + 1, val =>
    if Double.lt pi val = true then shiftDown pi fuel (val.sub ((Double.finite 2).mul pi))
    else some val

/-- Second loop `while (val < -pi) val += 2 * pi` of `FitResult::shiftAngle`. -/
def shiftUp (pi : Double) : Nat → Double → Option Double
  | 0, _ => none
  | fuel + 1, val =>
    if Double.lt val pi.neg = true then shiftUp pi fuel (val.add ((Double.finite 2).mul pi))
    else some val

/-- Method `FitResult::shiftAngle(v)`, `pi` being the value that
`PhysConst::instance()->getConstValue("Pi")` returns.  The log message is not modelled. -/
def shiftAngle (pi : Double) (fuel : Nat) (v : Double) : Option Double :=
  (shiftDown pi fuel v).bind (shiftUp pi fuel)

/-- The `double` nearest to the number pi, `0x1.921fb54442d18p+1`. -/
def piDouble : ℚ := 884279719003555 / 281474976710656

end FitResult

namespace Tools

variable {M D G : Type}

/-- The generator as the functions without sample use it: the methods of `Generator`
together with `Generator::generate()`, which produces the next event. -/
structure EventGenerator (M G : Type) extends Generator G where
  generate : G → Event M × G

/-- The function applied by `std::transform` in `generate` without sample and in
`generateImportanceSampledPhsp`. -/
def evalWeighted (kin : Kinematics M D) (Intensity : D → ℚ) (evt : Event M) : ℚ :=
  let point := kin.convert evt
  if kin.isWithinPhaseSpace point = true then 0 else evt.Weight * Intensity point

/-- The call `std::generate(tmp_events.begin(), tmp_events.end(), ...)` for a vector of `k`
entries: `k` calls of `Generator->generate()` in sequence. -/
def generateEvents (gen : G → Event M × G) : Nat → G → List (Event M) × G
  | 0, g => ([], g)
  | k + 1, g =>
    let e := gen g
    let rest := generateEvents gen k e.2
    (e.1 :: rest.1, rest.2)

/-- The hit-and-miss loop `for (i = 0; i < tmp_events.size(); ++i)` of `generate` without
sample, over the triples `(RandomNumbers[i], Intensities[i], tmp_events[i])` still to
come. -/
def hitAndMissPlain (NumberOfEvents : Nat) :
    List (ℚ × ℚ × Event M) → List (Event M) → List (Event M)
  | [], events => events
  | (r, w, e) :: rest, events =>
    if r < w then
      let events1 := events ++ [{ e with Weight := 1 }]
      if events1.length = NumberOfEvents then events1
      else hitAndMissPlain NumberOfEvents rest events1
    else hitAndMissPlain NumberOfEvents rest events

/-- The hit-and-miss loop of `generateImportanceSampledPhsp`, over the triples
`(RandomNumbers[i], Intensities[i], tmp_events[i])` still to come; the state is the vector
`events` and `WeightSum`. -/
def hitAndMissWeighted (NumberOfEvents : Nat) :
    List (ℚ × ℚ × Event M) → List (Event M) × ℚ → List (Event M) × ℚ
  | [], st => st
  | (r, w, e) :: rest, (events, WeightSum) =>
    if r < w then
      let weight := e.Weight / w
      let events1 := events ++ [{ e with Weight := weight }]
      if events1.length = NumberOfEvents then (events1, WeightSum + weight)
      else hitAndMissWeighted NumberOfEvents rest (events1, WeightSum + weight)
    else hitAndMissWeighted NumberOfEvents rest (events, WeightSum)

/-- The variables that the loops of the functions without sample change; `WeightSum` is
used by `generateImportanceSampledPhsp` only. -/
structure SampledState (M G : Type) where
  events : List (Event M)
  WeightSum : ℚ
  generationMaxValue : ℚ
  gen : G

/-- One pass through the body of the loop `while (true)` of `generate` without sample, with
`true` when the loop goes on and `false` when it is left by `break`.  `EventBunchSize` is
the size of the three vectors. -/
def plainBody (NumberOfEvents : Nat) (kin : Kinematics M D) (Generator : EventGenerator M G)
    (Intensity : D → ℚ) (initialSeed EventBunchSize : Nat) (st : SampledState M G) :
    Except GenError (Bool × SampledState M G) :=
  let tmp_events := generateEvents Generator.generate EventBunchSize st.gen
  let Intensities := tmp_events.1.map (evalWeighted kin Intensity)
  match maxElement Intensities with
  | none => .error .undefined
  | some BunchMax =>
    let generationMaxValue :=
      if BunchMax > st.generationMaxValue then (1 + 1 / 20) * BunchMax
      else st.generationMaxValue
    if BunchMax > st.generationMaxValue ∧ st.events.length > 0 then
      .ok (true, { events := [], WeightSum := st.WeightSum,
                   generationMaxValue := generationMaxValue,
                   gen := Generator.setSeed tmp_events.2 initialSeed })
    else
      let RandomNumbers :=
        drawUniform Generator.toGenerator generationMaxValue EventBunchSize tmp_events.2
      let events := hitAndMissPlain NumberOfEvents
        (RandomNumbers.1.zip (Intensities.zip tmp_events.1)) st.events
      .ok (decide (events.length ≠ NumberOfEvents),
        { events := events, WeightSum := st.WeightSum,
          generationMaxValue := generationMaxValue, gen := RandomNumbers.2 })

/-- One pass through the body of the loop `while (true)` of
`generateImportanceSampledPhsp`. -/
def sampledBody (NumberOfEvents : Nat) (kin : Kinematics M D)
    (Generator : EventGenerator M G) (Intensity : D → ℚ) (initialSeed EventBunchSize : Nat)
    (st : SampledState M G) : Except GenError (Bool × SampledState M G) :=
  let tmp_events := generateEvents Generator.generate EventBunchSize st.gen
  let Intensities := tmp_events.1.map (evalWeighted kin Intensity)
  match maxElement Intensities with
  | none => .error .undefined
  | some BunchMax =>
    let generationMaxValue :=
      if BunchMax > st.generationMaxValue then (1 + 1 / 20) * BunchMax
      else st.generationMaxValue
    if BunchMax > st.generationMaxValue ∧ st.events.length > 0 then
      .ok (true, { events := [], WeightSum := 0, generationMaxValue := generationMaxValue,
                   gen := Generator.setSeed tmp_events.2 initialSeed })
    else
      let RandomNumbers :=
        drawUniform Generator.toGenerator generationMaxValue EventBunchSize tmp_events.2
      let r := hitAndMissWeighted NumberOfEvents
        (RandomNumbers.1.zip (Intensities.zip tmp_events.1)) (st.events, st.WeightSum)
      .ok (decide (r.1.length ≠ NumberOfEvents),
        { events := r.1, WeightSum := r.2, generationMaxValue := generationMaxValue,
          gen := RandomNumbers.2 })

/-- A loop `while (true)` with the body `body`, started in the state `st`; the result is the
state in which the loop is left. -/
def whileTrue {S : Type} (body : S → Except GenError (Bool × S)) :
    Nat → S → Option (Except GenError S)
  | 0, _ => none
  | fuel + 1, st =>
    match body st with
    | .error e => some (.error e)
    | .ok (true, st1) => whileTrue body fuel st1
    | .ok (false, st1) => some (.ok st1)

/-- Function `generate(NumberOfEvents, Kinematics, Generator, Intensity)`, the overload
without sample; `g` is the state of the generator, which like the other two pointers is
taken not to be null. -/
def generateFromGenerator (fuel NumberOfEvents : Nat) (kin : Kinematics M D)
    (Generator : EventGenerator M G) (Intensity : D → ℚ) (g : G) :
    Option (Except GenError (List (Event M))) :=
  if NumberOfEvents ≤ 0 then some (.ok [])
  else
    (whileTrue (plainBody NumberOfEvents kin Generator Intensity (Generator.getSeed g) 5000)
      fuel { events := [], WeightSum := 0, generationMaxValue := 0, gen := g }).map
      (fun r => r.map (fun st => st.events))

/-- The state in which the loop of `generateImportanceSampledPhsp` is left. -/
def importanceSampledState (fuel NumberOfEvents : Nat) (kin : Kinematics M D)
    (Generator : EventGenerator M G) (Intensity : D → ℚ) (g : G) :
    Option (Except GenError (SampledState M G)) :=
  whileTrue (sampledBody NumberOfEvents kin Generator Intensity (Generator.getSeed g) 5000)
    fuel { events := [], WeightSum := 0, generationMaxValue := 0, gen := g }

/-- Function `generateImportanceSampledPhsp(NumberOfEvents, Kinematics, Generator,
Intensity)`: after the loop every weight is multiplied by
`rescale_factor = NumberOfEvents / WeightSum`. -/
def generateImportanceSampledPhsp (fuel NumberOfEvents : Nat) (kin : Kinematics M D)
    (Generator : EventGenerator M G) (Intensity : D → ℚ) (g : G) :
    Option (Except GenError (List (Event M))) :=
  if NumberOfEvents ≤ 0 then some (.ok [])
  else
    (importanceSampledState fuel NumberOfEvents kin Generator Intensity g).map
      (fun r => r.map (fun st =>
        let rescale_factor := (NumberOfEvents : ℚ) / st.WeightSum
        st.events.map (fun evt => { evt with Weight := evt.Weight * rescale_factor })))

/-- A kinematics for examples that reports every data point as lying within the phase
space. -/
def insideKinematics : Kinematics Nat Nat := ⟨fun e => e.ParticleList, fun _ => true⟩

/-- A generator for examples that always produces the same event, of weight `2`, and whose
`uniform(lo, hi)` always returns `lo`. -/
def constantGenerator : EventGenerator Nat Nat :=
  { getSeed := fun g => g, setSeed := fun _ seed => seed, uniform := fun g lo _ => (lo, g + 1),
    generate := fun g => (⟨7, 2, 1⟩, g + 1) }

end Tools

namespace Tools

variable {M D G : Type}

end Tools

/-- A 3-slot head at address 0 whose operation always throws, over one childless child of
dimension 1 at address 1. -/
def failingVector : Heap (Value ℚ) String := fun n =>
  match n with
  | 0 => { _name := "head", _changed := true,
           _parameters := [⟨"h0", 0⟩, ⟨"h1", 0⟩, ⟨"h2", 0⟩], _strat := failing,
           _children := [1], _parents := [] }
  | 1 => leafNode "v" 1 [0]
  | _ => leafNode "" 0 []

namespace Tools

end Tools

/-! ## General facts about `recalculate` -/

section Closure

variable {Q : Option (Error E) → State P E → State P E → Prop}

theorem StepClosed.loop (hQ : StepClosed Q) (n : Nat) : LoopClosed n Q :=
  { refl := hQ.refl, seq := hQ.seq, exec := fun s => hQ.exec s n, range := hQ.range,
    mismatch := hQ.mismatch }

theorem callStrategy_closed {n : Nat} (hQ : LoopClosed n Q) (ele : Nat) (vals : ParameterList P)
    (s : State P E) :
    Q (errOf (callStrategy n ele vals s).1) s (callStrategy n ele vals s).2 := by
  unfold callStrategy TreeNode.parameter
  cases hget : (s.nodes n)._parameters.get? ele with
  | none => exact hQ.range s
  | some out =>
    have h := hQ.exec s ele vals out hget
    cases hr : ((s.nodes n)._strat.execute vals out).1 <;>
      simp only [hr, Option.map, errOf] at h ⊢ <;> exact h

theorem recalcChildren_closed {n : Nat} (hQ : LoopClosed n Q)
    (rec : Nat → State P E → Res P E Unit) :
    ∀ (cs : List Nat), (∀ c ∈ cs, ∀ s r s', rec c s = some (r, s') → Q (errOf r) s s') →
      ∀ (vals : ParameterList P) (s : State P E) r s',
        recalcChildren rec cs vals s = some (r, s') → Q (errOf r) s s' := by
  intro cs
  induction cs with
  | nil =>
    intro _ vals s r s' h
    simp only [recalcChildren, Option.some.injEq, Prod.mk.injEq] at h
    obtain ⟨rfl, rfl⟩ := h
    exact hQ.refl s
  | cons c cs ih =>
    intro hrec vals s r s' h
    have hc0 := hrec c (List.mem_cons_self _ _) s
    have ih' := ih (fun d hd => hrec d (List.mem_cons_of_mem _ hd))
    simp only [recalcChildren] at h
    split at h
    · simp at h
    · next e s1 hc =>
      simp only [Option.some.injEq, Prod.mk.injEq] at h
      obtain ⟨rfl, rfl⟩ := h
      exact hc0 _ _ hc
    · next s1 hc =>
      exact hQ.seq _ _ _ _ (hc0 _ _ hc) (ih' _ _ _ _ h)

theorem recalcChildrenEle_closed {n : Nat} (hQ : LoopClosed n Q)
    (rec : Nat → State P E → Res P E Unit) (ele : Nat) :
    ∀ (cs : List Nat), (∀ c ∈ cs, ∀ s r s', rec c s = some (r, s') → Q (errOf r) s s') →
      ∀ (vals : ParameterList P) (s : State P E) r s',
        recalcChildrenEle rec n ele cs vals s = some (r, s') → Q (errOf r) s s' := by
  intro cs
  induction cs with
  | nil =>
    intro _ vals s r s' h
    simp only [recalcChildrenEle, Option.some.injEq, Prod.mk.injEq] at h
    obtain ⟨rfl, rfl⟩ := h
    exact hQ.refl s
  | cons c cs ih =>
    intro hrec vals s r s' h
    have hc0 := hrec c (List.mem_cons_self _ _) s
    have ih' := ih (fun d hd => hrec d (List.mem_cons_of_mem _ hd))
    simp only [recalcChildrenEle] at h
    split at h
    · simp at h
    · next e s1 hc =>
      simp only [Option.some.injEq, Prod.mk.injEq] at h
      obtain ⟨rfl, rfl⟩ := h
      exact hc0 _ _ hc
    · next s1 hc =>
      have h1 := hc0 _ _ hc
      have hoor : ∀ (t : TreeNode P E) (k : Nat) (e : Error E), t.parameter k = .error e →
          e = .out_of_range := by
        intro t k e ht
        unfold TreeNode.parameter at ht
        split at ht
        · simp at ht
        · simpa using ht.symm
      split at h
      · split at h
        · next e he =>
          simp only [Option.some.injEq, Prod.mk.injEq] at h
          obtain ⟨rfl, rfl⟩ := h
          rw [hoor _ _ _ he]
          exact hQ.seq _ _ _ _ h1 (hQ.range s1)
        · exact hQ.seq _ _ _ _ h1 (ih' _ _ _ _ h)
      · split at h
        · split at h
          · next e he =>
            simp only [Option.some.injEq, Prod.mk.injEq] at h
            obtain ⟨rfl, rfl⟩ := h
            rw [hoor _ _ _ he]
            exact hQ.seq _ _ _ _ h1 (hQ.range s1)
          · exact hQ.seq _ _ _ _ h1 (ih' _ _ _ _ h)
        · simp only [Option.some.injEq, Prod.mk.injEq] at h
          obtain ⟨rfl, rfl⟩ := h
          exact hQ.seq _ _ _ _ h1 (hQ.mismatch s1 _)

theorem recalcElements_closed {n : Nat} (hQ : LoopClosed n Q)
    (rec : Nat → State P E → Res P E Unit) (cs : List Nat)
    (hrec : ∀ c ∈ cs, ∀ s r s', rec c s = some (r, s') → Q (errOf r) s s') :
    ∀ (todo ele : Nat) (s : State P E) r s',
      recalcElements rec n cs todo ele s = some (r, s') → Q (errOf r) s s' := by
  intro todo
  induction todo with
  | zero =>
    intro ele s r s' h
    simp only [recalcElements, Option.some.injEq, Prod.mk.injEq] at h
    obtain ⟨rfl, rfl⟩ := h
    exact hQ.refl s
  | succ todo ih =>
    intro ele s r s' h
    simp only [recalcElements] at h
    split at h
    · simp at h
    · next e s1 hc =>
      simp only [Option.some.injEq, Prod.mk.injEq] at h
      obtain ⟨rfl, rfl⟩ := h
      exact recalcChildrenEle_closed hQ rec ele cs hrec [] s _ s1 hc
    · next vals s1 hc =>
      have h1 := recalcChildrenEle_closed hQ rec ele cs hrec [] s _ s1 hc
      have h2 := callStrategy_closed hQ ele vals s1
      split at h
      · next e s2 hcs =>
        simp only [Option.some.injEq, Prod.mk.injEq] at h
        obtain ⟨rfl, rfl⟩ := h
        rw [hcs] at h2
        exact hQ.seq _ _ _ _ h1 h2
      · next s2 hcs =>
        rw [hcs] at h2
        exact hQ.seq _ _ _ _ (hQ.seq _ _ _ _ h1 h2) (ih _ _ _ _ h)

theorem recalcBody_closed {n : Nat} (hQ : LoopClosed n Q)
    (rec : Nat → State P E → Res P E Unit) (s : State P E)
    (hrec : ∀ c ∈ (s.nodes n)._children, ∀ s r s', rec c s = some (r, s') → Q (errOf r) s s')
    r s' (h : recalcBody rec n s = some (r, s')) : Q (errOf r) s s' := by
  unfold recalcBody at h
  split at h
  · split at h
    · simp at h
    · next e s1 hc =>
      simp only [Option.some.injEq, Prod.mk.injEq] at h
      obtain ⟨rfl, rfl⟩ := h
      exact recalcChildren_closed hQ rec _ hrec _ s _ s1 hc
    · next vals s1 hc =>
      simp only [Option.some.injEq] at h
      have h2 := callStrategy_closed hQ 0 vals s1
      rw [h] at h2
      exact hQ.seq _ _ _ _ (recalcChildren_closed hQ rec _ hrec _ s _ s1 hc) h2
  · exact recalcElements_closed hQ rec _ hrec _ _ s r s' h

/-- Every step-closed relation holds between the state before and the state after a call
of `recalculate`, whether it returns or throws. -/
theorem recalculate_closed (hQ : StepClosed Q) :
    ∀ (fuel n : Nat) (s : State P E) r s', recalculate fuel n s = some (r, s') →
      Q (errOf r) s s' := by
  intro fuel
  induction fuel with
  | zero => intro n s r s' h; simp [recalculate] at h
  | succ fuel ih =>
    intro n s r s' h
    simp only [recalculate] at h
    split at h
    · simp only [Option.some.injEq, Prod.mk.injEq] at h
      obtain ⟨rfl, rfl⟩ := h
      exact hQ.seq _ _ _ _ (hQ.enter s n) (hQ.leave _ n)
    · refine hQ.seq _ _ _ _ (hQ.enter s n) ?_
      unfold recalcFinish at h
      split at h
      · simp at h
      · next e s1 hb =>
        simp only [Option.some.injEq, Prod.mk.injEq] at h
        obtain ⟨rfl, rfl⟩ := h
        exact recalcBody_closed (hQ.loop n) _ _ (fun c _ => ih c) _ _ hb
      · next s1 hb =>
        simp only [Option.some.injEq, Prod.mk.injEq] at h
        obtain ⟨rfl, rfl⟩ := h
        exact hQ.seq _ _ _ _
          (recalcBody_closed (hQ.loop n) _ _ (fun c _ => ih c) _ _ hb) (hQ.leave s1 n)

end Closure

/-! ## `update`: dirty propagation -/

theorem MarkedOn.parents {S : Nat → Prop} {h h' : Heap P E} (hm : MarkedOn S h h') (m : Nat) :
    (h' m)._parents = (h m)._parents := by
  by_cases hs : S m
  · rw [(hm m).1 hs]
  · rw [(hm m).2 hs]

theorem parentStep_congr {h h' : Heap P E} (hp : ∀ m, (h' m)._parents = (h m)._parents) :
    parentStep h' = parentStep h := by
  funext a b
  simp [parentStep, hp]

theorem updateParents_marked (upd : Nat → Heap P E → Option (Heap P E)) (h0 : Heap P E)
    (hupd : ∀ p h h', (∀ m, (h m)._parents = (h0 m)._parents) → upd p h = some h' →
      MarkedOn (Relation.ReflTransGen (parentStep h0) p) h h') :
    ∀ (ps : List Nat) (h h' : Heap P E), (∀ m, (h m)._parents = (h0 m)._parents) →
      updateParents upd ps h = some h' →
      MarkedOn (fun m => ∃ p ∈ ps, Relation.ReflTransGen (parentStep h0) p m) h h' := by
  intro ps
  induction ps with
  | nil =>
    intro h h' _ hu
    simp only [updateParents, Option.some.injEq] at hu
    subst hu
    intro m
    simp
  | cons p ps ih =>
    intro h h' hp hu
    simp only [updateParents] at hu
    split at hu
    · simp at hu
    · next h1 h1eq =>
      have m1 := hupd p h h1 hp h1eq
      have hp1 : ∀ m, (h1 m)._parents = (h0 m)._parents := fun m => by
        rw [m1.parents m, hp m]
      have m2 := ih h1 h' hp1 hu
      intro m
      constructor
      · rintro ⟨q, hq, hreach⟩
        by_cases hrest : ∃ p ∈ ps, Relation.ReflTransGen (parentStep h0) p m
        · rw [(m2 m).1 hrest]
          by_cases hpm : Relation.ReflTransGen (parentStep h0) p m
          · rw [(m1 m).1 hpm]
          · rw [(m1 m).2 hpm]
        · rw [(m2 m).2 hrest]
          have : q = p := by
            rcases List.mem_cons.1 hq with h | h
            · exact h
            · exact absurd ⟨q, h, hreach⟩ hrest
          subst this
          exact (m1 m).1 hreach
      · intro hno
        have hrest : ¬ ∃ p ∈ ps, Relation.ReflTransGen (parentStep h0) p m := by
          rintro ⟨q, hq, hr⟩
          exact hno ⟨q, List.mem_cons_of_mem _ hq, hr⟩
        have hpm : ¬ Relation.ReflTransGen (parentStep h0) p m := by
          intro hr
          exact hno ⟨p, List.mem_cons_self _ _, hr⟩
        rw [(m2 m).2 hrest, (m1 m).2 hpm]

theorem update_marked (h0 : Heap P E) :
    ∀ (fuel n : Nat) (h h' : Heap P E), (∀ m, (h m)._parents = (h0 m)._parents) →
      update fuel n h = some h' → MarkedOn (Relation.ReflTransGen (parentStep h0) n) h h' := by
  intro fuel
  induction fuel with
  | zero => intro n h h' _ hu; simp [update] at hu
  | succ fuel ih =>
    intro n h h' hp hu
    simp only [update] at hu
    split at hu
    · simp at hu
    · next h1 h1eq =>
      simp only [Option.some.injEq] at hu
      subst hu
      rw [hp n] at h1eq
      have m1 := updateParents_marked (update fuel) h0 (fun p h h' hp hu => ih p h h' hp hu)
        _ h h1 hp h1eq
      intro m
      by_cases hmn : m = n
      · subst hmn
        refine ⟨fun _ => ?_, fun hno => absurd Relation.ReflTransGen.refl hno⟩
        simp only [Heap.setChanged, Heap.set, if_true]
        by_cases hs : ∃ p ∈ (h0 m)._parents, Relation.ReflTransGen (parentStep h0) p m
        · rw [(m1 m).1 hs]
        · rw [(m1 m).2 hs]
      · have hiff : Relation.ReflTransGen (parentStep h0) n m ↔
            ∃ p ∈ (h0 n)._parents, Relation.ReflTransGen (parentStep h0) p m := by
          constructor
          · intro hr
            rcases Relation.ReflTransGen.cases_head hr with h | ⟨c, hc, hr'⟩
            · exact absurd h.symm hmn
            · exact ⟨c, hc, hr'⟩
          · rintro ⟨p, hp, hr⟩
            exact Relation.ReflTransGen.head hp hr
        simp only [Heap.setChanged, Heap.set, hmn, if_false]
        constructor
        · intro hr; exact (m1 m).1 (hiff.1 hr)
        · intro hr; exact (m1 m).2 (fun hx => hr (hiff.2 hx))

theorem updateParents_mono (upd upd' : Nat → Heap P E → Option (Heap P E))
    (hmono : ∀ p h h', upd p h = some h' → upd' p h = some h') :
    ∀ (ps : List Nat) (h h' : Heap P E), updateParents upd ps h = some h' →
      updateParents upd' ps h = some h' := by
  intro ps
  induction ps with
  | nil => intro h h' hu; simpa [updateParents] using hu
  | cons p ps ih =>
    intro h h' hu
    simp only [updateParents] at hu ⊢
    split at hu
    · simp at hu
    · next h1 h1eq =>
      rw [hmono p h h1 h1eq]
      exact ih h1 h' hu

theorem update_succ_fuel :
    ∀ (fuel n : Nat) (h h' : Heap P E), update fuel n h = some h' →
      update (fuel + 1) n h = some h' := by
  intro fuel
  induction fuel with
  | zero => intro n h h' hu; simp [update] at hu
  | succ fuel ih =>
    intro n h h' hu
    simp only [update] at hu
    split at hu
    · simp at hu
    · next h1 h1eq =>
      have := updateParents_mono (update fuel) (update (fuel + 1)) (ih) _ h h1 h1eq
      rw [update, this]
      exact hu

theorem update_more_fuel (fuel k n : Nat) (h h' : Heap P E) (hu : update fuel n h = some h') :
    update (fuel + k) n h = some h' := by
  induction k with
  | zero => exact hu
  | succ k ih => exact update_succ_fuel _ n h h' ih

theorem update_le_fuel {fuel fuel' : Nat} (hle : fuel ≤ fuel') (n : Nat) (h h' : Heap P E)
    (hu : update fuel n h = some h') : update fuel' n h = some h' := by
  obtain ⟨k, rfl⟩ := Nat.exists_eq_add_of_le hle
  exact update_more_fuel fuel k n h h' hu

theorem updateParents_terminates (h0 : Heap P E) (ps : List Nat)
    (hps : ∀ p ∈ ps, ∃ fuel, ∀ h : Heap P E, (∀ m, (h m)._parents = (h0 m)._parents) →
      ∃ h', update fuel p h = some h') :
    ∃ fuel, ∀ h : Heap P E, (∀ m, (h m)._parents = (h0 m)._parents) →
      ∃ h', updateParents (update fuel) ps h = some h' := by
  induction ps with
  | nil => exact ⟨0, fun h _ => ⟨h, rfl⟩⟩
  | cons p ps ih =>
    obtain ⟨f1, hf1⟩ := hps p (List.mem_cons_self _ _)
    obtain ⟨f2, hf2⟩ := ih (fun q hq => hps q (List.mem_cons_of_mem _ hq))
    refine ⟨max f1 f2, fun h hp => ?_⟩
    obtain ⟨h1, h1eq⟩ := hf1 h hp
    have h1eq' := update_le_fuel (le_max_left f1 f2) p h h1 h1eq
    have hp1 : ∀ m, (h1 m)._parents = (h0 m)._parents := fun m => by
      rw [(update_marked h0 f1 p h h1 hp h1eq).parents m, hp m]
    obtain ⟨h2, h2eq⟩ := hf2 h1 hp1
    refine ⟨h2, ?_⟩
    simp only [updateParents, h1eq']
    exact updateParents_mono (update f2) (update (max f1 f2))
      (fun q g g' hg => update_le_fuel (le_max_right f1 f2) q g g' hg) ps h1 h2 h2eq

theorem update_terminates (h0 : Heap P E)
    (hwf : WellFounded (fun p m => parentStep h0 m p)) (n : Nat) :
    ∃ fuel, ∀ h : Heap P E, (∀ m, (h m)._parents = (h0 m)._parents) →
      ∃ h', update fuel n h = some h' := by
  induction n using hwf.induction with
  | _ n ih =>
    obtain ⟨f, hf⟩ := updateParents_terminates h0 (h0 n)._parents (fun p hp => ih p hp)
    refine ⟨f + 1, fun h hp => ?_⟩
    obtain ⟨h1, h1eq⟩ := hf h hp
    exact ⟨h1.setChanged n true, by simp only [update, hp n, h1eq]⟩

/-- In a store whose parent references all point below `N`, a parent relation without
cycles is well founded. -/
theorem parent_wf_of_acyclic (h : Heap P E) (N : Nat)
    (hfin : ∀ m p, p ∈ (h m)._parents → p < N)
    (hacyc : ∀ m, ¬ Relation.TransGen (parentStep h) m m) :
    WellFounded (fun p m => parentStep h m p) := by
  let T : Fin N → Fin N → Prop := fun a b => Relation.TransGen (parentStep h) b.val a.val
  haveI : IsTrans (Fin N) T := ⟨fun a b c hab hbc => Relation.TransGen.trans hbc hab⟩
  haveI : IsIrrefl (Fin N) T := ⟨fun a ha => hacyc a.val ha⟩
  have hT : WellFounded T := Finite.wellFounded_of_trans_of_irrefl T
  have hlow : ∀ a : Fin N, Acc (fun p m => parentStep h m p) a.val := by
    intro a
    induction a using hT.induction with
    | _ a ih =>
      refine Acc.intro _ (fun p hp => ?_)
      exact ih ⟨p, hfin _ _ hp⟩ (Relation.TransGen.single hp)
  refine ⟨fun n => Acc.intro _ (fun p hp => ?_)⟩
  exact hlow ⟨p, hfin _ _ hp⟩

/-- A store in which every parent reference points to a smaller address has no cycle of
parent references. -/
theorem acyclic_of_parents_lt (h : Heap P E) (hlt : ∀ a b, parentStep h a b → b < a) :
    ∀ m, ¬ Relation.TransGen (parentStep h) m m := by
  have key : ∀ a b, Relation.TransGen (parentStep h) a b → b < a := by
    intro a b hab
    induction hab with
    | single hs => exact hlt _ _ hs
    | tail _ hs ih => exact lt_trans (hlt _ _ hs) ih
  intro m hm
  exact lt_irrefl m (key m m hm)

/-- C1: in a store whose parent references all point below `N` and form no cycle, `update()`
on any node `n` terminates (it returns for some fuel and for every larger one) whatever the
flags were; afterwards `_changed` is true on `n` and on every node reachable from `n`
through parent back-references, and every other node is exactly as before. -/
theorem update_marks_exactly_ancestors (h : Heap P E) (N : Nat)
    (hfin : ∀ m p, p ∈ (h m)._parents → p < N)
    (hacyc : ∀ m, ¬ Relation.TransGen (parentStep h) m m) (n : Nat) :
    ∃ fuel h', (∀ k, update (fuel + k) n h = some h') ∧
      ∀ m, (Relation.ReflTransGen (parentStep h) n m → h' m = { h m with _changed := true }) ∧
        (¬ Relation.ReflTransGen (parentStep h) n m → h' m = h m) := by
  obtain ⟨fuel, hf⟩ := update_terminates h (parent_wf_of_acyclic h N hfin hacyc) n
  obtain ⟨h', hu⟩ := hf h (fun _ => rfl)
  exact ⟨fuel, h', fun k => update_more_fuel fuel k n h h' hu,
    update_marked h fuel n h h' (fun _ => rfl) hu⟩

theorem addTree_parents_lt (x y : ℚ) : ∀ a b, parentStep (addTree x y) a b → b < a := by
  intro a b hab
  match a with
  | 0 => simp [parentStep, addTree] at hab
  | 1 => simp [parentStep, addTree, leafNode] at hab; omega
  | 2 => simp [parentStep, addTree, leafNode] at hab; omega
  | k + 3 => simp [parentStep, addTree, leafNode] at hab

/-- Witness for C1: `update()` on `leafX` of `head = Add(leafX, leafY)`. -/
theorem update_marks_exactly_ancestors_witness :
    ∃ fuel h', (∀ k, update (fuel + k) 1 (addTree 2 3) = some h') ∧
      ∀ m, (Relation.ReflTransGen (parentStep (addTree 2 3)) 1 m →
          h' m = { addTree 2 3 m with _changed := true }) ∧
        (¬ Relation.ReflTransGen (parentStep (addTree 2 3)) 1 m → h' m = addTree 2 3 m) :=
  update_marks_exactly_ancestors (addTree 2 3) 3
    (fun m p hp => lt_of_lt_of_le (addTree_parents_lt 2 3 m p hp) (by
      match m with
      | 0 => simp [addTree] at hp
      | 1 => omega
      | 2 => omega
      | k + 3 => simp [addTree, leafNode] at hp))
    (acyclic_of_parents_lt _ (addTree_parents_lt 2 3)) 1

/-! ## `recalculate`: leaves and the final flag -/

/-- C3: on a node without children `recalculate()` returns without error for every positive
fuel, invokes no operation (the trace gains only the entry and the return of this call),
leaves every slot of every node as it was and ends with `_changed = false` on the node. -/
theorem recalculate_leaf (fuel n : Nat) (s : State P E) (hleaf : (s.nodes n)._children = []) :
    ∃ s', recalculate (fuel + 1) n s = some (.ok (), s') ∧
      s'.trace = s.trace ++ [.enter n, .leave n] ∧
      (∀ m, (s'.nodes m)._parameters = (s.nodes m)._parameters) ∧
      (s'.nodes n)._changed = false := by
  refine ⟨{ nodes := s.nodes.setChanged n false, trace := s.trace ++ [.enter n, .leave n] },
    ?_, rfl, ?_, ?_⟩
  · simp [recalculate, State.log, hleaf]
  · intro m
    by_cases hm : m = n
    · subst hm; simp [Heap.setChanged, Heap.set]
    · simp [Heap.setChanged, Heap.set, hm]
  · simp [Heap.setChanged, Heap.set]

/-- Witness for C3: `recalculate()` on `leafX` of `head = Add(leafX, leafY)`. -/
theorem recalculate_leaf_witness :
    ∃ s', recalculate (0 + 1) 1 ⟨addTree 2 3, []⟩ = some (.ok (), s') ∧
      s'.trace = [] ++ [.enter 1, .leave 1] ∧
      (∀ m, (s'.nodes m)._parameters = (addTree 2 3 m)._parameters) ∧
      (s'.nodes 1)._changed = false :=
  recalculate_leaf 0 1 ⟨addTree 2 3, []⟩ rfl

/-- C2: when `recalculate()` on a node that has at least one child returns without error,
the node's `_changed` flag is false, whatever it was before. -/
theorem recalculate_ok_clears_changed (fuel n : Nat) (s s' : State P E)
    (hch : (s.nodes n)._children ≠ [])
    (h : recalculate fuel n s = some (.ok (), s')) :
    (s'.nodes n)._changed = false := by
  cases fuel with
  | zero => simp [recalculate] at h
  | succ fuel =>
    have hlen : ¬ (s.nodes n)._children.length < 1 := by
      cases hc : (s.nodes n)._children with
      | nil => exact absurd hc hch
      | cons a l => simp
    simp only [recalculate, State.log, hlen, if_false] at h
    unfold recalcFinish at h
    split at h
    · simp at h
    · simp at h
    · simp only [Option.some.injEq, Prod.mk.injEq, true_and] at h
      subst h
      simp [Heap.setChanged, Heap.set]

/-- Witness for C2: `recalculate()` on the head of `head = Add(leafX = 2, leafY = 3)`. -/
theorem recalculate_ok_clears_changed_witness :
    ((stateAfter (recalculate 2 0 ⟨addTree 2 3, []⟩) ⟨addTree 2 3, []⟩).nodes 0)._changed
      = false :=
  recalculate_ok_clears_changed 2 0 ⟨addTree 2 3, []⟩ _ (by simp [addTree]) rfl

/-! ## Shape of the graph -/

theorem SameShape.rfl' (s : State P E) : SameShape s s := fun _ => ⟨rfl, rfl, rfl, rfl, rfl⟩

theorem SameShape.trans' {s t u : State P E} (h1 : SameShape s t) (h2 : SameShape t u) :
    SameShape s u := by
  intro m
  obtain ⟨a1, a2, a3, a4, a5⟩ := h1 m
  obtain ⟨b1, b2, b3, b4, b5⟩ := h2 m
  exact ⟨b1.trans a1, b2.trans a2, b3.trans a3, b4.trans a4, b5.trans a5⟩

theorem sameShape_setChanged (s : State P E) (n : Nat) (b : Bool) (tr : List (Event P E)) :
    SameShape s { nodes := s.nodes.setChanged n b, trace := tr } := by
  intro m
  by_cases hm : m = n
  · subst hm; simp [Heap.setChanged, Heap.set]
  · simp [Heap.setChanged, Heap.set, hm]

theorem sameShape_setParameter (s : State P E) (n i : Nat) (p : P) (tr : List (Event P E)) :
    SameShape s { nodes := s.nodes.setParameter n i p, trace := tr } := by
  intro m
  by_cases hm : m = n
  · subst hm; simp [Heap.setParameter, Heap.set]
  · simp [Heap.setParameter, Heap.set, hm]

theorem sameShape_stepClosed : StepClosed (fun _ (s t : State P E) => SameShape s t) where
  refl := SameShape.rfl'
  seq := fun _ _ _ _ h1 h2 => h1.trans' h2
  exec := fun s n ele _ _ _ => sameShape_setParameter s n ele _ _
  range := SameShape.rfl'
  mismatch := fun s _ => SameShape.rfl' s
  enter := fun s _ => SameShape.rfl' s
  leave := fun s n => sameShape_setChanged s n false _

/-- A call of `recalculate` never changes names, strategies, edges or numbers of slots. -/
theorem recalculate_sameShape (fuel n : Nat) (s : State P E) r s'
    (h : recalculate fuel n s = some (r, s')) : SameShape s s' :=
  recalculate_closed sameShape_stepClosed fuel n s r s' h

/-! ## Single-slot nodes -/

theorem addParameters_eq (newVals : ParameterList P) (ps : List P) :
    addParameters newVals ps = newVals ++ ps := by
  induction ps generalizing newVals with
  | nil => simp [addParameters]
  | cons p ps ih =>
    have := ih (newVals.addParameter p)
    simp only [addParameters, List.foldl_cons] at this ⊢
    rw [this]
    simp [ParameterList.addParameter]

theorem recalcChildren_of_exposed (rec : Nat → State P E → Res P E Unit) :
    ∀ (cs : List Nat) (acc vals : ParameterList P) (s t : State P E),
      exposedInOrder rec cs s = some (vals, t) →
      recalcChildren rec cs acc s = some (.ok (acc ++ vals), t) := by
  intro cs
  induction cs with
  | nil =>
    intro acc vals s t h
    simp only [exposedInOrder, Option.some.injEq, Prod.mk.injEq] at h
    obtain ⟨rfl, rfl⟩ := h
    simp [recalcChildren]
  | cons c cs ih =>
    intro acc vals s t h
    simp only [exposedInOrder] at h
    split at h
    · next s1 hc =>
      split at h
      · next vals2 s2 hrest =>
        simp only [Option.some.injEq, Prod.mk.injEq] at h
        obtain ⟨rfl, rfl⟩ := h
        simp only [recalcChildren, hc]
        rw [ih _ _ _ _ hrest, addParameters_eq]
        simp [TreeNode.parameters]
      · simp at h
    · simp at h

theorem exposedInOrder_sameShape (fuel : Nat) :
    ∀ (cs : List Nat) (vals : ParameterList P) (s t : State P E),
      exposedInOrder (recalculate fuel) cs s = some (vals, t) → SameShape s t := by
  intro cs vals s t h
  have := recalcChildren_of_exposed (recalculate fuel) cs [] vals s t h
  exact recalcChildren_closed (sameShape_stepClosed.loop 0) (recalculate fuel) cs
    (fun c _ s r s' hc => recalculate_sameShape fuel c s r s' hc) [] s _ t this

/-- C4 (as amended): for a node `n` with exactly one slot and at least one child, whose
children all recompute without error, `recalculate()` invokes the operation of `n` exactly
once: after the last child has returned, the only events it adds are one `execute` for
output slot 0,
whose inputs are the concatenation, in child order, of the slots each child exposes after
its own recomputation, and (when the operation does not throw) the return.  With the adding
operation and leaves 2 and 3 the slot of the head becomes 5; after `leafX` is set to 10
and `update()` is called on it, a further `recalculate()` makes it 13. -/
theorem recalculate_single_slot :
    (∀ (P E : Type) (fuel n : Nat) (s t : State P E) (vals : ParameterList P),
      (s.nodes n)._children ≠ [] → (s.nodes n)._parameters.length = 1 →
      exposedInOrder (recalculate fuel) (s.nodes n)._children (s.log (.enter n))
        = some (vals, t) →
      ∃ out, (t.nodes n)._parameters = [out] ∧
        recalculate (fuel + 1) n s = some
          (match ((s.nodes n)._strat.execute vals out).1 with
            | none => (.ok (),
                { nodes := (t.nodes.setParameter n 0
                    ((s.nodes n)._strat.execute vals out).2).setChanged n false,
                  trace := t.trace ++ [.execute n 0 vals none, .leave n] })
            | some e => (.error (.thrown e),
                { nodes := t.nodes.setParameter n 0 ((s.nodes n)._strat.execute vals out).2,
                  trace := t.trace ++ [.execute n 0 vals (some e)] }))) ∧
    (∃ s1 h2 s3, recalculate 2 0 ⟨addTree 2 3, []⟩ = some (.ok (), s1) ∧
      (s1.nodes 0)._parameters = [⟨"head", 5⟩] ∧
      update 2 1 (setLeafValue s1.nodes 1 10) = some h2 ∧
      recalculate 2 0 ⟨h2, s1.trace⟩ = some (.ok (), s3) ∧
      (s3.nodes 0)._parameters = [⟨"head", 13⟩]) := by
  constructor
  · intro P E fuel n s t vals hch hdim hexp
    have hshape := exposedInOrder_sameShape fuel _ vals _ t hexp n
    have hlen : (t.nodes n)._parameters.length = 1 := by
      rw [hshape.2.2.2.2]; exact hdim
    obtain ⟨out, hout⟩ := List.length_eq_one.1 hlen
    refine ⟨out, hout, ?_⟩
    have hnl : ¬ (s.nodes n)._children.length < 1 := by
      cases hc : (s.nodes n)._children with
      | nil => exact absurd hc hch
      | cons a l => simp
    have hstrat : (t.nodes n)._strat = (s.nodes n)._strat := hshape.2.1
    have hrc := recalcChildren_of_exposed (recalculate fuel) _ [] vals _ t hexp
    simp only [State.log] at hrc
    simp only [recalculate, State.log, hnl, if_false, recalcBody, hdim, if_true, hrc,
      List.nil_append, callStrategy, TreeNode.parameter, hout, List.get?, hstrat]
    cases hr : ((s.nodes n)._strat.execute vals out).1 with
    | none => simp [recalcFinish]
    | some e => simp [recalcFinish]
  · refine ⟨stateAfter (recalculate 2 0 ⟨addTree 2 3, []⟩) ⟨addTree 2 3, []⟩, _, _,
      rfl, ?_, rfl, rfl, ?_⟩
    · simp [stateAfter, recalculate, recalcBody, recalcFinish, recalcChildren, callStrategy,
        State.log, addTree, leafNode, Heap.setChanged, Heap.set, Heap.setParameter,
        TreeNode.parameter, TreeNode.parameters, addParameters, ParameterList.addParameter,
        addAll, Value.setValue, Value.value]
      norm_num
    · simp [stateAfter, recalculate, recalcBody, recalcFinish, recalcChildren, callStrategy,
        State.log, addTree, leafNode, Heap.setChanged, Heap.set, Heap.setParameter,
        TreeNode.parameter, TreeNode.parameters, addParameters, ParameterList.addParameter,
        addAll, Value.setValue, Value.value, update, updateParents, setLeafValue]
      norm_num

/-- Witness for C4: the head of `head = Add(leafX = 2, leafY = 3)`. -/
theorem recalculate_single_slot_witness :
    ∃ out, (((addTree 2 3).setChanged 1 false).setChanged 2 false 0)._parameters = [out] ∧
      (recalculate (1 + 1) 0 ⟨addTree 2 3, []⟩).map (fun x => errOf x.1) = some none :=
  let ⟨out, h1, h2⟩ := recalculate_single_slot.1 (Value ℚ) String 1 0 ⟨addTree 2 3, []⟩
    ⟨((addTree 2 3).setChanged 1 false).setChanged 2 false,
      [.enter 0, .enter 1, .leave 1, .enter 2, .leave 2]⟩
    [⟨"leafX", 2⟩, ⟨"leafY", 3⟩] (by simp [addTree]) rfl rfl
  ⟨out, h1, by rw [h2]; rfl⟩

/-! ## Multi-slot nodes -/

/-- C5 (behaviour of the code): a 3-slot node with a child of dimension 1 holding `v` and a
child of dimension 3 holding `[a, b, c]` does not compute `[v+a, v+b, v+c]`: the dimension
test is taken by the child whose dimension equals that of the node, `recalculate()` throws
"Dimension of child nodes does not match" in its first round and no slot is written. -/
theorem recalculate_matching_dimension_throws (v a b c : ℚ) :
    (recalculate 2 0 ⟨vectorTree v [⟨"a", a⟩, ⟨"b", b⟩, ⟨"c", c⟩], []⟩).map
        (fun x => (x.1, (x.2.nodes 0)._parameters)) =
      some (.error (.runtime_error
          "TreeNode::Recalculate() | Dimension of child nodes does not match"),
        [⟨"h0", 0⟩, ⟨"h1", 0⟩, ⟨"h2", 0⟩]) := by
  simp [recalculate, recalcBody, recalcFinish, recalcElements, recalcChildrenEle,
    callStrategy, State.log, vectorTree, leafNode, Heap.setChanged, Heap.set,
    Heap.setParameter, TreeNode.parameter, TreeNode.dimension, ParameterList.addParameter]

/-- C7 (behaviour of the code): a 3-slot node with a child whose dimension is neither 1 nor
3 does not throw the dimension-mismatch error.  With a child of dimension 2 holding `[a, b]`
slots 0 and 1 are computed and written, and the third round throws `std::out_of_range` from
`parameter(2)`; with a child of dimension 4 the call returns without error. -/
theorem recalculate_mismatch_not_rejected (v a b c d : ℚ) :
    (recalculate 2 0 ⟨vectorTree v [⟨"a", a⟩, ⟨"b", b⟩], []⟩).map
        (fun x => (x.1, (x.2.nodes 0)._parameters)) =
      some (.error .out_of_range, [⟨"h0", v + a⟩, ⟨"h1", v + b⟩, ⟨"h2", 0⟩]) ∧
    (recalculate 2 0 ⟨vectorTree v [⟨"a", a⟩, ⟨"b", b⟩, ⟨"c", c⟩, ⟨"d", d⟩], []⟩).map
        (fun x => (x.1, (x.2.nodes 0)._parameters)) =
      some (.ok (), [⟨"h0", v + a⟩, ⟨"h1", v + b⟩, ⟨"h2", v + c⟩]) := by
  constructor <;>
  simp [recalculate, recalcBody, recalcFinish, recalcElements, recalcChildrenEle,
    callStrategy, State.log, vectorTree, leafNode, Heap.setChanged, Heap.set,
    Heap.setParameter, TreeNode.parameter, TreeNode.dimension, ParameterList.addParameter,
    sumTwo, Value.setValue, Value.value]

theorem recalcChildrenEle_sameShape (fuel n ele : Nat) (cs : List Nat)
    (vals : ParameterList P) (s : State P E) r s'
    (h : recalcChildrenEle (recalculate fuel) n ele cs vals s = some (r, s')) :
    SameShape s s' :=
  recalcChildrenEle_closed (sameShape_stepClosed.loop n) (recalculate fuel) ele cs
    (fun c _ s r s' hc => recalculate_sameShape fuel c s r s' hc) vals s r s' h

theorem callStrategy_ok (n ele : Nat) (vals : ParameterList P) (s s2 : State P E)
    (h : callStrategy n ele vals s = (.ok (), s2)) :
    ∃ out, (s.nodes n)._parameters.get? ele = some out ∧
      ((s.nodes n)._strat.execute vals out).1 = none ∧
      s2 = { nodes := s.nodes.setParameter n ele ((s.nodes n)._strat.execute vals out).2,
             trace := s.trace ++ [.execute n ele vals none] } := by
  unfold callStrategy TreeNode.parameter at h
  cases hget : (s.nodes n)._parameters.get? ele with
  | none => rw [hget] at h; simp at h
  | some out =>
    rw [hget] at h
    simp only at h
    cases hr : ((s.nodes n)._strat.execute vals out).1 with
    | none =>
      simp only [hr, Prod.mk.injEq, true_and] at h
      exact ⟨out, rfl, hr, h.symm⟩
    | some e => simp [hr] at h

theorem recalcChildrenEle_scalar (fuel n ele : Nat) :
    ∀ (cs : List Nat) (acc vals : ParameterList P) (s s1 : State P E),
      (∀ c ∈ cs, (s.nodes c)._parameters.length = 1) →
      recalcChildrenEle (recalculate fuel) n ele cs acc s = some (.ok vals, s1) →
      ∃ vals', singleSlotsInOrder (recalculate fuel) cs s = some (vals', s1) ∧
        vals = acc ++ vals' := by
  intro cs
  induction cs with
  | nil =>
    intro acc vals s s1 _ h
    simp only [recalcChildrenEle, Option.some.injEq, Prod.mk.injEq, Except.ok.injEq] at h
    obtain ⟨rfl, rfl⟩ := h
    exact ⟨[], rfl, by simp⟩
  | cons c cs ih =>
    intro acc vals s s1 hdim h
    simp only [recalcChildrenEle] at h
    split at h
    · simp at h
    · simp at h
    · next s2 hc =>
      have hsh := recalculate_sameShape fuel c s _ s2 hc
      have hlen : (s2.nodes c)._parameters.length = 1 := by
        rw [(hsh c).2.2.2.2]; exact hdim c (List.mem_cons_self _ _)
      obtain ⟨p, hp⟩ := List.length_eq_one.1 hlen
      have hdim2 : ∀ d ∈ cs, (s2.nodes d)._parameters.length = 1 := fun d hd => by
        rw [(hsh d).2.2.2.2]; exact hdim d (List.mem_cons_of_mem _ hd)
      simp only [TreeNode.dimension, hlen, if_true, TreeNode.parameter, hp, List.get?] at h
      obtain ⟨vals', hv, rfl⟩ := ih _ _ _ _ hdim2 h
      refine ⟨p :: vals', ?_, by simp [ParameterList.addParameter]⟩
      simp only [singleSlotsInOrder, hc, hp, hv]

theorem recalcElements_scalar (fuel n : Nat) (cs : List Nat) :
    ∀ (todo ele : Nat) (s t : State P E),
      (∀ c ∈ cs, (s.nodes c)._parameters.length = 1) →
      recalcElements (recalculate fuel) n cs todo ele s = some (.ok (), t) →
      ScalarBroadcast (recalculate fuel) n cs ele todo s t := by
  intro todo
  induction todo with
  | zero =>
    intro ele s t _ h
    simp only [recalcElements, Option.some.injEq, Prod.mk.injEq, true_and] at h
    subst h
    exact ScalarBroadcast.done ele s
  | succ todo ih =>
    intro ele s t hdim h
    simp only [recalcElements] at h
    split at h
    · simp at h
    · simp at h
    · next vals s1 hc =>
      have hsh := recalcChildrenEle_sameShape fuel n ele cs [] s _ s1 hc
      obtain ⟨vals', hv, hveq⟩ := recalcChildrenEle_scalar fuel n ele cs [] vals s s1 hdim hc
      rw [List.nil_append] at hveq
      subst hveq
      split at h
      · simp at h
      · next s2 hcs =>
        obtain ⟨out, hget, hnone, rfl⟩ := callStrategy_ok n ele _ s1 s2 hcs
        have hdim2 : ∀ c ∈ cs, ((Heap.setParameter s1.nodes n ele
            ((s1.nodes n)._strat.execute vals out).2) c)._parameters.length = 1 := by
          intro c hcm
          have := (sameShape_setParameter s1 n ele
            ((s1.nodes n)._strat.execute vals out).2 []) c
          rw [this.2.2.2.2, (hsh c).2.2.2.2]
          exact hdim c hcm
        exact ScalarBroadcast.round ele todo s s1 t vals out hv hget hnone (ih _ _ _ hdim2 h)

theorem recalcChildrenEle_of_single (rec : Nat → State P E → Res P E Unit) (n ele : Nat) :
    ∀ (cs : List Nat) (acc vals : ParameterList P) (s s1 : State P E),
      singleSlotsInOrder rec cs s = some (vals, s1) →
      recalcChildrenEle rec n ele cs acc s = some (.ok (acc ++ vals), s1) := by
  intro cs
  induction cs with
  | nil =>
    intro acc vals s s1 h
    simp only [singleSlotsInOrder, Option.some.injEq, Prod.mk.injEq] at h
    obtain ⟨rfl, rfl⟩ := h
    simp [recalcChildrenEle]
  | cons c cs ih =>
    intro acc vals s s1 h
    simp only [singleSlotsInOrder] at h
    split at h
    · next s2 hc =>
      split at h
      · next p vals' s3 hp hrest =>
        simp only [Option.some.injEq, Prod.mk.injEq] at h
        obtain ⟨rfl, rfl⟩ := h
        simp only [recalcChildrenEle, hc, TreeNode.dimension, hp, List.length_singleton,
          if_true, TreeNode.parameter, List.get?]
        rw [ih _ _ _ _ hrest]
        simp [ParameterList.addParameter]
      · simp at h
    · simp at h

theorem recalcElements_of_broadcast (rec : Nat → State P E → Res P E Unit) (n : Nat)
    (cs : List Nat) (todo ele : Nat) (s t : State P E)
    (h : ScalarBroadcast rec n cs ele todo s t) :
    recalcElements rec n cs todo ele s = some (.ok (), t) := by
  induction h with
  | done ele s => simp [recalcElements]
  | round ele todo s s1 s' vals out hv hget hnone _ ih =>
    simp only [recalcElements, recalcChildrenEle_of_single rec n ele cs [] vals s s1 hv,
      List.nil_append, callStrategy, TreeNode.parameter, hget, hnone]
    exact ih

/-- C6 (as amended): for a node `n` with `N > 1` slots whose children all have dimension 1,
`recalculate()` returns without error exactly when the scalar broadcast goes through: for
each slot index 0, 1, ..., `N - 1`, in this order, the children are recomputed and the
operation of `n` is invoked once, with the single slot of every child in child order as
inputs and with that slot as output; the state it returns in is the one the broadcast ends
in, with `_changed = false` on `n`. -/
theorem recalculate_scalar_broadcast (fuel n : Nat) (s s' : State P E)
    (hch : (s.nodes n)._children ≠ [])
    (hN : 1 < (s.nodes n)._parameters.length)
    (hdim : ∀ c ∈ (s.nodes n)._children, (s.nodes c).dimension = 1) :
    recalculate (fuel + 1) n s = some (.ok (), s') ↔
      ∃ t, ScalarBroadcast (recalculate fuel) n (s.nodes n)._children 0
          (s.nodes n)._parameters.length (s.log (.enter n)) t ∧
        s' = { nodes := t.nodes.setChanged n false, trace := t.trace ++ [.leave n] } := by
  have hnl : ¬ (s.nodes n)._children.length < 1 := by
    cases hc : (s.nodes n)._children with
    | nil => exact absurd hc hch
    | cons a l => simp
  have hne : ¬ (s.nodes n)._parameters.length = 1 := by omega
  constructor
  · intro h
    simp only [recalculate, State.log, hnl, if_false, recalcBody, hne] at h
    unfold recalcFinish at h
    split at h
    · simp at h
    · simp at h
    · next t ht =>
      simp only [Option.some.injEq, Prod.mk.injEq, true_and] at h
      exact ⟨t, recalcElements_scalar fuel n _ _ _ _ t hdim ht, h.symm⟩
  · rintro ⟨t, hb, rfl⟩
    have := recalcElements_of_broadcast _ n _ _ _ _ t hb
    simp only [State.log] at this
    simp only [recalculate, State.log, hnl, if_false, recalcBody, hne, this, recalcFinish]

/-- Witness for C6: a 3-slot head over two children of dimension 1. -/
theorem recalculate_scalar_broadcast_witness :
    ∃ t, ScalarBroadcast (recalculate 1) 0 [1, 2] 0 3
        (State.log ⟨vectorTree 7 [⟨"w", 10⟩], []⟩ (.enter 0)) t ∧
      stateAfter (recalculate (1 + 1) 0 ⟨vectorTree 7 [⟨"w", 10⟩], []⟩)
          ⟨vectorTree 7 [⟨"w", 10⟩], []⟩ =
        { nodes := t.nodes.setChanged 0 false, trace := t.trace ++ [.leave 0] } :=
  (recalculate_scalar_broadcast 1 0 ⟨vectorTree 7 [⟨"w", 10⟩], []⟩ _
    (by simp [vectorTree]) (by simp [vectorTree])
    (by
      intro c hc
      simp [vectorTree] at hc
      rcases hc with rfl | rfl <;> simp [vectorTree, leafNode, TreeNode.dimension])).1
    rfl

/-! ## Exceptions -/

theorem noFailure_append {d1 d2 : List (Event P E)} (h1 : NoFailure d1) (h2 : NoFailure d2) :
    NoFailure (d1 ++ d2) := by
  intro ev hev
  rcases List.mem_append.1 hev with h | h
  · exact h1 ev h
  · exact h2 ev h

theorem failureLast_none {d : List (Event P E)} (h : FailureLast none d) : NoFailure d := by
  rcases h with h | ⟨_, _, _, _, _, _, _, hx⟩
  · exact h
  · simp at hx

theorem failureLast_stepClosed :
    StepClosed (fun x (s t : State P E) => ∃ d, t.trace = s.trace ++ d ∧ FailureLast x d) where
  refl := fun s => ⟨[], by simp, Or.inl (fun _ h => by simp at h)⟩
  seq := by
    rintro x s t u ⟨d1, h1, g1⟩ ⟨d2, h2, g2⟩
    refine ⟨d1 ++ d2, by rw [h2, h1, List.append_assoc], ?_⟩
    have n1 := failureLast_none g1
    rcases g2 with g2 | ⟨pre, m, ele, vals, e, hd, hpre, hx⟩
    · exact Or.inl (noFailure_append n1 g2)
    · refine Or.inr ⟨d1 ++ pre, m, ele, vals, e, ?_, noFailure_append n1 hpre, hx⟩
      rw [hd, List.append_assoc]
  exec := by
    intro s n ele vals out _
    refine ⟨_, rfl, ?_⟩
    cases hr : ((s.nodes n)._strat.execute vals out).1 with
    | none =>
      left
      intro ev hev
      simp only [List.mem_singleton] at hev
      subst hev
      rfl
    | some e =>
      right
      exact ⟨[], n, ele, vals, e, rfl, fun _ h => by simp at h, rfl⟩
  range := fun s => ⟨[], by simp, Or.inl (fun _ h => by simp at h)⟩
  mismatch := fun s _ => ⟨[], by simp, Or.inl (fun _ h => by simp at h)⟩
  enter := fun s n => ⟨[.enter n], rfl, Or.inl (fun ev hev => by
    simp only [List.mem_singleton] at hev
    subst hev
    rfl)⟩
  leave := fun s n => ⟨[.leave n], rfl, Or.inl (fun ev hev => by
    simp only [List.mem_singleton] at hev
    subst hev
    rfl)⟩

/-- C9: let `d` be the events of one call of `recalculate()` on a node `r` (entries,
returns and `execute` calls of `r` and of all nodes recomputed below it).  If the operation
of any of these nodes throws `e`, then that `execute` call is the last event of `d` (no
operation is invoked and no node returns after it: every node on the way up re-raises
without invoking its own operation, without retry or recovery), it is the only failing call,
and the call on `r` ends with this same exception `e`. -/
theorem recalculate_propagates_failure (fuel r : Nat) (s s' : State P E)
    (res : Except (Error E) Unit) (h : recalculate fuel r s = some (res, s')) :
    ∃ d, s'.trace = s.trace ++ d ∧
      ∀ pre post m ele vals e, d = pre ++ Event.execute m ele vals (some e) :: post →
        post = [] ∧ NoFailure pre ∧ res = .error (.thrown e) := by
  obtain ⟨d, hd, hg⟩ := recalculate_closed failureLast_stepClosed fuel r s res s' h
  refine ⟨d, hd, ?_⟩
  intro pre post m ele vals e hsplit
  have hmem : Event.execute m ele vals (some e) ∈ d := by
    rw [hsplit]; simp
  rcases hg with hg | ⟨pre', m', ele', vals', e', hd', hpre', hx⟩
  · have := hg _ hmem
    simp [Event.failure] at this
  · rw [hd'] at hsplit
    have hpost : post = [] := by
      by_contra hne
      obtain ⟨post', ev, hpe⟩ : ∃ post' ev, post = post' ++ [ev] :=
        ⟨post.dropLast, post.getLast hne, (List.dropLast_append_getLast hne).symm⟩
      rw [hpe, ← List.cons_append, ← List.append_assoc] at hsplit
      have := List.append_inj_left' hsplit rfl
      have hin : Event.execute m ele vals (some e) ∈ pre' := by rw [this]; simp
      have := hpre' _ hin
      simp [Event.failure] at this
    subst hpost
    have h1 := List.append_inj_left' hsplit rfl
    have h2 := List.append_inj_right' hsplit rfl
    simp only [List.cons.injEq, Event.execute.injEq, Option.some.injEq, and_true] at h2
    obtain ⟨_, _, _, rfl⟩ := h2
    subst h1
    refine ⟨rfl, hpre', ?_⟩
    cases res with
    | ok u => simp [errOf] at hx
    | error x => simp only [errOf, Option.some.injEq] at hx; rw [hx]

/-- Witness for C9: the operation of the child of the head throws. -/
theorem recalculate_propagates_failure_witness :
    ∃ d, (stateAfter (recalculate 3 0 ⟨failingChain true, []⟩) ⟨failingChain true, []⟩).trace
        = [] ++ d ∧
      ∀ pre post m ele vals e, d = pre ++ Event.execute m ele vals (some e) :: post →
        post = [] ∧ NoFailure pre ∧
          (Except.error (Error.thrown "failed") : Except (Error String) Unit)
            = .error (.thrown e) :=
  recalculate_propagates_failure 3 0 ⟨failingChain true, []⟩ _ _ rfl

/-! ## The flag of a node whose recomputation throws -/

theorem depth_congr (h h' : Heap P E)
    (hs : ∀ m, (h' m)._children = (h m)._children ∧
      (h' m)._parameters.length = (h m)._parameters.length) :
    ∀ f n, Depth h f n → Depth h' f n := by
  intro f
  induction f with
  | zero => intro n hd; exact hd
  | succ f ih =>
    intro n hd
    simp only [Depth] at hd ⊢
    rw [(hs n).1, (hs n).2]
    rcases hd with hd | hd | hd
    · exact Or.inl hd
    · exact Or.inr (Or.inl hd)
    · exact Or.inr (Or.inr (fun c hc => ih c (hd c hc)))

theorem depth_of_sameShape {s t : State P E} (hs : SameShape s t) (f n : Nat)
    (hd : Depth t.nodes f n) : Depth s.nodes f n := by
  refine depth_congr t.nodes s.nodes (fun m => ?_) f n hd
  exact ⟨(hs m).2.2.1.symm, (hs m).2.2.2.2.symm⟩

theorem depth_step {h : Heap P E} {f a b : Nat} (hd : Depth h f a) (hab : activeStep h a b) :
    ∃ f', f' < f ∧ Depth h f' b := by
  cases f with
  | zero => exact absurd hd (by simp [Depth])
  | succ f =>
    simp only [Depth] at hd
    rcases hd with hd | hd | hd
    · rw [activeStep, hd] at hab
      simp at hab
    · exact absurd hd hab.2
    · exact ⟨f, Nat.lt_succ_self f, hd b hab.1⟩

theorem depth_reach {h : Heap P E} {a b : Nat}
    (hab : Relation.ReflTransGen (activeStep h) a b) :
    ∀ f, Depth h f a → ∃ f', f' ≤ f ∧ Depth h f' b := by
  induction hab with
  | refl => intro f hd; exact ⟨f, le_refl f, hd⟩
  | tail _ hstep ih =>
    intro f hd
    obtain ⟨f1, hf1, hd1⟩ := ih f hd
    obtain ⟨f2, hf2, hd2⟩ := depth_step hd1 hstep
    exact ⟨f2, by omega, hd2⟩

/-- A node whose recomputation can return without error does not lie on a cycle of
recursive calls. -/
theorem depth_not_cyclic {h : Heap P E} :
    ∀ f n, Depth h f n → ¬ Relation.TransGen (activeStep h) n n := by
  intro f
  induction f using Nat.strong_induction_on with
  | _ f ih =>
    intro n hd hcyc
    obtain ⟨b, hnb, hbn⟩ := Relation.TransGen.head'_iff.1 hcyc
    obtain ⟨f1, hf1, hd1⟩ := depth_step hd hnb
    obtain ⟨f2, hf2, hd2⟩ := depth_reach hbn f1 hd1
    exact ih f2 (by omega) n hd2 hcyc

theorem recalcChildren_ok_each (fuel : Nat) :
    ∀ (cs : List Nat) (acc v : ParameterList P) (s s1 : State P E),
      recalcChildren (recalculate fuel) cs acc s = some (.ok v, s1) →
      ∀ c ∈ cs, ∃ t t', SameShape s t ∧ recalculate fuel c t = some (.ok (), t') := by
  intro cs
  induction cs with
  | nil => intro acc v s s1 _ c hc; simp at hc
  | cons c0 cs ih =>
    intro acc v s s1 h c hc
    simp only [recalcChildren] at h
    split at h
    · simp at h
    · simp at h
    · next s2 hc0 =>
      rcases List.mem_cons.1 hc with rfl | hmem
      · exact ⟨s, s2, SameShape.rfl' s, hc0⟩
      · obtain ⟨t, t', hst, ht⟩ := ih _ _ _ _ h c hmem
        exact ⟨t, t', (recalculate_sameShape fuel c0 s _ s2 hc0).trans' hst, ht⟩

theorem recalcChildrenEle_ok_each (fuel n ele : Nat) :
    ∀ (cs : List Nat) (acc v : ParameterList P) (s s1 : State P E),
      recalcChildrenEle (recalculate fuel) n ele cs acc s = some (.ok v, s1) →
      ∀ c ∈ cs, ∃ t t', SameShape s t ∧ recalculate fuel c t = some (.ok (), t') := by
  intro cs
  induction cs with
  | nil => intro acc v s s1 _ c hc; simp at hc
  | cons c0 cs ih =>
    intro acc v s s1 h c hc
    simp only [recalcChildrenEle] at h
    split at h
    · simp at h
    · simp at h
    · next s2 hc0 =>
      rcases List.mem_cons.1 hc with rfl | hmem
      · exact ⟨s, s2, SameShape.rfl' s, hc0⟩
      · have hsh := recalculate_sameShape fuel c0 s _ s2 hc0
        split at h
        · split at h
          · simp at h
          · obtain ⟨t, t', hst, ht⟩ := ih _ _ _ _ h c hmem
            exact ⟨t, t', hsh.trans' hst, ht⟩
        · split at h
          · split at h
            · simp at h
            · obtain ⟨t, t', hst, ht⟩ := ih _ _ _ _ h c hmem
              exact ⟨t, t', hsh.trans' hst, ht⟩
          · simp at h

/-- A call of `recalculate` that returns without error respects the depth bound given by
its fuel. -/
theorem depth_of_recalculate_ok :
    ∀ (fuel n : Nat) (s s' : State P E), recalculate fuel n s = some (.ok (), s') →
      Depth s.nodes fuel n := by
  intro fuel
  induction fuel with
  | zero => intro n s s' h; simp [recalculate] at h
  | succ fuel ih =>
    intro n s s' h
    simp only [recalculate, State.log] at h
    simp only [Depth]
    split at h
    · next hlt =>
      left
      exact List.length_eq_zero.1 (by omega)
    · right
      by_cases h0 : (s.nodes n)._parameters.length = 0
      · exact Or.inl h0
      · right
        have each : ∀ c ∈ (s.nodes n)._children, ∃ t t' : State P E,
            SameShape ⟨s.nodes, s.trace ++ [Event.enter n]⟩ t ∧
              recalculate fuel c t = some (.ok (), t') := by
          unfold recalcFinish at h
          split at h
          · simp at h
          · simp at h
          · next s1 hb =>
            unfold recalcBody at hb
            split at hb
            · split at hb
              · simp at hb
              · simp at hb
              · next vals s2 hcs => exact recalcChildren_ok_each fuel _ _ _ _ _ hcs
            · obtain ⟨k, hk⟩ := Nat.exists_eq_succ_of_ne_zero h0
              rw [hk] at hb
              simp only [recalcElements] at hb
              split at hb
              · simp at hb
              · simp at hb
              · next vals s2 hcs => exact recalcChildrenEle_ok_each fuel n 0 _ _ _ _ _ hcs
        intro c hc
        obtain ⟨t, t', hst, ht⟩ := each c hc
        exact @depth_of_sameShape P E ⟨s.nodes, s.trace ++ [Event.enter n]⟩ t hst fuel c
          (ih c t t' ht)

theorem activeStep_of_sameShape {s t : State P E} (hs : SameShape s t) :
    activeStep t.nodes = activeStep s.nodes := by
  funext a b
  simp only [activeStep, (hs a).2.2.1, (hs a).2.2.2.2]

theorem changed_setParameter (h : Heap P E) (n i : Nat) (p : P) (m : Nat) :
    ((h.setParameter n i p) m)._changed = (h m)._changed := by
  by_cases hm : m = n
  · subst hm; simp [Heap.setParameter, Heap.set]
  · simp [Heap.setParameter, Heap.set, hm]

/-- Inside the body of `recalculate` on `n`, a flag can only change on a node that is
reached through recursive calls from a child of `n` and whose own recomputation returned
without error. -/
theorem recalcBody_changed (fuel : Nat)
    (ih : ∀ (n : Nat) (s : State P E) r s', recalculate fuel n s = some (r, s') →
      ∀ m, (s'.nodes m)._changed ≠ (s.nodes m)._changed →
        Relation.ReflTransGen (activeStep s.nodes) n m ∧ ∃ f, Depth s.nodes f m)
    (n : Nat) (s0 : State P E) r s1 (hb : recalcBody (recalculate fuel) n s0 = some (r, s1))
    (m : Nat) (hm : (s1.nodes m)._changed ≠ (s0.nodes m)._changed) :
    (∃ c, activeStep s0.nodes n c ∧ Relation.ReflTransGen (activeStep s0.nodes) c m) ∧
      ∃ f, Depth s0.nodes f m := by
  by_cases h0 : (s0.nodes n)._parameters.length = 0
  · simp only [recalcBody, h0, Nat.zero_ne_one, if_false, recalcElements, Option.some.injEq,
      Prod.mk.injEq] at hb
    rw [hb.2] at hm
    exact absurd rfl hm
  · let Target : Nat → Prop := fun m =>
      (∃ c ∈ (s0.nodes n)._children, Relation.ReflTransGen (activeStep s0.nodes) c m) ∧
        ∃ f, Depth s0.nodes f m
    let Q : Option (Error E) → State P E → State P E → Prop := fun _ a b =>
      SameShape s0 a → SameShape s0 b ∧
        ∀ m, (b.nodes m)._changed ≠ (a.nodes m)._changed → Target m
    have hQ : LoopClosed n Q :=
      { refl := fun a hs => ⟨hs, fun m hd => absurd rfl hd⟩
        seq := by
          intro x a t u h1 h2 hs
          obtain ⟨hst, f1⟩ := h1 hs
          obtain ⟨hsu, f2⟩ := h2 hst
          refine ⟨hsu, fun m hd => ?_⟩
          by_cases hat : (t.nodes m)._changed = (a.nodes m)._changed
          · exact f2 m (by rw [hat]; exact hd)
          · exact f1 m hat
        exec := by
          intro a ele vals out _ hs
          refine ⟨hs.trans' (sameShape_setParameter a n ele _ _), fun m hd => ?_⟩
          exact absurd (changed_setParameter a.nodes n ele _ m) hd
        range := fun a hs => ⟨hs, fun m hd => absurd rfl hd⟩
        mismatch := fun a _ hs => ⟨hs, fun m hd => absurd rfl hd⟩ }
    have hrec : ∀ c ∈ (s0.nodes n)._children, ∀ (a : State P E) r b,
        recalculate fuel c a = some (r, b) → Q (errOf r) a b := by
      intro c hc a r b hcall hs
      refine ⟨hs.trans' (recalculate_sameShape fuel c a r b hcall), fun m hd => ?_⟩
      obtain ⟨hreach, f, hf⟩ := ih c a r b hcall m hd
      rw [activeStep_of_sameShape hs] at hreach
      exact ⟨⟨c, hc, hreach⟩, f, depth_of_sameShape hs f m hf⟩
    obtain ⟨_, hall⟩ := recalcBody_closed hQ (recalculate fuel) s0 hrec r s1 hb
      (SameShape.rfl' s0)
    obtain ⟨⟨c, hc, hreach⟩, hdepth⟩ := hall m hm
    exact ⟨⟨c, ⟨hc, h0⟩, hreach⟩, hdepth⟩

/-- A call of `recalculate` on `n` changes the flag only of nodes that are reached through
recursive calls from `n` and whose own recomputation returned without error. -/
theorem recalculate_changed :
    ∀ (fuel n : Nat) (s : State P E) r s', recalculate fuel n s = some (r, s') →
      ∀ m, (s'.nodes m)._changed ≠ (s.nodes m)._changed →
        Relation.ReflTransGen (activeStep s.nodes) n m ∧ ∃ f, Depth s.nodes f m := by
  intro fuel
  induction fuel with
  | zero => intro n s r s' h; simp [recalculate] at h
  | succ fuel ih =>
    intro n s r s' h m hm
    have h' := h
    simp only [recalculate, State.log] at h
    split at h
    · next hlt =>
      simp only [Option.some.injEq, Prod.mk.injEq] at h
      obtain ⟨_, rfl⟩ := h
      by_cases hmn : m = n
      · subst hmn
        refine ⟨Relation.ReflTransGen.refl, 1, ?_⟩
        simp only [Depth]
        exact Or.inl (List.length_eq_zero.1 (by omega))
      · simp [Heap.setChanged, Heap.set, hmn] at hm
    · unfold recalcFinish at h
      split at h
      · simp at h
      · next e s1 hb =>
        simp only [Option.some.injEq, Prod.mk.injEq] at h
        obtain ⟨_, rfl⟩ := h
        obtain ⟨⟨c, hstep, hreach⟩, hd⟩ := recalcBody_changed fuel ih n _ _ _ hb m hm
        exact ⟨Relation.ReflTransGen.head hstep hreach, hd⟩
      · next s1 hb =>
        simp only [Option.some.injEq, Prod.mk.injEq] at h
        obtain ⟨rfl, rfl⟩ := h
        by_cases hmn : m = n
        · subst hmn
          exact ⟨Relation.ReflTransGen.refl, fuel + 1, depth_of_recalculate_ok _ _ _ _ h'⟩
        · simp only [Heap.setChanged, Heap.set, hmn, if_false] at hm
          obtain ⟨⟨c, hstep, hreach⟩, hd⟩ := recalcBody_changed fuel ih n _ _ _ hb m hm
          exact ⟨Relation.ReflTransGen.head hstep hreach, hd⟩

/-- A call of `recalculate` that throws leaves the flag of the node it was called on as it
was before the call. -/
theorem recalculate_error_keeps_changed (fuel n : Nat) (s s' : State P E) (e : Error E)
    (h : recalculate fuel n s = some (.error e, s')) :
    (s'.nodes n)._changed = (s.nodes n)._changed := by
  by_contra hne
  cases fuel with
  | zero => simp [recalculate] at h
  | succ fuel =>
    simp only [recalculate, State.log] at h
    split at h
    · simp at h
    · unfold recalcFinish at h
      split at h
      · simp at h
      · next e1 s1 hb =>
        simp only [Option.some.injEq, Prod.mk.injEq] at h
        obtain ⟨_, rfl⟩ := h
        obtain ⟨⟨c, hstep, hreach⟩, f, hd⟩ :=
          recalcBody_changed fuel (recalculate_changed fuel) n _ _ _ hb n hne
        exact depth_not_cyclic f n hd (Relation.TransGen.head' hstep hreach)
      · simp at h

/-- C8 (as amended): when the `execute` call of the operation of a node with children throws
during `recalculate()`, the node's `_changed` flag is, when the exception reaches the
caller, what it was before the call. -/
theorem recalculate_own_failure_keeps_changed (fuel n ele : Nat) (s s' : State P E) (e : E)
    (vals : ParameterList P) (_hch : (s.nodes n)._children ≠ [])
    (h : recalculate fuel n s = some (.error (.thrown e), s'))
    (_hown : s'.trace.getLast? = some (.execute n ele vals (some e))) :
    (s'.nodes n)._changed = (s.nodes n)._changed :=
  recalculate_error_keeps_changed fuel n s s' _ h

/-- Witness for C8 (as amended): the throwing node of the chain, flag true before. -/
theorem recalculate_own_failure_keeps_changed_witness :
    ((stateAfter (recalculate 2 1 ⟨failingChain true, []⟩) ⟨failingChain true, []⟩).nodes 1)._changed
      = (failingChain true 1)._changed :=
  recalculate_own_failure_keeps_changed 2 1 0 ⟨failingChain true, []⟩ _ "failed"
    [⟨"x", 1⟩] (by simp [failingChain]) rfl rfl

/-- Counterexample to C8 as stated: the throwing node of the chain has children and its flag
is false before the call; its own `execute` call throws, and when the exception reaches
the caller the flag is still false. -/
theorem recalculate_own_failure_flag_false :
    ∃ s', (failingChain false 1)._children ≠ [] ∧
      recalculate 2 1 ⟨failingChain false, []⟩ = some (.error (.thrown "failed"), s') ∧
      s'.trace.getLast? = some (.execute 1 0 [⟨"x", 1⟩] (some "failed")) ∧
      (s'.nodes 1)._changed = false :=
  ⟨stateAfter (recalculate 2 1 ⟨failingChain false, []⟩) ⟨failingChain false, []⟩,
    by simp [failingChain], rfl, rfl, rfl⟩

/-! ## Idempotence of a stable recomputation -/

theorem SameShape.symm' {s t : State P E} (h : SameShape s t) : SameShape t s := by
  intro m
  obtain ⟨a1, a2, a3, a4, a5⟩ := h m
  exact ⟨a1.symm, a2.symm, a3.symm, a4.symm, a5.symm⟩

theorem replayPost_refl (a b : State P E) : ReplayPost a b a b :=
  ⟨SameShape.rfl' a, SameShape.rfl' b, fun _ _ => Or.inr ⟨rfl, rfl⟩⟩

theorem replayPost_trans {a b a1 b1 a2 b2 : State P E} (h1 : ReplayPost a b a1 b1)
    (h2 : ReplayPost a1 b1 a2 b2) : ReplayPost a b a2 b2 := by
  refine ⟨h1.1.trans' h2.1, h1.2.1.trans' h2.2.1, fun m i => ?_⟩
  rcases h2.2.2 m i with h | ⟨ha, hb⟩
  · exact Or.inl h
  · rcases h1.2.2 m i with h | ⟨ha1, hb1⟩
    · exact Or.inl (by rw [ha, hb, h])
    · exact Or.inr ⟨ha.trans ha1, hb.trans hb1⟩

theorem replayPost_agree {a b a' b' : State P E} (h : ReplayPost a b a' b') (m i : Nat)
    (hag : (a.nodes m)._parameters.get? i = (b.nodes m)._parameters.get? i) :
    (a'.nodes m)._parameters.get? i = (b'.nodes m)._parameters.get? i := by
  rcases h.2.2 m i with h | ⟨ha, hb⟩
  · exact h
  · rw [ha, hb, hag]

theorem replayPre_of_post {K : Type} {key : Nat → P → K} {a b a' b' : State P E}
    (hpre : ReplayPre key a b) (hpost : ReplayPost a b a' b') : ReplayPre key a' b' := by
  obtain ⟨hsh, htr, hleaf, hkey⟩ := hpre
  refine ⟨(hpost.1.symm'.trans' hsh).trans' hpost.2.1, ?_, ?_, ?_⟩
  · intro m ins o
    rw [(hpost.1 m).2.1]
    exact htr m ins o
  · intro m hm
    rw [(hpost.1 m).2.2.1] at hm
    apply List.ext_get?
    intro i
    exact (replayPost_agree hpost m i (by rw [hleaf m hm])).symm
  · intro m i
    rcases hpost.2.2 m i with h | ⟨ha, hb⟩
    · rw [h]
    · rw [ha, hb]
      exact hkey m i

theorem get?_setParameter (h : Heap P E) (n i : Nat) (p : P) (m j : Nat) :
    ((h.setParameter n i p) m)._parameters.get? j =
      if m = n ∧ j = i ∧ i < (h n)._parameters.length then some p
      else (h m)._parameters.get? j := by
  by_cases hm : m = n
  · subst hm
    simp only [Heap.setParameter, Heap.set, if_true, true_and, List.get?_eq_getElem?,
      List.getElem?_set]
    by_cases hij : i = j
    · subst hij
      by_cases hlt : i < (h m)._parameters.length
      · simp [hlt]
      · simp only [hlt, and_false, if_false, if_true]
        exact (List.getElem?_eq_none (by omega)).symm
    · have : ¬ j = i := fun hx => hij hx.symm
      simp [hij, this]
  · simp [Heap.setParameter, Heap.set, hm]

/-- The call of the strategy behaves the same in a run and in its replay. -/
theorem callStrategy_replay {K : Type} {key : Nat → P → K} (n ele : Nat)
    (vals : ParameterList P) (a b : State P E) (hpre : ReplayPre key a b) :
    (callStrategy n ele vals b).1 = (callStrategy n ele vals a).1 ∧
      ReplayPost a b (callStrategy n ele vals a).2 (callStrategy n ele vals b).2 ∧
      ((callStrategy n ele vals a).1 = .ok () →
        ((callStrategy n ele vals a).2.nodes n)._parameters.get? ele =
          ((callStrategy n ele vals b).2.nodes n)._parameters.get? ele) := by
  obtain ⟨hsh, htr, _, hkey⟩ := hpre
  have hlen : (b.nodes n)._parameters.length = (a.nodes n)._parameters.length :=
    (hsh n).2.2.2.2
  have hstrat : (b.nodes n)._strat = (a.nodes n)._strat := (hsh n).2.1
  unfold callStrategy TreeNode.parameter
  cases hga : (a.nodes n)._parameters.get? ele with
  | none =>
    have hgb : (b.nodes n)._parameters.get? ele = none := by
      rw [List.get?_eq_none] at hga ⊢
      omega
    rw [hgb]
    exact ⟨rfl, replayPost_refl a b, fun h => by simp at h⟩
  | some oa =>
    have hlt : ele < (a.nodes n)._parameters.length := by
      by_contra hge
      have : (a.nodes n)._parameters.get? ele = none := by
        rw [List.get?_eq_none]; omega
      rw [this] at hga
      simp at hga
    obtain ⟨ob, hgb⟩ : ∃ ob, (b.nodes n)._parameters.get? ele = some ob := by
      cases hx : (b.nodes n)._parameters.get? ele with
      | none =>
        rw [List.get?_eq_none] at hx
        omega
      | some ob => exact ⟨ob, rfl⟩
    have hk : key n ob = key n oa := by
      have := hkey n ele
      rw [hga, hgb] at this
      simpa using this
    rw [hgb]
    simp only [hstrat]
    rw [(htr n vals ob).2 oa hk]
    have hpost : ReplayPost a b
        { nodes := a.nodes.setParameter n ele ((a.nodes n)._strat.execute vals oa).2,
          trace := a.trace ++ [Event.execute n ele vals
            ((a.nodes n)._strat.execute vals oa).1] }
        { nodes := b.nodes.setParameter n ele ((a.nodes n)._strat.execute vals oa).2,
          trace := b.trace ++ [Event.execute n ele vals
            ((a.nodes n)._strat.execute vals oa).1] } := by
      refine ⟨sameShape_setParameter a n ele _ _, sameShape_setParameter b n ele _ _, ?_⟩
      intro m i
      simp only [get?_setParameter, hlen]
      by_cases hc : m = n ∧ i = ele ∧ ele < (a.nodes n)._parameters.length
      · simp [hc]
      · simp [hc]
    have hslot : ((a.nodes.setParameter n ele
          ((a.nodes n)._strat.execute vals oa).2) n)._parameters.get? ele =
        ((b.nodes.setParameter n ele
          ((a.nodes n)._strat.execute vals oa).2) n)._parameters.get? ele := by
      simp only [get?_setParameter, hlen, hlt, and_self, if_true]
    cases hr : ((a.nodes n)._strat.execute vals oa).1 with
    | none =>
      simp only [hr] at hpost ⊢
      exact ⟨trivial, hpost, fun _ => hslot⟩
    | some e =>
      simp only [hr] at hpost ⊢
      exact ⟨trivial, hpost, fun h => by simp at h⟩

theorem parameters_setChanged (h : Heap P E) (n : Nat) (b : Bool) (m : Nat) :
    ((h.setChanged n b) m)._parameters = (h m)._parameters := by
  by_cases hm : m = n
  · subst hm; simp [Heap.setChanged, Heap.set]
  · simp [Heap.setChanged, Heap.set, hm]

/-- The slots of a node without children are never written by `recalculate`. -/
theorem recalculate_leaf_slots :
    ∀ (fuel n : Nat) (s : State P E) r s', recalculate fuel n s = some (r, s') →
      ∀ m, (s.nodes m)._children = [] → (s'.nodes m)._parameters = (s.nodes m)._parameters := by
  intro fuel
  induction fuel with
  | zero => intro n s r s' h; simp [recalculate] at h
  | succ fuel ih =>
    intro n s r s' h m hm
    simp only [recalculate, State.log] at h
    split at h
    · simp only [Option.some.injEq, Prod.mk.injEq] at h
      obtain ⟨_, rfl⟩ := h
      exact parameters_setChanged _ _ _ _
    · next hnl =>
      have hne : (s.nodes n)._children ≠ [] := by
        intro hx
        rw [hx] at hnl
        simp at hnl
      let s0 : State P E := ⟨s.nodes, s.trace ++ [Event.enter n]⟩
      let Q : Option (Error E) → State P E → State P E → Prop := fun _ a b =>
        SameShape s0 a → SameShape s0 b ∧
          ∀ m, (s0.nodes m)._children = [] → (b.nodes m)._parameters = (a.nodes m)._parameters
      have hQ : LoopClosed n Q :=
        { refl := fun a hs => ⟨hs, fun _ _ => rfl⟩
          seq := by
            intro x a t u h1 h2 hs
            obtain ⟨hst, f1⟩ := h1 hs
            obtain ⟨hsu, f2⟩ := h2 hst
            exact ⟨hsu, fun m hm => (f2 m hm).trans (f1 m hm)⟩
          exec := by
            intro a ele vals out _ hs
            refine ⟨hs.trans' (sameShape_setParameter a n ele _ _), fun m hm => ?_⟩
            have hmn : m ≠ n := by
              intro hx
              subst hx
              exact hne hm
            simp [Heap.setParameter, Heap.set, hmn]
          range := fun a hs => ⟨hs, fun _ _ => rfl⟩
          mismatch := fun a _ hs => ⟨hs, fun _ _ => rfl⟩ }
      have hrec : ∀ c ∈ (s0.nodes n)._children, ∀ (a : State P E) r b,
          recalculate fuel c a = some (r, b) → Q (errOf r) a b := by
        intro c _ a r b hcall hs
        refine ⟨hs.trans' (recalculate_sameShape fuel c a r b hcall), fun m hm => ?_⟩
        exact ih c a r b hcall m (by rw [(hs m).2.2.1]; exact hm)
      unfold recalcFinish at h
      split at h
      · simp at h
      · next e s1 hb =>
        simp only [Option.some.injEq, Prod.mk.injEq] at h
        obtain ⟨_, rfl⟩ := h
        exact (recalcBody_closed hQ (recalculate fuel) s0 hrec _ _ hb (SameShape.rfl' s0)).2 m hm
      · next s1 hb =>
        simp only [Option.some.injEq, Prod.mk.injEq] at h
        obtain ⟨_, rfl⟩ := h
        rw [parameters_setChanged]
        exact (recalcBody_closed hQ (recalculate fuel) s0 hrec _ _ hb (SameShape.rfl' s0)).2 m hm

/-- The children loop of a single-slot node behaves the same in a run and in its replay,
provided the recursive call does and returns with the same slots on the node it was called
on. -/
theorem recalcChildren_replay {K : Type} {key : Nat → P → K} (rec : Nat → State P E → Res P E Unit)
    (hrec : ∀ c (a b : State P E) r a', ReplayPre key a b → rec c a = some (r, a') →
      ∃ b', rec c b = some (r, b') ∧ ReplayPost a b a' b' ∧
        (r = .ok () → (b'.nodes c)._parameters = (a'.nodes c)._parameters)) :
    ∀ (cs : List Nat) (acc : ParameterList P) (a b : State P E) r a', ReplayPre key a b →
      recalcChildren rec cs acc a = some (r, a') →
      ∃ b', recalcChildren rec cs acc b = some (r, b') ∧ ReplayPost a b a' b' := by
  intro cs
  induction cs with
  | nil =>
    intro acc a b r a' _ h
    simp only [recalcChildren, Option.some.injEq, Prod.mk.injEq] at h
    obtain ⟨rfl, rfl⟩ := h
    exact ⟨b, rfl, replayPost_refl a b⟩
  | cons c cs ih =>
    intro acc a b r a' hpre h
    simp only [recalcChildren] at h ⊢
    split at h
    · simp at h
    · next e a1 hc =>
      simp only [Option.some.injEq, Prod.mk.injEq] at h
      obtain ⟨rfl, rfl⟩ := h
      obtain ⟨b1, hb1, hpost, _⟩ := hrec c a b _ _ hpre hc
      exact ⟨b1, by rw [hb1], hpost⟩
    · next a1 hc =>
      obtain ⟨b1, hb1, hpost, hag⟩ := hrec c a b _ _ hpre hc
      obtain ⟨b', hb', hpost'⟩ := ih _ a1 b1 r a' (replayPre_of_post hpre hpost) h
      refine ⟨b', ?_, replayPost_trans hpost hpost'⟩
      rw [hb1]
      simp only [TreeNode.parameters, hag rfl]
      exact hb'

theorem recalcChildrenEle_replay {K : Type} {key : Nat → P → K} (rec : Nat → State P E → Res P E Unit)
    (hrec : ∀ c (a b : State P E) r a', ReplayPre key a b → rec c a = some (r, a') →
      ∃ b', rec c b = some (r, b') ∧ ReplayPost a b a' b' ∧
        (r = .ok () → (b'.nodes c)._parameters = (a'.nodes c)._parameters))
    (n ele : Nat) :
    ∀ (cs : List Nat) (acc : ParameterList P) (a b : State P E) r a', ReplayPre key a b →
      recalcChildrenEle rec n ele cs acc a = some (r, a') →
      ∃ b', recalcChildrenEle rec n ele cs acc b = some (r, b') ∧ ReplayPost a b a' b' := by
  intro cs
  induction cs with
  | nil =>
    intro acc a b r a' _ h
    simp only [recalcChildrenEle, Option.some.injEq, Prod.mk.injEq] at h
    obtain ⟨rfl, rfl⟩ := h
    exact ⟨b, rfl, replayPost_refl a b⟩
  | cons c cs ih =>
    intro acc a b r a' hpre h
    simp only [recalcChildrenEle] at h ⊢
    split at h
    · simp at h
    · next e a1 hc =>
      simp only [Option.some.injEq, Prod.mk.injEq] at h
      obtain ⟨rfl, rfl⟩ := h
      obtain ⟨b1, hb1, hpost, _⟩ := hrec c a b _ _ hpre hc
      exact ⟨b1, by rw [hb1], hpost⟩
    · next a1 hc =>
      obtain ⟨b1, hb1, hpost, hag⟩ := hrec c a b _ _ hpre hc
      have hpre1 := replayPre_of_post hpre hpost
      have hdim : (b1.nodes c).dimension = (a1.nodes c).dimension := by
        simp only [TreeNode.dimension, hag rfl]
      have hpar : ∀ k, (b1.nodes c).parameter k = (a1.nodes c).parameter k := by
        intro k
        simp only [TreeNode.parameter, hag rfl]
      have hlen : (b1.nodes n)._parameters.length = (a1.nodes n)._parameters.length :=
        (hpre1.1 n).2.2.2.2
      rw [hb1]
      simp only [hdim, hpar, hlen]
      split at h
      · next hd =>
        simp only [if_pos hd]
        split at h
        · next e he =>
          simp only [Option.some.injEq, Prod.mk.injEq] at h
          obtain ⟨rfl, rfl⟩ := h
          exact ⟨b1, rfl, hpost⟩
        · next p hp =>
          obtain ⟨b', hb', hpost'⟩ := ih _ a1 b1 r a' hpre1 h
          exact ⟨b', hb', replayPost_trans hpost hpost'⟩
      · next hd =>
        simp only [if_neg hd]
        split at h
        · next hd2 =>
          simp only [if_pos hd2]
          split at h
          · next e he =>
            simp only [Option.some.injEq, Prod.mk.injEq] at h
            obtain ⟨rfl, rfl⟩ := h
            exact ⟨b1, rfl, hpost⟩
          · next p hp =>
            obtain ⟨b', hb', hpost'⟩ := ih _ a1 b1 r a' hpre1 h
            exact ⟨b', hb', replayPost_trans hpost hpost'⟩
        · next hd2 =>
          simp only [if_neg hd2]
          simp only [Option.some.injEq, Prod.mk.injEq] at h
          obtain ⟨rfl, rfl⟩ := h
          exact ⟨b1, rfl, hpost⟩

theorem recalcElements_replay {K : Type} {key : Nat → P → K} (rec : Nat → State P E → Res P E Unit)
    (hrec : ∀ c (a b : State P E) r a', ReplayPre key a b → rec c a = some (r, a') →
      ∃ b', rec c b = some (r, b') ∧ ReplayPost a b a' b' ∧
        (r = .ok () → (b'.nodes c)._parameters = (a'.nodes c)._parameters))
    (n : Nat) (cs : List Nat) :
    ∀ (todo ele : Nat) (a b : State P E) r a', ReplayPre key a b →
      (∀ i, i < ele → (a.nodes n)._parameters.get? i = (b.nodes n)._parameters.get? i) →
      recalcElements rec n cs todo ele a = some (r, a') →
      ∃ b', recalcElements rec n cs todo ele b = some (r, b') ∧ ReplayPost a b a' b' ∧
        (r = .ok () → ∀ i, i < ele + todo →
          (a'.nodes n)._parameters.get? i = (b'.nodes n)._parameters.get? i) := by
  intro todo
  induction todo with
  | zero =>
    intro ele a b r a' _ hlow h
    simp only [recalcElements, Option.some.injEq, Prod.mk.injEq] at h
    obtain ⟨rfl, rfl⟩ := h
    exact ⟨b, rfl, replayPost_refl a b, fun _ i hi => hlow i hi⟩
  | succ todo ih =>
    intro ele a b r a' hpre hlow h
    simp only [recalcElements] at h ⊢
    split at h
    · simp at h
    · next e a1 hc =>
      simp only [Option.some.injEq, Prod.mk.injEq] at h
      obtain ⟨rfl, rfl⟩ := h
      obtain ⟨b1, hb1, hpost⟩ := recalcChildrenEle_replay rec hrec n ele cs [] a b _ _ hpre hc
      exact ⟨b1, by rw [hb1], hpost, fun hx => by simp at hx⟩
    · next vals a1 hc =>
      obtain ⟨b1, hb1, hpost⟩ := recalcChildrenEle_replay rec hrec n ele cs [] a b _ _ hpre hc
      have hpre1 := replayPre_of_post hpre hpost
      obtain ⟨hres, hpost2, hslot⟩ := callStrategy_replay n ele vals a1 b1 hpre1
      rw [hb1]
      simp only
      split at h
      · next e a2 hcs =>
        simp only [Option.some.injEq, Prod.mk.injEq] at h
        obtain ⟨rfl, rfl⟩ := h
        rw [hcs] at hres hpost2
        refine ⟨(callStrategy n ele vals b1).2, ?_, replayPost_trans hpost hpost2,
          fun hx => by simp at hx⟩
        have : callStrategy n ele vals b1 = (.error e, (callStrategy n ele vals b1).2) :=
          Prod.ext hres rfl
        rw [this]
      · next a2 hcs =>
        rw [hcs] at hres hpost2 hslot
        have hb2 : callStrategy n ele vals b1 = (.ok (), (callStrategy n ele vals b1).2) :=
          Prod.ext hres rfl
        have hpre2 := replayPre_of_post hpre1 hpost2
        have hlow2 : ∀ i, i < ele + 1 →
            (a2.nodes n)._parameters.get? i =
              ((callStrategy n ele vals b1).2.nodes n)._parameters.get? i := by
          intro i hi
          by_cases hie : i = ele
          · subst hie; exact hslot rfl
          · exact replayPost_agree hpost2 n i
              (replayPost_agree hpost n i (hlow i (by omega)))
        obtain ⟨b', hb', hpost3, hall⟩ := ih (ele + 1) a2 _ r a' hpre2 hlow2 h
        refine ⟨b', ?_, replayPost_trans hpost (replayPost_trans hpost2 hpost3), ?_⟩
        · rw [hb2]; exact hb'
        · intro hx i hi
          exact hall hx i (by omega)

theorem recalcBody_replay {K : Type} {key : Nat → P → K} (rec : Nat → State P E → Res P E Unit)
    (hrec : ∀ c (a b : State P E) r a', ReplayPre key a b → rec c a = some (r, a') →
      ∃ b', rec c b = some (r, b') ∧ ReplayPost a b a' b' ∧
        (r = .ok () → (b'.nodes c)._parameters = (a'.nodes c)._parameters))
    (n : Nat) (a b : State P E) r a' (hpre : ReplayPre key a b)
    (h : recalcBody rec n a = some (r, a')) :
    ∃ b', recalcBody rec n b = some (r, b') ∧ ReplayPost a b a' b' ∧
      (r = .ok () → (b'.nodes n)._parameters = (a'.nodes n)._parameters) := by
  have hlen : (b.nodes n)._parameters.length = (a.nodes n)._parameters.length :=
    (hpre.1 n).2.2.2.2
  have hch : (b.nodes n)._children = (a.nodes n)._children := (hpre.1 n).2.2.1
  have hlists : ∀ (a' b' : State P E), ReplayPost a b a' b' →
      (∀ i, i < (a.nodes n)._parameters.length →
        (a'.nodes n)._parameters.get? i = (b'.nodes n)._parameters.get? i) →
      (b'.nodes n)._parameters = (a'.nodes n)._parameters := by
    intro a' b' hpost hall
    have la : (a'.nodes n)._parameters.length = (a.nodes n)._parameters.length :=
      (hpost.1 n).2.2.2.2
    have lb : (b'.nodes n)._parameters.length = (a.nodes n)._parameters.length := by
      rw [(hpost.2.1 n).2.2.2.2, hlen]
    apply List.ext_get?
    intro i
    by_cases hi : i < (a.nodes n)._parameters.length
    · exact (hall i hi).symm
    · rw [List.get?_eq_none.2 (by omega), List.get?_eq_none.2 (by omega)]
  unfold recalcBody at h ⊢
  rw [hlen, hch]
  split at h
  · next h1 =>
    simp only [if_pos h1]
    split at h
    · simp at h
    · next e a1 hc =>
      simp only [Option.some.injEq, Prod.mk.injEq] at h
      obtain ⟨rfl, rfl⟩ := h
      obtain ⟨b1, hb1, hpost⟩ := recalcChildren_replay rec hrec _ [] a b _ _ hpre hc
      exact ⟨b1, by rw [hb1], hpost, fun hx => by simp at hx⟩
    · next vals a1 hc =>
      simp only [Option.some.injEq] at h
      obtain ⟨b1, hb1, hpost⟩ := recalcChildren_replay rec hrec _ [] a b _ _ hpre hc
      have hpre1 := replayPre_of_post hpre hpost
      obtain ⟨hres, hpost2, hslot⟩ := callStrategy_replay n 0 vals a1 b1 hpre1
      rw [h] at hres hpost2 hslot
      have hpost3 := replayPost_trans hpost hpost2
      refine ⟨(callStrategy n 0 vals b1).2, ?_, hpost3, ?_⟩
      · rw [hb1]
        simp only [Option.some.injEq]
        exact Prod.ext hres rfl
      · intro hx
        apply hlists _ _ hpost3
        intro i hi
        have hi0 : i = 0 := by omega
        subst hi0
        exact hslot hx
  · next h1 =>
    simp only [if_neg h1]
    obtain ⟨b', hb', hpost, hall⟩ := recalcElements_replay rec hrec n _ _ 0 a b r a' hpre
      (fun i hi => absurd hi (Nat.not_lt_zero i)) h
    refine ⟨b', hb', hpost, fun hx => hlists _ _ hpost (fun i hi => hall hx i (by omega))⟩

/-- Replay: from two states with the same graph, transparent operations and the same leaf
slots, `recalculate` gives the same outcome, and every slot ends with the same content in
both runs or is left alone by both. -/
theorem recalculate_replay {K : Type} {key : Nat → P → K} :
    ∀ (fuel n : Nat) (a b : State P E) r a', ReplayPre key a b →
      recalculate fuel n a = some (r, a') →
      ∃ b', recalculate fuel n b = some (r, b') ∧ ReplayPost a b a' b' ∧
        (r = .ok () → (b'.nodes n)._parameters = (a'.nodes n)._parameters) := by
  intro fuel
  induction fuel with
  | zero => intro n a b r a' _ h; simp [recalculate] at h
  | succ fuel ih =>
    intro n a b r a' hpre h
    have hch : (b.nodes n)._children = (a.nodes n)._children := (hpre.1 n).2.2.1
    have hpre0 : ReplayPre key (a.log (.enter n)) (b.log (.enter n)) := hpre
    have hflag : ∀ (a1 b1 : State P E) (ta : List (Event P E)) (tb : List (Event P E)),
        ReplayPost a b a1 b1 →
        ReplayPost a b ⟨a1.nodes.setChanged n false, ta⟩ ⟨b1.nodes.setChanged n false, tb⟩ := by
      intro a1 b1 ta tb hp
      refine replayPost_trans hp ⟨sameShape_setChanged a1 n false _,
        sameShape_setChanged b1 n false _, fun m i => Or.inr ⟨?_, ?_⟩⟩
      · simp only [parameters_setChanged]
      · simp only [parameters_setChanged]
    simp only [recalculate, State.log] at h ⊢
    rw [hch]
    split at h
    · next hlt =>
      simp only [if_pos hlt]
      simp only [Option.some.injEq, Prod.mk.injEq] at h
      obtain ⟨rfl, rfl⟩ := h
      refine ⟨_, rfl, hflag _ _ _ _ (replayPost_refl _ _), fun _ => ?_⟩
      simp only [parameters_setChanged]
      exact hpre.2.2.1 n (List.length_eq_zero.1 (by omega))
    · next hlt =>
      simp only [if_neg hlt]
      unfold recalcFinish at h ⊢
      split at h
      · simp at h
      · next e a1 hb =>
        simp only [Option.some.injEq, Prod.mk.injEq] at h
        obtain ⟨rfl, rfl⟩ := h
        obtain ⟨b1, hb1, hpost, _⟩ := recalcBody_replay _ ih n _ _ _ _ hpre0 hb
        simp only [State.log] at hb1
        rw [hb1]
        exact ⟨b1, rfl, hpost, fun hx => by simp at hx⟩
      · next a1 hb =>
        simp only [Option.some.injEq, Prod.mk.injEq] at h
        obtain ⟨rfl, rfl⟩ := h
        obtain ⟨b1, hb1, hpost, hag⟩ := recalcBody_replay _ ih n _ _ _ _ hpre0 hb
        simp only [State.log] at hb1
        rw [hb1]
        refine ⟨_, rfl, hflag _ _ _ _ hpost, fun _ => ?_⟩
        simp only [parameters_setChanged]
        exact hag rfl

/-! ## More fuel never changes a result -/

theorem recalcChildren_mono (rec rec' : Nat → State P E → Res P E Unit)
    (hmono : ∀ c s x, rec c s = some x → rec' c s = some x) :
    ∀ (cs : List Nat) (acc : ParameterList P) (s : State P E) x,
      recalcChildren rec cs acc s = some x → recalcChildren rec' cs acc s = some x := by
  intro cs
  induction cs with
  | nil => intro acc s x h; simpa [recalcChildren] using h
  | cons c cs ih =>
    intro acc s x h
    simp only [recalcChildren] at h ⊢
    split at h
    · simp at h
    · next e s1 hc => rw [hmono c s _ hc]; exact h
    · next s1 hc => rw [hmono c s _ hc]; exact ih _ _ _ h

theorem recalcChildrenEle_mono (rec rec' : Nat → State P E → Res P E Unit)
    (hmono : ∀ c s x, rec c s = some x → rec' c s = some x) (n ele : Nat) :
    ∀ (cs : List Nat) (acc : ParameterList P) (s : State P E) x,
      recalcChildrenEle rec n ele cs acc s = some x →
      recalcChildrenEle rec' n ele cs acc s = some x := by
  intro cs
  induction cs with
  | nil => intro acc s x h; simpa [recalcChildrenEle] using h
  | cons c cs ih =>
    intro acc s x h
    simp only [recalcChildrenEle] at h ⊢
    split at h
    · simp at h
    · next e s1 hc => rw [hmono c s _ hc]; exact h
    · next s1 hc =>
      rw [hmono c s _ hc]
      simp only
      split at h
      · next hd =>
        simp only [if_pos hd]
        split at h
        · exact h
        · exact ih _ _ _ h
      · next hd =>
        simp only [if_neg hd]
        split at h
        · next hd2 =>
          simp only [if_pos hd2]
          split at h
          · exact h
          · exact ih _ _ _ h
        · next hd2 =>
          simp only [if_neg hd2]
          exact h

theorem recalcElements_mono (rec rec' : Nat → State P E → Res P E Unit)
    (hmono : ∀ c s x, rec c s = some x → rec' c s = some x) (n : Nat) (cs : List Nat) :
    ∀ (todo ele : Nat) (s : State P E) x,
      recalcElements rec n cs todo ele s = some x →
      recalcElements rec' n cs todo ele s = some x := by
  intro todo
  induction todo with
  | zero => intro ele s x h; simpa [recalcElements] using h
  | succ todo ih =>
    intro ele s x h
    simp only [recalcElements] at h ⊢
    split at h
    · simp at h
    · next e s1 hc =>
      rw [recalcChildrenEle_mono rec rec' hmono n ele cs [] s _ hc]
      exact h
    · next vals s1 hc =>
      rw [recalcChildrenEle_mono rec rec' hmono n ele cs [] s _ hc]
      simp only
      split at h
      · exact h
      · exact ih _ _ _ h

theorem recalcBody_mono (rec rec' : Nat → State P E → Res P E Unit)
    (hmono : ∀ c s x, rec c s = some x → rec' c s = some x) (n : Nat) (s : State P E) x
    (h : recalcBody rec n s = some x) : recalcBody rec' n s = some x := by
  unfold recalcBody at h ⊢
  split at h
  · next h1 =>
    simp only [if_pos h1]
    split at h
    · simp at h
    · next e s1 hc => rw [recalcChildren_mono rec rec' hmono _ _ _ _ hc]; exact h
    · next vals s1 hc => rw [recalcChildren_mono rec rec' hmono _ _ _ _ hc]; exact h
  · next h1 =>
    simp only [if_neg h1]
    exact recalcElements_mono rec rec' hmono n _ _ _ _ _ h

theorem recalculate_succ_fuel :
    ∀ (fuel n : Nat) (s : State P E) x, recalculate fuel n s = some x →
      recalculate (fuel + 1) n s = some x := by
  intro fuel
  induction fuel with
  | zero => intro n s x h; simp [recalculate] at h
  | succ fuel ih =>
    intro n s x h
    rw [recalculate] at h ⊢
    split at h
    · next hlt => simp only [if_pos hlt]; exact h
    · next hlt =>
      simp only [if_neg hlt]
      cases hb : recalcBody (recalculate fuel) n (s.log (.enter n)) with
      | none => rw [hb] at h; simp [recalcFinish] at h
      | some y =>
        rw [recalcBody_mono _ _ ih n _ y hb]
        rw [hb] at h
        exact h

theorem recalculate_le_fuel {fuel fuel' : Nat} (hle : fuel ≤ fuel') (n : Nat) (s : State P E) x
    (h : recalculate fuel n s = some x) : recalculate fuel' n s = some x := by
  obtain ⟨k, rfl⟩ := Nat.exists_eq_add_of_le hle
  induction k with
  | zero => exact h
  | succ k ih => exact recalculate_succ_fuel _ n s x (ih (Nat.le_add_right _ _))

/-- The result of `recalculate` does not depend on the fuel, as long as there is enough. -/
theorem recalculate_fuel_unique (fuel fuel' n : Nat) (s : State P E) x y
    (hx : recalculate fuel n s = some x) (hy : recalculate fuel' n s = some y) : x = y := by
  have h1 := recalculate_le_fuel (le_max_left fuel fuel') n s x hx
  have h2 := recalculate_le_fuel (le_max_right fuel fuel') n s y hy
  rw [h1] at h2
  exact Option.some.inj h2

theorem key_stepClosed {K : Type} (key : Nat → P → K) (s : State P E)
    (htr : TransparentOn key s.nodes) :
    StepClosed (fun _ (a b : State P E) => SameShape s a → SameShape s b ∧
      ∀ m i, ((b.nodes m)._parameters.get? i).map (key m) =
        ((a.nodes m)._parameters.get? i).map (key m)) where
  refl := fun a hs => ⟨hs, fun _ _ => rfl⟩
  seq := by
    intro x a t u h1 h2 hs
    obtain ⟨hst, f1⟩ := h1 hs
    obtain ⟨hsu, f2⟩ := h2 hst
    exact ⟨hsu, fun m i => (f2 m i).trans (f1 m i)⟩
  exec := by
    intro a n ele vals out hget hs
    refine ⟨hs.trans' (sameShape_setParameter a n ele _ _), fun m i => ?_⟩
    simp only [get?_setParameter]
    by_cases hc : m = n ∧ i = ele ∧ ele < (a.nodes n)._parameters.length
    · obtain ⟨rfl, rfl, hlt⟩ := hc
      simp only [hlt, and_self, if_true, hget, Option.map_some', Option.some.injEq]
      rw [(hs m).2.1]
      exact (htr m vals out).1
    · simp only [hc, if_false]
  range := fun a hs => ⟨hs, fun _ _ => rfl⟩
  mismatch := fun a _ hs => ⟨hs, fun _ _ => rfl⟩
  enter := fun a _ hs => ⟨hs, fun _ _ => rfl⟩
  leave := by
    intro a n hs
    refine ⟨hs.trans' (sameShape_setChanged a n false _), fun m i => ?_⟩
    simp only [parameters_setChanged]

/-- C10: in a graph whose operations are referentially transparent (up to the part `key`
of an output that they never change, such as its name), when a call of `recalculate()` on
a node has ended (returned or thrown), a second call on the same node, with no leaf
mutation and no `update()` in between, ends in the same way and leaves every slot of every
node with the content it had after the first call. -/
theorem recalculate_twice_same_slots {K : Type} (key : Nat → P → K) (fuel n : Nat)
    (s s1 : State P E) (r1 : Except (Error E) Unit) (htr : TransparentOn key s.nodes)
    (h1 : recalculate fuel n s = some (r1, s1)) :
    (∃ s2, recalculate fuel n s1 = some (r1, s2)) ∧
      ∀ fuel' r2 s2, recalculate fuel' n s1 = some (r2, s2) →
        r2 = r1 ∧ ∀ m, (s2.nodes m)._parameters = (s1.nodes m)._parameters := by
  have hpre : ReplayPre key s s1 :=
    ⟨recalculate_sameShape fuel n s r1 s1 h1, htr,
      fun m hm => recalculate_leaf_slots fuel n s r1 s1 h1 m hm,
      (recalculate_closed (key_stepClosed key s htr) fuel n s r1 s1 h1 (SameShape.rfl' s)).2⟩
  obtain ⟨b', hb', hpost, _⟩ := recalculate_replay fuel n s s1 r1 s1 hpre h1
  refine ⟨⟨b', hb'⟩, ?_⟩
  intro fuel' r2 s2 h2
  have heq := recalculate_fuel_unique fuel' fuel n s1 _ _ h2 hb'
  simp only [Prod.mk.injEq] at heq
  obtain ⟨rfl, rfl⟩ := heq
  refine ⟨rfl, fun m => ?_⟩
  apply List.ext_get?
  intro i
  rcases hpost.2.2 m i with h | ⟨_, h⟩
  · exact h.symm
  · exact h

theorem addTree_transparent (x y : ℚ) : TransparentOn addTreeKey (addTree x y) := by
  intro m ins o
  match m with
  | 0 =>
    refine ⟨rfl, fun o' hk => ?_⟩
    simp only [addTreeKey, Value.mk.injEq, and_true] at hk
    simp [addTree, addAll, Value.setValue, hk]
  | 1 => exact ⟨rfl, fun o' hk => by simp only [addTreeKey] at hk; rw [hk]⟩
  | 2 => exact ⟨rfl, fun o' hk => by simp only [addTreeKey] at hk; rw [hk]⟩
  | k + 3 => exact ⟨rfl, fun o' hk => by simp only [addTreeKey] at hk; rw [hk]⟩

/-- Witness for C10: two calls on the head of `head = Add(leafX = 2, leafY = 3)`. -/
theorem recalculate_twice_same_slots_witness :
    (∃ s2, recalculate 2 0
        (stateAfter (recalculate 2 0 ⟨addTree 2 3, []⟩) ⟨addTree 2 3, []⟩) = some (.ok (), s2)) ∧
      ∀ fuel' r2 s2, recalculate fuel' 0
          (stateAfter (recalculate 2 0 ⟨addTree 2 3, []⟩) ⟨addTree 2 3, []⟩) = some (r2, s2) →
        r2 = .ok () ∧ ∀ m, (s2.nodes m)._parameters =
          ((stateAfter (recalculate 2 0 ⟨addTree 2 3, []⟩) ⟨addTree 2 3, []⟩).nodes m)._parameters :=
  recalculate_twice_same_slots addTreeKey 2 0 ⟨addTree 2 3, []⟩ _ _ (addTree_transparent 2 3) rfl

/-! ## `recalculate` does not read the flags -/

theorem flagSim_refl {a b : State P E} (h : EqButFlags a b) : FlagSim a b a b :=
  ⟨h, [], by simp, by simp⟩

theorem flagSim_trans {a b a1 b1 a2 b2 : State P E} (h1 : FlagSim a b a1 b1)
    (h2 : FlagSim a1 b1 a2 b2) : FlagSim a b a2 b2 := by
  obtain ⟨_, d1, ha1, hb1⟩ := h1
  obtain ⟨he, d2, ha2, hb2⟩ := h2
  exact ⟨he, d1 ++ d2, by rw [ha2, ha1, List.append_assoc], by rw [hb2, hb1, List.append_assoc]⟩

theorem eqButFlags_setChanged {a b : State P E} (h : EqButFlags a b) (n : Nat) (x y : Bool)
    (ta tb : List (Event P E)) :
    EqButFlags ⟨a.nodes.setChanged n x, ta⟩ ⟨b.nodes.setChanged n y, tb⟩ := by
  intro m
  by_cases hm : m = n
  · subst hm
    simpa [Heap.setChanged, Heap.set] using h m
  · simpa [Heap.setChanged, Heap.set, hm] using h m

theorem eqButFlags_setParameter {a b : State P E} (h : EqButFlags a b) (n i : Nat) (p : P)
    (ta tb : List (Event P E)) :
    EqButFlags ⟨a.nodes.setParameter n i p, ta⟩ ⟨b.nodes.setParameter n i p, tb⟩ := by
  intro m
  by_cases hm : m = n
  · subst hm
    obtain ⟨h1, h2, h3, h4, h5⟩ := h m
    simp [Heap.setParameter, Heap.set, h1, h2, h3, h4, h5]
  · simpa [Heap.setParameter, Heap.set, hm] using h m

theorem callStrategy_flags (n ele : Nat) (vals : ParameterList P) (a b : State P E)
    (h : EqButFlags a b) :
    (callStrategy n ele vals b).1 = (callStrategy n ele vals a).1 ∧
      FlagSim a b (callStrategy n ele vals a).2 (callStrategy n ele vals b).2 := by
  have hpar : (b.nodes n)._parameters = (a.nodes n)._parameters := (h n).2.1
  have hstrat : (b.nodes n)._strat = (a.nodes n)._strat := (h n).2.2.1
  unfold callStrategy TreeNode.parameter
  rw [hpar, hstrat]
  cases hg : (a.nodes n)._parameters.get? ele with
  | none => exact ⟨rfl, flagSim_refl h⟩
  | some out =>
    cases hr : ((a.nodes n)._strat.execute vals out).1 with
    | none =>
      simp only [hr]
      exact ⟨trivial, eqButFlags_setParameter h n ele _ _ _, _, rfl, rfl⟩
    | some e =>
      simp only [hr]
      exact ⟨trivial, eqButFlags_setParameter h n ele _ _ _, _, rfl, rfl⟩

theorem recalcChildren_flags (rec : Nat → State P E → Res P E Unit)
    (hrec : ∀ c (a b : State P E) r a', EqButFlags a b → rec c a = some (r, a') →
      ∃ b', rec c b = some (r, b') ∧ FlagSim a b a' b') :
    ∀ (cs : List Nat) (acc : ParameterList P) (a b : State P E) r a', EqButFlags a b →
      recalcChildren rec cs acc a = some (r, a') →
      ∃ b', recalcChildren rec cs acc b = some (r, b') ∧ FlagSim a b a' b' := by
  intro cs
  induction cs with
  | nil =>
    intro acc a b r a' he h
    simp only [recalcChildren, Option.some.injEq, Prod.mk.injEq] at h
    obtain ⟨rfl, rfl⟩ := h
    exact ⟨b, rfl, flagSim_refl he⟩
  | cons c cs ih =>
    intro acc a b r a' he h
    simp only [recalcChildren] at h ⊢
    split at h
    · simp at h
    · next e a1 hc =>
      simp only [Option.some.injEq, Prod.mk.injEq] at h
      obtain ⟨rfl, rfl⟩ := h
      obtain ⟨b1, hb1, hsim⟩ := hrec c a b _ _ he hc
      exact ⟨b1, by rw [hb1], hsim⟩
    · next a1 hc =>
      obtain ⟨b1, hb1, hsim⟩ := hrec c a b _ _ he hc
      obtain ⟨b', hb', hsim'⟩ := ih _ a1 b1 r a' hsim.1 h
      refine ⟨b', ?_, flagSim_trans hsim hsim'⟩
      rw [hb1]
      simp only [TreeNode.parameters, (hsim.1 c).2.1]
      exact hb'

theorem recalcChildrenEle_flags (rec : Nat → State P E → Res P E Unit)
    (hrec : ∀ c (a b : State P E) r a', EqButFlags a b → rec c a = some (r, a') →
      ∃ b', rec c b = some (r, b') ∧ FlagSim a b a' b')
    (n ele : Nat) :
    ∀ (cs : List Nat) (acc : ParameterList P) (a b : State P E) r a', EqButFlags a b →
      recalcChildrenEle rec n ele cs acc a = some (r, a') →
      ∃ b', recalcChildrenEle rec n ele cs acc b = some (r, b') ∧ FlagSim a b a' b' := by
  intro cs
  induction cs with
  | nil =>
    intro acc a b r a' he h
    simp only [recalcChildrenEle, Option.some.injEq, Prod.mk.injEq] at h
    obtain ⟨rfl, rfl⟩ := h
    exact ⟨b, rfl, flagSim_refl he⟩
  | cons c cs ih =>
    intro acc a b r a' he h
    simp only [recalcChildrenEle] at h ⊢
    split at h
    · simp at h
    · next e a1 hc =>
      simp only [Option.some.injEq, Prod.mk.injEq] at h
      obtain ⟨rfl, rfl⟩ := h
      obtain ⟨b1, hb1, hsim⟩ := hrec c a b _ _ he hc
      exact ⟨b1, by rw [hb1], hsim⟩
    · next a1 hc =>
      obtain ⟨b1, hb1, hsim⟩ := hrec c a b _ _ he hc
      have hdim : (b1.nodes c).dimension = (a1.nodes c).dimension := by
        simp only [TreeNode.dimension, (hsim.1 c).2.1]
      have hpar : ∀ k, (b1.nodes c).parameter k = (a1.nodes c).parameter k := by
        intro k
        simp only [TreeNode.parameter, (hsim.1 c).2.1]
      have hlen : (b1.nodes n)._parameters.length = (a1.nodes n)._parameters.length := by
        rw [(hsim.1 n).2.1]
      rw [hb1]
      simp only [hdim, hpar, hlen]
      split at h
      · next hd =>
        simp only [if_pos hd]
        split at h
        · next e he =>
          simp only [Option.some.injEq, Prod.mk.injEq] at h
          obtain ⟨rfl, rfl⟩ := h
          exact ⟨b1, rfl, hsim⟩
        · next p hp =>
          obtain ⟨b', hb', hsim'⟩ := ih _ a1 b1 r a' hsim.1 h
          exact ⟨b', hb', flagSim_trans hsim hsim'⟩
      · next hd =>
        simp only [if_neg hd]
        split at h
        · next hd2 =>
          simp only [if_pos hd2]
          split at h
          · next e he =>
            simp only [Option.some.injEq, Prod.mk.injEq] at h
            obtain ⟨rfl, rfl⟩ := h
            exact ⟨b1, rfl, hsim⟩
          · next p hp =>
            obtain ⟨b', hb', hsim'⟩ := ih _ a1 b1 r a' hsim.1 h
            exact ⟨b', hb', flagSim_trans hsim hsim'⟩
        · next hd2 =>
          simp only [if_neg hd2]
          simp only [Option.some.injEq, Prod.mk.injEq] at h
          obtain ⟨rfl, rfl⟩ := h
          exact ⟨b1, rfl, hsim⟩

theorem recalcElements_flags (rec : Nat → State P E → Res P E Unit)
    (hrec : ∀ c (a b : State P E) r a', EqButFlags a b → rec c a = some (r, a') →
      ∃ b', rec c b = some (r, b') ∧ FlagSim a b a' b')
    (n : Nat) (cs : List Nat) :
    ∀ (todo ele : Nat) (a b : State P E) r a', EqButFlags a b →
      recalcElements rec n cs todo ele a = some (r, a') →
      ∃ b', recalcElements rec n cs todo ele b = some (r, b') ∧ FlagSim a b a' b' := by
  intro todo
  induction todo with
  | zero =>
    intro ele a b r a' he h
    simp only [recalcElements, Option.some.injEq, Prod.mk.injEq] at h
    obtain ⟨rfl, rfl⟩ := h
    exact ⟨b, rfl, flagSim_refl he⟩
  | succ todo ih =>
    intro ele a b r a' he h
    simp only [recalcElements] at h ⊢
    split at h
    · simp at h
    · next e a1 hc =>
      simp only [Option.some.injEq, Prod.mk.injEq] at h
      obtain ⟨rfl, rfl⟩ := h
      obtain ⟨b1, hb1, hsim⟩ := recalcChildrenEle_flags rec hrec n ele cs [] a b _ _ he hc
      exact ⟨b1, by rw [hb1], hsim⟩
    · next vals a1 hc =>
      obtain ⟨b1, hb1, hsim⟩ := recalcChildrenEle_flags rec hrec n ele cs [] a b _ _ he hc
      obtain ⟨hres, hsim2⟩ := callStrategy_flags n ele vals a1 b1 hsim.1
      rw [hb1]
      simp only
      split at h
      · next e a2 hcs =>
        simp only [Option.some.injEq, Prod.mk.injEq] at h
        obtain ⟨rfl, rfl⟩ := h
        rw [hcs] at hres hsim2
        refine ⟨(callStrategy n ele vals b1).2, ?_, flagSim_trans hsim hsim2⟩
        have : callStrategy n ele vals b1 = (.error e, (callStrategy n ele vals b1).2) :=
          Prod.ext hres rfl
        rw [this]
      · next a2 hcs =>
        rw [hcs] at hres hsim2
        have hb2 : callStrategy n ele vals b1 = (.ok (), (callStrategy n ele vals b1).2) :=
          Prod.ext hres rfl
        obtain ⟨b', hb', hsim3⟩ := ih (ele + 1) a2 _ r a' hsim2.1 h
        refine ⟨b', ?_, flagSim_trans hsim (flagSim_trans hsim2 hsim3)⟩
        rw [hb2]; exact hb'

theorem recalcBody_flags (rec : Nat → State P E → Res P E Unit)
    (hrec : ∀ c (a b : State P E) r a', EqButFlags a b → rec c a = some (r, a') →
      ∃ b', rec c b = some (r, b') ∧ FlagSim a b a' b')
    (n : Nat) (a b : State P E) r a' (he : EqButFlags a b)
    (h : recalcBody rec n a = some (r, a')) :
    ∃ b', recalcBody rec n b = some (r, b') ∧ FlagSim a b a' b' := by
  have hpar : (b.nodes n)._parameters = (a.nodes n)._parameters := (he n).2.1
  have hch : (b.nodes n)._children = (a.nodes n)._children := (he n).2.2.2.1
  unfold recalcBody at h ⊢
  rw [hpar, hch]
  split at h
  · next h1 =>
    simp only [if_pos h1]
    split at h
    · simp at h
    · next e a1 hc =>
      simp only [Option.some.injEq, Prod.mk.injEq] at h
      obtain ⟨rfl, rfl⟩ := h
      obtain ⟨b1, hb1, hsim⟩ := recalcChildren_flags rec hrec _ [] a b _ _ he hc
      exact ⟨b1, by rw [hb1], hsim⟩
    · next vals a1 hc =>
      simp only [Option.some.injEq] at h
      obtain ⟨b1, hb1, hsim⟩ := recalcChildren_flags rec hrec _ [] a b _ _ he hc
      obtain ⟨hres, hsim2⟩ := callStrategy_flags n 0 vals a1 b1 hsim.1
      rw [h] at hres hsim2
      refine ⟨(callStrategy n 0 vals b1).2, ?_, flagSim_trans hsim hsim2⟩
      rw [hb1]
      simp only [Option.some.injEq]
      exact Prod.ext hres rfl
  · next h1 =>
    simp only [if_neg h1]
    exact recalcElements_flags rec hrec n _ _ 0 a b r a' he h

/-- Lockstep run: from two states that differ in flags only, `recalculate` ends in the same
way, records the same events and leaves states that differ in flags only. -/
theorem recalculate_flags :
    ∀ (fuel n : Nat) (a b : State P E) r a', EqButFlags a b →
      recalculate fuel n a = some (r, a') →
      ∃ b', recalculate fuel n b = some (r, b') ∧ FlagSim a b a' b' := by
  intro fuel
  induction fuel with
  | zero => intro n a b r a' _ h; simp [recalculate] at h
  | succ fuel ih =>
    intro n a b r a' he h
    have hch : (b.nodes n)._children = (a.nodes n)._children := (he n).2.2.2.1
    have he0 : EqButFlags (a.log (.enter n)) (b.log (.enter n)) := he
    have hent : FlagSim a b (a.log (.enter n)) (b.log (.enter n)) := ⟨he, _, rfl, rfl⟩
    have hleave : ∀ (a1 b1 : State P E), EqButFlags a1 b1 →
        FlagSim a1 b1 ⟨a1.nodes.setChanged n false, a1.trace ++ [.leave n]⟩
          ⟨b1.nodes.setChanged n false, b1.trace ++ [.leave n]⟩ :=
      fun a1 b1 h1 => ⟨eqButFlags_setChanged h1 n false false _ _, _, rfl, rfl⟩
    simp only [recalculate, State.log] at h ⊢
    rw [hch]
    split at h
    · next hlt =>
      simp only [if_pos hlt]
      simp only [Option.some.injEq, Prod.mk.injEq] at h
      obtain ⟨rfl, rfl⟩ := h
      exact ⟨_, rfl, flagSim_trans hent (hleave _ _ he0)⟩
    · next hlt =>
      simp only [if_neg hlt]
      unfold recalcFinish at h ⊢
      split at h
      · simp at h
      · next e a1 hb =>
        simp only [Option.some.injEq, Prod.mk.injEq] at h
        obtain ⟨rfl, rfl⟩ := h
        obtain ⟨b1, hb1, hsim⟩ := recalcBody_flags _ ih n _ _ _ _ he0 hb
        simp only [State.log] at hb1
        rw [hb1]
        exact ⟨b1, rfl, flagSim_trans hent hsim⟩
      · next a1 hb =>
        simp only [Option.some.injEq, Prod.mk.injEq] at h
        obtain ⟨rfl, rfl⟩ := h
        obtain ⟨b1, hb1, hsim⟩ := recalcBody_flags _ ih n _ _ _ _ he0 hb
        simp only [State.log] at hb1
        rw [hb1]
        exact ⟨_, rfl, flagSim_trans hent (flagSim_trans hsim (hleave _ _ hsim.1))⟩

/-- C11: `recalculate()` never consults a `_changed` flag.  For two graphs that are
identical except for the flags of their nodes, a call on the same node that ends from the
first (returning or throwing) ends in the same way from the second, records the same events
(the same operations invoked with the same inputs and outcomes, in the same order) and
leaves the same content in every slot of every node. -/
theorem recalculate_ignores_changed (fuel n : Nat) (s t s' : State P E)
    (r : Except (Error E) Unit) (hst : EqButFlags s t)
    (h : recalculate fuel n s = some (r, s')) :
    ∃ t', recalculate fuel n t = some (r, t') ∧
      (∀ m, (t'.nodes m)._parameters = (s'.nodes m)._parameters) ∧
      ∃ d, s'.trace = s.trace ++ d ∧ t'.trace = t.trace ++ d := by
  obtain ⟨t', ht', he, hd⟩ := recalculate_flags fuel n s t r s' hst h
  exact ⟨t', ht', fun m => (he m).2.1, hd⟩

/-- Witness for C11: `head = Add(leafX = 2, leafY = 3)` with all flags true and with all
flags false. -/
theorem recalculate_ignores_changed_witness :
    ∃ t', recalculate 2 0
        ⟨fun m => { addTree 2 3 m with _changed := false }, []⟩ = some (.ok (), t') ∧
      (∀ m, (t'.nodes m)._parameters =
        ((stateAfter (recalculate 2 0 ⟨addTree 2 3, []⟩) ⟨addTree 2 3, []⟩).nodes m)._parameters) ∧
      ∃ d, (stateAfter (recalculate 2 0 ⟨addTree 2 3, []⟩) ⟨addTree 2 3, []⟩).trace = [] ++ d ∧
        t'.trace = [] ++ d :=
  recalculate_ignores_changed 2 0 ⟨addTree 2 3, []⟩
    ⟨fun m => { addTree 2 3 m with _changed := false }, []⟩ _ _
    (fun _ => ⟨rfl, rfl, rfl, rfl, rfl⟩) rfl

/-! ## Traversals of the child graph -/

/-- A relation on addresses whose steps all end below `N` and which has no cycle is well
founded (read backwards). -/
theorem wf_of_acyclic_bounded (r : Nat → Nat → Prop) (N : Nat)
    (hfin : ∀ a b, r a b → b < N) (hacyc : ∀ m, ¬ Relation.TransGen r m m) :
    WellFounded (fun b a => r a b) := by
  let T : Fin N → Fin N → Prop := fun a b => Relation.TransGen r b.val a.val
  haveI : IsTrans (Fin N) T := ⟨fun a b c hab hbc => Relation.TransGen.trans hbc hab⟩
  haveI : IsIrrefl (Fin N) T := ⟨fun a ha => hacyc a.val ha⟩
  have hT : WellFounded T := Finite.wellFounded_of_trans_of_irrefl T
  have hlow : ∀ a : Fin N, Acc (fun b a => r a b) a.val := by
    intro a
    induction a using hT.induction with
    | _ a ih =>
      refine Acc.intro _ (fun p hp => ?_)
      exact ih ⟨p, hfin _ _ hp⟩ (Relation.TransGen.single hp)
  refine ⟨fun n => Acc.intro _ (fun p hp => ?_)⟩
  exact hlow ⟨p, hfin _ _ hp⟩

theorem listChildren_mono (desc desc' : Nat → Option (List Nat))
    (hmono : ∀ c l, desc c = some l → desc' c = some l) :
    ∀ (cs : List Nat) l, listChildren desc cs = some l → listChildren desc' cs = some l := by
  intro cs
  induction cs with
  | nil => intro l h; simpa [listChildren] using h
  | cons c cs ih =>
    intro l h
    simp only [listChildren] at h ⊢
    split at h
    · next dc dr hc hr =>
      rw [hmono c dc hc, ih dr hr]
      exact h
    · simp at h

theorem descendantsPre_succ_fuel (h : Heap P E) :
    ∀ (fuel n : Nat) l, descendantsPre fuel h n = some l →
      descendantsPre (fuel + 1) h n = some l := by
  intro fuel
  induction fuel with
  | zero => intro n l hl; simp [descendantsPre] at hl
  | succ fuel ih =>
    intro n l hl
    rw [descendantsPre] at hl ⊢
    exact listChildren_mono _ _ ih _ l hl

theorem descendantsPre_more_fuel (h : Heap P E) (fuel k n : Nat) (l : List Nat)
    (hl : descendantsPre fuel h n = some l) : descendantsPre (fuel + k) h n = some l := by
  induction k with
  | zero => exact hl
  | succ k ih => exact descendantsPre_succ_fuel h _ n l ih

theorem listChildren_terminates (h : Heap P E) (cs : List Nat)
    (hcs : ∀ c ∈ cs, ∃ fuel l, descendantsPre fuel h c = some l) :
    ∃ fuel l, listChildren (descendantsPre fuel h) cs = some l := by
  induction cs with
  | nil => exact ⟨0, [], rfl⟩
  | cons c cs ih =>
    obtain ⟨f1, dc, h1⟩ := hcs c (List.mem_cons_self _ _)
    obtain ⟨f2, dr, h2⟩ := ih (fun d hd => hcs d (List.mem_cons_of_mem _ hd))
    refine ⟨f1 + f2, c :: dc ++ dr, ?_⟩
    have h1' := descendantsPre_more_fuel h f1 f2 c dc h1
    have h2' := listChildren_mono (descendantsPre f2 h) (descendantsPre (f1 + f2) h)
      (fun d l hd => by
        have := descendantsPre_more_fuel h f2 f1 d l hd
        rwa [Nat.add_comm] at this) cs dr h2
    simp only [listChildren, h1', h2']

theorem descendantsPre_terminates (h : Heap P E)
    (hwf : WellFounded (fun c n => childStep h n c)) (n : Nat) :
    ∃ fuel l, descendantsPre fuel h n = some l := by
  induction n using hwf.induction with
  | _ n ih =>
    obtain ⟨f, l, hl⟩ := listChildren_terminates h (h n)._children (fun c hc => ih c hc)
    exact ⟨f + 1, l, by rw [descendantsPre]; exact hl⟩

theorem listChildren_mem (h : Heap P E) (desc : Nat → Option (List Nat))
    (hdesc : ∀ c l, desc c = some l → ∀ m, m ∈ l ↔ Relation.TransGen (childStep h) c m) :
    ∀ (cs : List Nat) l, listChildren desc cs = some l →
      ∀ m, m ∈ l ↔ ∃ c ∈ cs, Relation.ReflTransGen (childStep h) c m := by
  intro cs
  induction cs with
  | nil =>
    intro l hl m
    simp only [listChildren, Option.some.injEq] at hl
    subst hl
    simp
  | cons c cs ih =>
    intro l hl m
    simp only [listChildren] at hl
    split at hl
    · next dc dr hc hr =>
      simp only [Option.some.injEq] at hl
      subst hl
      simp only [List.mem_cons, List.mem_append, ih dr hr m, hdesc c dc hc m]
      constructor
      · rintro ((rfl | hm) | ⟨d, hd, hdm⟩)
        · exact ⟨m, Or.inl rfl, Relation.ReflTransGen.refl⟩
        · exact ⟨c, Or.inl rfl, hm.to_reflTransGen⟩
        · exact ⟨d, Or.inr hd, hdm⟩
      · rintro ⟨d, rfl | hd, hdm⟩
        · rcases Relation.reflTransGen_iff_eq_or_transGen.1 hdm with heq | ht
          · exact Or.inl (Or.inl heq)
          · exact Or.inl (Or.inr ht)
        · exact Or.inr ⟨d, hd, hdm⟩
    · simp at hl

/-- The listing holds exactly the nodes reachable from `n` through one or more child
links. -/
theorem descendantsPre_mem (h : Heap P E) :
    ∀ (fuel n : Nat) l, descendantsPre fuel h n = some l →
      ∀ m, m ∈ l ↔ Relation.TransGen (childStep h) n m := by
  intro fuel
  induction fuel with
  | zero => intro n l hl; simp [descendantsPre] at hl
  | succ fuel ih =>
    intro n l hl m
    rw [descendantsPre] at hl
    rw [listChildren_mem h _ (ih) _ l hl m, Relation.TransGen.head'_iff]
    rfl

theorem findInChildren_spec (name : String) (h : Heap P E)
    (find : Nat → Option (Option Nat)) (desc : Nat → Option (List Nat))
    (hfind : ∀ c l, desc c = some l →
      find c = some (l.find? (fun m => decide ((h m)._name = name)))) :
    ∀ (cs : List Nat) l, listChildren desc cs = some l →
      findInChildren name h find cs none =
        some (l.find? (fun m => decide ((h m)._name = name))) := by
  intro cs
  induction cs with
  | nil =>
    intro l hl
    simp only [listChildren, Option.some.injEq] at hl
    subst hl
    simp [findInChildren]
  | cons c cs ih =>
    intro l hl
    simp only [listChildren] at hl
    split at hl
    · next dc dr hc hr =>
      simp only [Option.some.injEq] at hl
      subst hl
      simp only [findInChildren]
      by_cases hn : (h c)._name = name
      · simp [hn, List.find?_cons]
      · simp only [if_neg hn, hfind c dc hc, List.find?_cons, decide_eq_false hn,
          List.find?_append]
        cases hf : dc.find? (fun m => decide ((h m)._name = name)) with
        | none => simp only [Option.none_or]; exact ih dr hr
        | some x => simp
    · simp at hl

theorem findChildNode_spec (name : String) (h : Heap P E) :
    ∀ (fuel n : Nat) l, descendantsPre fuel h n = some l →
      findChildNode fuel h n name =
        some (l.find? (fun m => decide ((h m)._name = name))) := by
  intro fuel
  induction fuel with
  | zero => intro n l hl; simp [descendantsPre] at hl
  | succ fuel ih =>
    intro n l hl
    rw [descendantsPre] at hl
    rw [findChildNode]
    exact findInChildren_spec name h _ _ (fun c l hc => ih c l hc) _ l hl

/-- C12: for a node `n` whose child links all point below `N` and form no cycle, and for
every name, `findChildNode` returns (for some fuel and every larger one) the first node
carrying exactly that name in the pre-order listing of the descendants of `n`; this listing
holds exactly the nodes reachable from `n` through one or more child links, so the null
result is returned exactly when no descendant of `n` carries the name. -/
theorem findChildNode_first_in_preorder (h : Heap P E) (N : Nat)
    (hfin : ∀ a b, childStep h a b → b < N)
    (hacyc : ∀ m, ¬ Relation.TransGen (childStep h) m m) (n : Nat) (name : String) :
    ∃ fuel pre, (∀ k, descendantsPre (fuel + k) h n = some pre) ∧
      (∀ m, m ∈ pre ↔ Relation.TransGen (childStep h) n m) ∧
      (∀ k, findChildNode (fuel + k) h n name =
        some (pre.find? (fun m => decide ((h m)._name = name)))) ∧
      (pre.find? (fun m => decide ((h m)._name = name)) = none ↔
        ∀ m, Relation.TransGen (childStep h) n m → (h m)._name ≠ name) := by
  obtain ⟨fuel, pre, hpre⟩ :=
    descendantsPre_terminates h (wf_of_acyclic_bounded (childStep h) N hfin hacyc) n
  have hmem := descendantsPre_mem h fuel n pre hpre
  refine ⟨fuel, pre, fun k => descendantsPre_more_fuel h fuel k n pre hpre, hmem,
    fun k => findChildNode_spec name h _ n pre (descendantsPre_more_fuel h fuel k n pre hpre), ?_⟩
  rw [List.find?_eq_none]
  constructor
  · intro hall m hm
    have := hall m ((hmem m).2 hm)
    simpa using this
  · intro hall m hm
    simpa using hall m ((hmem m).1 hm)

theorem addTree_children_gt (x y : ℚ) : ∀ a b, childStep (addTree x y) a b → a < b ∧ b < 3 := by
  intro a b hab
  match a with
  | 0 =>
    simp only [childStep, addTree, List.mem_cons, List.mem_singleton, List.not_mem_nil,
      or_false] at hab
    omega
  | 1 => simp [childStep, addTree, leafNode] at hab
  | 2 => simp [childStep, addTree, leafNode] at hab
  | k + 3 => simp [childStep, addTree, leafNode] at hab

/-- A store in which every child link points to a larger address has no cycle of child
links. -/
theorem acyclic_of_children_gt (h : Heap P E) (hlt : ∀ a b, childStep h a b → a < b) :
    ∀ m, ¬ Relation.TransGen (childStep h) m m := by
  have key : ∀ a b, Relation.TransGen (childStep h) a b → a < b := by
    intro a b hab
    induction hab with
    | single hs => exact hlt _ _ hs
    | tail _ hs ih => exact lt_trans ih (hlt _ _ hs)
  intro m hm
  exact lt_irrefl m (key m m hm)

/-- Witness for C12: looking for `leafY` below the head of `head = Add(leafX, leafY)`. -/
theorem findChildNode_first_in_preorder_witness :
    ∃ fuel pre, (∀ k, descendantsPre (fuel + k) (addTree 2 3) 0 = some pre) ∧
      (∀ m, m ∈ pre ↔ Relation.TransGen (childStep (addTree 2 3)) 0 m) ∧
      (∀ k, findChildNode (fuel + k) (addTree 2 3) 0 "leafY" =
        some (pre.find? (fun m => decide ((addTree 2 3 m)._name = "leafY")))) ∧
      (pre.find? (fun m => decide ((addTree 2 3 m)._name = "leafY")) = none ↔
        ∀ m, Relation.TransGen (childStep (addTree 2 3)) 0 m →
          (addTree 2 3 m)._name ≠ "leafY") :=
  findChildNode_first_in_preorder (addTree 2 3) 3
    (fun a b hab => (addTree_children_gt 2 3 a b hab).2)
    (acyclic_of_children_gt _ (fun a b hab => (addTree_children_gt 2 3 a b hab).1)) 0 "leafY"

/-- On `head = Add(leafX, leafY)`, `findChildNode("leafY")` returns the node of `leafY` and
`findChildNode("nope")` returns the null pointer. -/
theorem findChildNode_addTree :
    findChildNode 2 (addTree 2 3) 0 "leafY" = some (some 2) ∧
      findChildNode 2 (addTree 2 3) 0 "nope" = some none := by
  constructor <;> decide

theorem subtreesPost_mono (post post' : Nat → Option (List Nat))
    (hmono : ∀ c l, post c = some l → post' c = some l) :
    ∀ (cs : List Nat) l, subtreesPost post cs = some l → subtreesPost post' cs = some l := by
  intro cs
  induction cs with
  | nil => intro l h; simpa [subtreesPost] using h
  | cons c cs ih =>
    intro l h
    simp only [subtreesPost] at h ⊢
    split at h
    · next pc pr hc hr =>
      rw [hmono c pc hc, ih pr hr]
      exact h
    · simp at h

theorem postOrder_succ_fuel (h : Heap P E) :
    ∀ (fuel n : Nat) l, postOrder fuel h n = some l → postOrder (fuel + 1) h n = some l := by
  intro fuel
  induction fuel with
  | zero => intro n l hl; simp [postOrder] at hl
  | succ fuel ih =>
    intro n l hl
    rw [postOrder] at hl ⊢
    split at hl
    · next l1 h1 =>
      rw [subtreesPost_mono _ _ ih _ l1 h1]
      exact hl
    · simp at hl

theorem postOrder_more_fuel (h : Heap P E) (fuel k n : Nat) (l : List Nat)
    (hl : postOrder fuel h n = some l) : postOrder (fuel + k) h n = some l := by
  induction k with
  | zero => exact hl
  | succ k ih => exact postOrder_succ_fuel h _ n l ih

theorem subtreesPost_terminates (h : Heap P E) (cs : List Nat)
    (hcs : ∀ c ∈ cs, ∃ fuel l, postOrder fuel h c = some l) :
    ∃ fuel l, subtreesPost (postOrder fuel h) cs = some l := by
  induction cs with
  | nil => exact ⟨0, [], rfl⟩
  | cons c cs ih =>
    obtain ⟨f1, pc, h1⟩ := hcs c (List.mem_cons_self _ _)
    obtain ⟨f2, pr, h2⟩ := ih (fun d hd => hcs d (List.mem_cons_of_mem _ hd))
    refine ⟨f1 + f2, pc ++ pr, ?_⟩
    have h1' := postOrder_more_fuel h f1 f2 c pc h1
    have h2' := subtreesPost_mono (postOrder f2 h) (postOrder (f1 + f2) h)
      (fun d l hd => by
        have := postOrder_more_fuel h f2 f1 d l hd
        rwa [Nat.add_comm] at this) cs pr h2
    simp only [subtreesPost, h1', h2']

theorem postOrder_terminates (h : Heap P E)
    (hwf : WellFounded (fun c n => childStep h n c)) (n : Nat) :
    ∃ fuel l, postOrder fuel h n = some l := by
  induction n using hwf.induction with
  | _ n ih =>
    obtain ⟨f, l, hl⟩ := subtreesPost_terminates h (h n)._children (fun c hc => ih c hc)
    exact ⟨f + 1, l ++ [n], by rw [postOrder, hl]⟩

theorem subtreesPost_mem (h : Heap P E) (post : Nat → Option (List Nat))
    (hpost : ∀ c l, post c = some l → ∀ m, m ∈ l ↔ Relation.ReflTransGen (childStep h) c m) :
    ∀ (cs : List Nat) l, subtreesPost post cs = some l →
      ∀ m, m ∈ l ↔ ∃ c ∈ cs, Relation.ReflTransGen (childStep h) c m := by
  intro cs
  induction cs with
  | nil =>
    intro l hl m
    simp only [subtreesPost, Option.some.injEq] at hl
    subst hl
    simp
  | cons c cs ih =>
    intro l hl m
    simp only [subtreesPost] at hl
    split at hl
    · next pc pr hc hr =>
      simp only [Option.some.injEq] at hl
      subst hl
      simp only [List.mem_append, ih pr hr m, hpost c pc hc m, List.mem_cons]
      constructor
      · rintro (hm | ⟨d, hd, hdm⟩)
        · exact ⟨c, Or.inl rfl, hm⟩
        · exact ⟨d, Or.inr hd, hdm⟩
      · rintro ⟨d, rfl | hd, hdm⟩
        · exact Or.inl hdm
        · exact Or.inr ⟨d, hd, hdm⟩
    · simp at hl

/-- The post-order listing holds exactly the nodes reachable from `n` through child links,
`n` included. -/
theorem postOrder_mem (h : Heap P E) :
    ∀ (fuel n : Nat) l, postOrder fuel h n = some l →
      ∀ m, m ∈ l ↔ Relation.ReflTransGen (childStep h) n m := by
  intro fuel
  induction fuel with
  | zero => intro n l hl; simp [postOrder] at hl
  | succ fuel ih =>
    intro n l hl m
    rw [postOrder] at hl
    split at hl
    · next l1 h1 =>
      simp only [Option.some.injEq] at hl
      subst hl
      rw [List.mem_append, subtreesPost_mem h _ ih _ l1 h1 m, List.mem_singleton]
      constructor
      · rintro (⟨c, hc, hcm⟩ | rfl)
        · exact Relation.ReflTransGen.head hc hcm
        · exact Relation.ReflTransGen.refl
      · intro hr
        rcases Relation.ReflTransGen.cases_head hr with heq | ⟨c, hc, hcm⟩
        · exact Or.inr heq.symm
        · exact Or.inl ⟨c, hc, hcm⟩
    · simp at hl

theorem fillOwn_eq (type : P → ParType) (ps : List P) (list : ParameterList P) :
    fillOwn type ps list = list ++ ps.filter (fun p => decide (type p = ParType.DOUBLE)) := by
  induction ps generalizing list with
  | nil => simp [fillOwn]
  | cons p ps ih =>
    simp only [fillOwn, ih, List.filter_cons]
    by_cases hp : type p = ParType.DOUBLE
    · simp [hp, ParameterList.addParameter]
    · simp [hp]

theorem fillChildren_spec (type : P → ParType) (h : Heap P E)
    (fill : Nat → ParameterList P → Option (ParameterList P))
    (post : Nat → Option (List Nat))
    (hfill : ∀ c l, post c = some l →
      ∀ list, fill c list = some (list ++ l.flatMap (ownDoubles type h))) :
    ∀ (cs : List Nat) l, subtreesPost post cs = some l →
      ∀ list, fillChildren fill cs list = some (list ++ l.flatMap (ownDoubles type h)) := by
  intro cs
  induction cs with
  | nil =>
    intro l hl list
    simp only [subtreesPost, Option.some.injEq] at hl
    subst hl
    simp [fillChildren]
  | cons c cs ih =>
    intro l hl list
    simp only [subtreesPost] at hl
    split at hl
    · next pc pr hc hr =>
      simp only [Option.some.injEq] at hl
      subst hl
      simp only [fillChildren, hfill c pc hc list, ih pr hr, List.flatMap_append,
        List.append_assoc]
    · simp at hl

theorem fillParameters_spec (type : P → ParType) (h : Heap P E) :
    ∀ (fuel n : Nat) l, postOrder fuel h n = some l →
      ∀ list, fillParameters type fuel h n list =
        some (list ++ l.flatMap (ownDoubles type h)) := by
  intro fuel
  induction fuel with
  | zero => intro n l hl; simp [postOrder] at hl
  | succ fuel ih =>
    intro n l hl list
    rw [postOrder] at hl
    split at hl
    · next l1 h1 =>
      simp only [Option.some.injEq] at hl
      subst hl
      rw [fillParameters, fillChildren_spec type h _ _ ih _ l1 h1 list]
      simp only [fillOwn_eq, List.flatMap_append, List.flatMap_cons, List.flatMap_nil,
        List.append_nil, List.append_assoc, ownDoubles]
    · simp at hl

/-- C15: for a node `n` whose child links all point below `N` and form no cycle,
`fillParameters(list)` returns (for some fuel and every larger one) with `list` extended by
exactly the slots of kind `ParType::DOUBLE` of the nodes of the post-order listing of the
subtree of `n`, node after node and in slot order within a node; that listing holds exactly
the nodes reachable from `n` through child links (`n` included), once per path, the subtree
of each child, in child order, coming before the node itself. -/
theorem fillParameters_post_order (type : P → ParType) (h : Heap P E) (N : Nat)
    (hfin : ∀ a b, childStep h a b → b < N)
    (hacyc : ∀ m, ¬ Relation.TransGen (childStep h) m m) (n : Nat) :
    ∃ fuel po, (∀ k, postOrder (fuel + k) h n = some po) ∧
      (∀ m, m ∈ po ↔ Relation.ReflTransGen (childStep h) n m) ∧
      ∀ k list, fillParameters type (fuel + k) h n list =
        some (list ++ po.flatMap (ownDoubles type h)) := by
  obtain ⟨fuel, po, hpo⟩ :=
    postOrder_terminates h (wf_of_acyclic_bounded (childStep h) N hfin hacyc) n
  exact ⟨fuel, po, fun k => postOrder_more_fuel h fuel k n po hpo,
    postOrder_mem h fuel n po hpo,
    fun k list => fillParameters_spec type h _ n po (postOrder_more_fuel h fuel k n po hpo) list⟩

/-- Witness for C15: `head = Add(leafX, leafY)`, every value being of kind `DOUBLE`. -/
theorem fillParameters_post_order_witness :
    ∃ fuel po, (∀ k, postOrder (fuel + k) (addTree 2 3) 0 = some po) ∧
      (∀ m, m ∈ po ↔ Relation.ReflTransGen (childStep (addTree 2 3)) 0 m) ∧
      ∀ k list, fillParameters (fun _ => ParType.DOUBLE) (fuel + k) (addTree 2 3) 0 list =
        some (list ++ po.flatMap (ownDoubles (fun _ => ParType.DOUBLE) (addTree 2 3))) :=
  fillParameters_post_order (fun _ => ParType.DOUBLE) (addTree 2 3) 3
    (fun a b hab => (addTree_children_gt 2 3 a b hab).2)
    (acyclic_of_children_gt _ (fun a b hab => (addTree_children_gt 2 3 a b hab).1)) 0

/-- On `head = Add(leafX = 2, leafY = 3)` with every value of kind `DOUBLE`,
`fillParameters` appends the values of `leafX`, of `leafY` and of the head, in this order. -/
theorem fillParameters_addTree :
    fillParameters (fun _ => ParType.DOUBLE) 2 (addTree 2 3) 0 [] =
      some [⟨"leafX", 2⟩, ⟨"leafY", 3⟩, ⟨"head", 0⟩] := by
  simp [fillParameters, fillChildren, fillOwn, addTree, leafNode, ParameterList.addParameter]

/-! ## Linking and unlinking nodes -/

/-- C16: after `c.addParent(p)`, `p` is the last element of the parent list of `c` and `c`
is the last element of the child list of `p`, the earlier entries of both lists being kept;
no other list changes, and names, slots, flags and strategies of all nodes are unchanged. -/
theorem addParent_links_both_ways (h : Heap P E) (c p : Nat) :
    ((addParent h c p) c)._parents = (h c)._parents ++ [p] ∧
      ((addParent h c p) p)._children = (h p)._children ++ [c] ∧
      (∀ m, m ≠ c → ((addParent h c p) m)._parents = (h m)._parents) ∧
      (∀ m, m ≠ p → ((addParent h c p) m)._children = (h m)._children) ∧
      ∀ m, ((addParent h c p) m)._name = (h m)._name ∧
        ((addParent h c p) m)._parameters = (h m)._parameters ∧
        ((addParent h c p) m)._changed = (h m)._changed ∧
        ((addParent h c p) m)._strat = (h m)._strat := by
  refine ⟨?_, ?_, ?_, ?_, ?_⟩
  · by_cases hcp : c = p
    · subst hcp; simp [addParent, Heap.set]
    · simp [addParent, Heap.set, hcp]
  · by_cases hcp : p = c
    · subst hcp; simp [addParent, Heap.set]
    · simp [addParent, Heap.set, hcp]
  · intro m hm
    by_cases hmp : m = p
    · subst hmp; simp [addParent, Heap.set, hm]
    · simp [addParent, Heap.set, hm, hmp]
  · intro m hm
    by_cases hmc : m = c
    · subst hmc; simp [addParent, Heap.set, hm]
    · simp [addParent, Heap.set, hm, hmc]
  · intro m
    by_cases hmp : m = p <;> by_cases hmc : m = c
    · subst hmp; subst hmc; simp [addParent, Heap.set]
    · subst hmp; simp [addParent, Heap.set, hmc]
    · subst hmc; simp [addParent, Heap.set, hmp]
    · simp [addParent, Heap.set, hmp, hmc]

/-- C17 (behaviour of the code): `p.addChild(c)` appends `c` to the child list of `p` and
changes no parent list at all, so the edge exists downwards only: on two unlinked nodes,
`p.addChild(c)` leaves the parent list of `c` empty, and a later `update()` on `c` returns
with the flag of `p` still false. -/
theorem addChild_no_back_reference :
    (∀ (h : Heap (Value ℚ) String) (p c m : Nat),
        ((addChild h p c) m)._parents = (h m)._parents) ∧
      ((addChild unlinkedPair 0 1) 0)._children = [1] ∧
      ((addChild unlinkedPair 0 1) 1)._parents = [] ∧
      (update 1 1 (addChild unlinkedPair 0 1)).map (fun h => ((h 1)._changed, (h 0)._changed))
        = some (true, false) := by
  refine ⟨?_, rfl, rfl, rfl⟩
  intro h p c m
  by_cases hm : m = p
  · subst hm; simp [addChild, Heap.set]
  · simp [addChild, Heap.set, hm]

/-- C18: `n.deleteLinks()` empties the child list and the parent list of `n`, leaves its
name, its slots, its flag and its strategy as they were, touches no other node, and calls
`Detach(n)` once on the parameter of each slot; a following `n.recalculate()` takes the
leaf branch: for every positive fuel it returns without error, records only its own entry
and return (no `execute`), and clears the flag of `n`. -/
theorem deleteLinks_makes_leaf (h : Heap P E) (n fuel : Nat) (tr : List (Event P E)) :
    ((deleteLinks h n).1 n)._children = [] ∧ ((deleteLinks h n).1 n)._parents = [] ∧
      ((deleteLinks h n).1 n)._name = (h n)._name ∧
      ((deleteLinks h n).1 n)._parameters = (h n)._parameters ∧
      ((deleteLinks h n).1 n)._changed = (h n)._changed ∧
      ((deleteLinks h n).1 n)._strat = (h n)._strat ∧
      (∀ m, m ≠ n → (deleteLinks h n).1 m = h m) ∧
      (deleteLinks h n).2 = (h n)._parameters.map (fun p => (p, n)) ∧
      recalculate (fuel + 1) n ⟨(deleteLinks h n).1, tr⟩ =
        some (.ok (), ⟨(deleteLinks h n).1.setChanged n false, tr ++ [.enter n, .leave n]⟩) := by
  refine ⟨?_, ?_, ?_, ?_, ?_, ?_, ?_, rfl, ?_⟩
  · simp [deleteLinks, Heap.set]
  · simp [deleteLinks, Heap.set]
  · simp [deleteLinks, Heap.set]
  · simp [deleteLinks, Heap.set]
  · simp [deleteLinks, Heap.set]
  · simp [deleteLinks, Heap.set]
  · intro m hm
    simp [deleteLinks, Heap.set, hm]
  · simp [recalculate, State.log, deleteLinks, Heap.set]

/-! ## The type check of the Flatte strategies -/

/-- C19: when the kind of the output differs from `checkType`, `FlatteStrategy::execute` and
`FlattePhspStrategy::execute` throw `WrongParType` and leave the output as it was; the
outcome is the same whatever the inputs are and whatever the statements after the check
would do, i.e. the check comes before any input is read. -/
theorem flatte_execute_wrong_type (type : P → ParType) (ParNames : ParType → String)
    (body : ParameterList P → P → Option StrategyError × P)
    (checkType : ParType) (name : String) (paras : ParameterList P) (out : P)
    (hkind : checkType ≠ type out) :
    FlatteStrategy.execute type ParNames body ⟨checkType, name⟩ paras out =
        (some (.WrongParType ("Output Type " ++ ParNames (type out) ++
          " conflicts expected type " ++ ParNames checkType ++ " of " ++ name ++
          " BW strat")), out) ∧
      FlattePhspStrategy.execute type ParNames body ⟨checkType, name⟩ paras out =
        (some (.WrongParType ("Output Type " ++ ParNames (type out) ++
          " conflicts expected type " ++ ParNames checkType ++ " of " ++ name ++
          " BW strat")), out) := by
  constructor
  · simp only [FlatteStrategy.execute, if_pos hkind]
  · simp only [FlattePhspStrategy.execute, if_pos hkind]

/-- Witness for C19: a strategy configured for `MCOMPLEX` handed an output of kind
`DOUBLE`. -/
theorem flatte_execute_wrong_type_witness :
    FlatteStrategy.execute (fun _ : Value ℚ => ParType.DOUBLE) (fun _ => "kind")
        (fun _ out => (none, out)) ⟨ParType.MCOMPLEX, "f0"⟩ [] ⟨"out", 0⟩ =
        (some (.WrongParType ("Output Type " ++ "kind" ++
          " conflicts expected type " ++ "kind" ++ " of " ++ "f0" ++ " BW strat")),
          ⟨"out", 0⟩) ∧
      FlattePhspStrategy.execute (fun _ : Value ℚ => ParType.DOUBLE) (fun _ => "kind")
        (fun _ out => (none, out)) ⟨ParType.MCOMPLEX, "f0"⟩ [] ⟨"out", 0⟩ =
        (some (.WrongParType ("Output Type " ++ "kind" ++
          " conflicts expected type " ++ "kind" ++ " of " ++ "f0" ++ " BW strat")),
          ⟨"out", 0⟩) :=
  flatte_execute_wrong_type (fun _ : Value ℚ => ParType.DOUBLE) (fun _ => "kind")
    (fun _ out => (none, out)) ParType.MCOMPLEX "f0" [] ⟨"out", 0⟩ (by decide)

/-! ## `print` -/

theorem printChildren_spec (pname val_to_str : P → String) (h : Heap P E)
    (pr : Nat → Option String) (vis : Nat → Option (List (Nat × Nat))) (pre : String)
    (hpr : ∀ c vc, vis c = some vc → pr c = some (concatLines
      (vc.map (fun v => printLine pname val_to_str h v.1 (pre ++ indent v.2))))) :
    ∀ (cs : List Nat) l, visitsBelow vis cs = some l →
      ∀ oss, printChildren pr cs oss = some (oss ++ concatLines
        (l.map (fun v => printLine pname val_to_str h v.1 (pre ++ indent v.2)))) := by
  have hcat : ∀ (a b : List String), concatLines (a ++ b) = concatLines a ++ concatLines b := by
    intro a b
    induction a with
    | nil => simp [concatLines]
    | cons x a ih => simp [concatLines, ih, String.append_assoc]
  intro cs
  induction cs with
  | nil =>
    intro l hl oss
    simp only [visitsBelow, Option.some.injEq] at hl
    subst hl
    simp [printChildren, concatLines]
  | cons c cs ih =>
    intro l hl oss
    simp only [visitsBelow] at hl
    split at hl
    · next vc vr hc hr =>
      simp only [Option.some.injEq] at hl
      subst hl
      simp only [printChildren, hpr c vc hc, ih vr hr, List.map_append, hcat,
        String.append_assoc]
    · simp at hl

/-- The output of `print` is the concatenation, in visiting order, of the lines of the
visited nodes, each written with the prefix extended by its indentation. -/
theorem print_spec (pname val_to_str : P → String) (h : Heap P E) (pre : String) :
    ∀ (fuel n : Nat) (level : Int) (k : Nat) vs, visits fuel h n level k = some vs →
      print pname val_to_str fuel h n level (pre ++ indent k) = some (concatLines
        (vs.map (fun v => printLine pname val_to_str h v.1 (pre ++ indent v.2)))) := by
  intro fuel
  induction fuel with
  | zero => intro n level k vs hv; simp [visits] at hv
  | succ fuel ih =>
    intro n level k vs hv
    rw [visits] at hv
    rw [print]
    split at hv
    · next h0 =>
      simp only [Option.some.injEq] at hv
      subst hv
      simp [if_pos h0, concatLines]
    · next h0 =>
      simp only [if_neg h0]
      split at hv
      · next l hl =>
        simp only [Option.some.injEq] at hv
        subst hv
        have := printChildren_spec pname val_to_str h
          (fun ch => print pname val_to_str fuel h ch (level - 1) (pre ++ indent k ++ ". "))
          (fun c => visits fuel h c (level - 1) (k + 1)) pre
          (fun c vc hc => by
            have := ih c (level - 1) (k + 1) vc hc
            simpa [indent, String.append_assoc] using this)
          _ l hl (printLine pname val_to_str h n (pre ++ indent k))
        rw [this]
        simp [concatLines]
      · simp at hv

theorem visitsBelow_mono (vis vis' : Nat → Option (List (Nat × Nat)))
    (hmono : ∀ c l, vis c = some l → vis' c = some l) :
    ∀ (cs : List Nat) l, visitsBelow vis cs = some l → visitsBelow vis' cs = some l := by
  intro cs
  induction cs with
  | nil => intro l hl; simpa [visitsBelow] using hl
  | cons c cs ih =>
    intro l hl
    simp only [visitsBelow] at hl ⊢
    split at hl
    · next vc vr hc hr =>
      rw [hmono c vc hc, ih vr hr]
      exact hl
    · simp at hl

theorem visits_succ_fuel (h : Heap P E) :
    ∀ (fuel n : Nat) (level : Int) (k : Nat) vs, visits fuel h n level k = some vs →
      visits (fuel + 1) h n level k = some vs := by
  intro fuel
  induction fuel with
  | zero => intro n level k vs hv; simp [visits] at hv
  | succ fuel ih =>
    intro n level k vs hv
    rw [visits] at hv ⊢
    split at hv
    · next h0 => simp only [if_pos h0]; exact hv
    · next h0 =>
      simp only [if_neg h0]
      split at hv
      · next l hl =>
        rw [visitsBelow_mono _ _ (fun c vc hc => ih c (level - 1) (k + 1) vc hc) _ l hl]
        exact hv
      · simp at hv

theorem visits_more_fuel (h : Heap P E) (fuel j n : Nat) (level : Int) (k : Nat)
    (vs : List (Nat × Nat)) (hv : visits fuel h n level k = some vs) :
    visits (fuel + j) h n level k = some vs := by
  induction j with
  | zero => exact hv
  | succ j ih => exact visits_succ_fuel h _ n level k vs ih

theorem visits_le_fuel (h : Heap P E) {fuel fuel' : Nat} (hle : fuel ≤ fuel') (n : Nat)
    (level : Int) (k : Nat) (vs : List (Nat × Nat)) (hv : visits fuel h n level k = some vs) :
    visits fuel' h n level k = some vs := by
  obtain ⟨j, rfl⟩ := Nat.exists_eq_add_of_le hle
  exact visits_more_fuel h fuel j n level k vs hv

theorem visitsBelow_total (vis : Nat → Option (List (Nat × Nat))) (cs : List Nat)
    (hcs : ∀ c ∈ cs, ∃ vc, vis c = some vc) : ∃ l, visitsBelow vis cs = some l := by
  induction cs with
  | nil => exact ⟨[], rfl⟩
  | cons c cs ih =>
    obtain ⟨vc, hc⟩ := hcs c (List.mem_cons_self _ _)
    obtain ⟨vr, hr⟩ := ih (fun d hd => hcs d (List.mem_cons_of_mem _ hd))
    exact ⟨vc ++ vr, by simp only [visitsBelow, hc, hr]⟩

/-- With a level `d ≥ 0` the traversal needs no more than `d + 1` nested calls, whatever the
graph. -/
theorem visits_total_of_nonneg (h : Heap P E) :
    ∀ (d fuel n k : Nat), d < fuel → ∃ vs, visits fuel h n (d : Int) k = some vs := by
  intro d
  induction d with
  | zero =>
    intro fuel n k hlt
    obtain ⟨f, rfl⟩ := Nat.exists_eq_succ_of_ne_zero (by omega : fuel ≠ 0)
    exact ⟨[(n, k)], by simp [visits]⟩
  | succ d ih =>
    intro fuel n k hlt
    obtain ⟨f, rfl⟩ := Nat.exists_eq_succ_of_ne_zero (by omega : fuel ≠ 0)
    have hne : ¬ ((d + 1 : Nat) : Int) = 0 := by omega
    have hsub : ((d + 1 : Nat) : Int) - 1 = (d : Int) := by omega
    obtain ⟨l, hl⟩ := visitsBelow_total (fun c => visits f h c (d : Int) (k + 1))
      (h n)._children (fun c _ => ih f c (k + 1) (by omega))
    exact ⟨(n, k) :: l, by rw [visits, if_neg hne, hsub, hl]⟩

theorem visits_children_fuel (h : Heap P E) (cs : List Nat)
    (hcs : ∀ c ∈ cs, ∃ fuel, ∀ (level : Int) (k : Nat), ∃ vs, visits fuel h c level k = some vs) :
    ∃ fuel, ∀ c ∈ cs, ∀ (level : Int) (k : Nat), ∃ vs, visits fuel h c level k = some vs := by
  induction cs with
  | nil => exact ⟨0, fun c hc => by simp at hc⟩
  | cons c cs ih =>
    obtain ⟨f1, h1⟩ := hcs c (List.mem_cons_self _ _)
    obtain ⟨f2, h2⟩ := ih (fun d hd => hcs d (List.mem_cons_of_mem _ hd))
    refine ⟨max f1 f2, fun d hd level k => ?_⟩
    rcases List.mem_cons.1 hd with rfl | hd
    · obtain ⟨vs, hvs⟩ := h1 level k
      exact ⟨vs, visits_le_fuel h (le_max_left f1 f2) _ level k vs hvs⟩
    · obtain ⟨vs, hvs⟩ := h2 d hd level k
      exact ⟨vs, visits_le_fuel h (le_max_right f1 f2) _ level k vs hvs⟩

/-- In a graph without cycles of child links the traversal ends for every level. -/
theorem visits_total_of_wf (h : Heap P E)
    (hwf : WellFounded (fun c n => childStep h n c)) (n : Nat) :
    ∃ fuel, ∀ (level : Int) (k : Nat), ∃ vs, visits fuel h n level k = some vs := by
  induction n using hwf.induction with
  | _ n ih =>
    obtain ⟨f, hf⟩ := visits_children_fuel h (h n)._children (fun c hc => ih c hc)
    refine ⟨f + 1, fun level k => ?_⟩
    by_cases h0 : level = 0
    · exact ⟨[(n, k)], by rw [visits, if_pos h0]⟩
    · obtain ⟨l, hl⟩ := visitsBelow_total (fun c => visits f h c (level - 1) (k + 1))
        (h n)._children (fun c hc => hf c hc (level - 1) (k + 1))
      exact ⟨(n, k) :: l, by rw [visits, if_neg h0, hl]⟩

theorem visitsBelow_mem (vis : Nat → Option (List (Nat × Nat)))
    (Pc : Nat → Nat × Nat → Prop)
    (hvis : ∀ c vc, vis c = some vc → ∀ x, x ∈ vc ↔ Pc c x) :
    ∀ (cs : List Nat) l, visitsBelow vis cs = some l →
      ∀ x, x ∈ l ↔ ∃ c ∈ cs, Pc c x := by
  intro cs
  induction cs with
  | nil =>
    intro l hl x
    simp only [visitsBelow, Option.some.injEq] at hl
    subst hl
    simp
  | cons c cs ih =>
    intro l hl x
    simp only [visitsBelow] at hl
    split at hl
    · next vc vr hc hr =>
      simp only [Option.some.injEq] at hl
      subst hl
      simp only [List.mem_append, ih vr hr x, hvis c vc hc x, List.mem_cons]
      constructor
      · rintro (hx | ⟨d, hd, hdx⟩)
        · exact ⟨c, Or.inl rfl, hx⟩
        · exact ⟨d, Or.inr hd, hdx⟩
      · rintro ⟨d, rfl | hd, hdx⟩
        · exact Or.inl hdx
        · exact Or.inr ⟨d, hd, hdx⟩
    · simp at hl

/-- The visits are exactly the ends of the paths of child links from the start, with the
length of the path as distance, up to length `level` when `level ≥ 0`. -/
theorem visits_mem (h : Heap P E) :
    ∀ (fuel n : Nat) (level : Int) (k0 : Nat) vs, visits fuel h n level k0 = some vs →
      ∀ m k, (m, k) ∈ vs ↔
        ∃ j, k = k0 + j ∧ reachIn h j n m ∧ (0 ≤ level → (j : Int) ≤ level) := by
  intro fuel
  induction fuel with
  | zero => intro n level k0 vs hv; simp [visits] at hv
  | succ fuel ih =>
    intro n level k0 vs hv m k
    rw [visits] at hv
    split at hv
    · next h0 =>
      simp only [Option.some.injEq] at hv
      subst hv
      subst h0
      simp only [List.mem_singleton, Prod.mk.injEq]
      constructor
      · rintro ⟨rfl, rfl⟩
        exact ⟨0, rfl, rfl, fun _ => le_refl _⟩
      · rintro ⟨j, rfl, hr, hle⟩
        have hj : j = 0 := by
          have := hle (le_refl _)
          omega
        subst hj
        exact ⟨hr.symm, rfl⟩
    · next h0 =>
      split at hv
      · next l hl =>
        simp only [Option.some.injEq] at hv
        subst hv
        have hmem := visitsBelow_mem (fun c => visits fuel h c (level - 1) (k0 + 1))
          (fun c x => ∃ j, x.2 = k0 + 1 + j ∧ reachIn h j c x.1 ∧
            (0 ≤ level - 1 → (j : Int) ≤ level - 1))
          (fun c vc hc x => ih c (level - 1) (k0 + 1) vc hc x.1 x.2) _ l hl (m, k)
        simp only [List.mem_cons, Prod.mk.injEq, hmem]
        constructor
        · rintro (⟨rfl, rfl⟩ | ⟨c, hc, j, hk, hr, hle⟩)
          · exact ⟨0, rfl, rfl, fun hl0 => by omega⟩
          · exact ⟨j + 1, by omega, ⟨c, hc, hr⟩, fun hl0 => by
              have := hle (by omega)
              omega⟩
        · rintro ⟨j, hk, hr, hle⟩
          cases j with
          | zero => exact Or.inl ⟨hr.symm, by omega⟩
          | succ j =>
            obtain ⟨c, hc, hr'⟩ := hr
            refine Or.inr ⟨c, hc, j, by omega, hr', fun hl0 => ?_⟩
            have := hle (by omega)
            omega
      · simp at hv

theorem ite_ne_of {α : Type} {c : Prop} [Decidable c] {a b x : α} (ha : a ≠ x)
    (hb : b ≠ x) : (if c then a else b) ≠ x := by
  split <;> assumption

theorem digitChar_ne_newline (m : Nat) : Nat.digitChar m ≠ '\n' := by
  unfold Nat.digitChar
  repeat (refine ite_ne_of (by decide) ?_)
  decide

theorem toDigitsCore_no_newline :
    ∀ (fuel n : Nat) (ds : List Char), '\n' ∉ ds → '\n' ∉ Nat.toDigitsCore 10 fuel n ds := by
  intro fuel
  induction fuel with
  | zero => intro n ds hds; simpa [Nat.toDigitsCore] using hds
  | succ fuel ih =>
    intro n ds hds
    have hcons : '\n' ∉ Nat.digitChar (n % 10) :: ds := by
      intro hmem
      rcases List.mem_cons.1 hmem with heq | hmem
      · exact digitChar_ne_newline _ heq.symm
      · exact hds hmem
    simp only [Nat.toDigitsCore]
    split
    · exact hcons
    · exact ih _ _ hcons

theorem noNewline_toString_nat (n : Nat) : NoNewline (toString n) := by
  show '\n' ∉ (Nat.repr n).data
  simp only [Nat.repr, List.asString, Nat.toDigits]
  exact toDigitsCore_no_newline _ _ _ (by simp)

theorem noNewline_append {s t : String} (hs : NoNewline s) (ht : NoNewline t) :
    NoNewline (s ++ t) := by
  simp only [NoNewline, String.data_append, List.mem_append, not_or] at *
  exact ⟨hs, ht⟩

theorem printValues_append (pname val_to_str : P → String) (leaf : Bool) :
    ∀ (ps : List P) (oss : String),
      printValues pname val_to_str leaf ps oss =
        oss ++ concatLines (ps.map (slotText pname val_to_str leaf)) := by
  intro ps
  induction ps with
  | nil => intro oss; simp [printValues, concatLines]
  | cons p ps ih =>
    intro oss
    simp only [printValues, List.map_cons, concatLines, ih, slotText]
    cases leaf <;> simp [String.append_assoc]

theorem noNewline_slots (pname val_to_str : P → String) (leaf : Bool) (ps : List P)
    (hps : ∀ p ∈ ps, NoNewline (pname p) ∧ NoNewline (val_to_str p)) :
    NoNewline (concatLines (ps.map (slotText pname val_to_str leaf))) := by
  induction ps with
  | nil => simp [concatLines, NoNewline]
  | cons p ps ih =>
    obtain ⟨hn, hv⟩ := hps p (List.mem_cons_self _ _)
    have hrest := ih (fun q hq => hps q (List.mem_cons_of_mem _ hq))
    simp only [List.map_cons, concatLines]
    refine noNewline_append ?_ hrest
    unfold slotText
    cases leaf
    · exact noNewline_append (noNewline_append (noNewline_append (by simp [NoNewline])
        (by simp [NoNewline])) hv) (by simp [NoNewline])
    · exact noNewline_append (noNewline_append (noNewline_append
        (noNewline_append (noNewline_append (by simp [NoNewline]) hn) (by simp [NoNewline]))
        (by simp [NoNewline])) hv) (by simp [NoNewline])

/-- The line of a node is the prefix, the name, either `" = ?"` or the texts of the slots,
and the end of the line. -/
theorem printLine_eq (pname val_to_str : P → String) (h : Heap P E) (n : Nat) (pre : String) :
    printLine pname val_to_str h n pre =
      pre ++ ((h n)._name ++ ((if (h n)._changed = true ∧ (h n)._children.length ≠ 0 then " = ?"
        else concatLines ((h n)._parameters.map
          (slotText pname val_to_str (decide ((h n)._children.length = 0))))) ++
        lineEnd h n)) := by
  unfold printLine lineEnd
  simp only [printValues_append]
  by_cases hc : (h n)._changed = true ∧ (h n)._children.length ≠ 0
  · simp only [if_pos hc, if_pos hc.2, String.append_assoc]
  · by_cases hl : (h n)._children.length ≠ 0
    · simp only [if_neg hc, if_pos hl, String.append_assoc]
    · simp only [if_neg hc, if_neg hl, String.append_assoc]

theorem printLine_singleLine (pname val_to_str : P → String) (h : Heap P E) (n : Nat)
    (pre : String) (hpre : NoNewline pre) (hname : NoNewline (h n)._name)
    (hps : ∀ p ∈ (h n)._parameters, NoNewline (pname p) ∧ NoNewline (val_to_str p)) :
    SingleLine (printLine pname val_to_str h n pre) := by
  have hmid : NoNewline (if (h n)._changed = true ∧ (h n)._children.length ≠ 0 then " = ?"
      else concatLines ((h n)._parameters.map
        (slotText pname val_to_str (decide ((h n)._children.length = 0))))) := by
    split
    · simp [NoNewline]
    · exact noNewline_slots pname val_to_str _ _ hps
  rw [printLine_eq]
  unfold lineEnd
  by_cases hl : (h n)._children.length ≠ 0
  · refine ⟨pre ++ ((h n)._name ++ ((if (h n)._changed = true ∧ (h n)._children.length ≠ 0
      then " = ?" else concatLines ((h n)._parameters.map
        (slotText pname val_to_str (decide ((h n)._children.length = 0))))) ++
        (" (" ++ toString (h n)._children.length ++ " children/" ++
          toString (h n)._parameters.length ++ " values)"))), ?_, ?_⟩
    · simp only [if_pos hl, String.append_assoc]
    · exact noNewline_append hpre (noNewline_append hname (noNewline_append hmid
        (noNewline_append (noNewline_append (noNewline_append (noNewline_append
          (by simp [NoNewline]) (noNewline_toString_nat _)) (by simp [NoNewline]))
          (noNewline_toString_nat _)) (by simp [NoNewline]))))
  · refine ⟨pre ++ ((h n)._name ++ (if (h n)._changed = true ∧ (h n)._children.length ≠ 0
      then " = ?" else concatLines ((h n)._parameters.map
        (slotText pname val_to_str (decide ((h n)._children.length = 0)))))), ?_, ?_⟩
    · simp only [if_neg hl, String.append_assoc]
    · exact noNewline_append hpre (noNewline_append hname hmid)

theorem visitsBelow_count (vis : Nat → Option (List (Nat × Nat))) (x : Nat × Nat)
    (f : Nat → Nat) (hvis : ∀ c vc, vis c = some vc → vc.count x = f c) :
    ∀ (cs : List Nat) l, visitsBelow vis cs = some l → l.count x = (cs.map f).sum := by
  intro cs
  induction cs with
  | nil =>
    intro l hl
    simp only [visitsBelow, Option.some.injEq] at hl
    subst hl
    simp
  | cons c cs ih =>
    intro l hl
    simp only [visitsBelow] at hl
    split at hl
    · next vc vr hc hr =>
      simp only [Option.some.injEq] at hl
      subst hl
      simp only [List.count_append, hvis c vc hc, ih vr hr, List.map_cons, List.sum_cons]
    · simp at hl

/-- Every path of child links from the start is listed exactly once, with its length as
distance, as long as it is no longer than `level` when `level ≥ 0`. -/
theorem visits_count (h : Heap P E) :
    ∀ (fuel n : Nat) (level : Int) (k0 : Nat) vs, visits fuel h n level k0 = some vs →
      ∀ m j, vs.count (m, k0 + j) =
        if (0 ≤ level → (j : Int) ≤ level) then pathCount h j n m else 0 := by
  intro fuel
  induction fuel with
  | zero => intro n level k0 vs hv; simp [visits] at hv
  | succ fuel ih =>
    intro n level k0 vs hv m j
    have hmem := visits_mem h (fuel + 1) n level k0 vs hv
    rw [visits] at hv
    split at hv
    · next h0 =>
      simp only [Option.some.injEq] at hv
      subst hv
      subst h0
      cases j with
      | zero =>
        by_cases hnm : n = m
        · subst hnm; simp [pathCount]
        · simp [pathCount, hnm, List.count_cons]
      | succ j =>
        have hc : ¬ ((0 : Int) ≤ 0 → ((j + 1 : Nat) : Int) ≤ 0) := by
          intro hx
          have := hx (le_refl _)
          omega
        rw [if_neg hc, List.count_eq_zero]
        simp
    · next h0 =>
      split at hv
      · next l hl =>
        simp only [Option.some.injEq] at hv
        subst hv
        cases j with
        | zero =>
          have hnot : (m, k0) ∉ l := by
            intro hin
            have hml := visitsBelow_mem (fun c => visits fuel h c (level - 1) (k0 + 1))
              (fun c x => ∃ j, x.2 = k0 + 1 + j ∧ reachIn h j c x.1 ∧
                (0 ≤ level - 1 → (j : Int) ≤ level - 1))
              (fun c vc hc x => visits_mem h fuel c (level - 1) (k0 + 1) vc hc x.1 x.2)
              _ l hl (m, k0)
            obtain ⟨c, _, j, hk, _⟩ := hml.1 hin
            simp only at hk
            omega
          have hcond : (0 ≤ level → ((0 : Nat) : Int) ≤ level) := fun hx => by simpa using hx
          rw [if_pos hcond, List.count_cons, Nat.add_zero, List.count_eq_zero.2 hnot]
          by_cases hnm : n = m
          · subst hnm; simp [pathCount]
          · simp [pathCount, hnm]
        | succ j =>
          have hsum := visitsBelow_count (fun c => visits fuel h c (level - 1) (k0 + 1))
            (m, k0 + (j + 1))
            (fun c => if (0 ≤ level - 1 → (j : Int) ≤ level - 1) then pathCount h j c m else 0)
            (fun c vc hc => by
              have := ih c (level - 1) (k0 + 1) vc hc m j
              rw [show k0 + (j + 1) = k0 + 1 + j by omega]
              exact this) _ l hl
          have hne : ¬ ((n, k0) = (m, k0 + (j + 1))) := by
            intro heq
            have := congrArg Prod.snd heq
            simp only at this
            omega
          rw [List.count_cons, hsum]
          simp only [beq_iff_eq, hne, if_false, Nat.add_zero]
          by_cases hc : (0 ≤ level - 1 → (j : Int) ≤ level - 1)
          · have hc' : (0 ≤ level → ((j + 1 : Nat) : Int) ≤ level) := fun hx => by
              have := hc (by omega)
              omega
            simp only [if_pos hc, if_pos hc', pathCount]
          · have hc' : ¬ (0 ≤ level → ((j + 1 : Nat) : Int) ≤ level) := fun hx =>
              hc (fun hy => by
                have := hx (by omega)
                omega)
            simp only [if_neg hc, if_neg hc']
            simp
      · simp at hv

theorem noNewline_indent (pre : String) (hpre : NoNewline pre) :
    ∀ k, NoNewline (pre ++ indent k) := by
  intro k
  induction k with
  | zero => simpa [indent] using hpre
  | succ k ih =>
    have := noNewline_append ih (show NoNewline ". " by simp [NoNewline])
    simpa [indent, String.append_assoc] using this

theorem visits_mem_root (h : Heap P E) (fuel n : Nat) (level : Int) (vs : List (Nat × Nat))
    (hv : visits fuel h n level 0 = some vs) (m k : Nat) :
    (m, k) ∈ vs ↔ reachIn h k n m ∧ (0 ≤ level → (k : Int) ≤ level) := by
  rw [visits_mem h fuel n level 0 vs hv m k]
  constructor
  · rintro ⟨j, hk, hr, hle⟩
    have hkj : k = j := by omega
    subst hkj
    exact ⟨hr, hle⟩
  · rintro ⟨hr, hle⟩
    exact ⟨k, by omega, hr, hle⟩

/-- C13 (as amended): for a node `n`, a prefix `pre` and a depth `level`, where the prefix,
the names and the value strings hold no newline and either `level ≥ 0` or the child links
are finite and without cycle: `print(level, pre)` returns (for some fuel and every larger one) the concatenation, in the
pre-order of the traversal `visits`, of one line per visit; each such line ends with its only
newline and starts with `pre` followed by `k` copies of `". "`, `k` being the distance of
the visit; a pair (node, distance) is visited once per path of that length from `n`, as long
as the length is at most `level` when `level ≥ 0`; for `level < 0`, or `level` at least the
length of every path, these are all paths; for `level = 0` the result is the single line of
`n`. -/
theorem print_one_line_per_path (pname val_to_str : P → String) (h : Heap P E) (N n : Nat)
    (level : Int) (pre : String)
    (hterm : 0 ≤ level ∨ ((∀ a b, childStep h a b → b < N) ∧
      ∀ m, ¬ Relation.TransGen (childStep h) m m))
    (hpre : NoNewline pre) (hnames : ∀ m, NoNewline (h m)._name)
    (hvals : ∀ m, ∀ p ∈ (h m)._parameters, NoNewline (pname p) ∧ NoNewline (val_to_str p)) :
    ∃ fuel vs,
      (∀ j, visits (fuel + j) h n level 0 = some vs) ∧
      (∀ j, print pname val_to_str (fuel + j) h n level pre = some (concatLines
        (vs.map (fun v => printLine pname val_to_str h v.1 (pre ++ indent v.2))))) ∧
      (∀ v ∈ vs, SingleLine (printLine pname val_to_str h v.1 (pre ++ indent v.2)) ∧
        ∃ rest, printLine pname val_to_str h v.1 (pre ++ indent v.2) =
          pre ++ indent v.2 ++ rest) ∧
      (∀ m k, vs.count (m, k) =
        if (0 ≤ level → (k : Int) ≤ level) then pathCount h k n m else 0) ∧
      (∀ m k, (m, k) ∈ vs ↔ reachIn h k n m ∧ (0 ≤ level → (k : Int) ≤ level)) ∧
      ((level < 0 ∨ ∀ m k, reachIn h k n m → (k : Int) ≤ level) →
        ∀ m k, (m, k) ∈ vs ↔ reachIn h k n m) ∧
      (level = 0 → vs = [(n, 0)]) ∧
      (level = 0 → ∀ j, print pname val_to_str (fuel + j) h n level pre =
        some (printLine pname val_to_str h n pre)) := by
  obtain ⟨fuel, vs, hvs⟩ : ∃ fuel vs, visits fuel h n level 0 = some vs := by
    rcases hterm with hnn | ⟨hfin, hacyc⟩
    · obtain ⟨d, rfl⟩ := Int.eq_ofNat_of_zero_le hnn
      obtain ⟨vs, hvs⟩ := visits_total_of_nonneg h d (d + 1) n 0 (Nat.lt_succ_self d)
      exact ⟨d + 1, vs, hvs⟩
    · obtain ⟨fuel, hf⟩ :=
        visits_total_of_wf h (wf_of_acyclic_bounded (childStep h) N hfin hacyc) n
      obtain ⟨vs, hvs⟩ := hf level 0
      exact ⟨fuel, vs, hvs⟩
  have hmem := visits_mem_root h fuel n level vs hvs
  have hfuel : fuel ≠ 0 := by
    intro h0
    subst h0
    simp [visits] at hvs
  refine ⟨fuel, vs, fun j => visits_more_fuel h fuel j n level 0 vs hvs, ?_, ?_, ?_, hmem, ?_,
    ?_, ?_⟩
  · intro j
    have := print_spec pname val_to_str h pre (fuel + j) n level 0 vs
      (visits_more_fuel h fuel j n level 0 vs hvs)
    rwa [show pre ++ indent 0 = pre by simp [indent]] at this
  · intro v _
    refine ⟨printLine_singleLine pname val_to_str h v.1 _ (noNewline_indent pre hpre v.2)
      (hnames v.1) (hvals v.1), ?_⟩
    exact ⟨_, printLine_eq pname val_to_str h v.1 (pre ++ indent v.2)⟩
  · intro m k
    have := visits_count h fuel n level 0 vs hvs m k
    rwa [Nat.zero_add] at this
  · rintro (hneg | hall) m k
    · rw [hmem]
      exact ⟨fun hx => hx.1, fun hx => ⟨hx, fun h0 => by omega⟩⟩
    · rw [hmem]
      exact ⟨fun hx => hx.1, fun hx => ⟨hx, fun _ => hall m k hx⟩⟩
  · intro h0
    subst h0
    obtain ⟨f, rfl⟩ := Nat.exists_eq_succ_of_ne_zero hfuel
    rw [visits, if_pos rfl] at hvs
    exact (Option.some.inj hvs).symm
  · intro h0 j
    subst h0
    obtain ⟨f, rfl⟩ := Nat.exists_eq_succ_of_ne_zero hfuel
    rw [show f + 1 + j = (f + j) + 1 by omega, print, if_pos rfl]

theorem addTree_noNewline (x y : ℚ) (m : Nat) :
    NoNewline (addTree x y m)._name ∧
      ∀ p ∈ (addTree x y m)._parameters, NoNewline (Value.Name p) ∧ NoNewline "v" := by
  match m with
  | 0 => simp [addTree, NoNewline]
  | 1 => simp [addTree, leafNode, NoNewline]
  | 2 => simp [addTree, leafNode, NoNewline]
  | k + 3 => simp [addTree, leafNode, NoNewline]

/-- Witness for C13: printing `head = Add(leafX, leafY)` from its head with depth `10` and an
empty prefix. -/
theorem print_one_line_per_path_witness :
    ∃ fuel vs,
      (∀ j, visits (fuel + j) (addTree 2 3) 0 10 0 = some vs) ∧
      (∀ j, print Value.Name (fun _ => "v") (fuel + j) (addTree 2 3) 0 10 "" =
        some (concatLines (vs.map (fun v =>
          printLine Value.Name (fun _ => "v") (addTree 2 3) v.1 ("" ++ indent v.2))))) ∧
      (∀ v ∈ vs,
        SingleLine (printLine Value.Name (fun _ => "v") (addTree 2 3) v.1 ("" ++ indent v.2)) ∧
        ∃ rest, printLine Value.Name (fun _ => "v") (addTree 2 3) v.1 ("" ++ indent v.2) =
          "" ++ indent v.2 ++ rest) ∧
      (∀ m k, vs.count (m, k) =
        if ((0 : Int) ≤ 10 → (k : Int) ≤ 10) then pathCount (addTree 2 3) k 0 m else 0) ∧
      (∀ m k, (m, k) ∈ vs ↔ reachIn (addTree 2 3) k 0 m ∧ ((0 : Int) ≤ 10 → (k : Int) ≤ 10)) ∧
      (((10 : Int) < 0 ∨ ∀ m k, reachIn (addTree 2 3) k 0 m → (k : Int) ≤ 10) →
        ∀ m k, (m, k) ∈ vs ↔ reachIn (addTree 2 3) k 0 m) ∧
      ((10 : Int) = 0 → vs = [(0, 0)]) ∧
      ((10 : Int) = 0 → ∀ j, print Value.Name (fun _ => "v") (fuel + j) (addTree 2 3) 0 10 "" =
        some (printLine Value.Name (fun _ => "v") (addTree 2 3) 0 "")) :=
  print_one_line_per_path Value.Name (fun _ => "v") (addTree 2 3) 0 0 10 ""
    (Or.inl (by decide)) (by simp [NoNewline])
    (fun m => (addTree_noNewline 2 3 m).1) (fun m => (addTree_noNewline 2 3 m).2)

/-- The text printed for `head = Add(leafX, leafY)` before any recalculation, with depth `10`
and with depth `0`. -/
theorem print_addTree :
    print Value.Name (fun _ => "v") 3 (addTree 2 3) 0 10 "" =
        some "head = ? (2 children/1 values)\n. leafX [leafX] = v, \n. leafY [leafY] = v, \n" ∧
      print Value.Name (fun _ => "v") 3 (addTree 2 3) 0 0 "" =
        some "head = ? (2 children/1 values)\n" := by
  constructor <;> rfl

/-- C14: in `print`, the line of a node that has children and is dirty is the prefix, the
name of the node, `" = ?"` and the end of the line, and it stays the same whatever the
contents of the slots (only their number is shown); the line of a node that is clean, and
the line of any leaf whatever its flag, is the prefix, the name, then for every slot of the
node in slot order its text holding the string form of its value, and the end of the line. -/
theorem printLine_content (pname val_to_str : P → String) (h : Heap P E) (n : Nat)
    (pre : String) :
    ((h n)._changed = true ∧ (h n)._children ≠ [] →
      printLine pname val_to_str h n pre = pre ++ (h n)._name ++ " = ?" ++ lineEnd h n ∧
      ∀ (pname1 val_to_str1 : P → String) (ps : List P),
        ps.length = (h n)._parameters.length →
        printLine pname1 val_to_str1 (h.set n { h n with _parameters := ps }) n pre =
          printLine pname val_to_str h n pre) ∧
    ((h n)._changed = false ∨ (h n)._children = [] →
      printLine pname val_to_str h n pre = pre ++ (h n)._name ++
        concatLines ((h n)._parameters.map
          (slotText pname val_to_str (decide ((h n)._children = [])))) ++ lineEnd h n) := by
  constructor
  · rintro ⟨hch, hne⟩
    have hlen : (h n)._children.length ≠ 0 := fun h0 => hne (List.length_eq_zero.1 h0)
    constructor
    · rw [printLine_eq, if_pos ⟨hch, hlen⟩]
      simp only [String.append_assoc]
    · intro pname1 val_to_str1 ps hps
      rw [printLine_eq, printLine_eq]
      simp only [Heap.set, if_true, lineEnd, hps, hch, hlen, ne_eq, not_false_eq_true,
        and_self, if_pos]
  · intro hcl
    have hc : ¬ ((h n)._changed = true ∧ (h n)._children.length ≠ 0) := by
      rintro ⟨hch, hlen⟩
      rcases hcl with hf | hnil
      · rw [hf] at hch
        exact Bool.false_ne_true hch
      · exact hlen (by rw [hnil]; rfl)
    rw [printLine_eq, if_neg hc]
    simp only [String.append_assoc, List.length_eq_zero]

/-- Witness for C14: in `head = Add(leafX, leafY)` before any recalculation the head is
dirty and has children, and `leafX` is a dirty leaf. -/
theorem printLine_content_witness :
    (printLine Value.Name (fun _ => "v") (addTree 2 3) 0 ". " = ". head = ? (2 children/1 values)\n") ∧
      (printLine Value.Name (fun _ => "v") (addTree 2 3) 1 ". " = ". leafX [leafX] = v, \n") := by
  have h0 := ((printLine_content Value.Name (fun _ => "v") (addTree 2 3) 0 ". ").1
    ⟨rfl, by decide⟩).1
  have h1 := (printLine_content Value.Name (fun _ => "v") (addTree 2 3) 1 ". ").2 (Or.inr rfl)
  exact ⟨h0.trans rfl, h1.trans rfl⟩

namespace Tools

variable {M D G : Type}

end Tools

namespace Tools

variable {M D G : Type}

theorem foldl_max_mem (xs : List ℚ) :
    ∀ x : ℚ, xs.foldl (fun m y => if m < y then y else m) x ∈ x :: xs := by
  induction xs with
  | nil => intro x; simp
  | cons y ys ih =>
    intro x
    simp only [List.foldl_cons]
    have := ih (if x < y then y else x)
    rcases List.mem_cons.1 this with h | h
    · rw [h]
      split
      · simp
      · simp
    · exact List.mem_cons_of_mem _ (List.mem_cons_of_mem _ h)

theorem maxElement_mem (l : List ℚ) (m : ℚ) (h : maxElement l = some m) : m ∈ l := by
  cases l with
  | nil => simp [maxElement] at h
  | cons x xs =>
    simp only [maxElement, Option.some.injEq] at h
    rw [← h]
    exact foldl_max_mem xs x

theorem maxElement_of_length_pos (l : List ℚ) (h : 0 < l.length) :
    ∃ m, maxElement l = some m := by
  cases l with
  | nil => simp at h
  | cons x xs => exact ⟨_, rfl⟩

theorem drawUniform_length (ops : Generator G) (hi : ℚ) :
    ∀ (k : Nat) (g : G), (drawUniform ops hi k g).1.length = k := by
  intro k
  induction k with
  | zero => intro g; rfl
  | succ k ih => intro g; simp [drawUniform, ih]

/-- As long as the iterator stays inside `phsp`, the hit-and-miss loop ends either with
`NumberOfEvents` events or after all its pairs, the iterator having moved once per pair. -/
theorem hitAndMiss_total (c : Setup M D G) :
    ∀ (pairs : List (ℚ × ℚ)) (events : List (Event M)) (it : Nat),
      it + pairs.length ≤ c.phsp.length → events.length < c.NumberOfEvents →
      ∃ events1 it1, hitAndMiss c pairs events it = .ok (events1, it1) ∧
        (events1.length = c.NumberOfEvents ∨
          (it1 = it + pairs.length ∧ events1.length < c.NumberOfEvents)) := by
  intro pairs
  induction pairs with
  | nil =>
    intro events it _ hlen
    exact ⟨events, it, rfl, Or.inr ⟨rfl, hlen⟩⟩
  | cons p rest ih =>
    intro events it hfit hlen
    obtain ⟨r, w⟩ := p
    simp only [List.length_cons] at hfit
    obtain ⟨e, he⟩ : ∃ e, c.phsp.get? it = some e :=
      ⟨_, List.get?_eq_get (by omega : it < c.phsp.length)⟩
    simp only [hitAndMiss, he]
    by_cases hit : r < e.Weight * w
    · simp only [if_pos hit]
      by_cases hN : (events ++ [{ e with Weight := 1, Efficiency := 1 }]).length =
          c.NumberOfEvents
      · rw [if_pos hN]
        exact ⟨_, _, rfl, Or.inl hN⟩
      · rw [if_neg hN]
        obtain ⟨events1, it1, h1, h2⟩ := ih (events ++ [{ e with Weight := 1, Efficiency := 1 }])
          (it + 1) (by omega) (by
            simp only [List.length_append, List.length_singleton] at hN ⊢
            omega)
        refine ⟨events1, it1, h1, ?_⟩
        rcases h2 with h2 | ⟨h2, h3⟩
        · exact Or.inl h2
        · exact Or.inr ⟨by simp only [List.length_cons]; omega, h3⟩
    · simp only [if_neg hit]
      obtain ⟨events1, it1, h1, h2⟩ := ih events (it + 1) (by omega) hlen
      refine ⟨events1, it1, h1, ?_⟩
      rcases h2 with h2 | ⟨h2, h3⟩
      · exact Or.inl h2
      · exact Or.inr ⟨by simp only [List.length_cons]; omega, h3⟩

end Tools

namespace Tools

variable {M D G : Type}

end Tools

namespace Tools

variable {M D G : Type}

/-! ## Where the returned events come from, and running with more fuel -/

end Tools

namespace Tools

end Tools

namespace Tools

variable {M D G : Type}

end Tools

namespace Tools

/-- Two events asked from the sample of three events, with an intensity of `1` everywhere
and a generator that always draws `0`: the first two events are accepted, with weight and
efficiency set to `1`, and the loop is left at once. -/
theorem generate_smallSample :
    generate (fun _ => (1 / 2 : ℚ)) 1 2 plainKinematics lowGenerator (some 0)
      (some (fun _ => (1 : ℚ))) smallSample [] = some (.ok [⟨0, 1, 1⟩, ⟨1, 1, 1⟩]) := by
  simp [generate, generateState, maxSampleWeight, setupOf, initialState, generateLoop,
    loopBody, Setup.trueSample, Setup.evalIntensity, readRange, maxElement, drawUniform,
    hitAndMiss, smallSample, plainKinematics, lowGenerator]
  norm_num [Except.map]

end Tools
/-! ## Order of the recursive calls -/

/-- A call of `recalculate` only appends to the ghost trace. -/
theorem recalculate_trace_extends (fuel n : Nat) (s : State P E) r s'
    (h : recalculate fuel n s = some (r, s')) : ∃ d, s'.trace = s.trace ++ d := by
  obtain ⟨d, hd, _⟩ := recalculate_closed failureLast_stepClosed fuel n s r s' h
  exact ⟨d, hd⟩

theorem childrenRun_trace (rec : Nat → State P E → Res P E Unit) :
    ∀ (cs : List Nat) (s t : State P E) segs, ChildrenRun rec cs s t segs →
      t.trace = s.trace ++ segs.flatten := by
  intro cs s t segs h
  induction h with
  | nil s => simp
  | cons c cs s s1 t dc segs _ hdc _ ih =>
    rw [ih, hdc, List.flatten_cons, List.append_assoc]

/-- Each segment of a pass over the children is the trace of a call of `recalculate` on one
of the children that returned without error, made in a state with the graph of the start. -/
theorem childrenRun_each (fuel : Nat) :
    ∀ (cs : List Nat) (s t : State P E) segs, ChildrenRun (recalculate fuel) cs s t segs →
      SameShape s t ∧ ∀ dc ∈ segs, ∃ c ∈ cs, ∃ a b, SameShape s a ∧
        recalculate fuel c a = some (.ok (), b) ∧ b.trace = a.trace ++ dc := by
  intro cs s t segs h
  induction h with
  | nil s => exact ⟨SameShape.rfl' s, fun dc hdc => by simp at hdc⟩
  | cons c cs s s1 t dc segs hc hdc _ ih =>
    have hsh := recalculate_sameShape fuel c s _ s1 hc
    refine ⟨hsh.trans' ih.1, fun d hd => ?_⟩
    rcases List.mem_cons.1 hd with rfl | hd
    · exact ⟨c, List.mem_cons_self _ _, s, s1, SameShape.rfl' s, hc, hdc⟩
    · obtain ⟨k, hk, a, b, hsa, hcall, htr⟩ := ih.2 d hd
      exact ⟨k, List.mem_cons_of_mem _ hk, a, b, hsh.trans' hsa, hcall, htr⟩

/-- Every child of a pass over the children had a call of `recalculate` that returned
without error. -/
theorem childrenRun_all (fuel : Nat) :
    ∀ (cs : List Nat) (s t : State P E) segs, ChildrenRun (recalculate fuel) cs s t segs →
      ∀ c ∈ cs, ∃ a b, SameShape s a ∧ recalculate fuel c a = some (.ok (), b) := by
  intro cs s t segs h
  induction h with
  | nil s => intro c hc; simp at hc
  | cons c cs s s1 t dc segs hc hdc _ ih =>
    have hsh := recalculate_sameShape fuel c s _ s1 hc
    intro k hk
    rcases List.mem_cons.1 hk with rfl | hk
    · exact ⟨s, s1, SameShape.rfl' s, hc⟩
    · obtain ⟨a, b, hsa, hcall⟩ := ih k hk
      exact ⟨a, b, hsh.trans' hsa, hcall⟩

theorem recalcChildren_ok_run (fuel : Nat) :
    ∀ (cs : List Nat) (acc v : ParameterList P) (s t : State P E),
      recalcChildren (recalculate fuel) cs acc s = some (.ok v, t) →
      ∃ segs, ChildrenRun (recalculate fuel) cs s t segs := by
  intro cs
  induction cs with
  | nil =>
    intro acc v s t h
    simp only [recalcChildren, Option.some.injEq, Prod.mk.injEq] at h
    obtain ⟨_, rfl⟩ := h
    exact ⟨[], .nil s⟩
  | cons c cs ih =>
    intro acc v s t h
    simp only [recalcChildren] at h
    split at h
    · simp at h
    · simp at h
    · next s1 hc =>
      obtain ⟨dc, hdc⟩ := recalculate_trace_extends fuel c s _ s1 hc
      obtain ⟨segs, hrun⟩ := ih _ _ _ _ h
      exact ⟨dc :: segs, .cons c cs s s1 t dc segs hc hdc hrun⟩

theorem recalcChildren_error_run (fuel : Nat) :
    ∀ (cs : List Nat) (acc : ParameterList P) (e : Error E) (s t : State P E),
      recalcChildren (recalculate fuel) cs acc s = some (.error e, t) →
      ∃ cs1 c cs2 u segs r, cs = cs1 ++ c :: cs2 ∧
        ChildrenRun (recalculate fuel) cs1 s u segs ∧
        recalculate fuel c u = some (r, t) := by
  intro cs
  induction cs with
  | nil => intro acc e s t h; simp [recalcChildren] at h
  | cons c cs ih =>
    intro acc e s t h
    simp only [recalcChildren] at h
    split at h
    · simp at h
    · next e1 s1 hc =>
      simp only [Option.some.injEq, Prod.mk.injEq] at h
      obtain ⟨_, rfl⟩ := h
      exact ⟨[], c, cs, s, [], _, rfl, .nil s, hc⟩
    · next s1 hc =>
      obtain ⟨dc, hdc⟩ := recalculate_trace_extends fuel c s _ s1 hc
      obtain ⟨cs1, k, cs2, u, segs, r, hcs, hrun, hk⟩ := ih _ _ _ _ h
      exact ⟨c :: cs1, k, cs2, u, dc :: segs, r, by rw [hcs]; rfl,
        .cons c cs1 s s1 u dc segs hc hdc hrun, hk⟩

theorem recalcChildrenEle_ok_run (fuel n ele : Nat) :
    ∀ (cs : List Nat) (acc v : ParameterList P) (s t : State P E),
      recalcChildrenEle (recalculate fuel) n ele cs acc s = some (.ok v, t) →
      ∃ segs, ChildrenRun (recalculate fuel) cs s t segs := by
  intro cs
  induction cs with
  | nil =>
    intro acc v s t h
    simp only [recalcChildrenEle, Option.some.injEq, Prod.mk.injEq] at h
    obtain ⟨_, rfl⟩ := h
    exact ⟨[], .nil s⟩
  | cons c cs ih =>
    intro acc v s t h
    simp only [recalcChildrenEle] at h
    split at h
    · simp at h
    · simp at h
    · next s1 hc =>
      obtain ⟨dc, hdc⟩ := recalculate_trace_extends fuel c s _ s1 hc
      have key : ∀ acc1, recalcChildrenEle (recalculate fuel) n ele cs acc1 s1 =
          some (.ok v, t) → ∃ segs, ChildrenRun (recalculate fuel) (c :: cs) s t segs := by
        intro acc1 h1
        obtain ⟨segs, hrun⟩ := ih _ _ _ _ h1
        exact ⟨dc :: segs, .cons c cs s s1 t dc segs hc hdc hrun⟩
      split at h
      · split at h
        · simp at h
        · exact key _ h
      · split at h
        · split at h
          · simp at h
          · exact key _ h
        · simp at h

theorem recalcChildrenEle_error_run (fuel n ele : Nat) :
    ∀ (cs : List Nat) (acc : ParameterList P) (e : Error E) (s t : State P E),
      recalcChildrenEle (recalculate fuel) n ele cs acc s = some (.error e, t) →
      ∃ cs1 c cs2 u segs r, cs = cs1 ++ c :: cs2 ∧
        ChildrenRun (recalculate fuel) cs1 s u segs ∧
        recalculate fuel c u = some (r, t) := by
  intro cs
  induction cs with
  | nil => intro acc e s t h; simp [recalcChildrenEle] at h
  | cons c cs ih =>
    intro acc e s t h
    simp only [recalcChildrenEle] at h
    split at h
    · simp at h
    · next e1 s1 hc =>
      simp only [Option.some.injEq, Prod.mk.injEq] at h
      obtain ⟨_, rfl⟩ := h
      exact ⟨[], c, cs, s, [], _, rfl, .nil s, hc⟩
    · next s1 hc =>
      obtain ⟨dc, hdc⟩ := recalculate_trace_extends fuel c s _ s1 hc
      have here : ∀ e1 : Error E, (some (Except.error e1, s1) :
          Res P E (ParameterList P)) = some (.error e, t) →
          ∃ cs1 c' cs2 u segs r, c :: cs = cs1 ++ c' :: cs2 ∧
            ChildrenRun (recalculate fuel) cs1 s u segs ∧
            recalculate fuel c' u = some (r, t) := by
        intro e1 h1
        simp only [Option.some.injEq, Prod.mk.injEq] at h1
        obtain ⟨_, rfl⟩ := h1
        exact ⟨[], c, cs, s, [], _, rfl, .nil s, hc⟩
      have later : ∀ acc1, recalcChildrenEle (recalculate fuel) n ele cs acc1 s1 =
          some (.error e, t) →
          ∃ cs1 c' cs2 u segs r, c :: cs = cs1 ++ c' :: cs2 ∧
            ChildrenRun (recalculate fuel) cs1 s u segs ∧
            recalculate fuel c' u = some (r, t) := by
        intro acc1 h1
        obtain ⟨cs1, k, cs2, u, segs, r, hcs, hrun, hk⟩ := ih _ _ _ _ h1
        exact ⟨c :: cs1, k, cs2, u, dc :: segs, r, by rw [hcs]; rfl,
          .cons c cs1 s s1 u dc segs hc hdc hrun, hk⟩
      split at h
      · split at h
        · exact here _ h
        · exact later _ h
      · split at h
        · split at h
          · exact here _ h
          · exact later _ h
        · exact here _ h

theorem traceExtends_loopClosed (n : Nat) :
    LoopClosed n (fun _ (a b : State P E) => ∃ d, b.trace = a.trace ++ d) where
  refl := fun s => ⟨[], by simp⟩
  seq := by
    rintro _ s t u ⟨d1, h1⟩ ⟨d2, h2⟩
    exact ⟨d1 ++ d2, by rw [h2, h1, List.append_assoc]⟩
  exec := fun s ele vals out _ => ⟨_, rfl⟩
  range := fun s => ⟨[], by simp⟩
  mismatch := fun s _ => ⟨[], by simp⟩

theorem recalcElements_trace_extends (fuel n : Nat) (cs : List Nat) (todo ele : Nat)
    (s : State P E) r s' (h : recalcElements (recalculate fuel) n cs todo ele s = some (r, s')) :
    ∃ d, s'.trace = s.trace ++ d :=
  recalcElements_closed (traceExtends_loopClosed n) (recalculate fuel) cs
    (fun c _ a r b hc => recalculate_trace_extends fuel c a r b hc) todo ele s r s' h

/-- When the slot exists, the call of the strategy appends exactly one `execute` event. -/
theorem callStrategy_trace (n ele : Nat) (vals : ParameterList P) (s : State P E) (out : P)
    (hget : (s.nodes n)._parameters.get? ele = some out) :
    ∃ thrown, (callStrategy n ele vals s).2.trace =
      s.trace ++ [Event.execute n ele vals thrown] := by
  unfold callStrategy TreeNode.parameter
  simp only [hget]
  cases hr : ((s.nodes n)._strat.execute vals out).1 <;> exact ⟨_, rfl⟩

/-- The first round of the body of `recalculate` on a node with at least one slot: either
every child is recomputed without error, in child order, and then the operation of the node
is called for slot `0`; or the body ends inside the call made for one of the children (or
right after it, at the dimension test), the children before it having been recomputed. -/
theorem recalcBody_first_round (fuel n : Nat) (s0 : State P E) r s1
    (hb : recalcBody (recalculate fuel) n s0 = some (r, s1))
    (h0 : (s0.nodes n)._parameters.length ≠ 0) :
    (∃ t segs vals thrown post,
        ChildrenRun (recalculate fuel) (s0.nodes n)._children s0 t segs ∧
        s1.trace = t.trace ++ Event.execute n 0 vals thrown :: post) ∨
      (∃ cs1 c cs2 u segs rc, (s0.nodes n)._children = cs1 ++ c :: cs2 ∧
        ChildrenRun (recalculate fuel) cs1 s0 u segs ∧
        recalculate fuel c u = some (rc, s1)) := by
  have hslot : ∀ t segs, ChildrenRun (recalculate fuel) (s0.nodes n)._children s0 t segs →
      ∃ out, (t.nodes n)._parameters.get? 0 = some out := by
    intro t segs hrun
    have hlen := ((childrenRun_each fuel _ _ _ _ hrun).1 n).2.2.2.2
    cases hp : (t.nodes n)._parameters with
    | nil => rw [hp] at hlen; exact absurd hlen.symm h0
    | cons p ps => exact ⟨p, rfl⟩
  unfold recalcBody at hb
  split at hb
  · split at hb
    · simp at hb
    · next e t hc =>
      simp only [Option.some.injEq, Prod.mk.injEq] at hb
      obtain ⟨_, rfl⟩ := hb
      exact Or.inr (recalcChildren_error_run fuel _ _ _ _ _ hc)
    · next vals t hc =>
      obtain ⟨segs, hrun⟩ := recalcChildren_ok_run fuel _ _ _ _ _ hc
      obtain ⟨out, hout⟩ := hslot t segs hrun
      obtain ⟨thrown, htr⟩ := callStrategy_trace n 0 vals t out hout
      simp only [Option.some.injEq] at hb
      rw [hb] at htr
      exact Or.inl ⟨t, segs, vals, thrown, [], hrun, htr⟩
  · obtain ⟨k, hk⟩ := Nat.exists_eq_succ_of_ne_zero h0
    rw [hk] at hb
    simp only [recalcElements] at hb
    split at hb
    · simp at hb
    · next e t hc =>
      simp only [Option.some.injEq, Prod.mk.injEq] at hb
      obtain ⟨_, rfl⟩ := hb
      exact Or.inr (recalcChildrenEle_error_run fuel n 0 _ _ _ _ _ hc)
    · next vals t hc =>
      obtain ⟨segs, hrun⟩ := recalcChildrenEle_ok_run fuel n 0 _ _ _ _ _ hc
      obtain ⟨out, hout⟩ := hslot t segs hrun
      obtain ⟨thrown, htr⟩ := callStrategy_trace n 0 vals t out hout
      split at hb
      · next e s2 hcs =>
        simp only [Option.some.injEq, Prod.mk.injEq] at hb
        obtain ⟨_, rfl⟩ := hb
        rw [hcs] at htr
        exact Or.inl ⟨t, segs, vals, thrown, [], hrun, htr⟩
      · next s2 hcs =>
        rw [hcs] at htr
        obtain ⟨post, hpost⟩ := recalcElements_trace_extends fuel n _ _ _ s2 r s1 hb
        refine Or.inl ⟨t, segs, vals, thrown, post, hrun, ?_⟩
        rw [hpost]
        simp only at htr
        rw [htr, List.append_assoc]
        rfl

theorem depth_mono {h : Heap P E} : ∀ (f f' n : Nat), f ≤ f' → Depth h f n → Depth h f' n := by
  intro f
  induction f with
  | zero => intro f' n _ hd; simp [Depth] at hd
  | succ f ih =>
    intro f' n hle hd
    obtain ⟨g, rfl⟩ := Nat.exists_eq_succ_of_ne_zero (by omega : f' ≠ 0)
    simp only [Depth] at hd ⊢
    rcases hd with hd | hd | hd
    · exact Or.inl hd
    · exact Or.inr (Or.inl hd)
    · exact Or.inr (Or.inr (fun c hc => ih g c (by omega) (hd c hc)))

/-- After a pass over the children in which each was recomputed without error, the depth
bound holds for the node itself. -/
theorem depth_of_childrenRun (fuel n : Nat) (s0 t : State P E) segs
    (hrun : ChildrenRun (recalculate fuel) (s0.nodes n)._children s0 t segs) :
    Depth s0.nodes (fuel + 1) n := by
  simp only [Depth]
  refine Or.inr (Or.inr (fun c hc => ?_))
  obtain ⟨a, b, hsa, hcall⟩ := childrenRun_all fuel _ _ _ _ hrun c hc
  exact depth_of_sameShape hsa fuel c (depth_of_recalculate_ok fuel c a b hcall)

/-- Inside the body of `recalculate` on `n`, every `execute` call is made for a node that is
reached through recursive calls from `n` and below which the recursion is bounded. -/
theorem recalcBody_exec_targets (fuel : Nat)
    (ih : ∀ (c : Nat) (s : State P E) r s', recalculate fuel c s = some (r, s') →
      ∃ d, s'.trace = s.trace ++ d ∧ ∀ ev ∈ d, ∀ m, Event.isExecuteOf m ev →
        Relation.ReflTransGen (activeStep s.nodes) c m ∧ ∃ f, Depth s.nodes f m)
    (n : Nat) (s0 : State P E) r s1 (hb : recalcBody (recalculate fuel) n s0 = some (r, s1)) :
    ∃ d, s1.trace = s0.trace ++ d ∧ ∀ ev ∈ d, ∀ m, Event.isExecuteOf m ev →
      Relation.ReflTransGen (activeStep s0.nodes) n m ∧ ∃ f, Depth s0.nodes f m := by
  by_cases h0 : (s0.nodes n)._parameters.length = 0
  · simp only [recalcBody, h0, Nat.zero_ne_one, if_false, recalcElements, Option.some.injEq,
      Prod.mk.injEq] at hb
    exact ⟨[], by rw [← hb.2]; simp, fun ev hev => by simp at hev⟩
  · let Target : Nat → Prop := fun m =>
      (∃ c ∈ (s0.nodes n)._children, Relation.ReflTransGen (activeStep s0.nodes) c m) ∧
        ∃ f, Depth s0.nodes f m
    let Q : Option (Error E) → State P E → State P E → Prop := fun _ a b =>
      SameShape s0 a → SameShape s0 b ∧ ∃ d, b.trace = a.trace ++ d ∧
        ∀ ev ∈ d, ∀ m, Event.isExecuteOf m ev → m = n ∨ Target m
    have hQ : LoopClosed n Q :=
      { refl := fun a hs => ⟨hs, [], by simp, fun ev hev => by simp at hev⟩
        seq := by
          intro x a t u h1 h2 hs
          obtain ⟨hst, d1, ht1, f1⟩ := h1 hs
          obtain ⟨hsu, d2, ht2, f2⟩ := h2 hst
          refine ⟨hsu, d1 ++ d2, by rw [ht2, ht1, List.append_assoc], fun ev hev => ?_⟩
          rcases List.mem_append.1 hev with hev | hev
          · exact f1 ev hev
          · exact f2 ev hev
        exec := by
          intro a ele vals out _ hs
          refine ⟨hs.trans' (sameShape_setParameter a n ele _ _), _, rfl, fun ev hev m hm => ?_⟩
          rw [List.mem_singleton.1 hev] at hm
          exact Or.inl hm.symm
        range := fun a hs => ⟨hs, [], by simp, fun ev hev => by simp at hev⟩
        mismatch := fun a _ hs => ⟨hs, [], by simp, fun ev hev => by simp at hev⟩ }
    have hrec : ∀ c ∈ (s0.nodes n)._children, ∀ (a : State P E) r b,
        recalculate fuel c a = some (r, b) → Q (errOf r) a b := by
      intro c hc a r b hcall hs
      obtain ⟨d, hd, hev⟩ := ih c a r b hcall
      refine ⟨hs.trans' (recalculate_sameShape fuel c a r b hcall), d, hd, fun ev he m hm => ?_⟩
      obtain ⟨hreach, f, hf⟩ := hev ev he m hm
      rw [activeStep_of_sameShape hs] at hreach
      exact Or.inr ⟨⟨c, hc, hreach⟩, f, depth_of_sameShape hs f m hf⟩
    obtain ⟨_, d, hd, hall⟩ := recalcBody_closed hQ (recalculate fuel) s0 hrec r s1 hb
      (SameShape.rfl' s0)
    refine ⟨d, hd, fun ev hev m hm => ?_⟩
    rcases hall ev hev m hm with rfl | ⟨⟨c, hc, hreach⟩, hdepth⟩
    · refine ⟨Relation.ReflTransGen.refl, ?_⟩
      rcases recalcBody_first_round fuel m s0 r s1 hb h0 with
        ⟨t, segs, _, _, _, hrun, _⟩ | ⟨cs1, c, cs2, u, segs, rc, _, hrun, hlast⟩
      · exact ⟨fuel + 1, depth_of_childrenRun fuel m s0 t segs hrun⟩
      · obtain ⟨hsu, heach⟩ := childrenRun_each fuel _ _ _ _ hrun
        obtain ⟨d', hd', hev'⟩ := ih c u rc s1 hlast
        have hdeq : d = segs.flatten ++ d' := by
          have h1 := childrenRun_trace _ _ _ _ _ hrun
          rw [h1, List.append_assoc] at hd'
          exact List.append_cancel_left (hd.symm.trans hd')
        rw [hdeq] at hev
        rcases List.mem_append.1 hev with hev | hev
        · obtain ⟨dc, hdc, hevdc⟩ := List.mem_flatten.1 hev
          obtain ⟨k, _, a, b, hsa, hcall, htr⟩ := heach dc hdc
          obtain ⟨d'', hd'', hev''⟩ := ih k a _ b hcall
          have : dc = d'' := List.append_cancel_left (htr.symm.trans hd'')
          obtain ⟨_, f, hf⟩ := hev'' ev (this ▸ hevdc) m hm
          exact ⟨f, depth_of_sameShape hsa f m hf⟩
        · obtain ⟨_, f, hf⟩ := hev' ev hev m hm
          exact ⟨f, depth_of_sameShape hsu f m hf⟩
    · exact ⟨Relation.ReflTransGen.head ⟨hc, h0⟩ hreach, hdepth⟩

/-- Every `execute` call made during a call of `recalculate` on `c` is made for a node that
is reached through recursive calls from `c` and below which the recursion is bounded. -/
theorem recalculate_exec_targets :
    ∀ (fuel c : Nat) (s : State P E) r s', recalculate fuel c s = some (r, s') →
      ∃ d, s'.trace = s.trace ++ d ∧ ∀ ev ∈ d, ∀ m, Event.isExecuteOf m ev →
        Relation.ReflTransGen (activeStep s.nodes) c m ∧ ∃ f, Depth s.nodes f m := by
  intro fuel
  induction fuel with
  | zero => intro c s r s' h; simp [recalculate] at h
  | succ fuel ih =>
    intro c s r s' h
    simp only [recalculate, State.log] at h
    split at h
    · simp only [Option.some.injEq, Prod.mk.injEq] at h
      obtain ⟨_, rfl⟩ := h
      refine ⟨[.enter c, .leave c], by simp, fun ev hev m hm => ?_⟩
      simp only [List.mem_cons, List.mem_singleton, List.not_mem_nil, or_false] at hev
      rcases hev with rfl | rfl <;> exact absurd hm (by simp [Event.isExecuteOf])
    · unfold recalcFinish at h
      split at h
      · simp at h
      · next e s1 hb =>
        simp only [Option.some.injEq, Prod.mk.injEq] at h
        obtain ⟨_, rfl⟩ := h
        obtain ⟨d, hd, hev⟩ := recalcBody_exec_targets fuel ih c _ _ _ hb
        refine ⟨.enter c :: d, by rw [hd]; simp, fun ev he m hm => ?_⟩
        rcases List.mem_cons.1 he with rfl | he
        · exact absurd hm (by simp [Event.isExecuteOf])
        · exact hev ev he m hm
      · next s1 hb =>
        simp only [Option.some.injEq, Prod.mk.injEq] at h
        obtain ⟨_, rfl⟩ := h
        obtain ⟨d, hd, hev⟩ := recalcBody_exec_targets fuel ih c _ _ _ hb
        refine ⟨.enter c :: d ++ [.leave c], by simp only; rw [hd]; simp, fun ev he m hm => ?_⟩
        rcases List.mem_append.1 he with he | he
        · rcases List.mem_cons.1 he with rfl | he
          · exact absurd hm (by simp [Event.isExecuteOf])
          · exact hev ev he m hm
        · rw [List.mem_singleton.1 he] at hm
          exact absurd hm (by simp [Event.isExecuteOf])

/-- No call of `recalculate` on a child of `n` calls the operation of `n`, when `n` has at
least one slot: otherwise the recursion would not end. -/
theorem child_call_no_execute (fuel n c : Nat) (s0 a b : State P E) r
    (hc : c ∈ (s0.nodes n)._children) (h0 : (s0.nodes n)._parameters.length ≠ 0)
    (hsa : SameShape s0 a) (hcall : recalculate fuel c a = some (r, b)) (dc : List (Event P E))
    (hdc : b.trace = a.trace ++ dc) : ∀ ev ∈ dc, ¬ Event.isExecuteOf n ev := by
  intro ev hev hex
  obtain ⟨d, hd, hall⟩ := recalculate_exec_targets fuel c a r b hcall
  have : dc = d := List.append_cancel_left (hdc.symm.trans hd)
  obtain ⟨hreach, f, hf⟩ := hall ev (this ▸ hev) n hex
  rw [activeStep_of_sameShape hsa] at hreach
  exact depth_not_cyclic f n (depth_of_sameShape hsa f n hf)
    (Relation.TransGen.head' ⟨hc, h0⟩ hreach)

theorem first_occurrence_unique {α : Type} (p : α → Prop) :
    ∀ (a a' b b' : List α) (x x' : α), a ++ x :: b = a' ++ x' :: b' →
      (∀ y ∈ a, ¬ p y) → (∀ y ∈ a', ¬ p y) → p x → p x' → a = a' ∧ x = x' ∧ b = b' := by
  intro a
  induction a with
  | nil =>
    intro a' b b' x x' h _ ha' hx _
    cases a' with
    | nil =>
      simp only [List.nil_append, List.cons.injEq] at h
      exact ⟨rfl, h.1, h.2⟩
    | cons y ys =>
      simp only [List.nil_append, List.cons_append, List.cons.injEq] at h
      exact absurd (h.1 ▸ hx) (ha' y (List.mem_cons_self _ _))
  | cons z zs ih =>
    intro a' b b' x x' h ha ha' hx hx'
    cases a' with
    | nil =>
      simp only [List.nil_append, List.cons_append, List.cons.injEq] at h
      exact absurd (h.1 ▸ hx') (ha z (List.mem_cons_self _ _))
    | cons y ys =>
      simp only [List.cons_append, List.cons.injEq] at h
      obtain ⟨h1, h2, h3⟩ := ih ys b b' x x' h.2
        (fun w hw => ha w (List.mem_cons_of_mem _ hw))
        (fun w hw => ha' w (List.mem_cons_of_mem _ hw)) hx hx'
      exact ⟨by rw [h.1, h1], h2, h3⟩

/-- The events of the body of `recalculate` on `n`: either the operation of `n` is never
called, or the events start with one pass over the children in which each is recomputed
without error, without any call of the operation of `n`, followed by the call of the
operation of `n` for slot `0`. -/
theorem recalcBody_first_execute (fuel n : Nat) (s0 : State P E) r s1
    (hb : recalcBody (recalculate fuel) n s0 = some (r, s1)) :
    ∃ db, s1.trace = s0.trace ++ db ∧
      ((∀ ev ∈ db, ¬ Event.isExecuteOf n ev) ∨
        ∃ t segs vals thrown post,
          ChildrenRun (recalculate fuel) (s0.nodes n)._children s0 t segs ∧
          db = segs.flatten ++ Event.execute n 0 vals thrown :: post ∧
          ∀ ev ∈ segs.flatten, ¬ Event.isExecuteOf n ev) := by
  by_cases h0 : (s0.nodes n)._parameters.length = 0
  · simp only [recalcBody, h0, Nat.zero_ne_one, if_false, recalcElements, Option.some.injEq,
      Prod.mk.injEq] at hb
    exact ⟨[], by rw [← hb.2]; simp, Or.inl (fun ev hev => by simp at hev)⟩
  · have hsegs : ∀ (cs : List Nat) t segs, (∀ c ∈ cs, c ∈ (s0.nodes n)._children) →
        ChildrenRun (recalculate fuel) cs s0 t segs →
        ∀ ev ∈ segs.flatten, ¬ Event.isExecuteOf n ev := by
      intro cs t segs hsub hrun ev hev
      obtain ⟨dc, hdc, hevdc⟩ := List.mem_flatten.1 hev
      obtain ⟨k, hk, a, b, hsa, hcall, htr⟩ := (childrenRun_each fuel _ _ _ _ hrun).2 dc hdc
      exact child_call_no_execute fuel n k s0 a b _ (hsub k hk) h0 hsa hcall dc htr ev hevdc
    rcases recalcBody_first_round fuel n s0 r s1 hb h0 with
      ⟨t, segs, vals, thrown, post, hrun, htr⟩ | ⟨cs1, c, cs2, u, segs, rc, hcs, hrun, hlast⟩
    · have h1 := childrenRun_trace _ _ _ _ _ hrun
      refine ⟨segs.flatten ++ Event.execute n 0 vals thrown :: post, ?_, Or.inr
        ⟨t, segs, vals, thrown, post, hrun, rfl, hsegs _ t segs (fun c hc => hc) hrun⟩⟩
      rw [htr, h1, List.append_assoc]
    · have h1 := childrenRun_trace _ _ _ _ _ hrun
      obtain ⟨dl, hdl⟩ := recalculate_trace_extends fuel c u rc s1 hlast
      refine ⟨segs.flatten ++ dl, by rw [hdl, h1, List.append_assoc], Or.inl ?_⟩
      intro ev hev
      rcases List.mem_append.1 hev with hev | hev
      · exact hsegs cs1 u segs (fun k hk => by rw [hcs]; simp [hk]) hrun ev hev
      · exact child_call_no_execute fuel n c s0 u s1 rc (by rw [hcs]; simp) h0
          (childrenRun_each fuel _ _ _ _ hrun).1 hlast dl hdl ev hev

/-- C21: in a call of `recalculate()` on a node `n` with children, with one slot or with
several, the first call of the operation of `n` (the first `execute` event of `n` among the
events `d` of the call) is the one for slot `0`, and what precedes it is the entry into the
call followed by one pass over the children in which every child, in child order, is
recomputed by a call that returns without error (`ChildrenRun`): every child has completed
before the operation of `n` is invoked for the first time. -/
theorem recalculate_children_before_operation (fuel n : Nat) (s s' : State P E)
    (r : Except (Error E) Unit) (hch : (s.nodes n)._children ≠ [])
    (h : recalculate (fuel + 1) n s = some (r, s')) :
    ∃ d, s'.trace = s.trace ++ d ∧
      ∀ pre post ele vals thrown, d = pre ++ Event.execute n ele vals thrown :: post →
        (∀ ev ∈ pre, ¬ Event.isExecuteOf n ev) →
        ele = 0 ∧ ∃ t segs,
          ChildrenRun (recalculate fuel) (s.nodes n)._children (s.log (.enter n)) t segs ∧
          pre = Event.enter n :: segs.flatten := by
  have hnl : ¬ (s.nodes n)._children.length < 1 := by
    intro hlt
    exact hch (List.length_eq_zero.1 (by omega))
  have hne : ∀ m : Nat, ¬ Event.isExecuteOf n (Event.enter m : Event P E) := fun m hm => hm
  have hnl2 : ∀ m : Nat, ¬ Event.isExecuteOf n (Event.leave m : Event P E) := fun m hm => hm
  have key : ∀ (db tail : List (Event P E)), (∀ ev ∈ tail, ¬ Event.isExecuteOf n ev) →
      ((∀ ev ∈ db, ¬ Event.isExecuteOf n ev) ∨
        ∃ t segs vals thrown post,
          ChildrenRun (recalculate fuel) (s.nodes n)._children (s.log (.enter n)) t segs ∧
          db = segs.flatten ++ Event.execute n 0 vals thrown :: post ∧
          ∀ ev ∈ segs.flatten, ¬ Event.isExecuteOf n ev) →
      ∀ pre post ele vals thrown,
        Event.enter n :: db ++ tail = pre ++ Event.execute n ele vals thrown :: post →
        (∀ ev ∈ pre, ¬ Event.isExecuteOf n ev) →
        ele = 0 ∧ ∃ t segs,
          ChildrenRun (recalculate fuel) (s.nodes n)._children (s.log (.enter n)) t segs ∧
          pre = Event.enter n :: segs.flatten := by
    intro db tail htail hdb pre post ele vals thrown hd hpre
    rcases hdb with hnone | ⟨t, segs, vals0, thrown0, post0, hrun, hdbeq, hfree⟩
    · exfalso
      have hmem : Event.execute n ele vals thrown ∈ Event.enter n :: db ++ tail := by
        rw [hd]; simp
      rcases List.mem_append.1 hmem with hm | hm
      · rcases List.mem_cons.1 hm with hm | hm
        · cases hm
        · exact hnone _ hm rfl
      · exact htail _ hm rfl
    · have hd2 : (Event.enter n :: segs.flatten) ++
          Event.execute n 0 vals0 thrown0 :: (post0 ++ tail) =
          pre ++ Event.execute n ele vals thrown :: post := by
        rw [← hd, hdbeq]; simp
      obtain ⟨h1, h2, _⟩ := first_occurrence_unique (Event.isExecuteOf n) _ _ _ _ _ _ hd2
        (fun ev hev => by
          rcases List.mem_cons.1 hev with rfl | hev
          · exact hne n
          · exact hfree ev hev)
        hpre rfl rfl
      refine ⟨?_, t, segs, hrun, h1.symm⟩
      cases h2
      rfl
  simp only [recalculate] at h
  split at h
  · next hlt => exact absurd hlt hnl
  unfold recalcFinish at h
  split at h
  · simp at h
  · next e s1 hb =>
    simp only [Option.some.injEq, Prod.mk.injEq] at h
    obtain ⟨_, rfl⟩ := h
    obtain ⟨db, htr, hdb⟩ := recalcBody_first_execute fuel n _ _ _ hb
    refine ⟨Event.enter n :: db, by rw [htr]; simp [State.log], ?_⟩
    intro pre post ele vals thrown hd hpre
    exact key db [] (fun ev hev => by simp at hev) hdb pre post ele vals thrown
      (by rw [List.append_nil]; exact hd) hpre
  · next s1 hb =>
    simp only [Option.some.injEq, Prod.mk.injEq] at h
    obtain ⟨_, rfl⟩ := h
    obtain ⟨db, htr, hdb⟩ := recalcBody_first_execute fuel n _ _ _ hb
    refine ⟨Event.enter n :: db ++ [Event.leave n], by simp only; rw [htr]; simp [State.log],
      ?_⟩
    intro pre post ele vals thrown hd hpre
    exact key db [Event.leave n] (fun ev hev => by
      rw [List.mem_singleton.1 hev]; exact hnl2 n) hdb pre post ele vals thrown hd hpre

/-- The events of the recomputation of `head = Add(leafX, leafY)`: both leaves are entered
and left before the operation of the head is called. -/
theorem recalculate_addTree_trace :
    (stateAfter (recalculate 2 0 ⟨addTree 2 3, []⟩) ⟨addTree 2 3, []⟩).trace =
      [.enter 0, .enter 1, .leave 1, .enter 2, .leave 2,
        .execute 0 0 [⟨"leafX", 2⟩, ⟨"leafY", 3⟩] none, .leave 0] := by
  rfl

/-- Witness for C21: the recomputation of `head = Add(leafX, leafY)`. -/
theorem recalculate_children_before_operation_witness :
    ∃ d, (stateAfter (recalculate 2 0 ⟨addTree 2 3, []⟩) ⟨addTree 2 3, []⟩).trace = [] ++ d ∧
      ∀ pre post ele vals thrown, d = pre ++ Event.execute 0 ele vals thrown :: post →
        (∀ ev ∈ pre, ¬ Event.isExecuteOf 0 ev) →
        ele = 0 ∧ ∃ t segs,
          ChildrenRun (recalculate 1) (addTree 2 3 0)._children
            (State.log ⟨addTree 2 3, []⟩ (.enter 0)) t segs ∧
          pre = Event.enter 0 :: segs.flatten :=
  recalculate_children_before_operation 1 0 ⟨addTree 2 3, []⟩ _ (.ok ())
    (by simp [addTree]) rfl

/-! ## Number of recomputations of the children -/

theorem roundsRun_trace (rec : Nat → State P E → Res P E Unit) (n : Nat) (cs : List Nat) :
    ∀ (ele todo : Nat) (s s' : State P E) rounds, RoundsRun rec n cs ele todo s s' rounds →
      s'.trace = s.trace ++ roundsTrace n ele rounds ∧ rounds.length = todo := by
  intro ele todo s s' rounds h
  induction h with
  | done ele s => simp [roundsTrace]
  | round ele todo s t s' segs vals out rounds hrun _ _ _ ih =>
    obtain ⟨ih1, ih2⟩ := ih
    refine ⟨?_, by simp [ih2]⟩
    rw [ih1, childrenRun_trace rec cs s t segs hrun]
    simp [roundsTrace]

theorem recalcElements_ok_rounds (fuel n : Nat) (cs : List Nat) :
    ∀ (todo ele : Nat) (s s' : State P E),
      recalcElements (recalculate fuel) n cs todo ele s = some (.ok (), s') →
      ∃ rounds, RoundsRun (recalculate fuel) n cs ele todo s s' rounds := by
  intro todo
  induction todo with
  | zero =>
    intro ele s s' h
    simp only [recalcElements, Option.some.injEq, Prod.mk.injEq] at h
    obtain ⟨_, rfl⟩ := h
    exact ⟨[], .done ele s⟩
  | succ todo ih =>
    intro ele s s' h
    simp only [recalcElements] at h
    split at h
    · simp at h
    · simp at h
    · next vals t hc =>
      obtain ⟨segs, hrun⟩ := recalcChildrenEle_ok_run fuel n ele _ _ _ _ _ hc
      split at h
      · simp at h
      · next s2 hcs =>
        obtain ⟨out, hget, hnone, rfl⟩ := callStrategy_ok n ele vals t s2 hcs
        obtain ⟨rounds, hr⟩ := ih _ _ _ h
        exact ⟨(segs, vals) :: rounds, .round ele todo s t s' segs vals out rounds hrun hget
          hnone hr⟩

/-- A call of `recalculate` on a node with children that returns without error is made of
one round per slot of the node, in increasing order of the slot index. -/
theorem recalculate_ok_rounds (fuel n : Nat) (s s' : State P E)
    (hch : (s.nodes n)._children ≠ [])
    (h : recalculate (fuel + 1) n s = some (.ok (), s')) :
    ∃ s1 rounds,
      RoundsRun (recalculate fuel) n (s.nodes n)._children 0 (s.nodes n)._parameters.length
        (s.log (.enter n)) s1 rounds ∧
      rounds.length = (s.nodes n)._parameters.length ∧
      s'.trace = s.trace ++ (Event.enter n :: roundsTrace n 0 rounds ++ [Event.leave n]) ∧
      s' = { nodes := s1.nodes.setChanged n false, trace := s1.trace ++ [.leave n] } := by
  have hnl : ¬ (s.nodes n)._children.length < 1 := by
    intro hlt
    exact hch (List.length_eq_zero.1 (by omega))
  simp only [recalculate] at h
  split at h
  · next hlt => exact absurd hlt hnl
  unfold recalcFinish at h
  split at h
  · simp at h
  · simp at h
  · next s1 hb =>
    simp only [Option.some.injEq, Prod.mk.injEq, true_and] at h
    subst h
    have hrounds : ∃ rounds, RoundsRun (recalculate fuel) n (s.nodes n)._children 0
        (s.nodes n)._parameters.length (s.log (.enter n)) s1 rounds := by
      unfold recalcBody at hb
      split at hb
      · next h1 =>
        split at hb
        · simp at hb
        · simp at hb
        · next vals t hc =>
          obtain ⟨segs, hrun⟩ := recalcChildren_ok_run fuel _ _ _ _ _ hc
          simp only [Option.some.injEq] at hb
          obtain ⟨out, hget, hnone, rfl⟩ := callStrategy_ok n 0 vals t s1 hb
          have h1' : (s.nodes n)._parameters.length = 1 := h1
          rw [h1']
          exact ⟨[(segs, vals)], .round 0 0 _ t _ segs vals out [] hrun hget hnone
            (.done 1 _)⟩
      · exact recalcElements_ok_rounds fuel n _ _ _ _ _ hb
    obtain ⟨rounds, hr⟩ := hrounds
    obtain ⟨htr, hlen⟩ := roundsRun_trace _ n _ _ _ _ _ _ hr
    refine ⟨s1, rounds, hr, hlen, ?_, rfl⟩
    simp only
    rw [htr]
    simp [State.log]

theorem roundsRun_rounds (fuel n : Nat) (cs : List Nat) :
    ∀ (ele todo : Nat) (s s' : State P E) rounds,
      RoundsRun (recalculate fuel) n cs ele todo s s' rounds →
      SameShape s s' ∧ ∀ round ∈ rounds, ∃ a t, SameShape s a ∧
        ChildrenRun (recalculate fuel) cs a t round.1 := by
  intro ele todo s s' rounds h
  induction h with
  | done ele s => exact ⟨SameShape.rfl' s, fun r hr => by simp at hr⟩
  | round ele todo s t s' segs vals out rounds hrun _ _ _ ih =>
    have h1 := (childrenRun_each fuel _ _ _ _ hrun).1
    have h2 := h1.trans' (sameShape_setParameter t n ele
      ((t.nodes n)._strat.execute vals out).2 (t.trace ++ [.execute n ele vals none]))
    refine ⟨h2.trans' ih.1, fun r hr => ?_⟩
    rcases List.mem_cons.1 hr with rfl | hr
    · exact ⟨s, t, SameShape.rfl' s, hrun⟩
    · obtain ⟨a, u, hsa, hru⟩ := ih.2 r hr
      exact ⟨a, u, h2.trans' hsa, hru⟩

/-- A call of `recalculate` that returns without error, on a node with exactly one slot and
with children, calls the operation of the node exactly once, as its last action. -/
theorem recalculate_ok_single_execute (fuel c : Nat) (a b : State P E)
    (dc : List (Event P E)) (hcall : recalculate fuel c a = some (.ok (), b))
    (hdc : b.trace = a.trace ++ dc) (h1 : (a.nodes c)._parameters.length = 1)
    (hch : (a.nodes c)._children ≠ []) :
    ∃ mid vals, dc = Event.enter c :: mid ++ [Event.execute c 0 vals none, Event.leave c] ∧
      ∀ ev ∈ mid, ¬ Event.isExecuteOf c ev := by
  cases fuel with
  | zero => simp [recalculate] at hcall
  | succ fuel =>
    obtain ⟨s1, rounds, hr, hlen, htr, _⟩ := recalculate_ok_rounds fuel c a b hch hcall
    rw [h1] at hr hlen
    cases hr with
    | round _ _ _ t _ segs vals out rest hrun hget hnone hrest =>
      cases hrest with
      | done _ _ =>
        refine ⟨segs.flatten, vals, ?_, ?_⟩
        · have := List.append_cancel_left (hdc.symm.trans htr)
          rw [this]
          simp [roundsTrace]
        · intro ev hev
          obtain ⟨d, hd, hevd⟩ := List.mem_flatten.1 hev
          obtain ⟨k, hk, x, y, hsx, hxy, htrx⟩ := (childrenRun_each fuel _ _ _ _ hrun).2 d hd
          exact child_call_no_execute fuel c k (a.log (.enter c)) x y _ hk
            (by simp [State.log, h1]) hsx hxy d htrx ev hevd

theorem childrenRun_forall₂ (fuel : Nat) (s0 : State P E) :
    ∀ (cs : List Nat) (s t : State P E) segs, ChildrenRun (recalculate fuel) cs s t segs →
      SameShape s0 s →
      List.Forall₂ (fun c dc => ∃ a b, SameShape s0 a ∧
        recalculate fuel c a = some (.ok (), b) ∧ b.trace = a.trace ++ dc) cs segs := by
  intro cs s t segs h
  induction h with
  | nil s => intro _; exact List.Forall₂.nil
  | cons c cs s s1 t dc segs hc hdc _ ih =>
    intro hs
    exact List.Forall₂.cons ⟨s, s1, hs, hc, hdc⟩
      (ih (hs.trans' (recalculate_sameShape fuel c s _ s1 hc)))

/-- C22: a call of `recalculate()` that returns without error, on a node `n` with children
and `N` slots, is made of exactly `N` rounds, one per slot index in increasing order
(`RoundsRun`); in each round every child is recomputed exactly once, in child order, by a
call that returns without error, and then the operation of `n` is called once.  So each
child is recomputed `N` times for `N > 1` and once for `N = 1`; and each of these calls on
a child with exactly one slot and with children calls the operation of that child exactly
once, as its last action. -/
theorem recalculate_children_once_per_slot (fuel n : Nat) (s s' : State P E)
    (hch : (s.nodes n)._children ≠ [])
    (h : recalculate (fuel + 1) n s = some (.ok (), s')) :
    ∃ s1 rounds,
      RoundsRun (recalculate fuel) n (s.nodes n)._children 0 (s.nodes n)._parameters.length
        (s.log (.enter n)) s1 rounds ∧
      rounds.length = (s.nodes n)._parameters.length ∧
      s'.trace = s.trace ++ (Event.enter n :: roundsTrace n 0 rounds ++ [Event.leave n]) ∧
      ∀ round ∈ rounds, List.Forall₂ (fun c dc => ∃ a b, SameShape s a ∧
          recalculate fuel c a = some (.ok (), b) ∧ b.trace = a.trace ++ dc ∧
          ((s.nodes c)._parameters.length = 1 → (s.nodes c)._children ≠ [] →
            ∃ mid vals,
              dc = Event.enter c :: mid ++ [Event.execute c 0 vals none, Event.leave c] ∧
              ∀ ev ∈ mid, ¬ Event.isExecuteOf c ev))
        (s.nodes n)._children round.1 := by
  obtain ⟨s1, rounds, hr, hlen, htr, _⟩ := recalculate_ok_rounds fuel n s s' hch h
  refine ⟨s1, rounds, hr, hlen, htr, fun round hround => ?_⟩
  have hs0 : SameShape s (s.log (.enter n)) := fun m => ⟨rfl, rfl, rfl, rfl, rfl⟩
  obtain ⟨a, t, hsa, hrun⟩ := (roundsRun_rounds fuel n _ _ _ _ _ _ hr).2 round hround
  have hall := childrenRun_forall₂ fuel s _ _ _ _ hrun (hs0.trans' hsa)
  refine List.Forall₂.imp ?_ hall
  rintro c dc ⟨x, y, hsx, hxy, hdc⟩
  refine ⟨x, y, hsx, hxy, hdc, fun h1 hc => ?_⟩
  exact recalculate_ok_single_execute fuel c x y dc hxy hdc
    (by rw [(hsx c).2.2.2.2]; exact h1) (by rw [(hsx c).2.2.1]; exact hc)

/-- The events of the recomputation of a node with two slots above a node with one slot
above a leaf: the node with one slot is recomputed twice, and its operation is called
twice. -/
theorem recalculate_twoSlotChain_trace :
    recalculate 3 0 ⟨twoSlotChain, []⟩ =
        some (.ok (), stateAfter (recalculate 3 0 ⟨twoSlotChain, []⟩) ⟨twoSlotChain, []⟩) ∧
      (stateAfter (recalculate 3 0 ⟨twoSlotChain, []⟩) ⟨twoSlotChain, []⟩).trace =
        [.enter 0,
          .enter 1, .enter 2, .leave 2, .execute 1 0 [⟨"leaf", 1⟩] none, .leave 1,
          .execute 0 0 [⟨"mid", 0⟩] none,
          .enter 1, .enter 2, .leave 2, .execute 1 0 [⟨"leaf", 1⟩] none, .leave 1,
          .execute 0 1 [⟨"mid", 0⟩] none,
          .leave 0] := by
  exact ⟨rfl, rfl⟩

/-- Witness for C22: the recomputation of a node with two slots above a node with one slot
above a leaf. -/
theorem recalculate_children_once_per_slot_witness :
    ∃ s1 rounds,
      RoundsRun (recalculate 2) 0 (twoSlotChain 0)._children 0
        (twoSlotChain 0)._parameters.length (State.log ⟨twoSlotChain, []⟩ (.enter 0)) s1
        rounds ∧
      rounds.length = (twoSlotChain 0)._parameters.length ∧
      (stateAfter (recalculate 3 0 ⟨twoSlotChain, []⟩) ⟨twoSlotChain, []⟩).trace =
        [] ++ (Event.enter 0 :: roundsTrace 0 0 rounds ++ [Event.leave 0]) ∧
      ∀ round ∈ rounds, List.Forall₂ (fun c dc => ∃ a b,
          SameShape (⟨twoSlotChain, []⟩ : State (Value ℚ) String) a ∧
          recalculate 2 c a = some (.ok (), b) ∧ b.trace = a.trace ++ dc ∧
          ((twoSlotChain c)._parameters.length = 1 → (twoSlotChain c)._children ≠ [] →
            ∃ mid vals,
              dc = Event.enter c :: mid ++ [Event.execute c 0 vals none, Event.leave c] ∧
              ∀ ev ∈ mid, ¬ Event.isExecuteOf c ev))
        (twoSlotChain 0)._children round.1 :=
  recalculate_children_once_per_slot 2 0 ⟨twoSlotChain, []⟩ _ (by simp [twoSlotChain]) rfl

/-! ## Failure and the flag -/

/-- C23: when `recalculate()` on a node with children fails, whatever the cause (its own
operation, the dimension test, an out-of-range slot or the recomputation of a child), the
`_changed` flag of the node is, when the exception reaches the caller, what it was before
the call; in particular a node that was clean before the call is still marked clean. -/
theorem recalculate_failure_keeps_flag (fuel n : Nat) (s s' : State P E) (e : Error E)
    (_hch : (s.nodes n)._children ≠ [])
    (h : recalculate fuel n s = some (.error e, s')) :
    (s'.nodes n)._changed = (s.nodes n)._changed ∧
      ((s.nodes n)._changed = false → (s'.nodes n)._changed = false) := by
  have hkeep := recalculate_error_keeps_changed fuel n s s' e h
  exact ⟨hkeep, fun hf => by rw [hkeep, hf]⟩

/-- Witness for C23: the head of the chain, clean before the call, whose child throws. -/
theorem recalculate_failure_keeps_flag_witness :
    ((stateAfter (recalculate 3 0 ⟨failingChain false, []⟩) ⟨failingChain false, []⟩).nodes
        0)._changed = (failingChain false 0)._changed ∧
      ((failingChain false 0)._changed = false →
        ((stateAfter (recalculate 3 0 ⟨failingChain false, []⟩)
          ⟨failingChain false, []⟩).nodes 0)._changed = false) :=
  recalculate_failure_keeps_flag 3 0 ⟨failingChain false, []⟩ _ (.thrown "failed")
    (by simp [failingChain]) rfl

/-- The three causes of failure on nodes that were clean before the call: the operation of
the node itself, the recomputation of a child, and the dimension test.  Each time the node
is still marked clean afterwards. -/
theorem recalculate_failures_leave_clean :
    (recalculate 2 1 ⟨failingChain false, []⟩).map
        (fun x => (x.1, (x.2.nodes 1)._changed)) =
        some (.error (.thrown "failed"), false) ∧
      (recalculate 3 0 ⟨failingChain false, []⟩).map
        (fun x => (x.1, (x.2.nodes 0)._changed)) =
        some (.error (.thrown "failed"), false) ∧
      (recalculate 2 0
        ⟨fun m => { vectorTree 1 [⟨"a", 1⟩, ⟨"b", 2⟩, ⟨"c", 3⟩] m with _changed := false },
          []⟩).map (fun x => (x.1, (x.2.nodes 0)._changed)) =
        some (.error (.runtime_error
          "TreeNode::Recalculate() | Dimension of child nodes does not match"), false) := by
  refine ⟨rfl, rfl, rfl⟩

/-! ## Flags after a recomputation -/

theorem falseKept_stepClosed : StepClosed (fun _ (a b : State P E) => FalseKept a b) where
  refl := fun _ _ h => h
  seq := fun _ _ _ _ h1 h2 m h => h2 m (h1 m h)
  exec := fun s n ele _ _ _ m h => by
    rw [changed_setParameter]
    exact h
  range := fun _ _ h => h
  mismatch := fun _ _ _ h => h
  enter := fun _ _ _ h => h
  leave := fun s n m h => by
    by_cases hm : m = n
    · subst hm; simp [Heap.setChanged, Heap.set]
    · simpa [Heap.setChanged, Heap.set, hm] using h

/-- A call of `recalculate` never sets a flag: a flag that is false stays false. -/
theorem recalculate_falseKept (fuel n : Nat) (s : State P E) r s'
    (h : recalculate fuel n s = some (r, s')) : FalseKept s s' :=
  recalculate_closed falseKept_stepClosed fuel n s r s' h

theorem childrenRun_falseKept (fuel : Nat) :
    ∀ (cs : List Nat) (s t : State P E) segs, ChildrenRun (recalculate fuel) cs s t segs →
      FalseKept s t := by
  intro cs s t segs h
  induction h with
  | nil s => exact fun _ h => h
  | cons c cs s s1 t dc segs hc _ _ ih =>
    exact fun m hm => ih m (recalculate_falseKept fuel c s _ s1 hc m hm)

/-- In a pass over the children, every child has a call that returns without error, and no
flag is set between the end of that call and the end of the pass. -/
theorem childrenRun_after (fuel : Nat) :
    ∀ (cs : List Nat) (s t : State P E) segs, ChildrenRun (recalculate fuel) cs s t segs →
      ∀ c ∈ cs, ∃ a b, SameShape s a ∧ recalculate fuel c a = some (.ok (), b) ∧
        FalseKept b t := by
  intro cs s t segs h
  induction h with
  | nil s => intro c hc; simp at hc
  | cons c cs s s1 t dc segs hc _ hrest ih =>
    intro k hk
    rcases List.mem_cons.1 hk with rfl | hk
    · exact ⟨s, s1, SameShape.rfl' s, hc, childrenRun_falseKept fuel _ _ _ _ hrest⟩
    · obtain ⟨a, b, hsa, hcall, hkept⟩ := ih k hk
      exact ⟨a, b, (recalculate_sameShape fuel c s _ s1 hc).trans' hsa, hcall, hkept⟩

theorem roundsRun_falseKept (fuel n : Nat) (cs : List Nat) :
    ∀ (ele todo : Nat) (s s' : State P E) rounds,
      RoundsRun (recalculate fuel) n cs ele todo s s' rounds → FalseKept s s' := by
  intro ele todo s s' rounds h
  induction h with
  | done ele s => exact fun _ h => h
  | round ele todo s t s' segs vals out rounds hrun _ _ _ ih =>
    intro m hm
    refine ih m ?_
    simp only
    rw [changed_setParameter]
    exact childrenRun_falseKept fuel _ _ _ _ hrun m hm

theorem childStep_of_sameShape {s t : State P E} (hs : SameShape s t) :
    childStep t.nodes = childStep s.nodes := by
  funext a b
  simp only [childStep, (hs a).2.2.1]

theorem reflTransGen_child_of_active {h : Heap P E} {a b : Nat}
    (hab : Relation.ReflTransGen (activeStep h) a b) :
    Relation.ReflTransGen (childStep h) a b :=
  Relation.ReflTransGen.mono (fun _ _ hs => hs.1) hab

/-- After a call of `recalculate` that returns without error, on a node below which every
node has at least one slot, the flag is false on every node of the subtree. -/
theorem recalculate_ok_subtree_clean :
    ∀ (fuel n : Nat) (s s' : State P E),
      (∀ m, Relation.ReflTransGen (childStep s.nodes) n m → (s.nodes m)._parameters ≠ []) →
      recalculate fuel n s = some (.ok (), s') →
      ∀ m, Relation.ReflTransGen (childStep s.nodes) n m → (s'.nodes m)._changed = false := by
  intro fuel
  induction fuel with
  | zero => intro n s s' _ h; simp [recalculate] at h
  | succ fuel ih =>
    intro n s s' hslots h m hm
    by_cases hch : (s.nodes n)._children = []
    · have hmn : m = n := by
        rcases Relation.ReflTransGen.cases_head hm with heq | ⟨c, hc, _⟩
        · exact heq.symm
        · simp [childStep, hch] at hc
      subst hmn
      simp only [recalculate, State.log, hch, List.length_nil, Nat.lt_one_iff, if_true,
        Option.some.injEq, Prod.mk.injEq, true_and] at h
      rw [← h]
      simp [Heap.setChanged, Heap.set]
    · obtain ⟨s1, rounds, hr, hlen, _, hs'⟩ := recalculate_ok_rounds fuel n s s' hch h
      have hs0 : SameShape s (s.log (.enter n)) := fun k => ⟨rfl, rfl, rfl, rfl, rfl⟩
      have hs1 : (s1.nodes m)._changed = false → (s'.nodes m)._changed = false := by
        intro h1
        rw [hs']
        by_cases hmn : m = n
        · subst hmn; simp [Heap.setChanged, Heap.set]
        · simpa [Heap.setChanged, Heap.set, hmn] using h1
      rcases Relation.ReflTransGen.cases_head hm with heq | ⟨c, hc, hcm⟩
      · subst heq
        rw [hs']
        simp [Heap.setChanged, Heap.set]
      · apply hs1
        have hN : (s.nodes n)._parameters.length ≠ 0 := fun h0 =>
          hslots n Relation.ReflTransGen.refl (List.length_eq_zero.1 h0)
        obtain ⟨k, hk⟩ := Nat.exists_eq_succ_of_ne_zero hN
        rw [hk] at hr
        cases hr with
        | round _ _ _ t _ segs vals out rest hrun hget hnone hrest =>
          obtain ⟨a, b, hsa, hcall, hkept⟩ := childrenRun_after fuel _ _ _ _ hrun c hc
          have hsa' : SameShape s a := hs0.trans' hsa
          have hb : (b.nodes m)._changed = false := by
            refine ih c a b (fun x hx => ?_) hcall m ?_
            · rw [childStep_of_sameShape hsa'] at hx
              have hlen' := (hsa' x).2.2.2.2
              intro hnil
              have h0 : (s.nodes x)._parameters.length = 0 := by
                rw [← hlen', hnil]; rfl
              exact hslots x (Relation.ReflTransGen.head hc hx) (List.length_eq_zero.1 h0)
            · rw [childStep_of_sameShape hsa']
              exact hcm
          have ht : (t.nodes m)._changed = false := hkept m hb
          refine roundsRun_falseKept fuel n _ _ _ _ _ _ hrest m ?_
          simp only
          rw [changed_setParameter]
          exact ht

/-- C24: for a node `n` such that every node reachable from `n` through child links has at
least one slot, after `n.recalculate()` returns without error the `_changed` flag is false
on `n` and on every node reachable from `n` through child links, and the flag of every
other node is what it was before the call. -/
theorem recalculate_ok_clears_subtree (fuel n : Nat) (s s' : State P E)
    (hslots : ∀ m, Relation.ReflTransGen (childStep s.nodes) n m →
      (s.nodes m)._parameters ≠ [])
    (h : recalculate fuel n s = some (.ok (), s')) :
    (∀ m, Relation.ReflTransGen (childStep s.nodes) n m → (s'.nodes m)._changed = false) ∧
      (∀ m, ¬ Relation.ReflTransGen (childStep s.nodes) n m →
        (s'.nodes m)._changed = (s.nodes m)._changed) := by
  refine ⟨recalculate_ok_subtree_clean fuel n s s' hslots h, fun m hm => ?_⟩
  by_contra hne
  exact hm (reflTransGen_child_of_active (recalculate_changed fuel n s _ s' h m hne).1)

theorem addTree_slots (x y : ℚ) (m : Nat) : (addTree x y m)._parameters ≠ [] := by
  match m with
  | 0 => simp [addTree]
  | 1 => simp [addTree, leafNode]
  | 2 => simp [addTree, leafNode]
  | k + 3 => simp [addTree, leafNode]

/-- Witness for C24: the recomputation of `head = Add(leafX, leafY)`, all flags being true
before. -/
theorem recalculate_ok_clears_subtree_witness :
    (∀ m, Relation.ReflTransGen (childStep (addTree 2 3)) 0 m →
      ((stateAfter (recalculate 2 0 ⟨addTree 2 3, []⟩) ⟨addTree 2 3, []⟩).nodes m)._changed
        = false) ∧
      (∀ m, ¬ Relation.ReflTransGen (childStep (addTree 2 3)) 0 m →
        ((stateAfter (recalculate 2 0 ⟨addTree 2 3, []⟩) ⟨addTree 2 3, []⟩).nodes m)._changed
          = (addTree 2 3 m)._changed) :=
  recalculate_ok_clears_subtree 2 0 ⟨addTree 2 3, []⟩ _ (fun m _ => addTree_slots 2 3 m) rfl

namespace Physics.Dynamics

/-! ## The form-factor strategy -/

/-- The collection delivered by the tree of `createFunctionTree`: two integers, three fit
parameters and one vector of reals. -/
theorem ofList_leaves (self : ProductionFormFactor) (data : Value (List ℚ)) :
    ParameterList.ofList (self.leaves data) =
      { intValues := [⟨"OrbitalAngularMomentum", self.L⟩, ⟨"FormFactorType", self.FFType⟩],
        doubleValues := [],
        doubleParameters := [self.MesonRadius, self.Daughter1Mass, self.Daughter2Mass],
        complexValues := [], mIntValues := [], mDoubleValues := [data],
        mComplexValues := [] } := by
  rfl

/-- When the checks of the numbers of parameters pass, there is exactly one integer, so the
read `intValue(1)` is out of range. -/
theorem intValue_one_of_checkCounts (paras : ParameterList) :
    checkCounts paras ≠ none ∨ paras.intValue 1 = .error .out_of_range := by
  by_cases h : paras.intValues.length = 1
  · right
    unfold ParameterList.intValue readAt
    rw [List.get?_eq_none.2 (by omega)]
  · left
    simp [checkCounts, h]

theorem readInputs_of_checkCounts (paras : ParameterList) :
    checkCounts paras ≠ none ∨ readInputs paras = .error .out_of_range := by
  rcases intValue_one_of_checkCounts paras with h | h
  · exact Or.inl h
  · right
    have hoor : ∀ {α : Type} (l : List α) (i : Nat) (e : ExecError),
        readAt l i = .error e → e = .out_of_range := by
      intro α l i e he
      unfold readAt at he
      split at he
      · simp at he
      · simpa using he.symm
    unfold readInputs
    split
    · next e he => rw [hoor _ _ _ he]
    · split
      · next e he => rw [hoor _ _ _ he]
      · rw [h]


theorem checkCounts_leaves (self : ProductionFormFactor) (data : Value (List ℚ)) :
    checkCounts (ParameterList.ofList (self.leaves data)) = some (.BadParameter
      "FormFactorStrat::execute() | Number of IntParameters does not match: 2 given but 1 expected.") := by
  rw [ofList_leaves]
  simp only [checkCounts, List.length_cons, List.length_nil]
  rfl

/-- In a build with the checks compiled in, `FormFactorStrategy::execute` never returns
normally. -/
theorem execute_debug_never_ok (type : Parameter → ParType) (ParNames : ParType → String)
    (dynamicalFunction : ℚ → ℚ → ℚ → Int → ℚ → Int → Option (ℚ × ℚ)) (checkType : ParType)
    (paras : ParameterList) (out : Option Parameter) :
    (FormFactorStrategy.execute false type ParNames dynamicalFunction checkType paras out).1
      ≠ none := by
  unfold FormFactorStrategy.execute
  cases out with
  | none => simp
  | some o =>
    by_cases hk : checkType = type o
    · simp only [hk, ne_eq, not_true_eq_false, decide_False, Bool.false_eq_true, if_false]
      cases hc : checkCounts paras with
      | some e => simp
      | none =>
        simp only
        cases hm : paras.mDoubleValue 0 with
        | error e => simp
        | ok data =>
          simp only
          have hr : readInputs paras = .error .out_of_range := by
            rcases readInputs_of_checkCounts paras with h | h
            · exact absurd hc h
            · exact h
          cases o <;> simp [hr]
    · simp [hk]


theorem execute_leaves_record (type : Parameter → ParType) (ParNames : ParType → String)
    (dynamicalFunction : ℚ → ℚ → ℚ → Int → ℚ → Int → Option (ℚ × ℚ))
    (self : ProductionFormFactor) (data : Value (List ℚ)) (out : Parameter) :
    FormFactorStrategy.execute false type ParNames dynamicalFunction (type out)
        { intValues := [⟨"OrbitalAngularMomentum", self.L⟩, ⟨"FormFactorType", self.FFType⟩],
          doubleValues := [],
          doubleParameters := [self.MesonRadius, self.Daughter1Mass, self.Daughter2Mass],
          complexValues := [], mIntValues := [], mDoubleValues := [data],
          mComplexValues := [] } (some out) =
      (some (.BadParameter
        "FormFactorStrat::execute() | Number of IntParameters does not match: 2 given but 1 expected."),
        some out) := by
  have h := checkCounts_leaves self data
  rw [ofList_leaves] at h
  simp [FormFactorStrategy.execute, h]

/-- C25 (behaviour of the code): the tree of `createFunctionTree` delivers two integers
(orbital angular momentum and form-factor type), three fit parameters and one vector of
reals, but the checks of `FormFactorStrategy::execute` expect exactly one integer.  In a
build with the checks compiled in, `execute` rejects that collection with `BadParameter`,
also when called by `recalculate()` on the head of the tree; and whenever the checks pass,
the read `intValue(1)` is out of range, so that `execute` never returns normally.  Without
the checks the five positional reads and `mDoubleValue(0)` are within range on the
collection of the tree and retrieve orbital angular momentum, meson radius, form-factor
type, mass A, mass B and the data vector. -/
theorem formFactor_checks_reject_tree (type : Parameter → ParType)
    (ParNames : ParType → String)
    (dynamicalFunction : ℚ → ℚ → ℚ → Int → ℚ → Int → Option (ℚ × ℚ))
    (self : ProductionFormFactor) (data : Value (List ℚ)) (out : Parameter)
    (suffix : String) :
    FormFactorStrategy.execute false type ParNames dynamicalFunction (type out)
        (ParameterList.ofList (self.leaves data)) (some out) =
      (some (.BadParameter
        "FormFactorStrat::execute() | Number of IntParameters does not match: 2 given but 1 expected."),
        some out) ∧
    (self.createFunctionTree
        (formFactorStrategy false type ParNames dynamicalFunction
          (type (.mComplexValue ⟨"", List.replicate data.Val.length (0, 0)⟩)))
        (ParameterList.ofList [.mDoubleValue data]) 0 suffix).bind
        (fun h => (recalculate 2 0 ⟨h, []⟩).map (fun x => x.1)) =
      some (.error (.thrown (.BadParameter
        "FormFactorStrat::execute() | Number of IntParameters does not match: 2 given but 1 expected."))) ∧
    (∀ paras : ParameterList, checkCounts paras ≠ none ∨
      (paras.intValue 1 = .error .out_of_range ∧ readInputs paras = .error .out_of_range)) ∧
    (∀ (checkType : ParType) (paras : ParameterList) (out1 : Option Parameter),
      (FormFactorStrategy.execute false type ParNames dynamicalFunction checkType paras
        out1).1 ≠ none) ∧
    readInputs (ParameterList.ofList (self.leaves data)) =
      .ok ((self.L : Int), self.MesonRadius.Val, self.FFType, self.Daughter1Mass.Val,
        self.Daughter2Mass.Val) ∧
    (ParameterList.ofList (self.leaves data)).mDoubleValue 0 = .ok data := by
  refine ⟨?_, ?_, ?_, ?_, rfl, rfl⟩
  · rw [ofList_leaves]
    exact execute_leaves_record type ParNames dynamicalFunction self data out
  · simp [ProductionFormFactor.createFunctionTree, ParameterList.ofList,
      ParameterList.addParameter, ParameterList.empty, recalculate, recalcBody, recalcFinish,
      recalcChildren, callStrategy, State.log, Heap.setChanged, Heap.set, Heap.setParameter,
      TreeNode.parameter, TreeNode.parameters, addParameters, ComPWA.ParameterList.addParameter,
      formFactorStrategy, ProductionFormFactor.leaves, execute_leaves_record]
  · intro paras
    rcases intValue_one_of_checkCounts paras with h | h
    · exact Or.inl h
    · rcases readInputs_of_checkCounts paras with h2 | h2
      · exact Or.inl h2
      · exact Or.inr ⟨h, h2⟩
  · intro checkType paras out1
    exact execute_debug_never_ok type ParNames dynamicalFunction checkType paras out1

end Physics.Dynamics

namespace Physics.Dynamics

/-! ## Updating the parameters of the form factor -/

/-- C27 (behaviour of the code): `updateParametersFrom(list)` updates the meson radius from
the entry of `list` of the same name, but for the two masses it calls `updateParameter` on
the entry found in `list`, with that entry itself as argument: whatever `FindParameter` and
`updateParameter` do, the object behind `Daughter1Mass` (and behind `Daughter2Mass`) is left
as it was unless it is itself the meson radius or one of the entries found.  On a form factor
with radius 1 and masses 2 and 3 and a collection holding the same names with the values 5,
6 and 7, the radius becomes 5 and the masses stay 2 and 3. -/
theorem updateParametersFrom_skips_masses :
    (∀ (FindParameter : String → List Nat → ParameterStore → Option Nat)
        (updateParameter : FitParameter → FitParameter → FitParameter)
        (self : FormFactorPointers) (list : List Nat) (st : ParameterStore) (a : Nat),
      a = self.MesonRadius ∨
        (∃ st1 name, FindParameter name list st1 = some a) ∨
        updateParametersFrom FindParameter updateParameter self list st a = st a) ∧
    (updateParametersFrom findByName copyValue ⟨0, 1, 2⟩ [10, 11, 12] sampleStore 0 =
        ⟨"radius", 5⟩ ∧
      updateParametersFrom findByName copyValue ⟨0, 1, 2⟩ [10, 11, 12] sampleStore 1 =
        ⟨"mass1", 2⟩ ∧
      updateParametersFrom findByName copyValue ⟨0, 1, 2⟩ [10, 11, 12] sampleStore 2 =
        ⟨"mass2", 3⟩ ∧
      updateParametersFrom findByName copyValue ⟨0, 1, 2⟩ [10, 11, 12] sampleStore 11 =
        ⟨"mass1", 6⟩) := by
  constructor
  · intro Find upd self list st a
    by_cases ha : a = self.MesonRadius
    · exact Or.inl ha
    · by_cases hf : ∃ st1 name, Find name list st1 = some a
      · exact Or.inr (Or.inl hf)
      · refine Or.inr (Or.inr ?_)
        have hset : ∀ (s : ParameterStore) (d : Nat) (p : FitParameter), d ≠ a →
            s.set d p a = s a := by
          intro s d p hd
          simp [ParameterStore.set, Ne.symm hd]
        have hne : ∀ s name d, Find name list s = some d → d ≠ a := by
          intro s name d hd hda
          exact hf ⟨s, name, hda ▸ hd⟩
        unfold updateParametersFrom
        have h1 : (match Find (st self.MesonRadius).Name list st with
            | some r => st.set self.MesonRadius (upd (st self.MesonRadius) (st r))
            | none => st) a = st a := by
          cases Find (st self.MesonRadius).Name list st with
          | some r => exact hset _ _ _ (Ne.symm ha)
          | none => rfl
        generalize (match Find (st self.MesonRadius).Name list st with
            | some r => st.set self.MesonRadius (upd (st self.MesonRadius) (st r))
            | none => st) = st1 at h1 ⊢
        have h2 : (match Find (st1 self.Daughter1Mass).Name list st1 with
            | some d => st1.set d (upd (st1 d) (st1 d))
            | none => st1) a = st a := by
          cases hd : Find (st1 self.Daughter1Mass).Name list st1 with
          | some d => exact (hset _ _ _ (hne _ _ _ hd)).trans h1
          | none => exact h1
        generalize (match Find (st1 self.Daughter1Mass).Name list st1 with
            | some d => st1.set d (upd (st1 d) (st1 d))
            | none => st1) = st2 at h2 ⊢
        cases hd : Find (st2 self.Daughter2Mass).Name list st2 with
        | some d => exact (hset _ _ _ (hne _ _ _ hd)).trans h2
        | none => exact h2
  · refine ⟨?_, ?_, ?_, ?_⟩ <;>
      simp [updateParametersFrom, findByName, copyValue, sampleStore, ParameterStore.set]

end Physics.Dynamics

namespace FitResult

/-! ## `shiftAngle` -/

/-! ### Rounding to the nearest integer -/

theorem roundHalfEven_cases (t : ℚ) :
    roundHalfEven t = ⌊t⌋ ∧ t - ⌊t⌋ ≤ 1 / 2 ∨ roundHalfEven t = ⌊t⌋ + 1 ∧ 1 / 2 ≤ t - ⌊t⌋ := by
  unfold roundHalfEven
  split
  · next h => exact Or.inl ⟨rfl, le_of_lt h⟩
  · next h =>
    split
    · next h2 => exact Or.inr ⟨rfl, le_of_lt h2⟩
    · next h2 =>
      have heq : t - ⌊t⌋ = 1 / 2 := le_antisymm (not_lt.1 h2) (not_lt.1 h)
      split
      · exact Or.inl ⟨rfl, le_of_eq heq⟩
      · exact Or.inr ⟨rfl, le_of_eq heq.symm⟩

theorem roundHalfEven_intCast (n : ℤ) : roundHalfEven (n : ℚ) = n := by
  unfold roundHalfEven
  rw [Int.floor_intCast, sub_self, if_pos (by norm_num)]

theorem abs_roundHalfEven_sub_le (t : ℚ) : |(roundHalfEven t : ℚ) - t| ≤ 1 / 2 := by
  have h0 : 0 ≤ t - ⌊t⌋ := sub_nonneg.2 (Int.floor_le t)
  have h1 : t - ⌊t⌋ < 1 := by
    have := Int.lt_floor_add_one t
    linarith
  rw [abs_le]
  rcases roundHalfEven_cases t with ⟨h, hr⟩ | ⟨h, hr⟩
  · rw [h]; constructor <;> linarith
  · rw [h]; push_cast; constructor <;> linarith

theorem roundHalfEven_mono {s t : ℚ} (hst : s ≤ t) : roundHalfEven s ≤ roundHalfEven t := by
  have hfl : ⌊s⌋ ≤ ⌊t⌋ := Int.floor_mono hst
  have hlow : ∀ x : ℚ, ⌊x⌋ ≤ roundHalfEven x := by
    intro x
    rcases roundHalfEven_cases x with ⟨h, _⟩ | ⟨h, _⟩ <;> omega
  have hupp : ∀ x : ℚ, roundHalfEven x ≤ ⌊x⌋ + 1 := by
    intro x
    rcases roundHalfEven_cases x with ⟨h, _⟩ | ⟨h, _⟩ <;> omega
  rcases lt_or_eq_of_le hfl with hlt | heq
  · calc roundHalfEven s ≤ ⌊s⌋ + 1 := hupp s
      _ ≤ ⌊t⌋ := hlt
      _ ≤ roundHalfEven t := hlow t
  · have hfrac : s - ⌊s⌋ ≤ t - ⌊t⌋ := by rw [heq]; linarith
    unfold roundHalfEven
    rw [heq]
    rw [heq] at hfrac
    by_cases h1 : s - ⌊t⌋ < 1 / 2
    · rw [if_pos h1]
      split
      · exact le_refl _
      · split
        · omega
        · split <;> omega
    · rw [if_neg h1]
      have h1t : ¬ t - ⌊t⌋ < 1 / 2 := by linarith
      rw [if_neg h1t]
      by_cases h2 : 1 / 2 < s - ⌊t⌋
      · rw [if_pos h2, if_pos (lt_of_lt_of_le h2 hfrac)]
      · rw [if_neg h2]
        split
        · split <;> omega
        · split
          · exact le_refl _
          · exact le_refl _

theorem roundHalfEven_eq_of_abs_lt (t : ℚ) (m : ℤ) (h : |t - m| < 1 / 2) :
    roundHalfEven t = m := by
  have h1 := abs_roundHalfEven_sub_le t
  have h2 : |((roundHalfEven t - m : ℤ) : ℚ)| < 1 := by
    push_cast
    calc |(roundHalfEven t : ℚ) - m| = |((roundHalfEven t : ℚ) - t) + (t - m)| := by ring_nf
      _ ≤ |(roundHalfEven t : ℚ) - t| + |t - m| := abs_add _ _
      _ < 1 := by linarith
  have h3 : |roundHalfEven t - m| < 1 := by exact_mod_cast h2
  have := Int.abs_lt_one_iff.1 h3
  omega

theorem roundHalfEven_nonneg {t : ℚ} (ht : 0 ≤ t) : 0 ≤ roundHalfEven t := by
  have := roundHalfEven_mono ht
  rwa [show ((0 : ℚ)) = ((0 : ℤ) : ℚ) by norm_num, roundHalfEven_intCast] at this

theorem roundHalfEven_le_of_le_intCast {t : ℚ} {n : ℤ} (h : t ≤ n) : roundHalfEven t ≤ n := by
  have := roundHalfEven_mono h
  rwa [roundHalfEven_intCast] at this

theorem roundHalfEven_ge_of_intCast_le {t : ℚ} {n : ℤ} (h : (n : ℚ) ≤ t) :
    n ≤ roundHalfEven t := by
  have := roundHalfEven_mono h
  rwa [roundHalfEven_intCast] at this

/-! ### The exponent of a positive rational -/

theorem two_zpow_log_le {x : ℚ} (hx : 0 < x) : (2 : ℚ) ^ Int.log 2 x ≤ x := by
  have := Int.zpow_log_le_self (b := 2) (by norm_num) hx
  simpa using this

theorem lt_two_zpow_log_succ (x : ℚ) : x < (2 : ℚ) ^ (Int.log 2 x + 1) := by
  have := Int.lt_zpow_succ_log_self (b := 2) (by norm_num) x
  simpa using this

theorem log_eq_of_bounds {x : ℚ} {e : ℤ} (h1 : (2 : ℚ) ^ e ≤ x) (h2 : x < (2 : ℚ) ^ (e + 1)) :
    Int.log 2 x = e := by
  have hx : 0 < x := lt_of_lt_of_le (by positivity) h1
  have a1 : e ≤ Int.log 2 x := by
    have := (Int.zpow_le_iff_le_log (b := 2) (by norm_num) (x := e) hx).1 (by simpa using h1)
    exact this
  have a2 : Int.log 2 x < e + 1 := by
    have := (Int.lt_zpow_iff_log_lt (b := 2) (by norm_num) (x := e + 1) hx).1
      (by simpa using h2)
    exact this
  omega

theorem log_two_mul {x : ℚ} (hx : 0 < x) : Int.log 2 (2 * x) = Int.log 2 x + 1 := by
  apply log_eq_of_bounds
  · rw [zpow_add_one₀ (by norm_num : (2 : ℚ) ≠ 0)]
    have := two_zpow_log_le hx
    linarith
  · rw [zpow_add_one₀ (by norm_num : (2 : ℚ) ≠ 0)]
    have := lt_two_zpow_log_succ x
    linarith

theorem ulpExponent_pos {x : ℚ} (hx : 0 < x) :
    ulpExponent x = max (Int.log 2 x - 52) (-1074) := by
  unfold ulpExponent
  rw [abs_of_pos hx]

theorem ulpExponent_mono {x y : ℚ} (hx : 0 < x) (hxy : x ≤ y) :
    ulpExponent x ≤ ulpExponent y := by
  rw [ulpExponent_pos hx, ulpExponent_pos (lt_of_lt_of_le hx hxy)]
  have := Int.log_mono_right (b := 2) hx hxy
  exact max_le_max (by omega) (le_refl _)

/-! ### Rounding a non-negative rational -/

theorem roundMagnitude_zero : roundMagnitude 0 = 0 := by
  unfold roundMagnitude
  rw [zero_div, show ((0 : ℚ)) = ((0 : ℤ) : ℚ) by norm_num, roundHalfEven_intCast]
  simp

theorem roundMagnitude_nonneg {x : ℚ} (hx : 0 ≤ x) : 0 ≤ roundMagnitude x := by
  unfold roundMagnitude
  have h1 : (0 : ℚ) < (2 : ℚ) ^ ulpExponent x := by positivity
  have h2 : 0 ≤ roundHalfEven (x / (2 : ℚ) ^ ulpExponent x) :=
    roundHalfEven_nonneg (div_nonneg hx (le_of_lt h1))
  have h3 : (0 : ℚ) ≤ (roundHalfEven (x / (2 : ℚ) ^ ulpExponent x) : ℚ) := by exact_mod_cast h2
  positivity

theorem abs_roundMagnitude_sub_le (x : ℚ) :
    |roundMagnitude x - x| ≤ (2 : ℚ) ^ ulpExponent x / 2 := by
  unfold roundMagnitude
  have h1 : (0 : ℚ) < (2 : ℚ) ^ ulpExponent x := by positivity
  have h2 := abs_roundHalfEven_sub_le (x / (2 : ℚ) ^ ulpExponent x)
  have h3 : (2 : ℚ) ^ ulpExponent x * roundHalfEven (x / (2 : ℚ) ^ ulpExponent x) - x =
      (2 : ℚ) ^ ulpExponent x *
        ((roundHalfEven (x / (2 : ℚ) ^ ulpExponent x) : ℚ) - x / (2 : ℚ) ^ ulpExponent x) := by
    field_simp
    ring
  rw [h3, abs_mul, abs_of_pos h1]
  calc (2 : ℚ) ^ ulpExponent x *
        |(roundHalfEven (x / (2 : ℚ) ^ ulpExponent x) : ℚ) - x / (2 : ℚ) ^ ulpExponent x|
      ≤ (2 : ℚ) ^ ulpExponent x * (1 / 2) := mul_le_mul_of_nonneg_left h2 (le_of_lt h1)
    _ = (2 : ℚ) ^ ulpExponent x / 2 := by ring

/-- A power of two at or above the unit in the last place is not crossed from below. -/
theorem roundMagnitude_le_zpow {x : ℚ} {j : ℤ} (hj : ulpExponent x ≤ j)
    (hxj : x ≤ (2 : ℚ) ^ j) : roundMagnitude x ≤ (2 : ℚ) ^ j := by
  unfold roundMagnitude
  have h1 : (0 : ℚ) < (2 : ℚ) ^ ulpExponent x := by positivity
  obtain ⟨n, hn⟩ : ∃ n : ℕ, j = ulpExponent x + n := ⟨(j - ulpExponent x).toNat, by omega⟩
  have hpow : (2 : ℚ) ^ j = (2 : ℚ) ^ ulpExponent x * (((2 ^ n : ℕ) : ℤ) : ℚ) := by
    rw [hn, zpow_add₀ (by norm_num : (2 : ℚ) ≠ 0)]
    push_cast
    rw [zpow_natCast]
  have hle : x / (2 : ℚ) ^ ulpExponent x ≤ (((2 ^ n : ℕ) : ℤ) : ℚ) := by
    rw [div_le_iff₀ h1, mul_comm, ← hpow]
    exact hxj
  have hr := roundHalfEven_le_of_le_intCast hle
  have hr2 : (roundHalfEven (x / (2 : ℚ) ^ ulpExponent x) : ℚ) ≤ (((2 ^ n : ℕ) : ℤ) : ℚ) := by
    exact_mod_cast hr
  rw [hpow]
  exact mul_le_mul_of_nonneg_left hr2 (le_of_lt h1)

/-- A power of two at or above the unit in the last place is not crossed from above. -/
theorem zpow_le_roundMagnitude {x : ℚ} {j : ℤ} (hj : ulpExponent x ≤ j)
    (hxj : (2 : ℚ) ^ j ≤ x) : (2 : ℚ) ^ j ≤ roundMagnitude x := by
  unfold roundMagnitude
  have h1 : (0 : ℚ) < (2 : ℚ) ^ ulpExponent x := by positivity
  obtain ⟨n, hn⟩ : ∃ n : ℕ, j = ulpExponent x + n := ⟨(j - ulpExponent x).toNat, by omega⟩
  have hpow : (2 : ℚ) ^ j = (2 : ℚ) ^ ulpExponent x * (((2 ^ n : ℕ) : ℤ) : ℚ) := by
    rw [hn, zpow_add₀ (by norm_num : (2 : ℚ) ≠ 0)]
    push_cast
    rw [zpow_natCast]
  have hle : (((2 ^ n : ℕ) : ℤ) : ℚ) ≤ x / (2 : ℚ) ^ ulpExponent x := by
    rw [le_div_iff₀ h1, mul_comm, ← hpow]
    exact hxj
  have hr := roundHalfEven_ge_of_intCast_le hle
  have hr2 : (((2 ^ n : ℕ) : ℤ) : ℚ) ≤ (roundHalfEven (x / (2 : ℚ) ^ ulpExponent x) : ℚ) := by
    exact_mod_cast hr
  rw [hpow]
  exact mul_le_mul_of_nonneg_left hr2 (le_of_lt h1)

theorem roundMagnitude_mono {x y : ℚ} (hx : 0 ≤ x) (hxy : x ≤ y) :
    roundMagnitude x ≤ roundMagnitude y := by
  rcases eq_or_lt_of_le hx with h0 | hpos
  · rw [← h0, roundMagnitude_zero]
    exact roundMagnitude_nonneg (le_trans hx hxy)
  have hypos : 0 < y := lt_of_lt_of_le hpos hxy
  have hk := ulpExponent_mono hpos hxy
  rcases eq_or_lt_of_le hk with heq | hlt
  · unfold roundMagnitude
    rw [heq]
    have h1 : (0 : ℚ) < (2 : ℚ) ^ ulpExponent y := by positivity
    have hdiv : x / (2 : ℚ) ^ ulpExponent y ≤ y / (2 : ℚ) ^ ulpExponent y :=
      div_le_div_of_nonneg_right hxy (le_of_lt h1)
    have hr := roundHalfEven_mono hdiv
    have hr2 : (roundHalfEven (x / (2 : ℚ) ^ ulpExponent y) : ℚ) ≤
        (roundHalfEven (y / (2 : ℚ) ^ ulpExponent y) : ℚ) := by exact_mod_cast hr
    exact mul_le_mul_of_nonneg_left hr2 (le_of_lt h1)
  · have hkx := ulpExponent_pos hpos
    have hky := ulpExponent_pos hypos
    have hey : ulpExponent y ≤ Int.log 2 y := by rw [hky] at hlt ⊢; omega
    have hex : Int.log 2 x + 1 ≤ Int.log 2 y := by rw [hkx, hky] at hlt; omega
    have hxle : x ≤ (2 : ℚ) ^ Int.log 2 y :=
      le_trans (le_of_lt (lt_two_zpow_log_succ x))
        (zpow_le_zpow_right₀ (by norm_num) hex)
    calc roundMagnitude x ≤ (2 : ℚ) ^ Int.log 2 y :=
          roundMagnitude_le_zpow (le_trans (le_of_lt hlt) hey) hxle
      _ ≤ roundMagnitude y := zpow_le_roundMagnitude hey (two_zpow_log_le hypos)

/-- Evaluation of the rounding: `x` of exponent `e` lies within half a unit of `m` units. -/
theorem roundMagnitude_eq {x : ℚ} (e k m : ℤ) (hk : max (e - 52) (-1074) = k)
    (h1 : (2 : ℚ) ^ e ≤ x) (h2 : x < (2 : ℚ) ^ (e + 1))
    (h3 : |x / (2 : ℚ) ^ k - m| < 1 / 2) :
    roundMagnitude x = (2 : ℚ) ^ k * m := by
  have hx : 0 < x := lt_of_lt_of_le (by positivity) h1
  unfold roundMagnitude
  rw [ulpExponent_pos hx, log_eq_of_bounds h1 h2, hk, roundHalfEven_eq_of_abs_lt _ m h3]

/-- A number that is a whole number of units in its last place is not changed. -/
theorem roundMagnitude_of_units {x : ℚ} (m : ℤ)
    (h : x = (2 : ℚ) ^ ulpExponent x * m) : roundMagnitude x = x := by
  have h1 : (0 : ℚ) < (2 : ℚ) ^ ulpExponent x := by positivity
  have hdiv : x / (2 : ℚ) ^ ulpExponent x = m := by
    rw [div_eq_iff (ne_of_gt h1), mul_comm]
    exact h
  unfold roundMagnitude
  rw [hdiv, roundHalfEven_intCast]
  exact h.symm

theorem roundMagnitude_two_mul {x : ℚ} (hx : 0 < x) (hfix : roundMagnitude x = x) :
    roundMagnitude (2 * x) = 2 * x := by
  have h2x : 0 < 2 * x := by linarith
  have hk := ulpExponent_pos hx
  have hk2 := ulpExponent_pos h2x
  rw [log_two_mul hx] at hk2
  have hunits : x = (2 : ℚ) ^ ulpExponent x * roundHalfEven (x / (2 : ℚ) ^ ulpExponent x) := by
    conv_lhs => rw [← hfix]
    rfl
  rcases le_or_lt (-1074) (Int.log 2 x - 52) with hnorm | hsub
  · have hkk : ulpExponent (2 * x) = ulpExponent x + 1 := by
      rw [hk2, hk, max_eq_left (by omega), max_eq_left hnorm]
      omega
    apply roundMagnitude_of_units (roundHalfEven (x / (2 : ℚ) ^ ulpExponent x))
    rw [hkk, zpow_add_one₀ (by norm_num : (2 : ℚ) ≠ 0)]
    conv_lhs => rw [hunits]
    ring
  · have hkk : ulpExponent (2 * x) = ulpExponent x := by
      rw [hk2, hk, max_eq_right (by omega), max_eq_right (by omega)]
    apply roundMagnitude_of_units (2 * roundHalfEven (x / (2 : ℚ) ^ ulpExponent x))
    rw [hkk]
    conv_lhs => rw [hunits]
    push_cast
    ring

/-! ### Rounding a rational of either sign -/

theorem ulpExponent_neg (x : ℚ) : ulpExponent (-x) = ulpExponent x := by
  unfold ulpExponent
  rw [abs_neg]

theorem roundNearest_zero : roundNearest 0 = 0 := by
  unfold roundNearest
  rw [if_neg (lt_irrefl _), roundMagnitude_zero]

theorem roundNearest_of_nonneg {x : ℚ} (hx : 0 ≤ x) : roundNearest x = roundMagnitude x := by
  unfold roundNearest
  rw [if_neg (not_lt.2 hx)]

theorem roundNearest_of_neg {x : ℚ} (hx : x < 0) : roundNearest x = -roundMagnitude (-x) := by
  unfold roundNearest
  rw [if_pos hx]

theorem roundNearest_neg (x : ℚ) : roundNearest (-x) = -roundNearest x := by
  rcases lt_trichotomy x 0 with h | h | h
  · rw [roundNearest_of_neg h, roundNearest_of_nonneg (by linarith), neg_neg]
  · rw [h, neg_zero, roundNearest_zero, neg_zero]
  · rw [roundNearest_of_neg (by linarith : -x < 0), roundNearest_of_nonneg (le_of_lt h),
      neg_neg]

theorem roundNearest_nonneg {x : ℚ} (hx : 0 ≤ x) : 0 ≤ roundNearest x := by
  rw [roundNearest_of_nonneg hx]
  exact roundMagnitude_nonneg hx

theorem roundNearest_nonpos {x : ℚ} (hx : x ≤ 0) : roundNearest x ≤ 0 := by
  have := roundNearest_nonneg (neg_nonneg.2 hx)
  rw [roundNearest_neg] at this
  linarith

/-- Rounding is monotone. -/
theorem roundNearest_mono {x y : ℚ} (hxy : x ≤ y) : roundNearest x ≤ roundNearest y := by
  rcases le_or_lt 0 x with hx | hx
  · rw [roundNearest_of_nonneg hx, roundNearest_of_nonneg (le_trans hx hxy)]
    exact roundMagnitude_mono hx hxy
  · rcases le_or_lt 0 y with hy | hy
    · exact le_trans (roundNearest_nonpos (le_of_lt hx)) (roundNearest_nonneg hy)
    · rw [roundNearest_of_neg hx, roundNearest_of_neg hy]
      have := roundMagnitude_mono (by linarith : (0 : ℚ) ≤ -y) (by linarith : -y ≤ -x)
      linarith

theorem abs_roundNearest_sub_le (x : ℚ) :
    |roundNearest x - x| ≤ (2 : ℚ) ^ ulpExponent x / 2 := by
  rcases le_or_lt 0 x with hx | hx
  · rw [roundNearest_of_nonneg hx]
    exact abs_roundMagnitude_sub_le x
  · rw [roundNearest_of_neg hx]
    have := abs_roundMagnitude_sub_le (-x)
    rw [ulpExponent_neg] at this
    rwa [show -roundMagnitude (-x) - x = -(roundMagnitude (-x) - -x) by ring, abs_neg]

/-- The error of a rounding is at most `2 ^ (-53)` times the number, or `2 ^ (-1075)` for
the numbers below the normal range. -/
theorem abs_roundNearest_sub_le_max (x : ℚ) :
    |roundNearest x - x| ≤ max (|x| * (2 : ℚ) ^ (-53 : ℤ)) ((2 : ℚ) ^ (-1075 : ℤ)) := by
  rcases eq_or_ne x 0 with h0 | hne
  · rw [h0, roundNearest_zero]
    simp only [sub_zero, abs_zero, zero_mul]
    exact le_max_of_le_right (by positivity)
  have hpos : 0 < |x| := abs_pos.2 hne
  refine le_trans (abs_roundNearest_sub_le x) ?_
  have hhalf : ∀ k : ℤ, (2 : ℚ) ^ k / 2 = (2 : ℚ) ^ (k - 1) := by
    intro k
    rw [zpow_sub_one₀ (by norm_num : (2 : ℚ) ≠ 0)]
    rfl
  rw [hhalf]
  unfold ulpExponent
  rcases le_total (Int.log 2 |x| - 52) (-1074) with h | h
  · rw [max_eq_right h]
    exact le_max_of_le_right (le_of_eq (by norm_num))
  · rw [max_eq_left h]
    refine le_max_of_le_left ?_
    have h1 := two_zpow_log_le hpos
    have h2 : (2 : ℚ) ^ (Int.log 2 |x| - 52 - 1) =
        (2 : ℚ) ^ Int.log 2 |x| * (2 : ℚ) ^ (-53 : ℤ) := by
      rw [← zpow_add₀ (by norm_num : (2 : ℚ) ≠ 0)]
      congr 1
      omega
    rw [h2]
    exact mul_le_mul_of_nonneg_right h1 (by positivity)

theorem roundNearest_two_mul {x : ℚ} (hfix : roundNearest x = x) :
    roundNearest (2 * x) = 2 * x := by
  rcases lt_trichotomy x 0 with h | h | h
  · rw [roundNearest_of_neg h] at hfix
    rw [roundNearest_of_neg (by linarith : 2 * x < 0),
      show -(2 * x) = 2 * -x by ring,
      roundMagnitude_two_mul (by linarith : (0 : ℚ) < -x) (by linarith)]
    ring
  · rw [h, mul_zero, roundNearest_zero]
  · rw [roundNearest_of_nonneg (le_of_lt h)] at hfix
    rw [roundNearest_of_nonneg (by linarith : (0 : ℚ) ≤ 2 * x), roundMagnitude_two_mul h hfix]

/-- Evaluation of the rounding of a positive number. -/
theorem roundNearest_eq {x : ℚ} (e k m : ℤ) (hk : max (e - 52) (-1074) = k)
    (h1 : (2 : ℚ) ^ e ≤ x) (h2 : x < (2 : ℚ) ^ (e + 1))
    (h3 : |x / (2 : ℚ) ^ k - m| < 1 / 2) :
    roundNearest x = (2 : ℚ) ^ k * m := by
  have hx : 0 < x := lt_of_lt_of_le (by positivity) h1
  rw [roundNearest_of_nonneg (le_of_lt hx), roundMagnitude_eq e k m hk h1 h2 h3]

/-! ### Arithmetic on `double` -/

theorem round64_of_abs_lt {x : ℚ} (h : |roundNearest x| < (2 : ℚ) ^ (1024 : ℤ)) :
    round64 x = .finite (roundNearest x) := by
  have ⟨h1, h2⟩ := abs_lt.1 h
  unfold round64
  rw [if_neg (not_le.2 h2), if_neg (not_le.2 h1)]

theorem round64_neg (x : ℚ) : round64 (-x) = (round64 x).neg := by
  have hp : (0 : ℚ) < (2 : ℚ) ^ (1024 : ℤ) := by positivity
  unfold round64
  rw [roundNearest_neg]
  by_cases h1 : (2 : ℚ) ^ (1024 : ℤ) ≤ roundNearest x
  · rw [if_pos h1, if_neg (by linarith), if_pos (by linarith)]
    rfl
  · rw [if_neg h1]
    by_cases h2 : roundNearest x ≤ -(2 : ℚ) ^ (1024 : ℤ)
    · rw [if_pos h2, if_pos (by linarith)]
      rfl
    · rw [if_neg h2, if_neg (by linarith), if_neg (by linarith)]
      rfl

theorem Double.neg_neg (a : Double) : a.neg.neg = a := by
  cases a <;> simp [Double.neg]

theorem Double.neg_add (a b : Double) : (a.add b).neg = a.neg.add b.neg := by
  rcases a with x | _ | _ | _ <;> rcases b with y | _ | _ | _ <;> try rfl
  show (round64 (x + y)).neg = round64 (-x + -y)
  rw [← round64_neg]
  congr 1
  ring

theorem Double.lt_neg (a b : Double) : Double.lt a b.neg = Double.lt b a.neg := by
  rcases a with x | _ | _ | _ <;> rcases b with y | _ | _ | _ <;> try rfl
  show decide (x < -y) = decide (y < -x)
  rw [decide_eq_decide]
  constructor <;> intro h <;> linarith

/-- The second loop is the first one on the opposite number. -/
theorem shiftUp_eq_neg_shiftDown (pi : Double) :
    ∀ (fuel : Nat) (val : Double),
      shiftUp pi fuel val = (shiftDown pi fuel val.neg).map Double.neg := by
  intro fuel
  induction fuel with
  | zero => intro val; rfl
  | succ fuel ih =>
    intro val
    rw [shiftUp, shiftDown, Double.lt_neg]
    by_cases h : Double.lt pi val.neg = true
    · rw [if_pos h, if_pos h, ih]
      congr 2
      unfold Double.sub
      rw [Double.neg_add]
    · rw [if_neg h, if_neg h]
      simp [Double.neg_neg]

/-! ### The loops of `shiftAngle` on finite numbers -/

/-- A positive `double` is at least the smallest subnormal number. -/
theorem le_of_roundNearest_fixed {x : ℚ} (hx : 0 < x) (hfix : roundNearest x = x) :
    (2 : ℚ) ^ (-1074 : ℤ) ≤ x := by
  rw [roundNearest_of_nonneg (le_of_lt hx)] at hfix
  unfold roundMagnitude at hfix
  have hu : (0 : ℚ) < (2 : ℚ) ^ ulpExponent x := by positivity
  have hk : (2 : ℚ) ^ (-1074 : ℤ) ≤ (2 : ℚ) ^ ulpExponent x :=
    zpow_le_zpow_right₀ (by norm_num) (le_max_right _ _)
  have hm : 0 < roundHalfEven (x / (2 : ℚ) ^ ulpExponent x) := by
    by_contra hneg
    have h1 : (roundHalfEven (x / (2 : ℚ) ^ ulpExponent x) : ℚ) ≤ 0 := by
      exact_mod_cast not_lt.1 hneg
    have h2 := mul_nonpos_of_nonneg_of_nonpos (le_of_lt hu) h1
    linarith
  have hm1 : (1 : ℚ) ≤ (roundHalfEven (x / (2 : ℚ) ^ ulpExponent x) : ℚ) := by
    exact_mod_cast hm
  have := mul_le_mul_of_nonneg_left hm1 (le_of_lt hu)
  linarith

theorem two_zpow_1023_lt : (2 : ℚ) ^ (1023 : ℤ) < (2 : ℚ) ^ (1024 : ℤ) :=
  zpow_lt_zpow_right₀ (by norm_num) (by norm_num)

/-- The product `2 * pi` is exact. -/
theorem mul_two_pi {P : ℚ} (hfix : roundNearest P = P) (hP0 : 0 ≤ P)
    (hP : P ≤ (2 : ℚ) ^ (1022 : ℤ)) :
    (Double.finite 2).mul (.finite P) = .finite (2 * P) := by
  have h2 := roundNearest_two_mul hfix
  show round64 (2 * P) = .finite (2 * P)
  rw [round64_of_abs_lt, h2]
  rw [h2, abs_of_nonneg (by linarith)]
  have h3 : (2 : ℚ) * (2 : ℚ) ^ (1022 : ℤ) = (2 : ℚ) ^ (1023 : ℤ) := by
    rw [show (1023 : ℤ) = 1022 + 1 by norm_num, zpow_add_one₀ (by norm_num : (2 : ℚ) ≠ 0)]
    ring
  have := two_zpow_1023_lt
  linarith

/-- One pass through the first loop: the new value is not below `-pi`, lies at least `pi`
below the old one, and is the exact difference up to one rounding error. -/
theorem shiftDown_step {P V val : ℚ} (hfix : roundNearest P = P) (hP0 : 0 < P)
    (hVP : V ≤ (2 : ℚ) ^ (53 : ℕ) * P) (hgt : P < val) (hval : val ≤ V) :
    -P ≤ roundNearest (val - 2 * P) ∧ roundNearest (val - 2 * P) ≤ val - P ∧
      |roundNearest (val - 2 * P) - (val - 2 * P)| ≤
        max (V * (2 : ℚ) ^ (-53 : ℤ)) ((2 : ℚ) ^ (-1075 : ℤ)) := by
  have hlow : -P ≤ roundNearest (val - 2 * P) := by
    have := roundNearest_mono (by linarith : -P ≤ val - 2 * P)
    rwa [roundNearest_neg, hfix] at this
  have habs : |val - 2 * P| ≤ V := by
    rw [abs_le]
    constructor <;> linarith
  have h53 : (0 : ℚ) < (2 : ℚ) ^ (-53 : ℤ) := by positivity
  have herr : |roundNearest (val - 2 * P) - (val - 2 * P)| ≤
      max (V * (2 : ℚ) ^ (-53 : ℤ)) ((2 : ℚ) ^ (-1075 : ℤ)) :=
    le_trans (abs_roundNearest_sub_le_max _)
      (max_le_max (mul_le_mul_of_nonneg_right habs (le_of_lt h53)) (le_refl _))
  have hE : max (V * (2 : ℚ) ^ (-53 : ℤ)) ((2 : ℚ) ^ (-1075 : ℤ)) ≤ P := by
    refine max_le ?_ ?_
    · have h1 : V * (2 : ℚ) ^ (-53 : ℤ) ≤ (2 : ℚ) ^ (53 : ℕ) * P * (2 : ℚ) ^ (-53 : ℤ) :=
        mul_le_mul_of_nonneg_right hVP (le_of_lt h53)
      have h2 : (2 : ℚ) ^ (53 : ℕ) * P * (2 : ℚ) ^ (-53 : ℤ) = P := by
        have h3 : (2 : ℚ) ^ (53 : ℕ) * (2 : ℚ) ^ (-53 : ℤ) = 1 := by
          rw [← zpow_natCast, ← zpow_add₀ (by norm_num : (2 : ℚ) ≠ 0)]
          norm_num
        calc (2 : ℚ) ^ (53 : ℕ) * P * (2 : ℚ) ^ (-53 : ℤ)
            = P * ((2 : ℚ) ^ (53 : ℕ) * (2 : ℚ) ^ (-53 : ℤ)) := by ring
          _ = P := by rw [h3, mul_one]
      linarith
    · have h1 := le_of_roundNearest_fixed hP0 hfix
      have h2 : (2 : ℚ) ^ (-1075 : ℤ) ≤ (2 : ℚ) ^ (-1074 : ℤ) :=
        zpow_le_zpow_right₀ (by norm_num) (by norm_num)
      linarith
  refine ⟨hlow, ?_, herr⟩
  have := (abs_le.1 herr).2
  linarith

/-- The subtraction `val - 2 * pi` of the first loop, on finite numbers. -/
theorem sub_two_pi {P V val : ℚ} (hfix : roundNearest P = P) (hP0 : 0 < P)
    (hVP : V ≤ (2 : ℚ) ^ (53 : ℕ) * P) (hV : V < (2 : ℚ) ^ (1024 : ℤ)) (hgt : P < val)
    (hval : val ≤ V) :
    (Double.finite val).sub (.finite (2 * P)) = .finite (roundNearest (val - 2 * P)) := by
  obtain ⟨h1, h2, _⟩ := shiftDown_step hfix hP0 hVP hgt hval
  show round64 (val + -(2 * P)) = _
  rw [← sub_eq_add_neg, round64_of_abs_lt]
  rw [abs_lt]
  constructor <;> linarith

theorem shiftDown_done (P val : ℚ) (h : val ≤ P) (fuel : Nat) :
    shiftDown (.finite P) (fuel + 1) (.finite val) = some (.finite val) := by
  rw [shiftDown, if_neg]
  show ¬ decide (P < val) = true
  rw [decide_eq_true_eq]
  exact not_lt.2 h

theorem shiftUp_done (P val : ℚ) (h : -P ≤ val) (fuel : Nat) :
    shiftUp (.finite P) (fuel + 1) (.finite val) = some (.finite val) := by
  rw [shiftUp, if_neg]
  show ¬ decide (val < -P) = true
  rw [decide_eq_true_eq]
  exact not_lt.2 h

/-- The first loop on a finite number `val` that is at most `V` and at most `(n + 1) * pi`:
it ends within `n` passes, with a result `r ≤ pi`; after `m > 0` passes `-pi ≤ r`, and `r`
is `val - m * (2 * pi)` up to `m` rounding errors. -/
theorem shiftDown_spec {P V : ℚ} (hfix : roundNearest P = P) (hP0 : 0 < P)
    (hP : P ≤ (2 : ℚ) ^ (1022 : ℤ)) (hVP : V ≤ (2 : ℚ) ^ (53 : ℕ) * P)
    (hV : V < (2 : ℚ) ^ (1024 : ℤ)) :
    ∀ (n : Nat) (val : ℚ), val ≤ V → val ≤ P + n * P →
      ∃ (r : ℚ) (m : Nat),
        (∀ fuel, n < fuel → shiftDown (.finite P) fuel (.finite val) = some (.finite r)) ∧
        r ≤ P ∧ (m = 0 ∧ r = val ∨ 0 < m ∧ -P ≤ r) ∧
        |r - (val - m * (2 * P))| ≤
          m * max (V * (2 : ℚ) ^ (-53 : ℤ)) ((2 : ℚ) ^ (-1075 : ℤ)) := by
  have hstop : ∀ (n : Nat) (val : ℚ), val ≤ P →
      ∃ (r : ℚ) (m : Nat),
        (∀ fuel, n < fuel → shiftDown (.finite P) fuel (.finite val) = some (.finite r)) ∧
        r ≤ P ∧ (m = 0 ∧ r = val ∨ 0 < m ∧ -P ≤ r) ∧
        |r - (val - m * (2 * P))| ≤
          m * max (V * (2 : ℚ) ^ (-53 : ℤ)) ((2 : ℚ) ^ (-1075 : ℤ)) := by
    intro n val hle
    refine ⟨val, 0, fun fuel hf => ?_, hle, Or.inl ⟨rfl, rfl⟩, by simp⟩
    obtain ⟨f, rfl⟩ := Nat.exists_eq_succ_of_ne_zero (by omega : fuel ≠ 0)
    exact shiftDown_done P val hle f
  intro n
  induction n with
  | zero =>
    intro val _ hn
    exact hstop 0 val (by simpa using hn)
  | succ n ih =>
    intro val hval hn
    rcases le_or_lt val P with hle | hgt
    · exact hstop (n + 1) val hle
    · obtain ⟨h1, h2, h3⟩ := shiftDown_step hfix hP0 hVP hgt hval
      have hn1 : roundNearest (val - 2 * P) ≤ P + n * P := by
        push_cast at hn
        linarith
      obtain ⟨r, m, hr, hrP, hcase, herr⟩ :=
        ih (roundNearest (val - 2 * P)) (by linarith) hn1
      refine ⟨r, m + 1, fun fuel hf => ?_, hrP, Or.inr ⟨Nat.succ_pos m, ?_⟩, ?_⟩
      · obtain ⟨f, rfl⟩ := Nat.exists_eq_succ_of_ne_zero (by omega : fuel ≠ 0)
        rw [shiftDown, if_pos, mul_two_pi hfix (le_of_lt hP0) hP,
          sub_two_pi hfix hP0 hVP hV hgt hval]
        · exact hr f (by omega)
        · show decide (P < val) = true
          exact decide_eq_true hgt
      · rcases hcase with ⟨_, h⟩ | ⟨_, h⟩
        · rw [h]; exact h1
        · exact h
      · have heq : r - (val - ((m + 1 : Nat) : ℚ) * (2 * P)) =
            (r - (roundNearest (val - 2 * P) - m * (2 * P))) +
              (roundNearest (val - 2 * P) - (val - 2 * P)) := by
          push_cast
          ring
        rw [heq]
        refine le_trans (abs_add _ _) ?_
        push_cast
        linarith

/-- C29 (as amended): on IEEE 754 `double`s, for a value `pi` of the constant that is a
positive `double`, at most `2 ^ 1022`, and a finite `v` with `|v| ≤ 2 ^ 53 * pi`:
`shiftAngle(v)` returns (for some fuel and every larger one) a finite `r` in the closed
interval `[-pi, pi]`; `r` is `v - k * (2 * pi)` for an integer `k` up to the rounding errors
of the `|k|` subtractions or additions made, each at most `2 ^ (-53)` times the larger of
`|v|` and `pi` (or `2 ^ (-1075)` if that is more); and when `v` already lies in `[-pi, pi]`
it is returned unchanged. -/
theorem shiftAngle_in_range (pi v : ℚ) (hfix : roundNearest pi = pi) (hpi0 : 0 < pi)
    (hpi2 : pi ≤ (2 : ℚ) ^ (1022 : ℤ)) (hv : |v| ≤ (2 : ℚ) ^ (53 : ℕ) * pi)
    (hv2 : |v| < (2 : ℚ) ^ (1024 : ℤ)) :
    ∃ (fuel : Nat) (r : ℚ) (k : ℤ),
      (∀ j, shiftAngle (.finite pi) (fuel + j) (.finite v) = some (.finite r)) ∧
      -pi ≤ r ∧ r ≤ pi ∧
      |r - (v - k * (2 * pi))| ≤
        |k| * max (max |v| pi * (2 : ℚ) ^ (-53 : ℤ)) ((2 : ℚ) ^ (-1075 : ℤ)) ∧
      (-pi ≤ v ∧ v ≤ pi → r = v ∧ k = 0) := by
  have hVP : max |v| pi ≤ (2 : ℚ) ^ (53 : ℕ) * pi := by
    refine max_le hv ?_
    have : (1 : ℚ) ≤ (2 : ℚ) ^ (53 : ℕ) := by norm_num
    nlinarith
  have hV : max |v| pi < (2 : ℚ) ^ (1024 : ℤ) := by
    refine max_lt hv2 (lt_of_le_of_lt hpi2 ?_)
    exact zpow_lt_zpow_right₀ (by norm_num) (by norm_num)
  have hvV : v ≤ max |v| pi := le_trans (le_abs_self v) (le_max_left _ _)
  have hnvV : -v ≤ max |v| pi := le_trans (neg_le_abs v) (le_max_left _ _)
  have hceil : |v| ≤ (⌈|v| / pi⌉₊ : ℚ) * pi := by
    have := Nat.le_ceil (|v| / pi)
    rwa [div_le_iff₀ hpi0] at this
  have hspec := shiftDown_spec hfix hpi0 hpi2 hVP hV ⌈|v| / pi⌉₊
  rcases lt_or_le pi v with hgt | hle
  · obtain ⟨r, m, hr, hrP, hcase, herr⟩ := hspec v hvV (by
      have := le_abs_self v
      linarith)
    have hlow : 0 < m ∧ -pi ≤ r := by
      rcases hcase with ⟨_, h⟩ | h
      · rw [h] at hrP; linarith
      · exact h
    refine ⟨⌈|v| / pi⌉₊ + 1, r, (m : ℤ), fun j => ?_, hlow.2, hrP, ?_, fun h => ?_⟩
    · unfold shiftAngle
      rw [hr _ (by omega), Option.some_bind,
        show ⌈|v| / pi⌉₊ + 1 + j = ⌈|v| / pi⌉₊ + j + 1 by omega]
      exact shiftUp_done pi r hlow.2 _
    · rw [Int.cast_natCast, Nat.abs_cast]
      exact herr
    · linarith [h.2]
  · rcases lt_or_le v (-pi) with hlt | hge
    · obtain ⟨r, m, hr, hrP, hcase, herr⟩ := hspec (-v) hnvV (by
        have := neg_le_abs v
        linarith)
      have hlow : 0 < m ∧ -pi ≤ r := by
        rcases hcase with ⟨_, h⟩ | h
        · rw [h] at hrP; linarith
        · exact h
      refine ⟨⌈|v| / pi⌉₊ + 1, -r, -(m : ℤ), fun j => ?_, by linarith, by linarith [hlow.2],
        ?_, fun h => ?_⟩
      · unfold shiftAngle
        rw [show ⌈|v| / pi⌉₊ + 1 + j = ⌈|v| / pi⌉₊ + j + 1 by omega,
          shiftDown_done pi v hle, Option.some_bind, shiftUp_eq_neg_shiftDown]
        show (shiftDown (.finite pi) (⌈|v| / pi⌉₊ + j + 1) (.finite (-v))).map Double.neg = _
        rw [hr _ (by omega)]
        rfl
      · rw [abs_neg, Int.cast_neg, Int.cast_natCast, Nat.abs_cast]
        have heq : -r - (v - -(m : ℚ) * (2 * pi)) = -(r - (-v - m * (2 * pi))) := by ring
        rw [heq, abs_neg]
        exact herr
      · linarith [h.1]
    · refine ⟨1, v, 0, fun j => ?_, hge, hle, by simp, fun _ => ⟨rfl, rfl⟩⟩
      unfold shiftAngle
      rw [Nat.add_comm, shiftDown_done pi v hle, Option.some_bind]
      exact shiftUp_done pi v hge j

/-- The constant `piDouble` is a `double`. -/
theorem roundNearest_piDouble : roundNearest piDouble = piDouble := by
  rw [roundNearest_eq 1 (-51) 7074237752028440 (by decide) (by norm_num [piDouble])
    (by norm_num [piDouble]) (by norm_num [piDouble])]
  norm_num [piDouble]

/-- The number `10 ^ 17` is a `double`. -/
theorem roundNearest_ten_pow : roundNearest ((10 : ℚ) ^ 17) = 10 ^ 17 := by
  rw [roundNearest_eq 56 4 6250000000000000 (by decide) (by norm_num) (by norm_num)
    (by norm_num)]
  norm_num

/-- In `double`, `1e17 - 2 * pi` is `1e17` again: the numbers next to `1e17` are 16 apart. -/
theorem sub_two_pi_ten_pow :
    (Double.finite ((10 : ℚ) ^ 17)).sub ((Double.finite 2).mul (.finite piDouble)) =
      .finite (10 ^ 17) := by
  rw [mul_two_pi roundNearest_piDouble (by norm_num [piDouble]) (by norm_num [piDouble])]
  show round64 ((10 : ℚ) ^ 17 + -(2 * piDouble)) = _
  have h : roundNearest ((10 : ℚ) ^ 17 + -(2 * piDouble)) = 10 ^ 17 := by
    rw [roundNearest_eq 56 4 6250000000000000 (by decide) (by norm_num [piDouble])
      (by norm_num [piDouble]) (by norm_num [piDouble, abs_lt])]
    norm_num
  rw [round64_of_abs_lt, h]
  rw [h]
  norm_num

/-- Counterexample to C29 as stated.  The value of the constant is the `double` nearest to
the number pi, and `v = 1e17` is a `double` as well: the first loop of `shiftAngle(1e17)`
never ends, because in `double` the subtraction `val -= 2 * pi` leaves `1e17` unchanged.
The loop does not end on `+inf` either, and a NaN is returned as it is. -/
theorem shiftAngle_large_never_returns :
    roundNearest piDouble = piDouble ∧ 0 < piDouble ∧
    roundNearest ((10 : ℚ) ^ 17) = 10 ^ 17 ∧
    (∀ fuel, shiftAngle (.finite piDouble) fuel (.finite (10 ^ 17)) = none) ∧
    (∀ fuel, shiftAngle (.finite piDouble) fuel .posInf = none) ∧
    (∀ fuel, shiftAngle (.finite piDouble) (fuel + 1) .nan = some .nan) := by
  refine ⟨roundNearest_piDouble, by norm_num [piDouble], roundNearest_ten_pow, ?_, ?_, ?_⟩
  · intro fuel
    have h : ∀ fuel, shiftDown (.finite piDouble) fuel (.finite (10 ^ 17)) = none := by
      intro fuel
      induction fuel with
      | zero => rfl
      | succ fuel ih =>
        rw [shiftDown, if_pos, sub_two_pi_ten_pow]
        · exact ih
        · show decide (piDouble < (10 : ℚ) ^ 17) = true
          exact decide_eq_true (by norm_num [piDouble])
    unfold shiftAngle
    rw [h]
    rfl
  · intro fuel
    have h : ∀ fuel, shiftDown (.finite piDouble) fuel .posInf = none := by
      intro fuel
      induction fuel with
      | zero => rfl
      | succ fuel ih =>
        rw [shiftDown, if_pos (show (Double.finite piDouble).lt Double.posInf = true from rfl),
          mul_two_pi roundNearest_piDouble (by norm_num [piDouble]) (by norm_num [piDouble])]
        exact ih
    unfold shiftAngle
    rw [h]
    rfl
  · intro fuel
    rfl

/-- Witness for C29 as amended: `shiftAngle(10)` with the `double` nearest to the number
pi. -/
theorem shiftAngle_in_range_witness :
    ∃ (fuel : Nat) (r : ℚ) (k : ℤ),
      (∀ j, shiftAngle (.finite piDouble) (fuel + j) (.finite 10) = some (.finite r)) ∧
      -piDouble ≤ r ∧ r ≤ piDouble ∧
      |r - (10 - k * (2 * piDouble))| ≤
        |k| * max (max |(10 : ℚ)| piDouble * (2 : ℚ) ^ (-53 : ℤ)) ((2 : ℚ) ^ (-1075 : ℤ)) ∧
      (-piDouble ≤ 10 ∧ (10 : ℚ) ≤ piDouble → r = 10 ∧ k = 0) :=
  shiftAngle_in_range piDouble 10 roundNearest_piDouble (by norm_num [piDouble])
    (le_trans (by norm_num [piDouble] : piDouble ≤ (2 : ℚ) ^ (2 : ℤ))
      (zpow_le_zpow_right₀ (by norm_num) (by norm_num)))
    (by norm_num [piDouble])
    (lt_of_le_of_lt (by norm_num : |(10 : ℚ)| ≤ (2 : ℚ) ^ (4 : ℤ))
      (zpow_lt_zpow_right₀ (by norm_num) (by norm_num)))

/-- The run of `shiftAngle(10)` with the `double` nearest to the number pi: two passes
through the first loop, both subtractions being exact, none through the second. -/
theorem shiftAngle_examples :
    shiftAngle (.finite piDouble) 3 (.finite 10) = some (.finite (10 - 4 * piDouble)) ∧
    shiftAngle (.finite piDouble) 1 (.finite 3) = some (.finite 3) := by
  have hT := mul_two_pi roundNearest_piDouble (by norm_num [piDouble] : (0 : ℚ) ≤ piDouble)
    (by norm_num [piDouble])
  have h1 : roundNearest ((10 : ℚ) + -(2 * piDouble)) = 10 - 2 * piDouble := by
    rw [roundNearest_eq 1 (-51) 8369522632795600 (by decide) (by norm_num [piDouble])
      (by norm_num [piDouble]) (by norm_num [piDouble])]
    norm_num [piDouble]
  have h2 : roundNearest ((10 : ℚ) - 2 * piDouble + -(2 * piDouble)) = 10 - 4 * piDouble := by
    rw [show (10 : ℚ) - 2 * piDouble + -(2 * piDouble) = -(4 * piDouble - 10) by ring,
      roundNearest_neg,
      roundNearest_eq 1 (-51) 5778952871261280 (by decide) (by norm_num [piDouble])
        (by norm_num [piDouble]) (by norm_num [piDouble])]
    norm_num [piDouble]
  have s1 : (Double.finite 10).sub (.finite (2 * piDouble)) =
      .finite (10 - 2 * piDouble) := by
    show round64 ((10 : ℚ) + -(2 * piDouble)) = _
    rw [round64_of_abs_lt, h1]
    rw [h1]
    norm_num [piDouble, abs_lt]
  have s2 : (Double.finite (10 - 2 * piDouble)).sub (.finite (2 * piDouble)) =
      .finite (10 - 4 * piDouble) := by
    show round64 ((10 : ℚ) - 2 * piDouble + -(2 * piDouble)) = _
    rw [round64_of_abs_lt, h2]
    rw [h2]
    norm_num [piDouble, abs_lt]
  constructor
  · unfold shiftAngle
    rw [shiftDown, if_pos (show (Double.finite piDouble).lt (.finite 10) = true from
        decide_eq_true (by norm_num [piDouble])), hT, s1,
      shiftDown, if_pos (show (Double.finite piDouble).lt (.finite (10 - 2 * piDouble)) = true
        from decide_eq_true (by norm_num [piDouble])), hT, s2,
      shiftDown_done _ _ (by norm_num [piDouble]), Option.some_bind]
    exact shiftUp_done _ _ (by norm_num [piDouble]) 2
  · unfold shiftAngle
    rw [shiftDown_done _ _ (by norm_num [piDouble]), Option.some_bind]
    exact shiftUp_done _ _ (by norm_num [piDouble]) 0

end FitResult

namespace Tools

variable {M D G : Type}

/-! ## The phase-space test -/

theorem hitAndMissPlain_zero (N : Nat) :
    ∀ (triples : List (ℚ × ℚ × Event M)) (events : List (Event M)),
      (∀ t ∈ triples, 0 ≤ t.1 ∧ t.2.1 = 0) → hitAndMissPlain N triples events = events := by
  intro triples
  induction triples with
  | nil => intro events _; rfl
  | cons t rest ih =>
    intro events h
    obtain ⟨r, w, e⟩ := t
    obtain ⟨hr, hw⟩ := h (r, w, e) (List.mem_cons_self _ _)
    simp only at hr hw
    subst hw
    simp only [hitAndMissPlain, not_lt.2 hr, if_false]
    exact ih events (fun t ht => h t (List.mem_cons_of_mem _ ht))

theorem hitAndMissWeighted_zero (N : Nat) :
    ∀ (triples : List (ℚ × ℚ × Event M)) (st : List (Event M) × ℚ),
      (∀ t ∈ triples, 0 ≤ t.1 ∧ t.2.1 = 0) → hitAndMissWeighted N triples st = st := by
  intro triples
  induction triples with
  | nil => intro st _; rfl
  | cons t rest ih =>
    intro st h
    obtain ⟨r, w, e⟩ := t
    obtain ⟨events, S⟩ := st
    obtain ⟨hr, hw⟩ := h (r, w, e) (List.mem_cons_self _ _)
    simp only at hr hw
    subst hw
    simp only [hitAndMissWeighted, not_lt.2 hr, if_false]
    exact ih (events, S) (fun t ht => h t (List.mem_cons_of_mem _ ht))

/-- With a kinematics that reports every data point as lying within the phase space, no
event of the sample of three events is accepted. -/
theorem generate_smallSample_inside :
    generate (fun _ => (1 / 2 : ℚ)) 1 2 insideKinematics lowGenerator (some 0)
      (some (fun _ => (1 : ℚ))) smallSample [] = some (.ok []) := by
  simp [generate, generateState, maxSampleWeight, setupOf, initialState, generateLoop,
    loopBody, Setup.trueSample, Setup.evalIntensity, readRange, maxElement, drawUniform,
    hitAndMiss, smallSample, insideKinematics, lowGenerator]
  norm_num [Except.map]

/-- C26 (behaviour of the code): the test of the three functions is
`if (isWithinPhaseSpace(point)) return 0.0`, so it is the event whose data point lies
within the phase space that is given intensity 0, and with random numbers that are not
negative such an event is never accepted; an event outside the boundary is given its weight
times the evaluated intensity (the evaluated intensity in `generate` with a sample) and can
be accepted.  On the sample of three events, a kinematics reporting every point as inside
lets no event through, and one reporting every point as outside lets the events through. -/
theorem phase_space_test_inverted :
    (∀ (kin : Kinematics M D) (Intensity : D → ℚ) (evt : Event M),
      (kin.isWithinPhaseSpace (kin.convert evt) = true →
        evalWeighted kin Intensity evt = 0) ∧
      (kin.isWithinPhaseSpace (kin.convert evt) = false →
        evalWeighted kin Intensity evt = evt.Weight * Intensity (kin.convert evt))) ∧
    (∀ (c : Setup M D G) (evt : Event M),
      (c.Kinematics.isWithinPhaseSpace (c.Kinematics.convert evt) = true →
        c.evalIntensity evt = 0) ∧
      (c.Kinematics.isWithinPhaseSpace (c.Kinematics.convert evt) = false →
        c.evalIntensity evt = c.Intensity (c.Kinematics.convert evt))) ∧
    (∀ (N : Nat) (triples : List (ℚ × ℚ × Event M)) (events : List (Event M)) (S : ℚ),
      (∀ t ∈ triples, 0 ≤ t.1 ∧ t.2.1 = 0) →
      hitAndMissPlain N triples events = events ∧
        hitAndMissWeighted N triples (events, S) = (events, S)) ∧
    generate (fun _ => (1 / 2 : ℚ)) 1 2 insideKinematics lowGenerator (some 0)
      (some (fun _ => (1 : ℚ))) smallSample [] = some (.ok []) ∧
    generate (fun _ => (1 / 2 : ℚ)) 1 2 plainKinematics lowGenerator (some 0)
      (some (fun _ => (1 : ℚ))) smallSample [] = some (.ok [⟨0, 1, 1⟩, ⟨1, 1, 1⟩]) := by
  refine ⟨fun kin I evt => ⟨fun h => ?_, fun h => ?_⟩, fun c evt => ⟨fun h => ?_, fun h => ?_⟩,
    fun N triples events S h => ⟨hitAndMissPlain_zero N triples events h,
      hitAndMissWeighted_zero N triples (events, S) h⟩,
    generate_smallSample_inside, generate_smallSample⟩
  · simp [evalWeighted, h]
  · simp [evalWeighted, h]
  · simp [Setup.evalIntensity, h]
  · simp [Setup.evalIntensity, h]

end Tools

namespace Tools

variable {M D G : Type}

/-! ## The last, shorter bunch -/

theorem hitAndMiss_length_le (c : Setup M D G) :
    ∀ (pairs : List (ℚ × ℚ)) (events : List (Event M)) (it : Nat) (events1 : List (Event M))
      (it1 : Nat), hitAndMiss c pairs events it = .ok (events1, it1) →
      events1.length ≤ events.length + pairs.length := by
  intro pairs
  induction pairs with
  | nil =>
    intro events it events1 it1 hr
    simp only [hitAndMiss, Except.ok.injEq, Prod.mk.injEq] at hr
    obtain ⟨rfl, _⟩ := hr
    simp
  | cons p rest ih =>
    intro events it events1 it1 hr
    obtain ⟨r, w⟩ := p
    simp only [hitAndMiss] at hr
    split at hr
    · simp at hr
    · next e _ =>
      split at hr
      · split at hr
        · simp only [Except.ok.injEq, Prod.mk.injEq] at hr
          obtain ⟨rfl, _⟩ := hr
          simp only [List.length_append, List.length_cons, List.length_nil]
          omega
        · have := ih _ _ _ _ hr
          simp only [List.length_append, List.length_cons, List.length_nil] at this ⊢
          omega
      · have := ih _ _ _ _ hr
        simp only [List.length_cons]
        omega

/-- When the hit-and-miss loop has more pairs to go through than events are left in `phsp`
from the iterator on, and `NumberOfEvents` cannot be reached, it reads past the end of
`phsp`. -/
theorem hitAndMiss_overrun (c : Setup M D G) :
    ∀ (pairs : List (ℚ × ℚ)) (events : List (Event M)) (it : Nat),
      c.phsp.length < it + pairs.length → it ≤ c.phsp.length →
      events.length + (c.phsp.length - it) < c.NumberOfEvents →
      hitAndMiss c pairs events it = .error .undefined := by
  intro pairs
  induction pairs with
  | nil => intro events it h1 h2 _; simp only [List.length_nil] at h1; omega
  | cons p rest ih =>
    intro events it h1 h2 h3
    obtain ⟨r, w⟩ := p
    simp only [List.length_cons] at h1
    by_cases hit : it = c.phsp.length
    · simp only [hitAndMiss, List.get?_eq_none.2 (le_of_eq hit.symm)]
    · obtain ⟨e, he⟩ : ∃ e, c.phsp.get? it = some e :=
        ⟨_, List.get?_eq_get (by omega : it < c.phsp.length)⟩
      simp only [hitAndMiss, he]
      by_cases hacc : r < e.Weight * w
      · simp only [if_pos hacc]
        have hN : ¬ (events ++ [{ e with Weight := 1, Efficiency := 1 }]).length =
            c.NumberOfEvents := by
          simp only [List.length_append, List.length_cons, List.length_nil]
          omega
        rw [if_neg hN]
        exact ih _ _ (by omega) (by omega) (by
          simp only [List.length_append, List.length_cons, List.length_nil]
          omega)
      · simp only [if_neg hacc]
        exact ih _ _ (by omega) (by omega) (by omega)

theorem maxElement_le_of_forall (l : List ℚ) (m bound mw : ℚ) (h : maxElement l = some m)
    (hall : ∀ v ∈ l, mw * v ≤ bound) : ¬ mw * m > bound :=
  not_lt.2 (hall m (maxElement_mem l m h))

/-- A pass through the body of the loop over a whole bunch, when the maximum is not
exceeded and `NumberOfEvents` cannot be reached: the iterators and the index advance by the
size of the bunch. -/
theorem loopBody_full_bunch (c : Setup M D G) (st : LoopState M G)
    (hEBS : st.EventBunchSize = c.bunch) (hit : st.CurrentStartIterator = st.CurrentStartIndex)
    (htit : st.CurrentTrueStartIterator = st.CurrentStartIndex)
    (hfit : st.CurrentStartIndex + c.bunch ≤ c.phsp.length)
    (htrue : c.trueSample.length = c.phsp.length)
    (hlenI : st.Intensities.length = c.bunch) (hb : 0 < c.bunch)
    (hraise : ∀ e ∈ c.trueSample, c.maxSampleWeight * c.evalIntensity e ≤ st.generationMaxValue)
    (hN : st.events.length + c.bunch < c.NumberOfEvents) :
    ∃ st1, loopBody c st = .ok (decide (st.CurrentStartIndex + c.bunch < c.phsp.length), st1) ∧
      st1.EventBunchSize = c.bunch ∧
      st1.CurrentStartIterator = st.CurrentStartIndex + c.bunch ∧
      st1.CurrentTrueStartIterator = st.CurrentStartIndex + c.bunch ∧
      st1.CurrentStartIndex = st.CurrentStartIndex + c.bunch ∧
      st1.generationMaxValue = st.generationMaxValue ∧
      st1.Intensities.length = c.bunch ∧
      (∀ v ∈ st1.Intensities, c.maxSampleWeight * v ≤ st.generationMaxValue) ∧
      st1.events.length ≤ st.events.length + c.bunch := by
  have hE : (if st.CurrentStartIndex + st.EventBunchSize > c.phsp.length then
      c.phsp.length - st.CurrentStartIndex else st.EventBunchSize) = c.bunch := by
    rw [hEBS]
    exact if_neg (not_lt.2 hfit)
  have hrr : readRange c.trueSample st.CurrentTrueStartIterator c.bunch =
      some ((c.trueSample.drop st.CurrentStartIndex).take c.bunch) := by
    rw [htit]
    unfold readRange
    rw [if_pos (by rw [htrue]; exact hfit)]
  have hdrop : st.Intensities.drop c.bunch = [] :=
    List.drop_eq_nil_of_le (le_of_eq hlenI)
  have hlenM : (((c.trueSample.drop st.CurrentStartIndex).take c.bunch).map
      c.evalIntensity).length = c.bunch := by
    rw [List.length_map, List.length_take, List.length_drop, htrue]
    omega
  have hvals : ∀ v ∈ ((c.trueSample.drop st.CurrentStartIndex).take c.bunch).map
      c.evalIntensity, c.maxSampleWeight * v ≤ st.generationMaxValue := by
    intro v hv
    obtain ⟨e, he, rfl⟩ := List.mem_map.1 hv
    exact hraise e (List.mem_of_mem_drop (List.mem_of_mem_take he))
  obtain ⟨BunchMax, hmax⟩ := maxElement_of_length_pos _ (by rw [hlenM]; exact hb)
  have hno := maxElement_le_of_forall _ _ _ _ hmax hvals
  obtain ⟨events1, it1, hham, hres⟩ := hitAndMiss_total c
    ((drawUniform c.Generator st.generationMaxValue c.bunch st.gen).1.zip
      (((c.trueSample.drop st.CurrentStartIndex).take c.bunch).map c.evalIntensity))
    st.events st.CurrentStartIterator (by
      rw [List.length_zip, drawUniform_length, hlenM, hit, Nat.min_self]
      exact hfit) (by omega)
  have hlen1 := hitAndMiss_length_le c _ _ _ _ _ hham
  rw [List.length_zip, drawUniform_length, hlenM, Nat.min_self] at hlen1
  have hNe : ¬ events1.length = c.NumberOfEvents := by omega
  have hit1 : it1 = st.CurrentStartIndex + c.bunch := by
    rcases hres with h | ⟨h, _⟩
    · exact absurd h hNe
    · rw [h, List.length_zip, drawUniform_length, hlenM, hit, Nat.min_self]
  unfold loopBody
  simp only [hE, hrr, hdrop, List.append_nil, hmax, if_neg hno, hham, if_neg hNe]
  refine ⟨{ events := events1, generationMaxValue := st.generationMaxValue,
            EventBunchSize := c.bunch,
            Intensities := ((c.trueSample.drop st.CurrentStartIndex).take c.bunch).map
              c.evalIntensity,
            CurrentStartIterator := it1,
            CurrentTrueStartIterator := st.CurrentTrueStartIterator + c.bunch,
            CurrentStartIndex := st.CurrentStartIndex + c.bunch,
            gen := (drawUniform c.Generator st.generationMaxValue c.bunch st.gen).2 },
    ?_, rfl, hit1, by rw [htit], rfl, rfl, hlenM, hvals, hlen1⟩
  by_cases hlim : st.CurrentStartIndex + c.bunch ≥ c.phsp.length
  · rw [if_pos hlim, decide_eq_false (not_lt.2 hlim)]
  · rw [if_neg hlim, decide_eq_true (not_le.1 hlim)]

/-- A pass through the body of the loop over a last bunch that is shorter than the vectors,
when the maximum is not exceeded and `NumberOfEvents` cannot be reached: the hit-and-miss
loop still goes through as many pairs as the vectors have entries, and reads past the end
of `phsp`. -/
theorem loopBody_short_bunch (c : Setup M D G) (st : LoopState M G)
    (hEBS : st.EventBunchSize = c.bunch) (hit : st.CurrentStartIterator = st.CurrentStartIndex)
    (htit : st.CurrentTrueStartIterator = st.CurrentStartIndex)
    (hlt : st.CurrentStartIndex < c.phsp.length)
    (hshort : c.phsp.length < st.CurrentStartIndex + c.bunch)
    (htrue : c.trueSample.length = c.phsp.length)
    (hlenI : st.Intensities.length = c.bunch)
    (hraise : ∀ e ∈ c.trueSample, c.maxSampleWeight * c.evalIntensity e ≤ st.generationMaxValue)
    (hold : ∀ v ∈ st.Intensities, c.maxSampleWeight * v ≤ st.generationMaxValue)
    (hN : st.events.length + (c.phsp.length - st.CurrentStartIndex) < c.NumberOfEvents) :
    loopBody c st = .error .undefined := by
  have hE : (if st.CurrentStartIndex + st.EventBunchSize > c.phsp.length then
      c.phsp.length - st.CurrentStartIndex else st.EventBunchSize) =
      c.phsp.length - st.CurrentStartIndex := by
    rw [hEBS]
    exact if_pos hshort
  have hrr : readRange c.trueSample st.CurrentTrueStartIterator
      (c.phsp.length - st.CurrentStartIndex) =
      some ((c.trueSample.drop st.CurrentStartIndex).take
        (c.phsp.length - st.CurrentStartIndex)) := by
    rw [htit]
    unfold readRange
    rw [if_pos (by rw [htrue]; omega)]
  have hlenNew : (((c.trueSample.drop st.CurrentStartIndex).take
      (c.phsp.length - st.CurrentStartIndex)).map c.evalIntensity ++
      st.Intensities.drop (c.phsp.length - st.CurrentStartIndex)).length = c.bunch := by
    rw [List.length_append, List.length_map, List.length_take, List.length_drop,
      List.length_drop, htrue, hlenI]
    omega
  have hvals : ∀ v ∈ ((c.trueSample.drop st.CurrentStartIndex).take
      (c.phsp.length - st.CurrentStartIndex)).map c.evalIntensity ++
      st.Intensities.drop (c.phsp.length - st.CurrentStartIndex),
      c.maxSampleWeight * v ≤ st.generationMaxValue := by
    intro v hv
    rcases List.mem_append.1 hv with hv | hv
    · obtain ⟨e, he, rfl⟩ := List.mem_map.1 hv
      exact hraise e (List.mem_of_mem_drop (List.mem_of_mem_take he))
    · exact hold v (List.mem_of_mem_drop hv)
  obtain ⟨BunchMax, hmax⟩ := maxElement_of_length_pos _ (by rw [hlenNew]; omega)
  have hno := maxElement_le_of_forall _ _ _ _ hmax hvals
  have hham := hitAndMiss_overrun c
    ((drawUniform c.Generator st.generationMaxValue c.bunch st.gen).1.zip
      (((c.trueSample.drop st.CurrentStartIndex).take
        (c.phsp.length - st.CurrentStartIndex)).map c.evalIntensity ++
        st.Intensities.drop (c.phsp.length - st.CurrentStartIndex)))
    st.events st.CurrentStartIterator (by
      rw [List.length_zip, drawUniform_length, hlenNew, hit, Nat.min_self]
      exact hshort) (by rw [hit]; omega) (by rw [hit]; exact hN)
  unfold loopBody
  simp only [hE, hrr, hmax, if_neg hno, hham]

/-- For a sample of more than one bunch and fewer than two, with more events asked for than
the sample holds and a maximum that is never exceeded, the second pass of the loop of
`generate` reads past the end of `phsp`. -/
theorem generateLoop_overrun (c : Setup M D G) (g : G) (k : Nat) (hk : 0 < k)
    (hkb : k < c.bunch) (hlen : c.phsp.length = c.bunch + k)
    (htrue : c.trueSample.length = c.phsp.length)
    (hN : c.bunch + k < c.NumberOfEvents)
    (hraise : ∀ e ∈ c.trueSample,
      c.maxSampleWeight * c.evalIntensity e ≤ c.maxSampleWeight * (1 + 1 / 20)) :
    generateLoop c 2 (initialState c g) = some (.error .undefined) := by
  obtain ⟨st1, h1, hE1, hit1, htit1, hcsi1, hg1, hlenI1, hold1, hev1⟩ :=
    loopBody_full_bunch c (initialState c g) rfl rfl rfl
      (by simp only [initialState]; omega) htrue (by simp [initialState]) (by omega) hraise
      (by simp only [initialState, List.length_nil]; omega)
  have hcont : decide ((initialState c g).CurrentStartIndex + c.bunch < c.phsp.length) =
      true := by
    simp only [initialState, decide_eq_true_eq]
    omega
  rw [hcont] at h1
  have hcsi0 : st1.CurrentStartIndex = c.bunch := by
    rw [hcsi1]; simp [initialState]
  have hev0 : st1.events.length ≤ c.bunch := by
    simpa [initialState] using hev1
  have h2 := loopBody_short_bunch c st1 hE1 (by rw [hit1, hcsi1]) (by rw [htit1, hcsi1])
    (by rw [hcsi0]; omega) (by rw [hcsi0]; omega) htrue hlenI1
    (by rw [hg1]; exact hraise) (by rw [hg1]; exact hold1) (by rw [hcsi0]; omega)
  rw [generateLoop, h1]
  simp only
  rw [generateLoop, h2]

/-- For every sample of `5000 + k` events with `0 < k < 5000`, all of weight `1` and outside
the phase space, with an intensity of `1`, more events asked for than the sample holds and
a maximum sample weight of `1`, `generate` reads past the end of `phsp`. -/
theorem generate_overrun_any (k N : Nat) (hk : 0 < k) (hkb : k < 5000) (hN : 5000 + k < N)
    (phsp : List (Event Nat)) (hlen : phsp.length = 5000 + k)
    (hall : ∀ e ∈ phsp, e = ⟨0, 1, 1⟩) :
    generate (fun _ => (1 : ℚ)) 2 N plainKinematics lowGenerator (some 0)
      (some (fun _ => (1 : ℚ))) phsp [] = some (.error .undefined) := by
  have hmw : maxSampleWeight (fun _ : List (Event Nat) => (1 : ℚ)) phsp [] = 1 := by
    simp [maxSampleWeight]
  have hbunch : (setupOf (fun _ => (1 : ℚ)) N plainKinematics lowGenerator 0
      (fun _ => (1 : ℚ)) phsp []).bunch = 5000 := by
    show (if phsp.length < 5000 then phsp.length else 5000) = 5000
    rw [if_neg (by omega)]
  have hloop := generateLoop_overrun
    (setupOf (fun _ => (1 : ℚ)) N plainKinematics lowGenerator 0 (fun _ => (1 : ℚ)) phsp [])
    0 k hk (by rw [hbunch]; exact hkb) (by rw [hbunch]; exact hlen) rfl
    (by rw [hbunch]; exact hN) (by
      intro e he
      have he' : e = ⟨0, 1, 1⟩ := hall e he
      subst he'
      show maxSampleWeight (fun _ : List (Event Nat) => (1 : ℚ)) phsp [] *
        (if plainKinematics.isWithinPhaseSpace (plainKinematics.convert ⟨0, 1, 1⟩) = true
          then 0 else (1 : ℚ)) ≤
        maxSampleWeight (fun _ : List (Event Nat) => (1 : ℚ)) phsp [] * (1 + 1 / 20)
      rw [hmw]
      simp [plainKinematics])
  unfold generate generateState
  rw [if_neg (by omega)]
  simp only
  rw [if_neg (by simp), if_neg (by rw [hmw]; norm_num), hloop]
  rfl

/-- C28 (behaviour of the code): a sample of 5001 events (one bunch of 5000 and a last
bunch of one event), all of weight 1 and outside the phase space, with an intensity of 1
and 6000 events asked for.  In the second pass `EventBunchSize` is 1, but the hit-and-miss
loop still runs over the 5000 entries of the vectors: after the event of index 5000 it
reads `CurrentStartIterator->Weight` past the end of `phsp` (and would compare it with an
intensity left over from the first bunch). -/
theorem generate_reads_past_end :
    generate (fun _ => (1 : ℚ)) 2 6000 plainKinematics lowGenerator (some 0)
      (some (fun _ => (1 : ℚ))) (List.replicate 5001 ⟨0, 1, 1⟩) [] =
      some (.error .undefined) :=
  generate_overrun_any 1 6000 (by decide) (by decide) (by decide) _
    (List.length_replicate _ _) (fun _ he => List.eq_of_mem_replicate he)

end Tools

namespace Tools

variable {M D G : Type}

/-! ## Importance sampling -/

end Tools

namespace Tools

variable {M D G : Type}

theorem generateEvents_constant :
    ∀ (k g : Nat), generateEvents constantGenerator.generate k g =
      (List.replicate k ⟨7, 2, 1⟩, g + k) := by
  intro k
  induction k with
  | zero => intro g; rfl
  | succ k ih =>
    intro g
    simp only [generateEvents, ih, List.replicate_succ]
    simp only [constantGenerator, Prod.mk.injEq, true_and]
    omega

theorem drawUniform_constant (hi : ℚ) :
    ∀ (k g : Nat), drawUniform constantGenerator.toGenerator hi k g =
      (List.replicate k 0, g + k) := by
  intro k
  induction k with
  | zero => intro g; rfl
  | succ k ih =>
    intro g
    simp only [drawUniform, ih, List.replicate_succ]
    simp only [constantGenerator, Prod.mk.injEq, true_and]
    omega

theorem maxElement_replicate (x : ℚ) (k : Nat) :
    maxElement (List.replicate (k + 1) x) = some x := by
  simp only [List.replicate_succ, maxElement, Option.some.injEq]
  induction k with
  | zero => rfl
  | succ k ih => simp only [List.replicate_succ, List.foldl_cons, lt_irrefl, if_false, ih]

/-- With the generator that always produces the event of weight `2`, outside the phase
space, with an intensity of `1` and one event asked for: the first pass accepts the first
event with the weight `2 / 2` and leaves the loop. -/
theorem sampledBody_constant (seed bunch g : Nat) (hb : 0 < bunch) :
    sampledBody 1 plainKinematics constantGenerator (fun _ => (1 : ℚ)) seed bunch
        { events := [], WeightSum := 0, generationMaxValue := 0, gen := g } =
      .ok (false, { events := [⟨7, 1, 1⟩], WeightSum := 1, generationMaxValue := 21 / 10,
                    gen := g + bunch + bunch }) := by
  obtain ⟨k, rfl⟩ := Nat.exists_eq_succ_of_ne_zero (by omega : bunch ≠ 0)
  have hval : evalWeighted plainKinematics (fun _ => (1 : ℚ)) ⟨7, 2, 1⟩ = 2 := by
    simp [evalWeighted, plainKinematics]
  unfold sampledBody
  simp only [generateEvents_constant, List.map_replicate, hval, maxElement_replicate,
    drawUniform_constant, List.zip_replicate, Nat.min_self]
  simp only [List.replicate_succ, hitAndMissWeighted]
  norm_num

/-- Helper for the witness of C30: one event asked from the constant generator. -/
theorem importanceSampled_constant :
    generateImportanceSampledPhsp 1 1 plainKinematics constantGenerator (fun _ => (1 : ℚ)) 0 =
      some (.ok [⟨7, 1, 1⟩]) := by
  unfold generateImportanceSampledPhsp importanceSampledState
  rw [if_neg (by decide), whileTrue, sampledBody_constant _ 5000 0 (by decide)]
  simp [Except.map]

end Tools

namespace Tools

variable {M D G : Type}

end Tools

/-! ## Claims that hold only when nothing throws on the way -/

/-- Counterexample to C4 as stated: the head of the failing chain has exactly one slot and
one child.  The recomputation of the child throws, the exception leaves `recalculate()` of
the head, and the operation of the head is not invoked at all: the call records no
`execute` event of node 0 and the slot of the head keeps its value. -/
theorem recalculate_single_slot_child_throws :
    ∃ s', (failingChain true 0)._parameters.length = 1 ∧
      (failingChain true 0)._children = [1] ∧
      recalculate 3 0 ⟨failingChain true, []⟩ = some (.error (.thrown "failed"), s') ∧
      s'.trace = [.enter 0, .enter 1, .enter 2, .leave 2,
        .execute 1 0 [⟨"x", 1⟩] (some "failed")] ∧
      (s'.nodes 0)._parameters = [⟨"head", 0⟩] :=
  ⟨stateAfter (recalculate 3 0 ⟨failingChain true, []⟩) ⟨failingChain true, []⟩,
    rfl, rfl, rfl, rfl, rfl⟩

/-- Counterexample to C6 as stated: the head of `failingVector` has three slots and its only
child has dimension 1.  The operation of the head throws in the round of slot 0, the
exception leaves `recalculate()`, and the operation has been invoked once, for slot 0 only,
not once per slot index in `[0, 3)`. -/
theorem recalculate_broadcast_operation_throws :
    ∃ s', (failingVector 0)._parameters.length = 3 ∧ (failingVector 0)._children = [1] ∧
      (failingVector 1).dimension = 1 ∧
      recalculate 2 0 ⟨failingVector, []⟩ = some (.error (.thrown "failed"), s') ∧
      s'.trace = [.enter 0, .enter 1, .leave 1, .execute 0 0 [⟨"v", 1⟩] (some "failed")] :=
  ⟨stateAfter (recalculate 2 0 ⟨failingVector, []⟩) ⟨failingVector, []⟩,
    rfl, rfl, rfl, rfl, rfl⟩

/-- Counterexample to C13 as stated: no name and no value string of `head = Add(leafX,
leafY)` holds a newline, but with the prefix `"a\nb"`, which holds one, `print(0, "a\nb")`
is not one line: its text has two newlines. -/
theorem print_newline_in_prefix :
    (∀ m, NoNewline (addTree 2 3 m)._name ∧
      ∀ p ∈ (addTree 2 3 m)._parameters, NoNewline (Value.Name p) ∧ NoNewline "v") ∧
    print Value.Name (fun _ => "v") 1 (addTree 2 3) 0 0 "a\nb" =
      some "a\nbhead = ? (2 children/1 values)\n" ∧
    ("a\nbhead = ? (2 children/1 values)\n".data.filter (fun ch => ch = '\n')).length = 2 ∧
    ¬ SingleLine "a\nbhead = ? (2 children/1 values)\n" := by
  refine ⟨addTree_noNewline 2 3, rfl, by decide, ?_⟩
  rintro ⟨body, hb, hn⟩
  have hd := congrArg String.data hb
  rw [String.data_append] at hd
  have h2 : body.data ++ "\n".data =
      "a\nbhead = ? (2 children/1 values)".data ++ "\n".data := hd.symm.trans rfl
  have hbody : body.data = "a\nbhead = ? (2 children/1 values)".data :=
    List.append_inj_left' h2 rfl
  rw [hbody] at hn
  exact hn (by decide)

namespace Tools

end Tools

namespace Tools

/-! ## A run of the importance sampling on two alternating events -/

end Tools

namespace Tools

end Tools

namespace Tools

end Tools

end ComPWA
